import Mathlib

/-!
# nep_data_toolkit: header normalisation, frame reader/writer, accuracy split and
descriptor-space subsampling

A shallow embedding of `tools/for_coding/for_perioidc_table/nep_data_toolkit.cpp`.

Conventions of the embedding:
* `std::string` is `List Char`; a text file is the `List Char` of its content;
* a `double` that the program computes with or prints is an exact rational `ℚ` (binary
  rounding is not modelled); the conversion `std::stod` gives a `Double`, which is a rational,
  an infinity or a NaN, and the configuration weight, which is only stored and range-tested,
  is kept as such; where a conversion gives an infinity or a NaN for another member the model
  stops with `Fatal.not_finite`, which is no exit of the program;
* an `int` that the program adds up wraps around to 32 bits;
* `exit(1)`, an uncaught `std::out_of_range` and an out-of-bounds subscript are an `Except` error;
* output streams are the values appended to them; a stream of numbers that is read with
  `>>` is the `List ℚ` of its numbers.
-/

namespace NepDataToolkit

/-! ## Data model -/

/-- The values that `std::stod` can give: a number, an infinity or a NaN, the last two with
their sign. -/
inductive Double where
  | finite (v : ℚ)
  | infinite (negative : Bool)
  | nan (negative : Bool)
deriving DecidableEq

instance (n : Nat) : OfNat Double n := ⟨.finite n⟩

instance : Inhabited Double := ⟨.finite 0⟩

/-- The record `struct Structure`.  Members the source leaves uninitialised start at zero. -/
structure Structure where
  num_atom : Int := 0
  sid : List Char := []
  has_sid : Bool := false
  has_virial : Bool := false
  has_stress : Bool := false
  energy_weight : ℚ := 1
  energy : ℚ := 0
  weight : Double := 0
  virial : List ℚ := List.replicate 9 0
  stress : List ℚ := List.replicate 9 0
  box : List ℚ := List.replicate 9 0
  atom_symbol : List (List Char) := []
  x : List ℚ := []
  y : List ℚ := []
  z : List ℚ := []
  fx : List ℚ := []
  fy : List ℚ := []
  fz : List ℚ := []
  q : List ℚ := []
deriving DecidableEq

instance : Inhabited Structure := ⟨{}⟩

/-! ## Descriptor-space subsampling (`fps`) -/

/-- The call `structures[nc].q.resize(dim)`: keep the first `dim` entries, pad with zeros. -/
def resize (q : List ℚ) (dim : Nat) : List ℚ :=
  q.take dim ++ List.replicate (dim - q.length) 0

/-- The loop `for (d = 0; d < dim; ++d) input_descriptor >> q[d]` over the resized vector.
The stream is the list of numbers still to be extracted; once it is exhausted an extraction
leaves its target as it is.  Returns the filled vector and the rest of the stream. -/
def read_descriptor : List ℚ → List ℚ → List ℚ × List ℚ
  | [], input => ([], input)
  | q0 :: q, [] => (q0 :: q, [])
  | _ :: q, v :: input => (v :: (read_descriptor q input).1, (read_descriptor q input).2)

/-- The innermost loop of `fps`: `distance_square += temp * temp` for `d = 0 .. dim-1`
with `temp = a[d] - b[d]`. -/
def distance_square (dim : Nat) (a b : List ℚ) : ℚ :=
  (List.range dim).foldl
    (fun acc d => acc + (a.getD d 0 - b.getD d 0) * (a.getD d 0 - b.getD d 0)) 0

/-- The loop over `structures_selected` in `fps` computing `to_be_selected`: it stops with
`false` at the first selected frame closer than `distance_square_min`. -/
def to_be_selected (distance_square_min : ℚ) (dim : Nat) (s : Structure) :
    List Structure → Bool
  | [] => true
  | m :: rest =>
    if distance_square dim s.q m.q < distance_square_min then false
    else to_be_selected distance_square_min dim s rest

/-- The variables of `fps`.  `structures` is the processed prefix of the dataset (with the
descriptors filled in); `selected_xyz` and `not_selected_xyz` are the frames handed to
`write_one_structure` for the two `.xyz` files; the two index lists are the lines of
`indices_selected.txt` and `indices_not_selected.txt`. -/
structure FpsState where
  structures : List Structure := []
  input_descriptor : List ℚ := []
  structures_selected : List Structure := []
  selected_xyz : List Structure := []
  not_selected_xyz : List Structure := []
  indices_selected : List Nat := []
  indices_not_selected : List Nat := []
  num1 : Nat := 0
  num2 : Nat := 0

/-- The branch of `fps` that selects frame `nc`. -/
def fps_select (st : FpsState) (nc : Nat) (s : Structure) (input : List ℚ) : FpsState :=
  { st with
    structures := st.structures ++ [s]
    input_descriptor := input
    structures_selected := st.structures_selected ++ [s]
    selected_xyz := st.selected_xyz ++ [s]
    indices_selected := st.indices_selected ++ [nc]
    num1 := st.num1 + 1 }

/-- The branch of `fps` that rejects frame `nc`. -/
def fps_reject (st : FpsState) (nc : Nat) (s : Structure) (input : List ℚ) : FpsState :=
  { st with
    structures := st.structures ++ [s]
    input_descriptor := input
    not_selected_xyz := st.not_selected_xyz ++ [s]
    indices_not_selected := st.indices_not_selected ++ [nc]
    num2 := st.num2 + 1 }

/-- One iteration of the main loop of `fps` for frame `nc`. -/
def fps_step (distance_square_min : ℚ) (dim : Nat) (st : FpsState) (nc : Nat)
    (s : Structure) : FpsState :=
  let r := read_descriptor (resize s.q dim) st.input_descriptor
  let s1 : Structure := { s with q := r.1 }
  if nc = 0 then fps_select st nc s1 r.2
  else if to_be_selected distance_square_min dim s1 st.structures_selected then
    fps_select st nc s1 r.2
  else fps_reject st nc s1 r.2

/-- The main loop of `fps`, `for (nc = 0; nc < structures.size(); ++nc)`. -/
def fps_loop (distance_square_min : ℚ) (dim : Nat) :
    Nat → List Structure → FpsState → FpsState
  | _, [], st => st
  | nc, s :: rest, st =>
    fps_loop distance_square_min dim (nc + 1) rest (fps_step distance_square_min dim st nc s)

/-- The function `fps(structures, distance_square_min, dim)`; `input_descriptor` is the
content of `descriptor.out`. -/
def fps (structures : List Structure) (input_descriptor : List ℚ)
    (distance_square_min : ℚ) (dim : Nat) : FpsState :=
  fps_loop distance_square_min dim 0 structures { input_descriptor := input_descriptor }


/-- Descriptor of frame `i` after `fps` has filled it in. -/
def FpsState.descriptor (st : FpsState) (i : Nat) : List ℚ := (st.structures.getD i default).q

/-- The loop invariant of `fps` after `nc` frames. -/
structure FpsInv (tau : ℚ) (dim : Nat) (nc : Nat) (st : FpsState) : Prop where
  len : st.structures.length = nc
  sel_eq : st.structures_selected = st.indices_selected.map (fun i => st.structures.getD i default)
  perm : (st.indices_selected ++ st.indices_not_selected).Perm (List.range nc)
  num1_eq : st.num1 = st.indices_selected.length
  num2_eq : st.num2 = st.indices_not_selected.length
  zero_sel : 0 < nc → 0 ∈ st.indices_selected
  sel_sorted : st.indices_selected.Pairwise (· < ·)
  notsel_sorted : st.indices_not_selected.Pairwise (· < ·)
  far : ∀ i ∈ st.indices_selected, ∀ j ∈ st.indices_selected, i ≠ j →
    tau ≤ distance_square dim (st.descriptor i) (st.descriptor j)
  near : ∀ j ∈ st.indices_not_selected, ∃ i ∈ st.indices_selected, i < j ∧
    distance_square dim (st.descriptor j) (st.descriptor i) < tau


/-! ## Header normalisation and tokenisation -/

/-- Fatal conditions: each one is a message printed before `exit(1)`, an uncaught library
exception, or an access outside a vector or string. -/
inductive Fatal where
  /-- "The second line of the .xyz file should not begin with \"." -/
  | begins_with_quote
  /-- "The second line for each frame should not be empty." -/
  | empty_second_line
  /-- "'energy' is missing in the second line of a frame." -/
  | energy_missing
  /-- "Configuration weight should > 0 and <= 100." -/
  | weight_out_of_range
  /-- "'lattice' is missing in the second line of a frame." -/
  | lattice_missing
  /-- "'species' is missing in properties." -/
  | species_missing
  /-- "'pos' is missing in properties." -/
  | pos_missing
  /-- "'force' or 'forces' is missing in properties." -/
  | force_missing
  /-- "Number of items for an atom line mismatches properties." -/
  | column_mismatch
  /-- "The first line for each frame should have one value." -/
  | first_line_not_one_value
  /-- "Number of atoms for each frame should >= 1." -/
  | num_atom_below_one
  /-- "Standard exception" reported by `get_int_from_token` or `get_double_from_token`: the
  conversion threw `std::invalid_argument` (no number to convert) or `std::out_of_range`. -/
  | bad_number
  /-- No exit of the program: a conversion gave an infinity or a NaN for a member that the
  model keeps as a rational, and the model does not follow the run any further. -/
  | not_finite
  /-- An uncaught `std::out_of_range` thrown by `substr`. -/
  | substr_out_of_range
  /-- A subscript outside its vector (undefined behaviour in the source). -/
  | index_out_of_bounds
deriving DecidableEq, Repr

instance {α : Type} [DecidableEq α] : DecidableEq (Except Fatal α) := fun a b =>
  match a, b with
  | .ok x, .ok y => if h : x = y then isTrue (by rw [h]) else isFalse (by intro e; cases e; exact h rfl)
  | .error x, .error y =>
    if h : x = y then isTrue (by rw [h]) else isFalse (by intro e; cases e; exact h rfl)
  | .ok _, .error _ => isFalse (by intro e; cases e)
  | .error _, .ok _ => isFalse (by intro e; cases e)

/-- The test `c == ' ' || c == '\t'` of `remove_spaces_step1` and `remove_spaces`. -/
def is_blank (c : Char) : Bool := c == ' ' || c == '\t'

/-- The backward inner loop `for (k = 1; n - k >= 0; ++k)`: entered with `j = n`, it looks at
index `j - 1`, flags it when it holds a space or tab and goes on, and stops otherwise.
The vector `indices_for_spaces` is the function from index to flag. -/
def mark_backward (line : List Char) : Nat → (Nat → Bool) → (Nat → Bool)
  | 0, ind => ind
  | j + 1, ind =>
    if is_blank (line.getD j 'a') then mark_backward line j (Function.update ind j true)
    else ind

/-- The forward inner loop `for (k = 1; n + k < line.size(); ++k)`: run on the characters
after index `n`, with `i = n + k` the index of the first of them. -/
def mark_forward : List Char → Nat → (Nat → Bool) → (Nat → Bool)
  | [], _, ind => ind
  | c :: rest, i, ind =>
    if is_blank c then mark_forward rest (i + 1) (Function.update ind i true) else ind

/-- The copying loop `if (!indices_for_spaces[n]) new_line += line[n]`, from index `n` on. -/
def copy_unmarked (ind : Nat → Bool) : Nat → List Char → List Char
  | _, [] => []
  | n, c :: rest =>
    if ind n then copy_unmarked ind (n + 1) rest else c :: copy_unmarked ind (n + 1) rest

/-- Body of the marking loop of `remove_spaces_step1` at index `n`. -/
def step1_body (line : List Char) (ind : Nat → Bool) (n : Nat) : Nat → Bool :=
  if line.getD n 'a' = '=' then
    mark_forward (line.drop (n + 1)) (n + 1) (mark_backward line n ind)
  else ind

/-- The function `remove_spaces_step1`. -/
def remove_spaces_step1 (line : List Char) : List Char :=
  copy_unmarked ((List.range line.length).foldl (step1_body line) (fun _ => false)) 0 line

/-- Body of the marking loop of `remove_spaces` at index `n`. -/
def step2_body (line : List Char) (ind : Nat → Bool) (n : Nat) : Except Fatal (Nat → Bool) :=
  if line.getD n 'a' = '"' then
    if n = 0 then .error .begins_with_quote
    else if line.getD (n - 1) 'a' = '=' then
      .ok (mark_forward (line.drop (n + 1)) (n + 1) ind)
    else .ok (mark_backward line n ind)
  else .ok ind

/-- The marking loop of `remove_spaces` over the indices still to visit. -/
def step2_loop (line : List Char) : List Nat → (Nat → Bool) → Except Fatal (Nat → Bool)
  | [], ind => .ok ind
  | n :: ns, ind =>
    match step2_body line ind n with
    | .error e => .error e
    | .ok ind1 => step2_loop line ns ind1

/-- The function `remove_spaces`. -/
def remove_spaces (line_input : List Char) : Except Fatal (List Char) :=
  match step2_loop (remove_spaces_step1 line_input)
      (List.range (remove_spaces_step1 line_input).length) (fun _ => false) with
  | .error e => .error e
  | .ok ind => .ok (copy_unmarked ind 0 (remove_spaces_step1 line_input))

/-- Whitespace of the classic locale, on which `operator>>` for strings splits. -/
def is_space (c : Char) : Bool :=
  c == ' ' || c == '\t' || c == '\n' || c == '\x0b' || c == '\x0c' || c == '\r'

/-- Extraction of the whitespace-separated words of a line by
`std::istream_iterator<std::string>`; `cur` is the word being read. -/
def get_tokens_loop : List Char → List Char → List (List Char)
  | cur, [] => if cur = [] then [] else [cur]
  | cur, c :: rest =>
    if is_space c then
      if cur = [] then get_tokens_loop [] rest else cur :: get_tokens_loop [] rest
    else get_tokens_loop (cur ++ [c]) rest

/-- The function `get_tokens(const std::string&)`. -/
def get_tokens (line : List Char) : List (List Char) := get_tokens_loop [] line

/-- The call `std::getline(input, line)`: the line up to the first newline and the rest of
the stream; at the end of the stream the line is empty. -/
def getline : List Char → List Char × List Char
  | [] => ([], [])
  | c :: rest => if c = '\n' then ([], rest) else (c :: (getline rest).1, (getline rest).2)

/-- The function `get_tokens(std::ifstream&)`: tokens of the next line and the rest of the
stream. -/
def get_tokens_stream (input : List Char) : List (List Char) × List Char :=
  (get_tokens (getline input).1, (getline input).2)

/-- The function `get_tokens_without_unwanted_spaces` applied to the header line itself. -/
def header_tokens (line : List Char) : Except Fatal (List (List Char)) :=
  match remove_spaces line with
  | .error e => .error e
  | .ok l => .ok (get_tokens l)

/-- The function `get_tokens_without_unwanted_spaces`: tokens of the next line after
`remove_spaces`, and the rest of the stream. -/
def get_tokens_without_unwanted_spaces (input : List Char) :
    Except Fatal (List (List Char) × List Char) :=
  match header_tokens (getline input).1 with
  | .error e => .error e
  | .ok tokens => .ok (tokens, (getline input).2)

/-! ### Structural form of the two normalisation passes (used in the proofs) -/

/-- The character just before index `n` (a letter at the start of the line). -/
def prev_char (line : List Char) (n : Nat) : Char :=
  if n = 0 then 'a' else line.getD (n - 1) 'a'

/-- Index `i` lies in the run of blanks that ends just before index `n`. -/
def runL (line : List Char) (n i : Nat) : Prop :=
  i < n ∧ ∀ t, i ≤ t → t < n → is_blank (line.getD t 'a') = true

/-- Index `i` lies in the run of blanks that starts just after index `n`. -/
def runR (line : List Char) (n i : Nat) : Prop :=
  n < i ∧ i < line.length ∧ ∀ t, n < t → t ≤ i → is_blank (line.getD t 'a') = true

/-- A marking pass in general form: at index `n` the blanks before it are flagged when `tB`
holds of the previous and the current character, the blanks after it when `tF` holds. -/
def gen_body (tB tF : Char → Char → Bool) (line : List Char) (ind : Nat → Bool) (n : Nat) :
    Nat → Bool :=
  if tF (prev_char line n) (line.getD n 'a') then
    mark_forward (line.drop (n + 1)) (n + 1)
      (if tB (prev_char line n) (line.getD n 'a') then mark_backward line n ind else ind)
  else if tB (prev_char line n) (line.getD n 'a') then mark_backward line n ind else ind

/-- Is the first non-blank character of the list `tgt`? -/
def next_is (tgt : Char) : List Char → Bool
  | [] => false
  | d :: rest => if is_blank d then next_is tgt rest else d == tgt

/-- A normalisation pass as a left-to-right scan: a blank is dropped when `left` holds (the
last non-blank character before it triggered forward stripping) or when the first non-blank
character after it is `tgt`; `prev` is the character just before the current one. -/
def strip (tF : Char → Char → Bool) (tgt : Char) : Bool → Char → List Char → List Char
  | _, _, [] => []
  | left, prev, c :: suf =>
    if is_blank c then
      if left || next_is tgt suf then strip tF tgt left c suf
      else c :: strip tF tgt left c suf
    else c :: strip tF tgt (tF prev c) c suf

/-- State of the scan `strip` after a prefix of the line. -/
def scan_state (tF : Char → Char → Bool) : Bool × Char → List Char → Bool × Char
  | st, [] => st
  | st, c :: rest =>
    scan_state tF (if is_blank c then (st.1, c) else (tF st.2 c, c)) rest

/-- Trigger of the first pass: the current character is `=`. -/
def trig1 (_ c : Char) : Bool := c == '='

/-- Forward trigger of the second pass: a double quote that directly follows `=`. -/
def trig2F (p c : Char) : Bool := c == '"' && p == '='

/-- Backward trigger of the second pass: a double quote that does not follow `=`. -/
def trig2B (p c : Char) : Bool := c == '"' && !(p == '=')


/-- No blank next to `=`: `c` may follow `p`. -/
def ok1 (p c : Char) : Bool :=
  !(is_blank p && c == '=') && !(p == '=' && is_blank c)

/-- Every character of the list may follow its predecessor in the sense of `ok1`; `p` is the
character before the list. -/
def n1_ctx : Char → List Char → Bool
  | _, [] => true
  | p, c :: l => ok1 p c && n1_ctx c l

/-- The character `c` may follow `pp`, `p`: no blank next to `=`, no blank before a double
quote, no blank after a double quote that directly follows `=`. -/
def ok3 (pp p c : Char) : Bool :=
  !(is_blank p && (c == '=' || c == '"')) && !(p == '=' && is_blank c) &&
    !(pp == '=' && p == '"' && is_blank c)

/-- Every character of the list may follow its two predecessors in the sense of `ok3`. -/
def normal_ctx : Char → Char → List Char → Bool
  | _, _, [] => true
  | pp, p, c :: l => ok3 pp p c && normal_ctx p c l

/-- A normalised header line: no space or tab next to `=`, none right after a double quote
that directly follows `=`, none right before a double quote. -/
def normal (l : List Char) : Bool := normal_ctx 'a' 'a' l

/-! ### Shapes of header text used in the statements -/

/-- A character that is neither whitespace, nor `=`, nor a double quote. -/
def plain (c : Char) : Bool := !is_space c && !(c == '=') && !(c == '"')

/-- A non-empty word of plain characters. -/
def is_word (w : List Char) : Bool := !w.isEmpty && w.all plain

/-- A possibly empty run of spaces and tabs. -/
def all_blank (b : List Char) : Bool := b.all is_blank

/-- A non-empty run of spaces and tabs. -/
def is_sep (b : List Char) : Bool := !b.isEmpty && b.all is_blank

/-- The text of further words, each preceded by its separator. -/
def join_words : List (List Char × List Char) → List Char
  | [] => []
  | p :: rest => p.1 ++ p.2 ++ join_words rest

/-- The token list with a double quote appended to its last token. -/
def close_last : List (List Char) → List (List Char)
  | [] => []
  | [t] => [t ++ ['"']]
  | t :: t2 :: ts => t :: close_last (t2 :: ts)

/-! ## Number conversions of the C++ standard library -/

/-- The decimal digit character of `d < 10`. -/
def digit_char (d : Nat) : Char := Char.ofNat (48 + d)

/-- The decimal digits. -/
def is_digit (c : Char) : Bool :=
  ['0', '1', '2', '3', '4', '5', '6', '7', '8', '9'].contains c

/-- Value of a decimal digit character. -/
def digit_value (c : Char) : Nat := c.toNat - 48

/-- Decimal digits of `n`, most significant first, prepended to `acc`; `fuel` bounds the
number of digits. -/
def nat_digits_aux : Nat → Nat → List Char → List Char
  | 0, _, acc => acc
  | fuel + 1, n, acc =>
    if n < 10 then digit_char n :: acc
    else nat_digits_aux fuel (n / 10) (digit_char (n % 10) :: acc)

/-- Decimal representation of a natural number. -/
def nat_digits (n : Nat) : List Char := nat_digits_aux (n + 1) n []

/-- The insertion `output << value` of an `int`. -/
def fmt_int (n : Int) : List Char :=
  if n < 0 then '-' :: nat_digits n.natAbs else nat_digits n.natAbs

/-- Value of a string of decimal digits. -/
def digits_value (ds : List Char) : Nat :=
  ds.foldl (fun acc c => 10 * acc + digit_value c) 0

/-- `std::stoi` inside `get_int_from_token`: leading whitespace, an optional sign and the
longest run of decimal digits are read and what follows is ignored; no digit, or a value
outside the range of `int`, is the "Standard exception" exit. -/
def get_int_from_token (token : List Char) : Except Fatal Int :=
  let s := token.dropWhile is_space
  let neg := s.head? == some '-'
  let s1 := if s.head? == some '-' || s.head? == some '+' then s.tail else s
  let ds := s1.takeWhile is_digit
  if ds = [] then .error .bad_number
  else
    let v : Int := if neg then -(digits_value ds : Int) else (digits_value ds : Int)
    if v < -2147483648 ∨ 2147483647 < v then .error .bad_number else .ok v

/-- The power `10 ^ k` as a rational. -/
def pow10 (k : Nat) : ℚ := ((10 ^ k : Nat) : ℚ)

/-- The product `a * 10 ^ e` for an integer exponent. -/
def scale10 (a : ℚ) (e : Int) : ℚ :=
  if 0 ≤ e then a * pow10 e.toNat else a / pow10 (-e).toNat

/-- The exponent part of a floating literal, read after the mantissa: `e` or `E`, an optional
sign and at least one digit; anything else is no exponent. -/
def read_exponent (s : List Char) : Int :=
  match s with
  | [] => 0
  | c :: t =>
    if c == 'e' || c == 'E' then
      let neg := t.head? == some '-'
      let t1 := if t.head? == some '-' || t.head? == some '+' then t.tail else t
      let ds := t1.takeWhile is_digit
      if ds = [] then 0
      else if neg then -(digits_value ds : Int) else (digits_value ds : Int)
    else 0

/-- The value of the decimal floating literal at the start of `s`: digits with an optional
point (at least one digit) and an optional exponent; `none` when `s` does not begin with
one. -/
def decimal_literal (s : List Char) : Option ℚ :=
  let ip := s.takeWhile is_digit
  let s2 := s.dropWhile is_digit
  let fp := if s2.head? == some '.' then s2.tail.takeWhile is_digit else []
  let s3 := if s2.head? == some '.' then s2.tail.dropWhile is_digit else s2
  if ip = [] ∧ fp = [] then none
  else some (scale10 ((digits_value (ip ++ fp) : ℚ) / pow10 fp.length) (read_exponent s3))

/-- The hexadecimal digits, in either letter case. -/
def is_hex_digit (c : Char) : Bool :=
  is_digit c || ['a', 'b', 'c', 'd', 'e', 'f'].contains c.toLower

/-- Value of a hexadecimal digit character. -/
def hex_digit_value (c : Char) : Nat :=
  if is_digit c then c.toNat - 48 else c.toLower.toNat - 87

/-- Value of a string of hexadecimal digits. -/
def hex_digits_value (ds : List Char) : Nat :=
  ds.foldl (fun acc c => 16 * acc + hex_digit_value c) 0

/-- The product `a * 2 ^ e` for an integer exponent. -/
def scale2 (a : ℚ) (e : Int) : ℚ :=
  if 0 ≤ e then a * ((2 ^ e.toNat : Nat) : ℚ) else a / ((2 ^ (-e).toNat : Nat) : ℚ)

/-- The binary exponent part of a hexadecimal floating literal: `p` or `P`, an optional sign
and at least one decimal digit; anything else is no exponent. -/
def read_binary_exponent (s : List Char) : Int :=
  match s with
  | [] => 0
  | c :: t =>
    if c == 'p' || c == 'P' then
      let neg := t.head? == some '-'
      let t1 := if t.head? == some '-' || t.head? == some '+' then t.tail else t
      let ds := t1.takeWhile is_digit
      if ds = [] then 0
      else if neg then -(digits_value ds : Int) else (digits_value ds : Int)
    else 0

/-- The value of the hexadecimal floating literal whose digits start `s` (the text after
`0x`): hexadecimal digits with an optional point (at least one digit) and an optional binary
exponent; `none` when there is no digit. -/
def hex_literal (s : List Char) : Option ℚ :=
  let ip := s.takeWhile is_hex_digit
  let s2 := s.dropWhile is_hex_digit
  let fp := if s2.head? == some '.' then s2.tail.takeWhile is_hex_digit else []
  let s3 := if s2.head? == some '.' then s2.tail.dropWhile is_hex_digit else s2
  if ip = [] ∧ fp = [] then none
  else
    some (scale2 ((hex_digits_value (ip ++ fp) : ℚ) / ((16 ^ fp.length : Nat) : ℚ))
      (read_binary_exponent s3))

/-- The text begins with `0x` or `0X`. -/
def has_hex_marker (s : List Char) : Bool :=
  s.head? == some '0' && (s.tail.head? == some 'x' || s.tail.head? == some 'X')

/-- The value of the floating literal at the start of `s`, which `std::strtod` converts: a
hexadecimal literal after `0x` when hexadecimal digits follow, else a decimal literal (of
`0x` not followed by a hexadecimal digit the `0` alone is converted). -/
def literal (s : List Char) : Option ℚ :=
  if has_hex_marker s then
    match hex_literal (s.drop 2) with
    | some v => some v
    | none => decimal_literal s
  else decimal_literal s

/-- The condition under which `std::strtod` sets `ERANGE` for the exact value `v` of a
literal, as the GNU C library does: the value rounds to a magnitude above the largest
`double` (it is at least `2 ^ 1024 - 2 ^ 970`), or it is not zero, rounds to a magnitude
below the smallest normal `double` (it is below `2 ^ (-1022) - 2 ^ (-1076)`) and is not a
multiple of `2 ^ (-1074)`. -/
def range_error (v : ℚ) : Bool :=
  decide ((2 ^ 1024 - 2 ^ 970) * v.den ≤ v.num.natAbs) ||
    (decide (v.num.natAbs * 2 ^ 1076 < (2 ^ 54 - 1) * v.den) &&
      !decide (v.num.natAbs * 2 ^ 1074 % v.den = 0))

/-- The function `get_double_from_token`, that is `std::stod`: after leading whitespace and
an optional sign, `inf` or `nan` in any letter case (whatever follows) is converted to an
infinity or a NaN, and otherwise the floating literal at the start is converted and what
follows it is ignored.  No literal (`std::invalid_argument`) and a literal with a range
error (`std::out_of_range`) are the "Standard exception" exit. -/
def get_double_from_token (token : List Char) : Except Fatal Double :=
  let s := token.dropWhile is_space
  let neg := s.head? == some '-'
  let s1 := if s.head? == some '-' || s.head? == some '+' then s.tail else s
  if (s1.take 3).map Char.toLower == ['i', 'n', 'f'] then .ok (.infinite neg)
  else if (s1.take 3).map Char.toLower == ['n', 'a', 'n'] then .ok (.nan neg)
  else
    match literal s1 with
    | none => .error .bad_number
    | some v =>
      if range_error v then .error .bad_number
      else .ok (.finite (if neg then -v else v))

/-- The call `get_double_from_token` at a place where the model keeps the result as a
rational: the number that the conversion gives; an infinity or a NaN ends the model's run
with `Fatal.not_finite` (the program itself goes on). -/
def get_rational_from_token (token : List Char) : Except Fatal ℚ :=
  match get_double_from_token token with
  | .error e => .error e
  | .ok (.finite v) => .ok v
  | .ok _ => .error .not_finite

/-- The test `structure.weight <= 0.0f || structure.weight > 100.0f`; both comparisons are
false for a NaN. -/
def weight_rejected (weight : Double) : Bool :=
  match weight with
  | .finite v => decide (v ≤ 0) || decide (100 < v)
  | .infinite _ => true
  | .nan _ => false

/-- The exponent `X` with `10 ^ X ≤ a < 10 ^ (X + 1)`, for `a > 0`. -/
def decimal_exponent (a : ℚ) : Int :=
  let e0 : Int := ((nat_digits a.num.natAbs).length : Int) - ((nat_digits a.den).length : Int)
  if scale10 1 e0 ≤ a then e0 else e0 - 1

/-- Rounding of a non-negative rational to the nearest natural number, ties to even. -/
def round_half_even (s : ℚ) : Nat :=
  let f := (s.num / (s.den : Int)).toNat
  let r := s - (f : ℚ)
  if r < 1 / 2 then f else if 1 / 2 < r then f + 1 else if f % 2 = 0 then f else f + 1

/-- Removal of the trailing zeros of a digit string. -/
def strip_trailing_zeros (ds : List Char) : List Char :=
  (ds.reverse.dropWhile (fun c => c == '0')).reverse

/-- A fraction part with its decimal point, or nothing when the fraction is empty. -/
def point_fraction (frac : List Char) : List Char :=
  if frac = [] then [] else '.' :: frac

/-- Scientific notation of the digit string `ds` (the six significant digits) with decimal
exponent `X`: one digit, the fraction without trailing zeros, and an exponent of at least two
digits. -/
def fmt_scientific (ds : List Char) (X : Int) : List Char :=
  ds.take 1 ++ point_fraction (strip_trailing_zeros (ds.drop 1)) ++ ['e'] ++
    (if X < 0 then ['-'] else ['+']) ++
    (if X.natAbs < 10 then '0' :: nat_digits X.natAbs else nat_digits X.natAbs)

/-- Fixed notation of the digit string `ds` (the six significant digits) with decimal
exponent `X`, trailing zeros of the fraction removed. -/
def fmt_fixed (ds : List Char) (X : Int) : List Char :=
  if 0 ≤ X then
    ds.take (X.toNat + 1) ++ point_fraction (strip_trailing_zeros (ds.drop (X.toNat + 1)))
  else '0' :: '.' :: strip_trailing_zeros (List.replicate ((-X).toNat - 1) '0' ++ ds)

/-- The six significant digits of `a > 0` after rounding, as a number in
`100000 .. 999999`, and the decimal exponent of the rounded value. -/
def significant (a : ℚ) : Nat × Int :=
  if round_half_even (scale10 a (5 - decimal_exponent a)) = 1000000 then
    (100000, decimal_exponent a + 1)
  else (round_half_even (scale10 a (5 - decimal_exponent a)), decimal_exponent a)

/-- The `%g` conversion of a positive number. -/
def fmt_positive (a : ℚ) : List Char :=
  if (significant a).2 < -4 ∨ 6 ≤ (significant a).2 then
    fmt_scientific (nat_digits (significant a).1) (significant a).2
  else fmt_fixed (nat_digits (significant a).1) (significant a).2

/-- The insertion `output << value` of a `double` with the stream defaults (precision 6,
no `fixed` or `scientific` flag), i.e. the `%g` conversion: six significant digits, scientific
notation when the decimal exponent is below `-4` or at least `6`, trailing zeros removed. -/
def fmt_double (v : ℚ) : List Char :=
  if v = 0 then ['0'] else if v < 0 then '-' :: fmt_positive (-v) else fmt_positive v

/-! ## Reading frames -/

/-- The test `token.substr(0, key.length()) == key`. -/
def starts_with (token key : List Char) : Bool := token.take key.length == key

/-- The call `s.substr(pos, len)`; `pos > s.size()` throws `std::out_of_range`. -/
def substr (s : List Char) (pos len : Nat) : Except Fatal (List Char) :=
  if s.length < pos then .error .substr_out_of_range else .ok ((s.drop pos).take len)

/-- The lower-casing of a token by `std::tolower` in the classic locale. -/
def to_lower (token : List Char) : List Char := token.map Char.toLower

/-- The key `sid=`. -/
def sid_string : List Char := ['s', 'i', 'd', '=']

/-- The key `energy_weight=`. -/
def energy_weight_string : List Char :=
  ['e', 'n', 'e', 'r', 'g', 'y', '_', 'w', 'e', 'i', 'g', 'h', 't', '=']

/-- The key `energy=`. -/
def energy_string : List Char := ['e', 'n', 'e', 'r', 'g', 'y', '=']

/-- The key `weight=`. -/
def weight_string : List Char := ['w', 'e', 'i', 'g', 'h', 't', '=']

/-- The key `lattice=`. -/
def lattice_string : List Char := ['l', 'a', 't', 't', 'i', 'c', 'e', '=']

/-- The key `virial=`. -/
def virial_string : List Char := ['v', 'i', 'r', 'i', 'a', 'l', '=']

/-- The key `stress=`. -/
def stress_string : List Char := ['s', 't', 'r', 'e', 's', 's', '=']

/-- The key `properties=`. -/
def properties_string : List Char :=
  ['p', 'r', 'o', 'p', 'e', 'r', 't', 'i', 'e', 's', '=']

/-- The loop that looks for `sid=`: every matching token sets `has_sid` and `sid`. -/
def read_sid : List (List Char) → Structure → Structure
  | [], s => s
  | token :: rest, s =>
    if starts_with token sid_string then
      read_sid rest { s with has_sid := true, sid := token.drop sid_string.length }
    else read_sid rest s

/-- The loop that looks for `energy_weight=`. -/
def read_energy_weight : List (List Char) → Structure → Except Fatal Structure
  | [], s => .ok s
  | token :: rest, s =>
    if starts_with token energy_weight_string then
      match get_rational_from_token (token.drop energy_weight_string.length) with
      | .error e => .error e
      | .ok v => read_energy_weight rest { s with energy_weight := v }
    else read_energy_weight rest s

/-- The loop that looks for `energy=`; the flag is `has_energy_in_exyz`. -/
def read_energy : List (List Char) → Structure → Bool → Except Fatal (Structure × Bool)
  | [], s, has => .ok (s, has)
  | token :: rest, s, has =>
    if starts_with token energy_string then
      match get_rational_from_token (token.drop energy_string.length) with
      | .error e => .error e
      | .ok v => read_energy rest { s with energy := v } true
    else read_energy rest s has

/-- The loop that looks for `weight=`, with its range test. -/
def read_weight : List (List Char) → Structure → Except Fatal Structure
  | [], s => .ok s
  | token :: rest, s =>
    if starts_with token weight_string then
      match get_double_from_token (token.drop weight_string.length) with
      | .error e => .error e
      | .ok v =>
        if weight_rejected v then .error .weight_out_of_range
        else read_weight rest { s with weight := v }
    else read_weight rest s

/-- The loop `for (m = 0; m < 9; ++m)` that reads the nine components of a matrix from the
tokens `tokens[n + m]`; `tokens` is the token vector from index `n` on, `key_len` the length
of the key, `ms` the values of `m` still to do. -/
def read_components (key_len : Nat) (tokens : List (List Char)) :
    List Nat → Except Fatal (List ℚ)
  | [] => .ok []
  | m :: ms =>
    match tokens[m]? with
    | none => .error .index_out_of_bounds
    | some token =>
      match substr token (if m = 0 then key_len + 1 else 0)
          (if m = 8 then token.length - 1 else token.length) with
      | .error e => .error e
      | .ok t =>
        match get_rational_from_token t with
        | .error e => .error e
        | .ok v =>
          match read_components key_len tokens ms with
          | .error e => .error e
          | .ok vs => .ok (v :: vs)

/-- The loop that looks for `lattice=`; the flag is `has_lattice_in_exyz`. -/
def read_lattice : List (List Char) → Structure → Bool → Except Fatal (Structure × Bool)
  | [], s, has => .ok (s, has)
  | token :: rest, s, has =>
    if starts_with token lattice_string then
      match read_components lattice_string.length (token :: rest) (List.range 9) with
      | .error e => .error e
      | .ok box => read_lattice rest { s with box := box } true
    else read_lattice rest s has

/-- The loop that looks for `virial=`. -/
def read_virial : List (List Char) → Structure → Except Fatal Structure
  | [], s => .ok s
  | token :: rest, s =>
    if starts_with token virial_string then
      match read_components virial_string.length (token :: rest) (List.range 9) with
      | .error e => .error e
      | .ok virial => read_virial rest { s with has_virial := true, virial := virial }
    else read_virial rest s

/-- The loop that looks for `stress=`. -/
def read_stress : List (List Char) → Structure → Except Fatal Structure
  | [], s => .ok s
  | token :: rest, s =>
    if starts_with token stress_string then
      match read_components stress_string.length (token :: rest) (List.range 9) with
      | .error e => .error e
      | .ok stress => read_stress rest { s with has_stress := true, stress := stress }
    else read_stress rest s

/-- The column layout computed from `properties=`. -/
structure Columns where
  species_offset : Int := 0
  pos_offset : Int := 0
  force_offset : Int := 0
  num_columns : Int := 0
deriving DecidableEq

/-- The first loop over the triples of a `properties=` value, for `k` in `ks`: the positions
of `species`, `pos` and `force`/`forces` (each `-1` until found). -/
def find_positions (sub_tokens : List (List Char)) : List Nat → Int × Int × Int → Int × Int × Int
  | [], p => p
  | k :: ks, (species_position, pos_position, force_position) =>
    find_positions sub_tokens ks
      (if sub_tokens.getD (k * 3) [] = ['s', 'p', 'e', 'c', 'i', 'e', 's'] then (k : Int)
        else species_position,
       if sub_tokens.getD (k * 3) [] = ['p', 'o', 's'] then (k : Int) else pos_position,
       if sub_tokens.getD (k * 3) [] = ['f', 'o', 'r', 'c', 'e'] ∨
          sub_tokens.getD (k * 3) [] = ['f', 'o', 'r', 'c', 'e', 's'] then (k : Int)
        else force_position)

/-- The value that an `int` holds after an addition with the exact result `v`: the result
reduced modulo `2 ^ 32` into the range from `-2147483648` to `2147483647`. -/
def wrap_int (v : Int) : Int := (v + 2147483648) % 4294967296 - 2147483648

/-- The second loop over the triples, for `k` in `ks`: the widths before each position are
added to the offsets and all widths to `num_columns`, each sum in an `int`.  The width of
triple `k` is converted once here; the source converts it anew for each sum. -/
def add_offsets (sub_tokens : List (List Char)) (p : Int × Int × Int) :
    List Nat → Columns → Except Fatal Columns
  | [], c => .ok c
  | k :: ks, c =>
    match get_int_from_token (sub_tokens.getD (k * 3 + 2) []) with
    | .error e => .error e
    | .ok w =>
      add_offsets sub_tokens p ks
        { species_offset :=
            if (k : Int) < p.1 then wrap_int (c.species_offset + w) else c.species_offset
          pos_offset := if (k : Int) < p.2.1 then wrap_int (c.pos_offset + w) else c.pos_offset
          force_offset :=
            if (k : Int) < p.2.2 then wrap_int (c.force_offset + w) else c.force_offset
          num_columns := wrap_int (c.num_columns + w) }

/-- The replacement of every `:` by a space. -/
def colons_to_spaces (line : List Char) : List Char :=
  line.map (fun letter => if letter = ':' then ' ' else letter)

/-- The loop that looks for `properties=`. -/
def read_properties : List (List Char) → Columns → Except Fatal Columns
  | [], c => .ok c
  | token :: rest, c =>
    if starts_with token properties_string then
      let sub_tokens := get_tokens (colons_to_spaces (token.drop properties_string.length))
      let p := find_positions sub_tokens (List.range (sub_tokens.length / 3)) (-1, -1, -1)
      if p.1 < 0 then .error .species_missing
      else if p.2.1 < 0 then .error .pos_missing
      else if p.2.2 < 0 then .error .force_missing
      else
        match add_offsets sub_tokens p (List.range (sub_tokens.length / 3)) c with
        | .error e => .error e
        | .ok c1 => read_properties rest c1
    else read_properties rest c

/-- The element `tokens[offset]` of an atom line. -/
def token_at (tokens : List (List Char)) (offset : Int) : Except Fatal (List Char) :=
  if offset < 0 then .error .index_out_of_bounds
  else
    match tokens[offset.toNat]? with
    | none => .error .index_out_of_bounds
    | some t => .ok t

/-- The number `get_double_from_token(tokens[offset])` of an atom line. -/
def double_at (tokens : List (List Char)) (offset : Int) : Except Fatal ℚ :=
  match token_at tokens offset with
  | .error e => .error e
  | .ok t => get_rational_from_token t

/-- The three numbers at `offset`, `offset + 1`, `offset + 2` of an atom line. -/
def triple_at (tokens : List (List Char)) (offset : Int) : Except Fatal (ℚ × ℚ × ℚ) :=
  match double_at tokens offset with
  | .error e => .error e
  | .ok a =>
    match double_at tokens (1 + offset) with
    | .error e => .error e
    | .ok b =>
      match double_at tokens (2 + offset) with
      | .error e => .error e
      | .ok c => .ok (a, b, c)

/-- The loop of `read_force` over the atom lines still to read (`count` of them); the
vectors are built up atom by atom.  Returns the frame and the rest of the stream. -/
def read_force_loop (c : Columns) : Nat → List Char → Structure →
    Except Fatal (Structure × List Char)
  | 0, input, s => .ok (s, input)
  | count + 1, input, s =>
    if ((get_tokens_stream input).1.length : Int) ≠ c.num_columns then .error .column_mismatch
    else
      match token_at (get_tokens_stream input).1 c.species_offset with
      | .error e => .error e
      | .ok symbol =>
        match triple_at (get_tokens_stream input).1 c.pos_offset with
        | .error e => .error e
        | .ok (x, y, z) =>
          match (if 4 < c.num_columns then triple_at (get_tokens_stream input).1 c.force_offset
              else .ok (0, 0, 0)) with
          | .error e => .error e
          | .ok (fx, fy, fz) =>
            read_force_loop c count (get_tokens_stream input).2
              { s with
                atom_symbol := s.atom_symbol ++ [symbol]
                x := s.x ++ [x], y := s.y ++ [y], z := s.z ++ [z]
                fx := s.fx ++ [fx], fy := s.fy ++ [fy], fz := s.fz ++ [fz] }

/-- The function `read_force`, as `read` calls it: on a frame whose vectors are empty, so
that the calls of `resize` give `num_atom` entries that are zero or empty, which the loop
then overwrites atom by atom (the force entries only when there are more than four
columns). -/
def read_force (c : Columns) (input : List Char) (s : Structure) :
    Except Fatal (Structure × List Char) :=
  read_force_loop c s.num_atom.toNat input
    { s with atom_symbol := [], x := [], y := [], z := [], fx := [], fy := [], fz := [] }

/-- The header part of `read_one_structure`, on the lower-cased tokens of the header. -/
def read_header (tokens : List (List Char)) (s : Structure) :
    Except Fatal (Structure × Columns) :=
  if tokens.length = 0 then .error .empty_second_line
  else
    match read_energy_weight tokens (read_sid tokens s) with
    | .error e => .error e
    | .ok s1 =>
      match read_energy tokens s1 false with
      | .error e => .error e
      | .ok (s2, has_energy_in_exyz) =>
        if !has_energy_in_exyz then .error .energy_missing
        else
          match read_weight tokens { s2 with weight := 1 } with
          | .error e => .error e
          | .ok s3 =>
            match read_lattice tokens s3 false with
            | .error e => .error e
            | .ok (s4, has_lattice_in_exyz) =>
              if !has_lattice_in_exyz then .error .lattice_missing
              else
                match read_virial tokens { s4 with has_virial := false } with
                | .error e => .error e
                | .ok s5 =>
                  match (if !s5.has_virial then read_stress tokens s5 else .ok s5) with
                  | .error e => .error e
                  | .ok s6 =>
                    match read_properties tokens {} with
                    | .error e => .error e
                    | .ok c => .ok (s6, c)

/-- The function `read_one_structure`: the frame and the rest of the stream. -/
def read_one_structure (input : List Char) (s : Structure) :
    Except Fatal (Structure × List Char) :=
  match get_tokens_without_unwanted_spaces input with
  | .error e => .error e
  | .ok (tokens, input1) =>
    match read_header (tokens.map to_lower) s with
    | .error e => .error e
    | .ok (s1, c) => read_force c input1 s1

/-- The loop `while (true)` of `read`; `fuel` bounds the number of frames and is never
exhausted when it exceeds the length of the stream (every frame consumes a line). -/
def read_loop : Nat → List Char → List Structure → Except Fatal (List Structure)
  | 0, _, structures => .ok structures
  | fuel + 1, input, structures =>
    if (get_tokens_stream input).1.length = 0 then .ok structures
    else if 1 < (get_tokens_stream input).1.length then .error .first_line_not_one_value
    else
      match get_int_from_token ((get_tokens_stream input).1.getD 0 []) with
      | .error e => .error e
      | .ok num_atom =>
        if num_atom < 1 then .error .num_atom_below_one
        else
          match read_one_structure (get_tokens_stream input).2 { num_atom := num_atom } with
          | .error e => .error e
          | .ok (s, input1) => read_loop fuel input1 (structures ++ [s])

/-- The function `read` on the content of the input file. -/
def read (input : List Char) : Except Fatal (List Structure) :=
  read_loop (input.length + 1) input []

/-! ## Writing frames -/

/-- The nine numbers of a matrix separated by single spaces. -/
def fmt_matrix (a : List ℚ) : List Char :=
  (((List.range 9).map (fun m => fmt_double (a.getD m 0))).intersperse [' ']).flatten

/-- One atom line of `write_one_structure`; a subscript outside a vector is an error. -/
def write_atom (s : Structure) (n : Nat) : Except Fatal (List Char) :=
  match s.atom_symbol[n]?, s.x[n]?, s.y[n]?, s.z[n]?, s.fx[n]?, s.fy[n]?, s.fz[n]? with
  | some symbol, some x, some y, some z, some fx, some fy, some fz =>
    .ok (symbol ++ [' '] ++ fmt_double x ++ [' '] ++ fmt_double y ++ [' '] ++ fmt_double z ++
      [' '] ++ fmt_double fx ++ [' '] ++ fmt_double fy ++ [' '] ++ fmt_double fz ++ ['\n'])
  | _, _, _, _, _, _, _ => .error .index_out_of_bounds

/-- The loop of `write_one_structure` over the atoms `ns`. -/
def write_atoms (s : Structure) : List Nat → Except Fatal (List Char)
  | [] => .ok []
  | n :: ns =>
    match write_atom s n with
    | .error e => .error e
    | .ok line =>
      match write_atoms s ns with
      | .error e => .error e
      | .ok lines => .ok (line ++ lines)

/-- The second line written by `write_one_structure`, without its newline. -/
def write_header (s : Structure) : List Char :=
  (if s.energy_weight ≠ 1 then
      "energy_weight=".toList ++ fmt_double s.energy_weight ++ [' '] else []) ++
    "Lattice=\"".toList ++ fmt_matrix s.box ++ "\" ".toList ++
    "energy=".toList ++ fmt_double s.energy ++ [' '] ++
    (if s.has_virial then "virial=\"".toList ++ fmt_matrix s.virial ++ "\" ".toList else []) ++
    (if s.has_stress then "stress=\"".toList ++ fmt_matrix s.stress ++ "\" ".toList else []) ++
    (if s.has_sid then "sid=".toList ++ s.sid ++ [' '] else []) ++
    "Properties=species:S:1:pos:R:3:force:R:3".toList

/-- The function `write_one_structure`: the text appended to the output stream. -/
def write_one_structure (s : Structure) : Except Fatal (List Char) :=
  match write_atoms s (List.range s.num_atom.toNat) with
  | .error e => .error e
  | .ok lines => .ok (fmt_int s.num_atom ++ ['\n'] ++ write_header s ++ ['\n'] ++ lines)

/-- The function `write`: the content of the output file. -/
def write : List Structure → Except Fatal (List Char)
  | [] => .ok []
  | s :: rest =>
    match write_one_structure s with
    | .error e => .error e
    | .ok text =>
      match write rest with
      | .error e => .error e
      | .ok texts => .ok (text ++ texts)

/-- Store followed by load of one frame: `write_one_structure`, then `read` on the text. -/
def write_then_read (s : Structure) : Except Fatal (List Structure) :=
  match write_one_structure s with
  | .error e => .error e
  | .ok text => read text

/-- Characters that `fmt_double` and `fmt_int` can produce. -/
def num_char (c : Char) : Bool :=
  is_digit c || c == '.' || c == '-' || c == '+' || c == 'e'


/-! ### Token lists and the text they spell (used in the statements and proofs) -/

/-- The tokens of the list, each preceded by a single space. -/
def sep_words : List (List Char) → List Char
  | [] => []
  | t :: ts => ' ' :: (t ++ sep_words ts)

/-- The tokens of the list separated by single spaces. -/
def unwords : List (List Char) → List Char
  | [] => []
  | t :: ts => t ++ sep_words ts

/-- The tokens of the list, each followed by a single space. -/
def words_sp : List (List Char) → List Char
  | [] => []
  | t :: ts => t ++ ' ' :: words_sp ts

/-- A string without whitespace. -/
def no_space (t : List Char) : Bool := t.all (fun c => !is_space c)

/-- Shape of the tokens of a written header: a part without whitespace that starts with a
plain character, then a word of plain characters, then possibly a closing double quote. -/
def good_token (t : List Char) : Prop :=
  ∃ pre w, no_space pre = true ∧ (∀ c, pre.head? = some c → plain c = true) ∧
    is_word w = true ∧ (t = pre ++ w ∨ t = pre ++ w ++ ['"'])

/-! ### The written header as a token list (used in the statements and proofs) -/

/-- The keys that `read_one_structure` looks for. -/
def header_keys : List (List Char) :=
  [sid_string, energy_weight_string, energy_string, weight_string, lattice_string,
    virial_string, stress_string, properties_string]

/-- No token of the list begins with the key. -/
def skips (key : List Char) (l : List (List Char)) : Prop :=
  ∀ t ∈ l, starts_with t key = false

/-- The nine tokens of a quoted matrix: the key with the opening quote and the first number,
seven numbers, the last number with the closing quote. -/
def matrix_tokens (key : List Char) (a : List ℚ) : List (List Char) :=
  [key ++ '"' :: fmt_double (a.getD 0 0), fmt_double (a.getD 1 0), fmt_double (a.getD 2 0),
    fmt_double (a.getD 3 0), fmt_double (a.getD 4 0), fmt_double (a.getD 5 0),
    fmt_double (a.getD 6 0), fmt_double (a.getD 7 0), fmt_double (a.getD 8 0) ++ ['"']]

/-- The tokens of the header of a frame, for a given spelling of the lattice key and of the
properties token. -/
def header_words (k_lattice k_properties : List Char) (s : Structure) : List (List Char) :=
  (if s.energy_weight ≠ 1 then [energy_weight_string ++ fmt_double s.energy_weight] else []) ++
    (matrix_tokens k_lattice s.box ++
      ((energy_string ++ fmt_double s.energy) ::
        ((if s.has_virial then matrix_tokens virial_string s.virial else []) ++
          ((if s.has_stress then matrix_tokens stress_string s.stress else []) ++
            ((if s.has_sid then [sid_string ++ s.sid] else []) ++ [k_properties])))))

/-- The lattice key as `write_one_structure` spells it. -/
def lattice_written : List Char := ['L', 'a', 't', 't', 'i', 'c', 'e', '=']

/-- The properties token as `write_one_structure` spells it. -/
def properties_written : List Char := "Properties=species:S:1:pos:R:3:force:R:3".toList

/-- The properties token after lower-casing. -/
def properties_lower : List Char := "properties=species:s:1:pos:r:3:force:r:3".toList

/-- A number that the six-digit output format reproduces exactly: printing it and reading the
text back gives the number itself. -/
@[reducible] def printable (v : ℚ) : Prop :=
  get_double_from_token (fmt_double v) = .ok (.finite v)

/-- The first nine entries of a matrix. -/
def nine (a : List ℚ) : List ℚ :=
  [a.getD 0 0, a.getD 1 0, a.getD 2 0, a.getD 3 0, a.getD 4 0, a.getD 5 0, a.getD 6 0,
    a.getD 7 0, a.getD 8 0]

/-- The frame that `read_one_structure` builds from the header written for `s`, before the
atom lines are read. -/
def header_part (s : Structure) : Structure :=
  { num_atom := s.num_atom
    sid := if s.has_sid then s.sid else []
    has_sid := s.has_sid
    has_virial := s.has_virial
    has_stress := !s.has_virial && s.has_stress
    energy_weight := s.energy_weight
    energy := s.energy
    weight := 1
    virial := if s.has_virial then nine s.virial else List.replicate 9 0
    stress := if !s.has_virial && s.has_stress then nine s.stress else List.replicate 9 0
    box := nine s.box }

/-- The frame that reading back the text written for `s` yields: the configuration weight is
the default `1`, the descriptor is empty, a matrix that was not written is zero, and of
virial and stress only the virial survives when both are present. -/
def restore (s : Structure) : Structure :=
  { header_part s with
    atom_symbol := s.atom_symbol
    x := s.x, y := s.y, z := s.z
    fx := s.fx, fy := s.fy, fz := s.fz }

/-- The column layout `species:S:1:pos:R:3:force:R:3` that `write_one_structure` declares. -/
def written_columns : Columns :=
  { species_offset := 0, pos_offset := 1, force_offset := 4, num_columns := 7 }

/-- The tokens of the atom line that `write_one_structure` writes for atom `n`. -/
def atom_tokens (s : Structure) (n : Nat) : List (List Char) :=
  [s.atom_symbol.getD n [], fmt_double (s.x.getD n 0), fmt_double (s.y.getD n 0),
    fmt_double (s.z.getD n 0), fmt_double (s.fx.getD n 0), fmt_double (s.fy.getD n 0),
    fmt_double (s.fz.getD n 0)]

/-- The atom lines that `write_one_structure` writes for the atoms `ns`. -/
def atoms_text (s : Structure) : List Nat → List Char
  | [] => []
  | n :: ns => unwords (atom_tokens s n) ++ '\n' :: atoms_text s ns

/-- The frames that the written text reproduces: a positive atom count in the range of `int`,
per-atom vectors of that length, species symbols that are non-empty and free of whitespace,
matrices of nine entries, a structure id (when present) that is a non-empty lower-case word
free of whitespace, `=` and double quotes, and numbers that the six-digit output format
reproduces exactly. -/
structure RoundTrips (s : Structure) : Prop where
  num_atom_pos : 1 ≤ s.num_atom
  num_atom_int : s.num_atom ≤ 2147483647
  len_symbol : s.atom_symbol.length = s.num_atom.toNat
  len_x : s.x.length = s.num_atom.toNat
  len_y : s.y.length = s.num_atom.toNat
  len_z : s.z.length = s.num_atom.toNat
  len_fx : s.fx.length = s.num_atom.toNat
  len_fy : s.fy.length = s.num_atom.toNat
  len_fz : s.fz.length = s.num_atom.toNat
  symbols : ∀ a ∈ s.atom_symbol, a ≠ [] ∧ no_space a = true
  len_box : s.box.length = 9
  len_virial : s.has_virial = true → s.virial.length = 9
  len_stress : s.has_stress = true → s.stress.length = 9
  sid_word : s.has_sid = true → is_word s.sid = true ∧ to_lower s.sid = s.sid
  print_energy_weight : printable s.energy_weight
  print_energy : printable s.energy
  print_box : ∀ v ∈ s.box, printable v
  print_virial : s.has_virial = true → ∀ v ∈ s.virial, printable v
  print_stress : s.has_stress = true → ∀ v ∈ s.stress, printable v
  print_x : ∀ v ∈ s.x, printable v
  print_y : ∀ v ∈ s.y, printable v
  print_z : ∀ v ∈ s.z, printable v
  print_fx : ∀ v ∈ s.fx, printable v
  print_fy : ∀ v ∈ s.fy, printable v
  print_fz : ∀ v ∈ s.fz, printable v

/-- The frame of the example of the specification: two atoms, lattice `10` times the
identity, energy `-1`, no virial, stress or structure id. -/
def example_frame : Structure :=
  { num_atom := 2
    energy := -1
    weight := 1
    box := [10, 0, 0, 0, 10, 0, 0, 0, 10]
    atom_symbol := [['S', 'i'], ['O']]
    x := [0, 1 / 2], y := [0, 1 / 4], z := [1, 2]
    fx := [1, -1], fy := [0, 0], fz := [1 / 8, -1 / 8] }

/-- A frame with a structure id, a virial, an energy weight and a configuration weight. -/
def example_frame_full : Structure :=
  { example_frame with
    has_sid := true
    sid := ['s', '1']
    has_virial := true
    virial := [1, 2, 3, 4, 5, 6, 7, 8, 9 / 2]
    energy_weight := 1 / 2
    weight := 5 }

/-! ### The header fields without the column layout (used in the statements) -/

/-- The part of `read_one_structure` between the tokenisation and the loop over
`properties=`: the checks and loops that fill the fields of the frame. -/
def read_header_fields (tokens : List (List Char)) (s : Structure) : Except Fatal Structure :=
  if tokens.length = 0 then .error .empty_second_line
  else
    match read_energy_weight tokens (read_sid tokens s) with
    | .error e => .error e
    | .ok s1 =>
      match read_energy tokens s1 false with
      | .error e => .error e
      | .ok (s2, has_energy_in_exyz) =>
        if !has_energy_in_exyz then .error .energy_missing
        else
          match read_weight tokens { s2 with weight := 1 } with
          | .error e => .error e
          | .ok s3 =>
            match read_lattice tokens s3 false with
            | .error e => .error e
            | .ok (s4, has_lattice_in_exyz) =>
              if !has_lattice_in_exyz then .error .lattice_missing
              else
                match read_virial tokens { s4 with has_virial := false } with
                | .error e => .error e
                | .ok s5 => if !s5.has_virial then read_stress tokens s5 else .ok s5

/-- The sub-tokens of a `properties=` token: its value with every `:` turned into a space. -/
def sub_tokens_of (token : List Char) : List (List Char) :=
  get_tokens (colons_to_spaces (token.drop properties_string.length))

/-- Some triple of the `properties=` token is named `name`. -/
def names_field (name token : List Char) : Bool :=
  (List.range ((sub_tokens_of token).length / 3)).any
    (fun k => (sub_tokens_of token).getD (k * 3) [] == name)

/-! ### Example headers (used in the witnesses) -/

/-- A header with a `virial=` and a `stress=` key, some keys in upper case. -/
def example_header_both : List Char :=
  ("Lattice=\"1 0 0 0 1 0 0 0 1\" Energy=1 Virial=\"1 2 3 4 5 6 7 8 9\" " ++
    "stress=\"9 8 7 6 5 4 3 2 1\" Properties=species:S:1:pos:R:3:force:R:3").toList

/-- One atom line. -/
def example_atom_line : List Char := "H 0 0 0 0 0 0\n".toList

/-- The frame decoded from `example_header_both` and `example_atom_line`. -/
def example_decoded : Structure :=
  { num_atom := 1
    has_virial := true
    energy := 1
    weight := 1
    box := [1, 0, 0, 0, 1, 0, 0, 0, 1]
    virial := [1, 2, 3, 4, 5, 6, 7, 8, 9]
    atom_symbol := [['H']]
    x := [0], y := [0], z := [0], fx := [0], fy := [0], fz := [0] }

/-- A header without `energy=`. -/
def example_header_no_energy : List Char :=
  "Lattice=\"1 0 0 0 1 0 0 0 1\" Properties=species:S:1:pos:R:3:force:R:3".toList

/-- A header without `lattice=`. -/
def example_header_no_lattice : List Char :=
  "energy=1 Properties=species:S:1:pos:R:3:force:R:3".toList

/-- A frame text whose header holds `weight=nan`. -/
def example_nan_weight_input : List Char :=
  ("1\nLattice=\"1 0 0 0 1 0 0 0 1\" energy=1 weight=nan " ++
    "Properties=species:S:1:pos:R:3:force:R:3\nH 0 0 0 0 0 0\n").toList

/-- The frame that `read` returns for `example_nan_weight_input`. -/
def example_nan_weight_frame : Structure :=
  { num_atom := 1
    energy := 1
    weight := .nan false
    box := [1, 0, 0, 0, 1, 0, 0, 0, 1]
    atom_symbol := [['H']]
    x := [0], y := [0], z := [0], fx := [0], fy := [0], fz := [0] }

/-- A header whose configuration weight is out of range. -/
def example_header_weight : List Char :=
  ("Lattice=\"1 0 0 0 1 0 0 0 1\" energy=1 weight=101 " ++
    "Properties=species:S:1:pos:R:3:force:R:3").toList

/-- A header whose `properties=` value names `species` and `force` but not `pos`. -/
def example_header_no_pos : List Char :=
  "Lattice=\"1 0 0 0 1 0 0 0 1\" energy=1 Properties=species:S:1:force:R:3".toList

/-- A header whose `properties=` value names neither `species` nor `pos`. -/
def example_header_no_species : List Char :=
  "Lattice=\"1 0 0 0 1 0 0 0 1\" energy=1 Properties=force:R:3".toList

/-! ## Splitting into accurate and inaccurate frames -/

/-- The extraction `input >> value` of one number.  The streams `energy_train.out`,
`force_train.out` and `virial_train.out` are the lists of their numbers; at the end of the
stream the extraction leaves `value` as it is. -/
def extract (input : List ℚ) (value : ℚ) : ℚ × List ℚ :=
  match input with
  | [] => (value, [])
  | v :: rest => (v, rest)

/-- Successive extractions `input >> a[0] >> a[1] >> ...` into the entries of an array:
the filled array and the rest of the stream. -/
def extract_values : List ℚ → List ℚ → List ℚ × List ℚ
  | [], input => ([], input)
  | a0 :: a, input =>
    ((extract input a0).1 :: (extract_values a (extract input a0).2).1,
      (extract_values a (extract input a0).2).2)

/-- The loop that computes `force_is_small` over the atoms `ns`: it stops with `false` at
the first atom whose squared force exceeds `400.0`.  A subscript outside a vector reads `0`. -/
def force_is_small (s : Structure) : List Nat → Bool
  | [] => true
  | n :: ns =>
    if s.fx.getD n 0 * s.fx.getD n 0 + s.fy.getD n 0 * s.fy.getD n 0 +
        s.fz.getD n 0 * s.fz.getD n 0 > 400 then false
    else force_is_small s ns

/-- The flag `is_considered` of a frame. -/
def is_considered (s : Structure) : Bool :=
  (decide (s.energy < 0) || decide (s.energy_weight < 1 / 2)) &&
    force_is_small s (List.range s.num_atom.toNat)

/-- The loop over the atoms that reads `force_train.out`, `count` atoms to go; `force` holds
`force_nep[0..2]` followed by `force_ref[0..2]`.  Returns `is_accurate` and the rest of the
stream. -/
def force_loop (force_threshold : ℚ) : Nat → List ℚ → List ℚ → Bool → Bool × List ℚ
  | 0, _, input_force, is_accurate => (is_accurate, input_force)
  | count + 1, force, input_force, is_accurate =>
    force_loop force_threshold count (extract_values force input_force).1
      (extract_values force input_force).2
      (if ((extract_values force input_force).1.getD 0 0 -
            (extract_values force input_force).1.getD 3 0) *
          ((extract_values force input_force).1.getD 0 0 -
            (extract_values force input_force).1.getD 3 0) +
          ((extract_values force input_force).1.getD 1 0 -
            (extract_values force input_force).1.getD 4 0) *
          ((extract_values force input_force).1.getD 1 0 -
            (extract_values force input_force).1.getD 4 0) +
          ((extract_values force input_force).1.getD 2 0 -
            (extract_values force input_force).1.getD 5 0) *
          ((extract_values force input_force).1.getD 2 0 -
            (extract_values force input_force).1.getD 5 0) >
          force_threshold * force_threshold then false
        else is_accurate)

/-- The loop `for (n = 0; n < 6; ++n)` that compares the virials, for `n` in `ns`; `virial`
holds `virial_nep[0..5]` followed by `virial_ref[0..5]`. -/
def virial_loop (virial_threshold : ℚ) (virial : List ℚ) : List Nat → Bool → Bool
  | [], is_accurate => is_accurate
  | n :: ns, is_accurate =>
    virial_loop virial_threshold virial ns
      (if |virial.getD n 0 - virial.getD (n + 6) 0| > virial_threshold then false
        else is_accurate)

/-- The part of one iteration of `split_into_accurate_and_inaccurate` that reads the three
streams and computes `is_accurate`: the flag and the rest of the three streams.  The arrays
`force_nep`, `force_ref`, `virial_nep`, `virial_ref`, which the source leaves uninitialised,
start at zero. -/
def classify (energy_threshold force_threshold virial_threshold : ℚ) (s : Structure)
    (input_energy input_force input_virial : List ℚ) : Bool × List ℚ × List ℚ × List ℚ :=
  let energy_nep := extract input_energy 0
  let energy_ref := extract energy_nep.2 0
  let is_accurate1 : Bool :=
    if s.energy_weight > 1 / 2 ∧ energy_threshold > 0 then
      if |energy_nep.1 - energy_ref.1| > energy_threshold then false else true
    else true
  let r := force_loop force_threshold s.num_atom.toNat (List.replicate 6 0) input_force
    is_accurate1
  let virial := extract_values (List.replicate 12 0) input_virial
  (virial_loop virial_threshold virial.1 (List.range 6) r.1, energy_ref.2, r.2, virial.2)

/-- The variables of `split_into_accurate_and_inaccurate`: the three input streams and, for
the two output files, the frames handed to `write_one_structure`. -/
structure SplitState where
  input_energy : List ℚ := []
  input_force : List ℚ := []
  input_virial : List ℚ := []
  accurate_xyz : List Structure := []
  inaccurate_xyz : List Structure := []
  num1 : Nat := 0
  num2 : Nat := 0

/-- One iteration of the loop of `split_into_accurate_and_inaccurate`. -/
def split_step (energy_threshold force_threshold virial_threshold : ℚ) (st : SplitState)
    (s : Structure) : SplitState :=
  let c := classify energy_threshold force_threshold virial_threshold s st.input_energy
    st.input_force st.input_virial
  if is_considered s then
    if c.1 then
      { st with
        input_energy := c.2.1, input_force := c.2.2.1, input_virial := c.2.2.2
        accurate_xyz := st.accurate_xyz ++ [s]
        num1 := st.num1 + 1 }
    else
      { st with
        input_energy := c.2.1, input_force := c.2.2.1, input_virial := c.2.2.2
        inaccurate_xyz := st.inaccurate_xyz ++ [s]
        num2 := st.num2 + 1 }
  else { st with input_energy := c.2.1, input_force := c.2.2.1, input_virial := c.2.2.2 }

/-- The loop `for (nc = 0; nc < structures.size(); ++nc)`. -/
def split_loop (energy_threshold force_threshold virial_threshold : ℚ) :
    List Structure → SplitState → SplitState
  | [], st => st
  | s :: rest, st =>
    split_loop energy_threshold force_threshold virial_threshold rest
      (split_step energy_threshold force_threshold virial_threshold st s)

/-- The function `split_into_accurate_and_inaccurate`; the three lists are the contents of
`energy_train.out`, `force_train.out` and `virial_train.out`. -/
def split_into_accurate_and_inaccurate (structures : List Structure)
    (energy_threshold force_threshold virial_threshold : ℚ)
    (input_energy input_force input_virial : List ℚ) : SplitState :=
  split_loop energy_threshold force_threshold virial_threshold structures
    { input_energy := input_energy, input_force := input_force, input_virial := input_virial }

/-! ### The accuracy test on the entries of one frame (used in the statements) -/

/-- The accuracy test on the stream entries of one frame: `pair` is its energy pair, `rows`
its rows of the force stream (six numbers for each atom), `block` its virial block (six
predicted values followed by six reference values). -/
def accurate_on (energy_threshold force_threshold virial_threshold : ℚ) (s : Structure)
    (pair rows block : List ℚ) : Bool :=
  (!(decide (s.energy_weight > 1 / 2) && decide (energy_threshold > 0)) ||
      decide (|pair.getD 0 0 - pair.getD 1 0| ≤ energy_threshold)) &&
    (List.range s.num_atom.toNat).all (fun n =>
      decide ((rows.getD (6 * n) 0 - rows.getD (6 * n + 3) 0) *
          (rows.getD (6 * n) 0 - rows.getD (6 * n + 3) 0) +
        (rows.getD (6 * n + 1) 0 - rows.getD (6 * n + 4) 0) *
          (rows.getD (6 * n + 1) 0 - rows.getD (6 * n + 4) 0) +
        (rows.getD (6 * n + 2) 0 - rows.getD (6 * n + 5) 0) *
          (rows.getD (6 * n + 2) 0 - rows.getD (6 * n + 5) 0) ≤
        force_threshold * force_threshold)) &&
    (List.range 6).all (fun n =>
      decide (|block.getD n 0 - block.getD (n + 6) 0| ≤ virial_threshold))

/-- The number of atoms of the frames before frame `i`. -/
def atoms_before (structures : List Structure) (i : Nat) : Nat :=
  ((structures.take i).map (fun s => s.num_atom.toNat)).sum

/-- The accuracy test of frame `i` on its own entries of the three streams: the `i`-th
energy pair, the force rows after those of the frames before it, the `i`-th virial block. -/
def accurate_at (energy_threshold force_threshold virial_threshold : ℚ)
    (structures : List Structure) (input_energy input_force input_virial : List ℚ)
    (i : Nat) : Bool :=
  accurate_on energy_threshold force_threshold virial_threshold (structures.getD i default)
    ((input_energy.drop (2 * i)).take 2)
    ((input_force.drop (6 * atoms_before structures i)).take
      (6 * (structures.getD i default).num_atom.toNat))
    ((input_virial.drop (12 * i)).take 12)

/-- A frame whose only atom has a squared force of exactly `400`. -/
def example_frame_400 : Structure :=
  { num_atom := 1
    energy := -1
    weight := 1
    box := [10, 0, 0, 0, 10, 0, 0, 0, 10]
    atom_symbol := [['S', 'i']]
    x := [0], y := [0], z := [0]
    fx := [20], fy := [0], fz := [0] }

/-! ### Numeric tokens that the conversions reject (used in the statements) -/

/-- The text of a numeric token after its leading whitespace and optional sign. -/
def unsigned_part (token : List Char) : List Char :=
  if (token.dropWhile is_space).head? == some '-' ||
      (token.dropWhile is_space).head? == some '+' then (token.dropWhile is_space).tail
  else token.dropWhile is_space

/-- The text begins with a digit. -/
def digit_first (s : List Char) : Bool :=
  match s with
  | [] => false
  | c :: _ => is_digit c

/-- The token holds no real number at its start: after leading whitespace and an optional
sign it begins neither with a digit, nor with a point followed by a digit, nor with `inf` or
`nan` in any letter case. -/
def no_double (token : List Char) : Bool :=
  !digit_first (unsigned_part token) &&
    !((unsigned_part token).head? == some '.' && digit_first (unsigned_part token).tail) &&
    !((((unsigned_part token).take 3).map Char.toLower) == ['i', 'n', 'f']) &&
    !((((unsigned_part token).take 3).map Char.toLower) == ['n', 'a', 'n'])

/-- The token begins with a floating literal whose value has a range error. -/
def double_out_of_range (token : List Char) : Bool :=
  match literal (unsigned_part token) with
  | none => false
  | some v => range_error v

/-- The token is one on which `std::stod` throws: it holds no real number at its start, or
the literal at its start has a range error. -/
def rejected_double (token : List Char) : Prop :=
  no_double token = true ∨ double_out_of_range token = true

/-- The token holds no integer at its start: after leading whitespace and an optional sign
it does not begin with a digit. -/
def no_int (token : List Char) : Bool := !digit_first (unsigned_part token)

/-- The token begins with a decimal integer outside the range of `int`. -/
def int_out_of_range (token : List Char) : Bool :=
  digit_first (unsigned_part token) &&
    (if (token.dropWhile is_space).head? == some '-'
      then decide (2147483648 < digits_value ((unsigned_part token).takeWhile is_digit))
      else decide (2147483647 < digits_value ((unsigned_part token).takeWhile is_digit)))

/-- The token is one on which `std::stoi` throws: it holds no integer at its start, or the
integer at its start is outside the range of `int`. -/
def rejected_int (token : List Char) : Prop :=
  no_int token = true ∨ int_out_of_range token = true

/-- A character that is no part of any number: not whitespace, not a digit, a sign or a
point, and not one of the letters of a hexadecimal literal, an exponent, `infinity` or
`nan`. -/
def no_number_char (c : Char) : Bool :=
  !is_space c && !is_digit c && !(c == '+') && !(c == '-') && !(c == '.') &&
    !(List.contains ['a', 'b', 'c', 'd', 'e', 'f', 'i', 'n', 'p', 't', 'x', 'y'] c.toLower)

/-- The string handed to the conversion for component `m` of a matrix: the token without the
key and the opening quote for `m = 0`, without its last character for `m = 8`. -/
def component_text (key_len m : Nat) (token : List Char) : Except Fatal (List Char) :=
  substr token (if m = 0 then key_len + 1 else 0)
    (if m = 8 then token.length - 1 else token.length)

/-- Component `m` of the matrix that starts at the head of `tokens` is rejected by the
conversion. -/
def rejected_component (key_len : Nat) (tokens : List (List Char)) (m : Nat) : Prop :=
  ∃ t u, tokens[m]? = some t ∧ component_text key_len m t = .ok u ∧ rejected_double u

/-- The lower-cased header holds, at a place where `read_one_structure` converts a number, a
token that the conversion rejects: the value of an `energy_weight=`, `energy=` or `weight=`
token, a component of a `lattice=` or `virial=` matrix, a component of a `stress=` matrix
when there is no `virial=` token, or a width of a `properties=` value. -/
inductive BadHeaderNumber (tokens : List (List Char)) : Prop
  | energy_weight (t : List Char) (hmem : t ∈ tokens)
      (hkey : starts_with t energy_weight_string = true)
      (hbad : rejected_double (t.drop energy_weight_string.length)) : BadHeaderNumber tokens
  | energy (t : List Char) (hmem : t ∈ tokens) (hkey : starts_with t energy_string = true)
      (hbad : rejected_double (t.drop energy_string.length)) : BadHeaderNumber tokens
  | weight (t : List Char) (hmem : t ∈ tokens) (hkey : starts_with t weight_string = true)
      (hbad : rejected_double (t.drop weight_string.length)) : BadHeaderNumber tokens
  | lattice (pre : List (List Char)) (tok : List Char) (post : List (List Char)) (m : Nat)
      (hsplit : tokens = pre ++ tok :: post) (hkey : starts_with tok lattice_string = true)
      (hm : m < 9) (hbad : rejected_component lattice_string.length (tok :: post) m) :
      BadHeaderNumber tokens
  | virial (pre : List (List Char)) (tok : List Char) (post : List (List Char)) (m : Nat)
      (hsplit : tokens = pre ++ tok :: post) (hkey : starts_with tok virial_string = true)
      (hm : m < 9) (hbad : rejected_component virial_string.length (tok :: post) m) :
      BadHeaderNumber tokens
  | stress (pre : List (List Char)) (tok : List Char) (post : List (List Char)) (m : Nat)
      (hsplit : tokens = pre ++ tok :: post) (hkey : starts_with tok stress_string = true)
      (hm : m < 9) (hbad : rejected_component stress_string.length (tok :: post) m)
      (hno : skips virial_string tokens) : BadHeaderNumber tokens
  | width (tok : List Char) (k : Nat) (hmem : tok ∈ tokens)
      (hkey : starts_with tok properties_string = true)
      (hk : k < (sub_tokens_of tok).length / 3)
      (hbad : rejected_int ((sub_tokens_of tok).getD (k * 3 + 2) [])) : BadHeaderNumber tokens

/-- The tokens of an atom line hold, at a place where `read_force` converts a number, a
token that the conversion rejects: a position component, or a force component when there
are more than four columns. -/
inductive BadAtomNumber (c : Columns) (tokens : List (List Char)) : Prop
  | pos (j : Nat) (t : List Char) (hj : j < 3)
      (ht : token_at tokens ((j : Int) + c.pos_offset) = .ok t)
      (hbad : rejected_double t) : BadAtomNumber c tokens
  | force (j : Nat) (t : List Char) (hcol : 4 < c.num_columns) (hj : j < 3)
      (ht : token_at tokens ((j : Int) + c.force_offset) = .ok t)
      (hbad : rejected_double t) : BadAtomNumber c tokens

/-- The stream after `k` calls of `std::getline`. -/
def skip_lines : Nat → List Char → List Char
  | 0, input => input
  | k + 1, input => skip_lines k (getline input).2

/-- A header whose energy is followed by letters. -/
def example_header_trailing : List Char :=
  ("Lattice=\"1 0 0 0 1 0 0 0 1\" energy=1.5abc " ++
    "Properties=species:S:1:pos:R:3:force:R:3").toList

/-- A header whose energy does not begin with a number. -/
def example_header_bad_energy : List Char :=
  ("Lattice=\"1 0 0 0 1 0 0 0 1\" energy=abc " ++
    "Properties=species:S:1:pos:R:3:force:R:3").toList

/-- The header of `example_decoded`, without virial and stress. -/
def example_header_plain : List Char :=
  ("Lattice=\"1 0 0 0 1 0 0 0 1\" energy=1 " ++
    "Properties=species:S:1:pos:R:3:force:R:3").toList

/-! ### Frames as `read` builds them (used in the statements and proofs) -/

/-- What `read` establishes for every frame it returns: a positive atom count, per-atom
vectors of that length, species symbols that are non-empty and free of whitespace, and a
structure id free of whitespace. -/
structure Decoded (s : Structure) : Prop where
  num_atom_pos : 1 ≤ s.num_atom
  len_symbol : s.atom_symbol.length = s.num_atom.toNat
  len_x : s.x.length = s.num_atom.toNat
  len_y : s.y.length = s.num_atom.toNat
  len_z : s.z.length = s.num_atom.toNat
  len_fx : s.fx.length = s.num_atom.toNat
  len_fy : s.fy.length = s.num_atom.toNat
  len_fz : s.fz.length = s.num_atom.toNat
  symbols : ∀ a ∈ s.atom_symbol, a ≠ [] ∧ no_space a = true
  sid_no_space : s.has_sid = true → no_space s.sid = true

/-! ### The triples of a `properties=` value (used in the statements) -/

/-- The name of triple `k` of a `properties=` token. -/
def field_name (token : List Char) (k : Nat) : List Char :=
  (sub_tokens_of token).getD (k * 3) []

/-- The text of the width of triple `k` of a `properties=` token. -/
def field_width (token : List Char) (k : Nat) : List Char :=
  (sub_tokens_of token).getD (k * 3 + 2) []

/-- The sum of the widths of the triples before triple `p`. -/
def widths_before (w : Nat → Int) (p : Nat) : Int := ((List.range p).map w).sum

/-- A `Properties=` token whose first three triples have widths that add up to `2 ^ 32`. -/
def example_wide_properties : List Char :=
  "Properties=a:R:2147483647:b:R:2147483647:c:R:2:species:S:1:pos:R:3:force:R:3".toList

/-- The widths of the six triples of `example_wide_properties`. -/
def example_wide_widths (k : Nat) : Int :=
  [2147483647, 2147483647, 2, 1, 3, 3].getD k 0

/-- A frame text whose header holds `example_wide_properties`. -/
def example_wide_input : List Char :=
  "1\nLattice=\"1 0 0 0 1 0 0 0 1\" energy=1 ".toList ++ example_wide_properties ++
    "\nH 0 0 0 0 0 0\n".toList

/-- The frame with one atom at the origin of a unit cell, energy `1` and no force. -/
def example_lattice_frame_unit : Structure :=
  { num_atom := 1
    energy := 1
    weight := 1
    box := [1, 0, 0, 0, 1, 0, 0, 0, 1]
    atom_symbol := [['H']]
    x := [0], y := [0], z := [0], fx := [0], fy := [0], fz := [0] }

/-- Two atom lines in the layout `species:S:1:pos:R:3:force:R:3`. -/
def example_two_atoms : List Char := "H 0 0 0 1 2 3\nO 1 1 1 0 0 -1\n".toList

/-- The frame that `read_force` builds from `example_two_atoms`. -/
def example_two_atoms_frame : Structure :=
  { num_atom := 2
    atom_symbol := [['H'], ['O']]
    x := [0, 1], y := [0, 1], z := [0, 1]
    fx := [1, 0], fy := [2, 0], fz := [3, -1] }

/-! ### A header line with a lattice item (used in the statements) -/

/-- A header line that holds a lattice item between other items: the tokens `pre`, each
followed by one space; the key, `=`, the opening quote, the first number `n0`, the further
numbers `ns` each preceded by its separator, and the closing quote, with the runs of blanks
`b1`, `b2` around `=` and `b3`, `b4` just inside the quotes; then the tokens `post`, each
preceded by one space. -/
def lattice_header (pre : List (List Char)) (key b1 b2 b3 b4 n0 : List Char)
    (ns : List (List Char × List Char)) (post : List (List Char)) : List Char :=
  words_sp pre ++ (key ++ (b1 ++ ('=' :: (b2 ++ ('"' :: (b3 ++ (n0 ++ (join_words ns ++
    (b4 ++ ('"' :: sep_words post))))))))))

/-- The header line `lattice_header` after normalisation. -/
def lattice_header_normal (pre : List (List Char)) (key n0 : List Char)
    (ns : List (List Char × List Char)) (post : List (List Char)) : List Char :=
  words_sp pre ++ (key ++ ('=' :: '"' :: (n0 ++ (join_words ns ++
    ('"' :: sep_words post)))))

/-- The numbers after the first one of the lattice item of `example_lattice_input`, each
with the blanks before it. -/
def example_lattice_numbers : List (List Char × List Char) :=
  [([' '], ['0']), ([' ', ' '], ['0']), ([' '], ['0']), (['\t'], ['1', '0']), ([' '], ['0']),
    ([' '], ['0']), ([' '], ['0']), ([' '], ['1', 'E', '1'])]

/-- A frame text whose header holds the lattice item `LATTICE = " 10 0 0 0 10 0 0 0 1E1 "`
between an energy and the properties. -/
def example_lattice_input : List Char :=
  lattice_header ["energy=-1".toList] "LATTICE".toList [' '] [' ', '\t'] [' '] ['\t']
      ['1', '0'] example_lattice_numbers
      ["Properties=species:S:1:pos:R:3:force:R:3".toList] ++
    '\n' :: example_atom_line

/-- The frame decoded from `example_lattice_input`. -/
def example_lattice_frame : Structure :=
  { num_atom := 1
    energy := -1
    weight := 1
    box := [10, 0, 0, 0, 10, 0, 0, 0, 10]
    atom_symbol := [['H']]
    x := [0], y := [0], z := [0], fx := [0], fy := [0], fz := [0] }
/-! ## Subsampling: invariants of the main loop -/

theorem distance_square_comm (dim : Nat) (a b : List ℚ) :
    distance_square dim a b = distance_square dim b a := by
  unfold distance_square
  congr 1
  funext acc d
  ring

theorem foldl_sq_nonneg (a b : List ℚ) (l : List Nat) (acc : ℚ) (h : 0 ≤ acc) :
    0 ≤ l.foldl
      (fun acc d => acc + (a.getD d 0 - b.getD d 0) * (a.getD d 0 - b.getD d 0)) acc := by
  induction l generalizing acc with
  | nil => simpa using h
  | cons d l ih =>
    simp only [List.foldl_cons]
    exact ih _ (add_nonneg h (mul_self_nonneg _))

theorem distance_square_nonneg (dim : Nat) (a b : List ℚ) : 0 ≤ distance_square dim a b :=
  foldl_sq_nonneg a b _ 0 le_rfl

theorem to_be_selected_iff (tau : ℚ) (dim : Nat) (s : Structure) (l : List Structure) :
    to_be_selected tau dim s l = true ↔ ∀ m ∈ l, tau ≤ distance_square dim s.q m.q := by
  induction l with
  | nil => simp [to_be_selected]
  | cons m rest ih =>
    unfold to_be_selected
    by_cases h : distance_square dim s.q m.q < tau
    · simp only [h, if_true, List.mem_cons, forall_eq_or_imp]
      constructor
      · intro hf; cases hf
      · intro hf; exact absurd hf.1 (not_le.mpr h)
    · simp only [h, if_false, List.mem_cons, forall_eq_or_imp, ih]
      exact ⟨fun hr => ⟨not_lt.mp h, hr⟩, fun hr => hr.2⟩

theorem to_be_selected_false_iff (tau : ℚ) (dim : Nat) (s : Structure) (l : List Structure) :
    to_be_selected tau dim s l = false ↔ ∃ m ∈ l, distance_square dim s.q m.q < tau := by
  rw [← Bool.not_eq_true, to_be_selected_iff]
  push_neg
  rfl

theorem FpsInv.lt_of_mem {tau : ℚ} {dim nc : Nat} {st : FpsState} (h : FpsInv tau dim nc st)
    {i : Nat} (hi : i ∈ st.indices_selected ∨ i ∈ st.indices_not_selected) : i < nc := by
  have := h.perm.subset (List.mem_append.mpr hi)
  simpa using this

theorem getD_append_singleton_lt (l : List Structure) (s : Structure) (i : Nat)
    (h : i < l.length) : (l ++ [s]).getD i default = l.getD i default := by
  simp [List.getD_eq_getElem?_getD, List.getElem?_append_left h]

theorem getD_append_singleton_self (l : List Structure) (s : Structure) :
    (l ++ [s]).getD l.length default = s := by
  simp [List.getD_eq_getElem?_getD]

theorem fpsInv_init (tau : ℚ) (dim : Nat) (input : List ℚ) :
    FpsInv tau dim 0 { input_descriptor := input } where
  len := rfl
  sel_eq := rfl
  perm := by simp
  num1_eq := rfl
  num2_eq := rfl
  zero_sel := fun h => absurd h (lt_irrefl 0)
  sel_sorted := List.Pairwise.nil
  notsel_sorted := List.Pairwise.nil
  far := by intro i hi; cases hi
  near := by intro i hi; cases hi

theorem fpsInv_select {tau : ℚ} {dim nc : Nat} {st : FpsState} (h : FpsInv tau dim nc st)
    (s : Structure) (input : List ℚ)
    (hs : ∀ m ∈ st.structures_selected, tau ≤ distance_square dim s.q m.q) :
    FpsInv tau dim (nc + 1) (fps_select st nc s input) := by
  have hget : ∀ i, i ∈ st.indices_selected ∨ i ∈ st.indices_not_selected →
      (fps_select st nc s input).descriptor i = st.descriptor i := by
    intro i hi
    have hlt : i < st.structures.length := by rw [h.len]; exact h.lt_of_mem hi
    show ((st.structures ++ [s]).getD i default).q = (st.structures.getD i default).q
    rw [getD_append_singleton_lt _ _ _ hlt]
  have hnew : (fps_select st nc s input).descriptor nc = s.q := by
    have := getD_append_singleton_self st.structures s
    rw [h.len] at this
    show ((st.structures ++ [s]).getD nc default).q = s.q
    rw [this]
  have hmem : ∀ i ∈ st.indices_selected, tau ≤ distance_square dim s.q (st.descriptor i) := by
    intro i hi
    apply hs
    rw [h.sel_eq]
    exact List.mem_map.mpr ⟨i, hi, rfl⟩
  refine ⟨?_, ?_, ?_, ?_, ?_, ?_, ?_, ?_, ?_, ?_⟩
  · simp [fps_select, h.len]
  · have e1 : ∀ i ∈ st.indices_selected,
        (st.structures ++ [s]).getD i default = st.structures.getD i default := by
      intro i hi
      exact getD_append_singleton_lt _ _ _ (by rw [h.len]; exact h.lt_of_mem (Or.inl hi))
    have e2 := getD_append_singleton_self st.structures s
    rw [h.len] at e2
    simp only [fps_select, List.map_append, List.map_cons, List.map_nil, e2]
    rw [h.sel_eq, List.map_congr_left e1]
  · simp only [fps_select, List.range_succ]
    have : (st.indices_selected ++ [nc] ++ st.indices_not_selected).Perm
        (st.indices_selected ++ st.indices_not_selected ++ [nc]) := by
      simp only [List.append_assoc]
      exact List.Perm.append_left _ List.perm_append_comm
    exact this.trans (h.perm.append_right _)
  · simp [fps_select, h.num1_eq]
  · simp [fps_select, h.num2_eq]
  · intro _
    by_cases h0 : 0 < nc
    · simp [fps_select, h.zero_sel h0]
    · have : nc = 0 := by omega
      simp [fps_select, this]
  · simp only [fps_select, List.pairwise_append, List.pairwise_singleton, List.mem_singleton]
    exact ⟨h.sel_sorted, trivial, fun a ha b hb => hb ▸ h.lt_of_mem (Or.inl ha)⟩
  · exact h.notsel_sorted
  · intro i hi j hj hij
    simp only [fps_select, List.mem_append, List.mem_singleton] at hi hj
    rcases hi with hi | hi <;> rcases hj with hj | hj
    · rw [hget i (Or.inl hi), hget j (Or.inl hj)]
      exact h.far i hi j hj hij
    · subst hj
      rw [hget i (Or.inl hi), hnew, distance_square_comm]
      exact hmem i hi
    · subst hi
      rw [hget j (Or.inl hj), hnew]
      exact hmem j hj
    · exact absurd (hi.trans hj.symm) hij
  · intro j hj
    have hj1 : j ∈ st.indices_not_selected := by simpa [fps_select] using hj
    obtain ⟨i, hi, hlt, hd⟩ := h.near j hj1
    refine ⟨i, ?_, hlt, ?_⟩
    · simp [fps_select, hi]
    · rw [hget j (Or.inr hj1), hget i (Or.inl hi)]
      exact hd

theorem fpsInv_reject {tau : ℚ} {dim nc : Nat} {st : FpsState} (h : FpsInv tau dim nc st)
    (s : Structure) (input : List ℚ)
    (hs : ∃ m ∈ st.structures_selected, distance_square dim s.q m.q < tau) :
    FpsInv tau dim (nc + 1) (fps_reject st nc s input) := by
  have hget : ∀ i, i ∈ st.indices_selected ∨ i ∈ st.indices_not_selected →
      (fps_reject st nc s input).descriptor i = st.descriptor i := by
    intro i hi
    have hlt : i < st.structures.length := by rw [h.len]; exact h.lt_of_mem hi
    show ((st.structures ++ [s]).getD i default).q = (st.structures.getD i default).q
    rw [getD_append_singleton_lt _ _ _ hlt]
  have hnew : (fps_reject st nc s input).descriptor nc = s.q := by
    have := getD_append_singleton_self st.structures s
    rw [h.len] at this
    show ((st.structures ++ [s]).getD nc default).q = s.q
    rw [this]
  refine ⟨?_, ?_, ?_, ?_, ?_, ?_, ?_, ?_, ?_, ?_⟩
  · simp [fps_reject, h.len]
  · have e1 : ∀ i ∈ st.indices_selected,
        (st.structures ++ [s]).getD i default = st.structures.getD i default := by
      intro i hi
      exact getD_append_singleton_lt _ _ _ (by rw [h.len]; exact h.lt_of_mem (Or.inl hi))
    simp only [fps_reject]
    rw [h.sel_eq, List.map_congr_left e1]
  · simp only [fps_reject, List.range_succ, ← List.append_assoc]
    exact h.perm.append_right _
  · simp [fps_reject, h.num1_eq]
  · simp [fps_reject, h.num2_eq]
  · intro _
    obtain ⟨m, hm, _⟩ := hs
    rw [h.sel_eq] at hm
    obtain ⟨i, hi, _⟩ := List.mem_map.mp hm
    have hlt := h.lt_of_mem (Or.inl hi)
    exact h.zero_sel (by omega)
  · exact h.sel_sorted
  · simp only [fps_reject, List.pairwise_append, List.pairwise_singleton, List.mem_singleton]
    exact ⟨h.notsel_sorted, trivial, fun a ha b hb => hb ▸ h.lt_of_mem (Or.inr ha)⟩
  · intro i hi j hj hij
    have hi1 : i ∈ st.indices_selected := by simpa [fps_reject] using hi
    have hj1 : j ∈ st.indices_selected := by simpa [fps_reject] using hj
    rw [hget i (Or.inl hi1), hget j (Or.inl hj1)]
    exact h.far i hi1 j hj1 hij
  · intro j hj
    simp only [fps_reject, List.mem_append, List.mem_singleton] at hj
    rcases hj with hj | hj
    · obtain ⟨i, hi, hlt, hd⟩ := h.near j hj
      refine ⟨i, by simpa [fps_reject] using hi, hlt, ?_⟩
      rw [hget j (Or.inr hj), hget i (Or.inl hi)]
      exact hd
    · subst hj
      obtain ⟨m, hm, hd⟩ := hs
      rw [h.sel_eq] at hm
      obtain ⟨i, hi, rfl⟩ := List.mem_map.mp hm
      refine ⟨i, by simpa [fps_reject] using hi, h.lt_of_mem (Or.inl hi), ?_⟩
      rw [hnew, hget i (Or.inl hi)]
      exact hd

theorem fpsInv_step {tau : ℚ} {dim nc : Nat} {st : FpsState} (h : FpsInv tau dim nc st)
    (s : Structure) : FpsInv tau dim (nc + 1) (fps_step tau dim st nc s) := by
  unfold fps_step
  simp only
  split
  · rename_i h0
    apply fpsInv_select h
    intro m hm
    rw [h.sel_eq] at hm
    obtain ⟨i, hi, _⟩ := List.mem_map.mp hm
    have := h.lt_of_mem (Or.inl hi)
    omega
  · split
    · rename_i hsel
      exact fpsInv_select h _ _ ((to_be_selected_iff _ _ _ _).mp hsel)
    · rename_i hsel
      exact fpsInv_reject h _ _
        ((to_be_selected_false_iff _ _ _ _).mp (Bool.not_eq_true _ ▸ hsel))

theorem fpsInv_loop {tau : ℚ} {dim : Nat} (l : List Structure) {nc : Nat} {st : FpsState}
    (h : FpsInv tau dim nc st) : FpsInv tau dim (nc + l.length) (fps_loop tau dim nc l st) := by
  induction l generalizing nc st with
  | nil => simpa [fps_loop] using h
  | cons s rest ih =>
    have := ih (fpsInv_step h s)
    simp only [fps_loop, List.length_cons]
    rw [show nc + (rest.length + 1) = nc + 1 + rest.length by omega]
    exact this

theorem fpsInv_fps (structures : List Structure) (input : List ℚ) (tau : ℚ) (dim : Nat) :
    FpsInv tau dim structures.length (fps structures input tau dim) := by
  have := fpsInv_loop structures (fpsInv_init tau dim input)
  simpa [fps] using this

/-! ## Subsampling: the claims -/

/-- C1: any two distinct frames that `fps` selects have squared Euclidean descriptor distance
at least the threshold `distance_square_min`. -/
theorem fps_selected_pairwise_far (structures : List Structure) (input : List ℚ) (tau : ℚ)
    (dim i j : Nat) (hi : i ∈ (fps structures input tau dim).indices_selected)
    (hj : j ∈ (fps structures input tau dim).indices_selected) (hij : i ≠ j) :
    tau ≤ distance_square dim ((fps structures input tau dim).descriptor i)
      ((fps structures input tau dim).descriptor j) :=
  (fpsInv_fps structures input tau dim).far i hi j hj hij

/-- C2: the selected and the rejected index lists of `fps` together hold each index
`0 .. n-1` exactly once and nothing else, and `num1 + num2 = n`. -/
theorem fps_indices_partition (structures : List Structure) (input : List ℚ) (tau : ℚ)
    (dim : Nat) :
    ((fps structures input tau dim).indices_selected ++
        (fps structures input tau dim).indices_not_selected).Perm
      (List.range structures.length) ∧
    (∀ i, ((fps structures input tau dim).indices_selected ++
        (fps structures input tau dim).indices_not_selected).count i =
      if i < structures.length then 1 else 0) ∧
    (fps structures input tau dim).num1 = (fps structures input tau dim).indices_selected.length ∧
    (fps structures input tau dim).num2 =
      (fps structures input tau dim).indices_not_selected.length ∧
    (fps structures input tau dim).num1 + (fps structures input tau dim).num2 =
      structures.length := by
  have h := fpsInv_fps structures input tau dim
  refine ⟨h.perm, ?_, h.num1_eq, h.num2_eq, ?_⟩
  · intro i
    rw [h.perm.count_eq]
    by_cases hi : i < structures.length
    · simp [hi, List.count_eq_one_of_mem (List.nodup_range _) (List.mem_range.mpr hi)]
    · simp [hi, List.count_eq_zero]
  · have := h.perm.length_eq
    simp only [List.length_append, List.length_range] at this
    rw [h.num1_eq, h.num2_eq]
    exact this

/-- C3: with threshold `0` every frame is selected and none rejected, whatever the
descriptors; and for every threshold frame `0` of a non-empty dataset is selected. -/
theorem fps_zero_threshold_selects_all (structures : List Structure) (input : List ℚ)
    (dim : Nat) :
    (fps structures input 0 dim).indices_selected = List.range structures.length ∧
    (fps structures input 0 dim).indices_not_selected = [] ∧
    ∀ (s : Structure) (rest : List Structure) (tau : ℚ),
      0 ∈ (fps (s :: rest) input tau dim).indices_selected := by
  have h := fpsInv_fps structures input 0 dim
  have hnil : (fps structures input 0 dim).indices_not_selected = [] := by
    apply List.eq_nil_iff_forall_not_mem.mpr
    intro j hj
    obtain ⟨i, _, _, hd⟩ := h.near j hj
    exact absurd hd (not_lt.mpr (distance_square_nonneg _ _ _))
  refine ⟨?_, hnil, ?_⟩
  · have hp := h.perm
    rw [hnil, List.append_nil] at hp
    have hs1 : ((fps structures input 0 dim).indices_selected).Sorted (· ≤ ·) :=
      h.sel_sorted.imp (fun hab => le_of_lt hab)
    have hs2 : (List.range structures.length).Sorted (· ≤ ·) :=
      (List.pairwise_lt_range _).imp (fun hab => le_of_lt hab)
    exact List.eq_of_perm_of_sorted hp hs1 hs2
  · intro s rest tau
    exact (fpsInv_fps (s :: rest) input tau dim).zero_sel (by simp)

/-- Witness of C1: frames with descriptors `0, 1, 2` and threshold `4`. -/
theorem fps_selected_pairwise_far_witness :
    0 ∈ (fps [{}, {}, {}] [0, 1, 2] 4 1).indices_selected ∧
    2 ∈ (fps [{}, {}, {}] [0, 1, 2] 4 1).indices_selected ∧
    (4 : ℚ) ≤ distance_square 1 ((fps [{}, {}, {}] [0, 1, 2] 4 1).descriptor 0)
      ((fps [{}, {}, {}] [0, 1, 2] 4 1).descriptor 2) :=
  ⟨by decide!, by decide!,
    fps_selected_pairwise_far [{}, {}, {}] [0, 1, 2] 4 1 0 2 (by decide!) (by decide!)
      (by decide)⟩

/-- C4: for a non-empty dataset and a threshold strictly larger than every pairwise squared
descriptor distance, `fps` selects exactly frame `0` and rejects frames `1 .. n-1`. -/
theorem fps_large_threshold_selects_first (structures : List Structure) (input : List ℚ)
    (tau : ℚ) (dim : Nat) (hne : structures ≠ [])
    (hclose : ∀ a ∈ (fps structures input tau dim).structures,
      ∀ b ∈ (fps structures input tau dim).structures, distance_square dim a.q b.q < tau) :
    (fps structures input tau dim).indices_selected = [0] ∧
    (fps structures input tau dim).indices_not_selected =
      List.range' 1 (structures.length - 1) := by
  have h := fpsInv_fps structures input tau dim
  have hpos : 0 < structures.length := List.length_pos.mpr hne
  have hmem : ∀ i, i ∈ (fps structures input tau dim).indices_selected →
      (fps structures input tau dim).structures.getD i default ∈
        (fps structures input tau dim).structures := by
    intro i hi
    have hlt : i < (fps structures input tau dim).structures.length := by
      rw [h.len]; exact h.lt_of_mem (Or.inl hi)
    rw [List.getD_eq_getElem _ _ hlt]
    exact List.getElem_mem _
  have hall : ∀ i ∈ (fps structures input tau dim).indices_selected, i = 0 := by
    intro i hi
    by_contra hne0
    have h1 := h.far i hi 0 (h.zero_sel hpos) hne0
    have h2 := hclose _ (hmem i hi) _ (hmem 0 (h.zero_sel hpos))
    exact absurd h2 (not_lt.mpr h1)
  have hsel : (fps structures input tau dim).indices_selected = [0] := by
    have h0 := h.zero_sel hpos
    have hs := h.sel_sorted
    match hm : (fps structures input tau dim).indices_selected with
    | [] => rw [hm] at h0; cases h0
    | [a] =>
      rw [hm] at hall
      rw [hall a (by simp)]
    | a :: b :: l =>
      rw [hm] at hall hs
      have ha := hall a (by simp)
      have hb := hall b (by simp)
      have := (List.pairwise_cons.mp hs).1 b (by simp)
      omega
  refine ⟨hsel, ?_⟩
  have hp := h.perm
  rw [hsel] at hp
  have hr : List.range structures.length = 0 :: List.range' 1 (structures.length - 1) := by
    obtain ⟨k, hk⟩ : ∃ k, structures.length = k + 1 := ⟨structures.length - 1, by omega⟩
    rw [hk, List.range_eq_range']
    simp [List.range'_succ]
  rw [hr] at hp
  have hp2 := (List.perm_cons 0).mp hp
  have hs1 : ((fps structures input tau dim).indices_not_selected).Sorted (· ≤ ·) :=
    h.notsel_sorted.imp (fun hab => le_of_lt hab)
  have hs2 : (List.range' 1 (structures.length - 1)).Sorted (· ≤ ·) :=
    (List.pairwise_lt_range' 1 _).imp (fun hab => le_of_lt hab)
  exact List.eq_of_perm_of_sorted hp2 hs1 hs2

/-- Witness of C4: descriptors `0, 1, 2` in one dimension, threshold `5`. -/
theorem fps_large_threshold_selects_first_witness :
    (fps [{}, {}, {}] [0, 1, 2] 5 1).indices_selected = [0] ∧
    (fps [{}, {}, {}] [0, 1, 2] 5 1).indices_not_selected = List.range' 1 (3 - 1) :=
  fps_large_threshold_selects_first [{}, {}, {}] [0, 1, 2] 5 1 (by decide) (by decide!)

/-- C5: `fps` is order-dependent: the same three frames (descriptors `0, 1, 2`, threshold `4`)
presented in two orders give different selected sets. -/
theorem fps_order_dependent :
    ∃ (l1 l2 : List Structure) (d1 d2 : List ℚ) (tau : ℚ) (dim : Nat),
      l1.Perm l2 ∧
      (fps l1 d1 tau dim).structures.Perm (fps l2 d2 tau dim).structures ∧
      ∃ s, s ∈ (fps l1 d1 tau dim).structures_selected ∧
        s ∉ (fps l2 d2 tau dim).structures_selected :=
  ⟨[{ sid := ['a'] }, { sid := ['b'] }, { sid := ['c'] }],
   [{ sid := ['b'] }, { sid := ['a'] }, { sid := ['c'] }],
   [0, 1, 2], [1, 0, 2], 4, 1, by decide!, by decide!,
   { sid := ['a'], q := [0] }, by decide!, by decide!⟩

/-! ## Header normalisation: the marking loops -/

theorem mark_backward_iff (line : List Char) (j : Nat) (ind : Nat → Bool) (i : Nat) :
    mark_backward line j ind i = true ↔ ind i = true ∨ runL line j i := by
  induction j generalizing ind with
  | zero =>
    simp only [mark_backward, runL]
    constructor
    · exact Or.inl
    · rintro (h | ⟨h, _⟩)
      · exact h
      · omega
  | succ j ih =>
    unfold mark_backward
    by_cases hb : is_blank (line.getD j 'a') = true
    · simp only [hb, if_true, ih]
      constructor
      · rintro (h | ⟨h1, h2⟩)
        · by_cases hij : i = j
          · right
            subst hij
            exact ⟨by omega, fun t ht1 ht2 => by
              have : t = i := by omega
              rw [this]; exact hb⟩
          · rw [Function.update_noteq hij] at h
            exact Or.inl h
        · right
          refine ⟨by omega, fun t ht1 ht2 => ?_⟩
          by_cases htj : t = j
          · rw [htj]; exact hb
          · exact h2 t ht1 (by omega)
      · rintro (h | ⟨h1, h2⟩)
        · by_cases hij : i = j
          · left; rw [hij]; simp
          · left; rw [Function.update_noteq hij]; exact h
        · by_cases hij : i = j
          · left; rw [hij]; simp
          · right
            exact ⟨by omega, fun t ht1 ht2 => h2 t ht1 (by omega)⟩
    · simp only [hb, Bool.false_eq_true, if_false]
      constructor
      · exact Or.inl
      · rintro (h | ⟨h1, h2⟩)
        · exact h
        · exact absurd (h2 j (by omega) (by omega)) hb

theorem mark_forward_iff (line : List Char) (rest : List Char) (i0 : Nat) (ind : Nat → Bool)
    (hrest : rest = line.drop i0) (i : Nat) :
    mark_forward rest i0 ind i = true ↔
      ind i = true ∨ (i0 ≤ i ∧ i < line.length ∧
        ∀ t, i0 ≤ t → t ≤ i → is_blank (line.getD t 'a') = true) := by
  induction rest generalizing i0 ind with
  | nil =>
    have hlen : line.length ≤ i0 := by
      have := congrArg List.length hrest
      simp only [List.length_nil, List.length_drop] at this
      omega
    simp only [mark_forward]
    constructor
    · exact Or.inl
    · rintro (h | ⟨h1, h2, _⟩)
      · exact h
      · omega
  | cons c rest ih =>
    have hlt : i0 < line.length := by
      have := congrArg List.length hrest
      simp only [List.length_cons, List.length_drop] at this
      omega
    have hc : line.getD i0 'a' = c := by
      have h1 : (line.drop i0)[0]? = some c := by rw [← hrest]; simp
      rw [List.getElem?_drop] at h1
      simp only [Nat.add_zero] at h1
      rw [List.getD_eq_getElem?_getD, h1]; rfl
    have hrest2 : rest = line.drop (i0 + 1) := by
      have := congrArg List.tail hrest
      simpa [List.tail_drop] using this
    unfold mark_forward
    by_cases hb : is_blank c = true
    · simp only [hb, if_true, ih (i0 + 1) _ hrest2]
      constructor
      · rintro (h | ⟨h1, h2, h3⟩)
        · by_cases hij : i = i0
          · right
            subst hij
            exact ⟨le_rfl, hlt, fun t ht1 ht2 => by
              have : t = i := by omega
              rw [this, hc]; exact hb⟩
          · rw [Function.update_noteq hij] at h
            exact Or.inl h
        · right
          refine ⟨by omega, h2, fun t ht1 ht2 => ?_⟩
          by_cases hti : t = i0
          · rw [hti, hc]; exact hb
          · exact h3 t (by omega) ht2
      · rintro (h | ⟨h1, h2, h3⟩)
        · by_cases hij : i = i0
          · left; rw [hij]; simp
          · left; rw [Function.update_noteq hij]; exact h
        · by_cases hij : i = i0
          · left; rw [hij]; simp
          · right
            exact ⟨by omega, h2, fun t ht1 ht2 => h3 t (by omega) ht2⟩
    · simp only [hb, Bool.false_eq_true, if_false]
      constructor
      · exact Or.inl
      · rintro (h | ⟨h1, h2, h3⟩)
        · exact h
        · have := h3 i0 le_rfl h1
          rw [hc] at this
          exact absurd this hb

theorem gen_body_iff (tB tF : Char → Char → Bool) (line : List Char) (ind : Nat → Bool)
    (n i : Nat) :
    gen_body tB tF line ind n i = true ↔ ind i = true ∨
      (tB (prev_char line n) (line.getD n 'a') = true ∧ runL line n i) ∨
      (tF (prev_char line n) (line.getD n 'a') = true ∧ runR line n i) := by
  have hR : (n + 1 ≤ i ∧ i < line.length ∧
      ∀ t, n + 1 ≤ t → t ≤ i → is_blank (line.getD t 'a') = true) ↔ runR line n i := by
    unfold runR
    constructor
    · rintro ⟨h1, h2, h3⟩
      exact ⟨h1, h2, fun t ht => h3 t ht⟩
    · rintro ⟨h1, h2, h3⟩
      exact ⟨h1, h2, fun t ht => h3 t ht⟩
  unfold gen_body
  by_cases hF : tF (prev_char line n) (line.getD n 'a') = true <;>
    by_cases hB : tB (prev_char line n) (line.getD n 'a') = true <;>
    simp only [hF, hB, if_true, if_false, Bool.false_eq_true, false_and, true_and, or_false,
      false_or, mark_forward_iff line _ (n + 1) _ rfl, mark_backward_iff, hR, or_assoc]

theorem fold_gen_body_iff (tB tF : Char → Char → Bool) (line : List Char) (k i : Nat) :
    (List.range k).foldl (gen_body tB tF line) (fun _ => false) i = true ↔
      ∃ n, n < k ∧ ((tB (prev_char line n) (line.getD n 'a') = true ∧ runL line n i) ∨
        (tF (prev_char line n) (line.getD n 'a') = true ∧ runR line n i)) := by
  induction k with
  | zero => simp
  | succ k ih =>
    rw [List.range_succ, List.foldl_append, List.foldl_cons, List.foldl_nil, gen_body_iff, ih]
    constructor
    · rintro (⟨n, hn, h⟩ | h)
      · exact ⟨n, by omega, h⟩
      · exact ⟨k, by omega, h⟩
    · rintro ⟨n, hn, h⟩
      by_cases hnk : n = k
      · right; rw [← hnk]; exact h
      · left; exact ⟨n, by omega, h⟩

/-! ## Header normalisation: from the marking loops to the left-to-right scan -/

theorem getD_take_lt (l : List Char) (i t : Nat) (h : t < i) :
    (l.take i).getD t 'a' = l.getD t 'a' := by
  simp only [List.getD_eq_getElem?_getD, List.getElem?_take, h, if_true]

theorem getD_drop_add (l : List Char) (i t : Nat) :
    (l.drop i).getD t 'a' = l.getD (i + t) 'a' := by
  simp only [List.getD_eq_getElem?_getD, List.getElem?_drop]

theorem getD_append_length (pre suf : List Char) (c : Char) :
    (pre ++ c :: suf).getD pre.length 'a' = c := by
  rw [List.getD_eq_getElem?_getD, List.getElem?_append_right (le_refl _)]
  simp

theorem prev_char_take (l : List Char) (i n : Nat) (h : n < i) :
    prev_char (l.take i) n = prev_char l n := by
  unfold prev_char
  by_cases h0 : n = 0
  · simp [h0]
  · simp only [h0, if_false]
    exact getD_take_lt l i (n - 1) (by omega)

theorem next_is_iff (tgt : Char) (htgt : is_blank tgt = false) (l : List Char) :
    next_is tgt l = true ↔ ∃ m, m < l.length ∧ l.getD m 'a' = tgt ∧
      ∀ t, t < m → is_blank (l.getD t 'a') = true := by
  induction l with
  | nil => simp [next_is]
  | cons d rest ih =>
    unfold next_is
    by_cases hb : is_blank d = true
    · simp only [hb, if_true, ih]
      constructor
      · rintro ⟨m, hm, h1, h2⟩
        refine ⟨m + 1, by simp; omega, by simpa using h1, fun t ht => ?_⟩
        cases t with
        | zero => simpa using hb
        | succ t => simpa using h2 t (by omega)
      · rintro ⟨m, hm, h1, h2⟩
        cases m with
        | zero =>
          simp only [List.getD_cons_zero] at h1
          rw [h1, htgt] at hb
          cases hb
        | succ m =>
          refine ⟨m, by simpa using hm, by simpa using h1, fun t ht => ?_⟩
          simpa using h2 (t + 1) (by omega)
    · simp only [hb, Bool.false_eq_true, if_false, beq_iff_eq]
      constructor
      · intro h
        exact ⟨0, by simp, by simpa using h, fun t ht => by omega⟩
      · rintro ⟨m, hm, h1, h2⟩
        cases m with
        | zero => simpa using h1
        | succ m =>
          have := h2 0 (by omega)
          simp only [List.getD_cons_zero] at this
          exact absurd this hb

theorem scan_state_append (tF : Char → Char → Bool) (st : Bool × Char) (pre : List Char)
    (c : Char) :
    scan_state tF st (pre ++ [c]) =
      if is_blank c then ((scan_state tF st pre).1, c)
      else (tF (scan_state tF st pre).2 c, c) := by
  induction pre generalizing st with
  | nil => simp [scan_state]
  | cons d pre ih =>
    show scan_state tF _ (pre ++ [c]) = _
    rw [ih]
    rfl

theorem prev_char_append_length (pre : List Char) (c : Char) :
    prev_char (pre ++ [c]) (pre.length + 1) = c := by
  simp [prev_char, List.getD_eq_getElem?_getD]

theorem getD_append_lt (pre : List Char) (c : Char) (t : Nat) (h : t < pre.length) :
    (pre ++ [c]).getD t 'a' = pre.getD t 'a' := by
  simp [List.getD_eq_getElem?_getD, List.getElem?_append_left h]

theorem prev_char_append_le (pre : List Char) (c : Char) (n : Nat) (h : n ≤ pre.length) :
    prev_char (pre ++ [c]) n = prev_char pre n := by
  unfold prev_char
  by_cases h0 : n = 0
  · simp [h0]
  · simp only [h0, if_false]
    exact getD_append_lt pre c (n - 1) (by omega)

theorem scan_state_snd (tF : Char → Char → Bool) (pre : List Char) :
    (scan_state tF (false, 'a') pre).2 = prev_char pre pre.length := by
  induction pre using List.reverseRecOn with
  | nil => rfl
  | append_singleton pre c _ =>
    rw [scan_state_append, List.length_append, List.length_singleton, prev_char_append_length]
    split <;> rfl

theorem scan_state_fst (tF : Char → Char → Bool)
    (hF : ∀ p c, tF p c = true → is_blank c = false) (pre : List Char) :
    (scan_state tF (false, 'a') pre).1 = true ↔
      ∃ n, n < pre.length ∧ tF (prev_char pre n) (pre.getD n 'a') = true ∧
        ∀ t, n < t → t < pre.length → is_blank (pre.getD t 'a') = true := by
  induction pre using List.reverseRecOn with
  | nil => simp [scan_state]
  | append_singleton pre c ih =>
    rw [scan_state_append]
    have hlast : (pre ++ [c]).getD pre.length 'a' = c := getD_append_length pre [] c
    by_cases hb : is_blank c = true
    · simp only [hb, if_true, ih, List.length_append, List.length_singleton]
      constructor
      · rintro ⟨n, hn, h1, h2⟩
        refine ⟨n, by omega, ?_, fun t ht1 ht2 => ?_⟩
        · rw [prev_char_append_le _ _ _ (by omega), getD_append_lt _ _ _ hn]; exact h1
        · by_cases htl : t = pre.length
          · rw [htl, hlast]; exact hb
          · rw [getD_append_lt _ _ _ (by omega)]; exact h2 t ht1 (by omega)
      · rintro ⟨n, hn, h1, h2⟩
        by_cases hnl : n = pre.length
        · rw [hnl, hlast] at h1
          rw [hF _ _ h1] at hb
          cases hb
        · have hn2 : n < pre.length := by omega
          refine ⟨n, hn2, ?_, fun t ht1 ht2 => ?_⟩
          · rw [prev_char_append_le _ _ _ (by omega), getD_append_lt _ _ _ hn2] at h1
            exact h1
          · have := h2 t ht1 (by omega)
            rwa [getD_append_lt _ _ _ ht2] at this
    · simp only [hb, Bool.false_eq_true, if_false, List.length_append, List.length_singleton,
        scan_state_snd]
      constructor
      · intro h
        refine ⟨pre.length, by omega, ?_, fun t ht1 ht2 => by omega⟩
        rw [prev_char_append_le _ _ _ le_rfl, hlast]
        exact h
      · rintro ⟨n, hn, h1, h2⟩
        by_cases hnl : n = pre.length
        · rw [hnl, prev_char_append_le _ _ _ le_rfl, hlast] at h1
          exact h1
        · have := h2 pre.length (by omega) (by omega)
          rw [hlast] at this
          exact absurd this hb

theorem fold_gen_body_eq (tB tF : Char → Char → Bool) (tgt : Char)
    (htgt : is_blank tgt = false)
    (hB : ∀ p c, is_blank p = true → (tB p c = true ↔ c = tgt))
    (hF : ∀ p c, tF p c = true → is_blank c = false)
    (pre : List Char) (c : Char) (suf : List Char) :
    (List.range (pre ++ c :: suf).length).foldl (gen_body tB tF (pre ++ c :: suf))
        (fun _ => false) pre.length = true ↔
      is_blank c = true ∧
        ((scan_state tF (false, 'a') pre).1 = true ∨ next_is tgt suf = true) := by
  have hci : (pre ++ c :: suf).getD pre.length 'a' = c := getD_append_length pre suf c
  have hlen : pre.length < (pre ++ c :: suf).length := by simp
  have htake : (pre ++ c :: suf).take pre.length = pre := by simp
  have hdrop : (pre ++ c :: suf).drop (pre.length + 1) = suf := by simp
  rw [fold_gen_body_iff, scan_state_fst tF hF, next_is_iff tgt htgt]
  constructor
  · rintro ⟨n, hn, ⟨h1, h2, h3⟩ | ⟨h1, h2, _, h3⟩⟩
    · have hbc : is_blank c = true := by rw [← hci]; exact h3 _ le_rfl h2
      refine ⟨hbc, Or.inr ⟨n - (pre.length + 1), ?_, ?_, fun t ht => ?_⟩⟩
      · rw [← hdrop, List.length_drop]; omega
      · rw [← hdrop, getD_drop_add, show pre.length + 1 + (n - (pre.length + 1)) = n by omega]
        have hp : is_blank (prev_char (pre ++ c :: suf) n) = true := by
          unfold prev_char
          rw [if_neg (by omega)]
          exact h3 _ (by omega) (by omega)
        exact (hB _ _ hp).mp h1
      · rw [← hdrop, getD_drop_add]
        exact h3 _ (by omega) (by omega)
    · have hbc : is_blank c = true := by rw [← hci]; exact h3 _ h2 le_rfl
      refine ⟨hbc, Or.inl ⟨n, h2, ?_, fun t ht1 ht2 => ?_⟩⟩
      · rw [← htake, prev_char_take _ _ _ h2, getD_take_lt _ _ _ h2]
        exact h1
      · rw [← htake, getD_take_lt _ _ _ ht2]
        exact h3 t ht1 (by omega)
  · rintro ⟨hbc, ⟨n, hn, h1, h2⟩ | ⟨m, hm, h1, h2⟩⟩
    · refine ⟨n, by omega, Or.inr ⟨?_, hn, hlen, fun t ht1 ht2 => ?_⟩⟩
      · rw [← htake, prev_char_take _ _ _ hn, getD_take_lt _ _ _ hn] at h1
        exact h1
      · by_cases htl : t = pre.length
        · rw [htl, hci]; exact hbc
        · have := h2 t ht1 (by omega)
          rw [← htake, getD_take_lt _ _ _ (by omega)] at this
          exact this
    · rw [← hdrop, List.length_drop] at hm
      have hgetm : ∀ t, suf.getD t 'a' = (pre ++ c :: suf).getD (pre.length + 1 + t) 'a' := by
        intro t; rw [← getD_drop_add, hdrop]
      have hblank : ∀ t, pre.length ≤ t → t < pre.length + 1 + m →
          is_blank ((pre ++ c :: suf).getD t 'a') = true := by
        intro t ht1 ht2
        by_cases htl : t = pre.length
        · rw [htl, hci]; exact hbc
        · have := h2 (t - (pre.length + 1)) (by omega)
          rw [hgetm, show pre.length + 1 + (t - (pre.length + 1)) = t by omega] at this
          exact this
      refine ⟨pre.length + 1 + m, by omega, Or.inl ⟨?_, by omega, hblank⟩⟩
      have hp : is_blank (prev_char (pre ++ c :: suf) (pre.length + 1 + m)) = true := by
        unfold prev_char
        rw [if_neg (by omega)]
        exact hblank _ (by omega) (by omega)
      rw [(hB _ _ hp), ← hgetm]
      exact h1

theorem copy_unmarked_eq_strip (tB tF : Char → Char → Bool) (tgt : Char)
    (htgt : is_blank tgt = false)
    (hB : ∀ p c, is_blank p = true → (tB p c = true ↔ c = tgt))
    (hF : ∀ p c, tF p c = true → is_blank c = false)
    (line : List Char) (suf pre : List Char) (hline : line = pre ++ suf) :
    copy_unmarked ((List.range line.length).foldl (gen_body tB tF line) (fun _ => false))
        pre.length suf =
      strip tF tgt (scan_state tF (false, 'a') pre).1 (scan_state tF (false, 'a') pre).2
        suf := by
  induction suf generalizing pre with
  | nil => rfl
  | cons c suf ih =>
    have hkey := fold_gen_body_eq tB tF tgt htgt hB hF pre c suf
    rw [← hline] at hkey
    have hnext := ih (pre ++ [c]) (by rw [hline]; simp)
    rw [List.length_append, List.length_singleton, scan_state_append] at hnext
    unfold copy_unmarked strip
    by_cases hb : is_blank c = true
    · simp only [hb, if_true] at hnext ⊢
      by_cases hm : ((scan_state tF (false, 'a') pre).1 || next_is tgt suf) = true
      · have : (List.range line.length).foldl (gen_body tB tF line) (fun _ => false)
            pre.length = true := hkey.mpr ⟨hb, by simpa using hm⟩
        rw [if_pos this, if_pos hm, hnext]
      · have : ¬ (List.range line.length).foldl (gen_body tB tF line) (fun _ => false)
            pre.length = true := fun h => hm (by simpa using (hkey.mp h).2)
        rw [if_neg this, if_neg hm, hnext]
    · have : ¬ (List.range line.length).foldl (gen_body tB tF line) (fun _ => false)
          pre.length = true := fun h => hb (hkey.mp h).1
      simp only [hb, Bool.false_eq_true, if_false] at hnext ⊢
      rw [if_neg this, hnext]

theorem step1_body_eq (line : List Char) :
    step1_body line = gen_body trig1 trig1 line := by
  funext ind n
  unfold step1_body gen_body trig1
  by_cases h : line.getD n 'a' = '=' <;> simp only [beq_iff_eq, h, if_true, if_false]

/-- The first pass is the left-to-right scan that drops the blanks around every `=`. -/
theorem remove_spaces_step1_eq (line : List Char) :
    remove_spaces_step1 line = strip trig1 '=' false 'a' line := by
  unfold remove_spaces_step1
  rw [step1_body_eq]
  have := copy_unmarked_eq_strip trig1 trig1 '=' (by decide)
    (fun p c _ => by simp [trig1]) (fun p c h => by
      have : c = '=' := by simpa [trig1] using h
      rw [this]; decide) line line [] rfl
  simpa [scan_state] using this

theorem step2_body_eq (line : List Char) (hq : line.head? ≠ some '"') (ind : Nat → Bool)
    (n : Nat) : step2_body line ind n = .ok (gen_body trig2B trig2F line ind n) := by
  unfold step2_body gen_body trig2B trig2F prev_char
  by_cases h : line.getD n 'a' = '"'
  · have hn : n ≠ 0 := by
      intro h0
      subst h0
      cases line with
      | nil => simp at h
      | cons c rest =>
        simp only [List.getD_cons_zero] at h
        exact hq (by rw [h]; rfl)
    by_cases hp : line.getD (n - 1) 'a' = '='
    · simp only [h, hn, hp, if_true, if_false, beq_self_eq_true, Bool.and_self, Bool.not_true,
        Bool.and_false, Bool.false_eq_true]
    · simp only [h, hn, hp, if_true, if_false, beq_self_eq_true, Bool.true_and, beq_iff_eq,
        Bool.not_eq_true', beq_eq_false_iff_ne, ne_eq, not_false_eq_true]
  · simp only [h, if_false, beq_iff_eq, Bool.and_eq_true, false_and]

theorem step2_loop_eq (line : List Char) (hq : line.head? ≠ some '"') (l : List Nat)
    (ind : Nat → Bool) :
    step2_loop line l ind = .ok (l.foldl (gen_body trig2B trig2F line) ind) := by
  induction l generalizing ind with
  | nil => rfl
  | cons n ns ih =>
    unfold step2_loop
    rw [step2_body_eq line hq]
    exact ih _

/-- The function `remove_spaces` is: the first pass, the test for a leading double quote,
then the left-to-right scan that drops the blanks after `="` and before any other `"`. -/
theorem remove_spaces_eq (line : List Char) :
    remove_spaces line =
      if (remove_spaces_step1 line).head? = some '"' then .error .begins_with_quote
      else .ok (strip trig2F '"' false 'a' (remove_spaces_step1 line)) := by
  unfold remove_spaces
  by_cases hq : (remove_spaces_step1 line).head? = some '"'
  · rw [if_pos hq]
    cases hs : remove_spaces_step1 line with
    | nil => rw [hs] at hq; cases hq
    | cons c rest =>
      rw [hs] at hq
      have hc : c = '"' := by simpa using hq
      subst hc
      simp [List.range_succ_eq_map, step2_loop, step2_body]
  · rw [if_neg hq, step2_loop_eq _ hq]
    have := copy_unmarked_eq_strip trig2B trig2F '"' (by decide)
      (fun p c hp => by
        have : p ≠ '=' := by intro h; rw [h] at hp; revert hp; decide
        simp [trig2B, this])
      (fun p c h => by
        have : c = '"' := by
          simp only [trig2F, Bool.and_eq_true, beq_iff_eq] at h
          exact h.1
        rw [this]; decide) (remove_spaces_step1 line) (remove_spaces_step1 line) [] rfl
    simp only [List.length_nil, scan_state] at this
    simp only [this]

/-! ## Header normalisation: shape of the result -/

theorem next_is_cons_blank (tgt c : Char) (l : List Char) (h : is_blank c = true) :
    next_is tgt (c :: l) = next_is tgt l := by
  simp [next_is, h]

theorem next_is_cons_nonblank (tgt c : Char) (l : List Char) (h : is_blank c = false) :
    next_is tgt (c :: l) = (c == tgt) := by
  simp [next_is, h]

theorem strip1_n1_ctx (l : List Char) (left : Bool) (prev q : Char)
    (h2 : is_blank q = true → left = false ∧ next_is '=' l = false)
    (h3 : q = '=' → left = true) :
    n1_ctx q (strip trig1 '=' left prev l) = true := by
  induction l generalizing left prev q with
  | nil => rfl
  | cons c suf ih =>
    unfold strip
    by_cases hb : is_blank c = true
    · rw [if_pos hb]
      by_cases hrm : (left || next_is '=' suf) = true
      · rw [if_pos hrm]
        apply ih
        · intro hq
          have := h2 hq
          rw [next_is_cons_blank _ _ _ hb] at this
          rw [this.1, this.2] at hrm
          cases hrm
        · exact h3
      · rw [if_neg hrm]
        have hrm2 : left = false ∧ next_is '=' suf = false := by
          simpa using hrm
        have hce : c ≠ '=' := by intro h; rw [h] at hb; revert hb; decide
        have hq : q ≠ '=' := by
          intro h; rw [h3 h] at hrm2; cases hrm2.1
        simp only [n1_ctx, ok1, hb, Bool.and_eq_true, Bool.not_eq_true', Bool.and_eq_false_imp,
          beq_iff_eq, beq_eq_false_iff_ne, ne_eq]
        refine ⟨⟨fun _ => hce, fun h => absurd h hq⟩, ih _ _ _ (fun _ => hrm2) (fun h => absurd h hce)⟩
    · have hb2 : is_blank c = false := by simpa using hb
      rw [if_neg hb]
      simp only [n1_ctx, ok1, hb2, Bool.and_eq_true, Bool.not_eq_true', Bool.and_eq_false_imp,
        beq_iff_eq, beq_eq_false_iff_ne, ne_eq]
      refine ⟨⟨fun hq => ?_, fun _ => trivial⟩, ih _ _ _ (fun h => by rw [hb2] at h; cases h)
        (fun h => by simp [trig1, h])⟩
      have := (h2 hq).2
      rw [next_is_cons_nonblank _ _ _ hb2] at this
      simpa using this

theorem strip2_normal_ctx (l : List Char) (left : Bool) (prev qq q : Char)
    (hin : n1_ctx prev l = true)
    (h1 : q = prev ∨ (is_blank prev = true ∧ (left || next_is '"' l) = true))
    (h2 : is_blank q = true → left = false ∧ next_is '"' l = false)
    (h3 : is_blank prev = true → q ≠ '=')
    (h4 : qq = '=' → q = '"' → left = true) :
    normal_ctx qq q (strip trig2F '"' left prev l) = true := by
  induction l generalizing left prev qq q with
  | nil => rfl
  | cons c suf ih =>
    have hin1 : ok1 prev c = true ∧ n1_ctx c suf = true := by
      simpa [n1_ctx] using hin
    have hok1 : (is_blank prev = true → c ≠ '=') ∧ (prev = '=' → is_blank c = false) := by
      have := hin1.1
      simp only [ok1, Bool.and_eq_true, Bool.not_eq_true', Bool.and_eq_false_imp, beq_iff_eq,
        beq_eq_false_iff_ne, ne_eq] at this
      exact this
    unfold strip
    by_cases hb : is_blank c = true
    · rw [if_pos hb]
      have hce : c ≠ '=' := by intro h; rw [h] at hb; revert hb; decide
      have hcq : c ≠ '"' := by intro h; rw [h] at hb; revert hb; decide
      have hpe : prev ≠ '=' := by
        intro h; rw [hok1.2 h] at hb; cases hb
      by_cases hrm : (left || next_is '"' suf) = true
      · rw [if_pos hrm]
        apply ih _ _ _ _ hin1.2
        · exact Or.inr ⟨hb, hrm⟩
        · intro hq
          have := h2 hq
          rw [next_is_cons_blank _ _ _ hb] at this
          rw [this.1, this.2] at hrm
          cases hrm
        · intro _
          rcases h1 with h1 | h1
          · rw [h1]; exact hpe
          · exact h3 h1.1
        · exact h4
      · rw [if_neg hrm]
        have hrm2 : left = false ∧ next_is '"' suf = false := by
          simpa using hrm
        have hq : q ≠ '=' := by
          rcases h1 with h1 | h1
          · rw [h1]; exact hpe
          · exact h3 h1.1
        have h5 : ¬ (qq = '=' ∧ q = '"') := by
          rintro ⟨ha, hb⟩
          rw [h4 ha hb] at hrm2
          cases hrm2.1
        simp only [normal_ctx, ok3, hb, Bool.and_eq_true, Bool.not_eq_true',
          Bool.and_eq_false_imp, beq_iff_eq, beq_eq_false_iff_ne, ne_eq, Bool.or_eq_false_iff,
          Bool.and_true]
        refine ⟨⟨⟨fun _ => ⟨hce, hcq⟩, fun h => absurd h hq⟩, fun ha hb => h5 ⟨ha, hb⟩⟩, ?_⟩
        apply ih _ _ _ _ hin1.2
        · exact Or.inl rfl
        · exact fun _ => hrm2
        · exact fun _ => hce
        · exact fun _ h => absurd h hcq
    · have hb2 : is_blank c = false := by simpa using hb
      rw [if_neg hb]
      simp only [normal_ctx, ok3, hb2, Bool.and_eq_true, Bool.not_eq_true',
        Bool.and_eq_false_imp, beq_iff_eq, beq_eq_false_iff_ne, ne_eq, Bool.or_eq_false_iff,
        Bool.and_true]
      refine ⟨⟨⟨fun hq => ⟨?_, ?_⟩, fun _ => trivial⟩, fun _ => trivial⟩, ?_⟩
      · have hpb : is_blank prev = true := by
          rcases h1 with h1 | h1
          · rw [← h1]; exact hq
          · exact h1.1
        exact hok1.1 hpb
      · have := (h2 hq).2
        rw [next_is_cons_nonblank _ _ _ hb2] at this
        simpa using this
      · apply ih _ _ _ _ hin1.2
        · exact Or.inl rfl
        · intro h; rw [hb2] at h; cases h
        · intro h; rw [hb2] at h; cases h
        · intro hqe hcq
          have hpq : prev = '=' := by
            rcases h1 with h1 | h1
            · rw [← h1]; exact hqe
            · exact absurd hqe (h3 h1.1)
          simp [trig2F, hpq, hcq]

/-- The result of a successful `remove_spaces` is a normalised line. -/
theorem remove_spaces_normal (line r : List Char) (h : remove_spaces line = .ok r) :
    normal r = true := by
  rw [remove_spaces_eq] at h
  split at h
  · cases h
  · have hr : strip trig2F '"' false 'a' (remove_spaces_step1 line) = r := by
      injection h
    rw [← hr, remove_spaces_step1_eq]
    unfold normal
    apply strip2_normal_ctx
    · exact strip1_n1_ctx line false 'a' 'a' (fun h => absurd h (by decide))
        (fun h => absurd h (by decide))
    · exact Or.inl rfl
    · exact fun h => absurd h (by decide)
    · exact fun h => absurd h (by decide)
    · exact fun h => absurd h (by decide)

theorem ok3_iff (pp p c : Char) :
    ok3 pp p c = true ↔
      (is_blank p = true → c ≠ '=' ∧ c ≠ '"') ∧ (p = '=' → is_blank c = false) ∧
        (pp = '=' → p = '"' → is_blank c = false) := by
  simp only [ok3, Bool.and_eq_true, Bool.not_eq_true', Bool.and_eq_false_imp, beq_iff_eq,
    beq_eq_false_iff_ne, ne_eq, Bool.or_eq_false_iff, and_imp, and_assoc]

theorem normal_ctx_next_is (tgt : Char) (htgt : tgt = '=' ∨ tgt = '"') (l : List Char)
    (pp c : Char) (hn : normal_ctx pp c l = true) (hb : is_blank c = true) :
    next_is tgt l = false := by
  induction l generalizing pp c with
  | nil => rfl
  | cons d rest ih =>
    have h1 : ok3 pp c d = true ∧ normal_ctx c d rest = true := by
      simpa [normal_ctx] using hn
    by_cases hd : is_blank d = true
    · rw [next_is_cons_blank _ _ _ hd]
      exact ih _ _ h1.2 hd
    · have hd2 : is_blank d = false := by simpa using hd
      rw [next_is_cons_nonblank _ _ _ hd2]
      have := ((ok3_iff _ _ _).mp h1.1).1 hb
      rcases htgt with h | h <;> rw [h] <;> simp [this.1, this.2]

theorem strip1_of_normal (l : List Char) (pp prev : Char) (left : Bool)
    (hl : left = true → prev = '=') (hn : normal_ctx pp prev l = true) :
    strip trig1 '=' left prev l = l := by
  induction l generalizing pp prev left with
  | nil => rfl
  | cons c suf ih =>
    have h1 : ok3 pp prev c = true ∧ normal_ctx prev c suf = true := by
      simpa [normal_ctx] using hn
    have h3 := (ok3_iff _ _ _).mp h1.1
    unfold strip
    by_cases hb : is_blank c = true
    · have hleft : left = false := by
        cases left with
        | false => rfl
        | true => rw [h3.2.1 (hl rfl)] at hb; cases hb
      rw [if_pos hb, hleft, normal_ctx_next_is '=' (Or.inl rfl) suf prev c h1.2 hb]
      simp only [Bool.or_self, Bool.false_eq_true, if_false]
      rw [ih prev c false (fun h => by cases h) h1.2]
    · rw [if_neg hb, ih prev c _ (fun h => by simpa [trig1] using h) h1.2]

theorem strip2_of_normal (l : List Char) (pp prev : Char) (left : Bool)
    (hl : left = true → pp = '=' ∧ prev = '"') (hn : normal_ctx pp prev l = true) :
    strip trig2F '"' left prev l = l := by
  induction l generalizing pp prev left with
  | nil => rfl
  | cons c suf ih =>
    have h1 : ok3 pp prev c = true ∧ normal_ctx prev c suf = true := by
      simpa [normal_ctx] using hn
    have h3 := (ok3_iff _ _ _).mp h1.1
    unfold strip
    by_cases hb : is_blank c = true
    · have hleft : left = false := by
        cases left with
        | false => rfl
        | true => rw [h3.2.2 (hl rfl).1 (hl rfl).2] at hb; cases hb
      rw [if_pos hb, hleft, normal_ctx_next_is '"' (Or.inr rfl) suf prev c h1.2 hb]
      simp only [Bool.or_self, Bool.false_eq_true, if_false]
      rw [ih prev c false (fun h => by cases h) h1.2]
    · rw [if_neg hb, ih prev c _ (fun h => by
        simp only [trig2F, Bool.and_eq_true, beq_iff_eq] at h
        exact ⟨h.2, h.1⟩) h1.2]

/-- On a normalised line `remove_spaces` changes nothing; it only applies its test for a
leading double quote. -/
theorem remove_spaces_of_normal (r : List Char) (hn : normal r = true) :
    remove_spaces r =
      if r.head? = some '"' then .error .begins_with_quote else .ok r := by
  have h1 : remove_spaces_step1 r = r := by
    rw [remove_spaces_step1_eq]
    exact strip1_of_normal r 'a' 'a' false (fun h => by cases h) hn
  rw [remove_spaces_eq, h1, strip2_of_normal r 'a' 'a' false (fun h => by cases h) hn]

theorem next_is_head (tgt : Char) (l : List Char) (h : next_is tgt l = true) :
    (l.dropWhile is_blank).head? = some tgt := by
  induction l with
  | nil => cases h
  | cons d rest ih =>
    by_cases hd : is_blank d = true
    · rw [next_is_cons_blank _ _ _ hd] at h
      rw [List.dropWhile_cons_of_pos hd]
      exact ih h
    · have hd2 : is_blank d = false := by simpa using hd
      rw [next_is_cons_nonblank _ _ _ hd2] at h
      rw [List.dropWhile_cons_of_neg hd]
      simpa using h

theorem strip_head (tF : Char → Char → Bool) (tgt : Char) (l : List Char) (left : Bool)
    (prev : Char) :
    (strip tF tgt left prev l).head? =
      if (left || next_is tgt l) = true then (l.dropWhile is_blank).head? else l.head? := by
  induction l generalizing prev with
  | nil => simp [strip]
  | cons c suf ih =>
    unfold strip
    by_cases hb : is_blank c = true
    · rw [if_pos hb, next_is_cons_blank _ _ _ hb, List.dropWhile_cons_of_pos hb]
      by_cases hrm : (left || next_is tgt suf) = true
      · rw [if_pos hrm, if_pos hrm, ih, if_pos hrm]
      · rw [if_neg hrm, if_neg hrm]
        rfl
    · rw [if_neg hb, List.dropWhile_cons_of_neg hb]
      simp

theorem step1_head_quote (line : List Char) :
    (remove_spaces_step1 line).head? = some '"' ↔ line.head? = some '"' := by
  rw [remove_spaces_step1_eq, strip_head]
  by_cases hn : next_is '=' line = true
  · have h1 := next_is_head _ _ hn
    simp only [hn, Bool.or_true, if_true, h1]
    constructor
    · intro h; simp at h
    · intro h
      cases line with
      | nil => cases h
      | cons c rest =>
        have hc : c = '"' := by simpa using h
        rw [hc, next_is_cons_nonblank _ _ _ (by decide)] at hn
        revert hn; decide
  · simp [hn]

/-! ## Header normalisation: the claims -/

/-- C6, counterexample: the line ` "a"` (a blank, then a quoted word) is accepted by
`remove_spaces`, which strips the blank; applied to its own result `"a"`, `remove_spaces`
fails, so the second application yields no token sequence. -/
theorem remove_spaces_twice_counterexample :
    remove_spaces [' ', '"', 'a', '"'] = .ok ['"', 'a', '"'] ∧
    remove_spaces ['"', 'a', '"'] = .error .begins_with_quote ∧
    header_tokens [' ', '"', 'a', '"'] = .ok [['"', 'a', '"']] ∧
    header_tokens ['"', 'a', '"'] = .error .begins_with_quote := by
  decide!

/-- C6, amended: when `remove_spaces` succeeds on a header line and its result does not
begin with a double quote, `remove_spaces` applied to the result succeeds and returns it
unchanged, so whitespace splitting gives the same token sequence as after one application. -/
theorem remove_spaces_idempotent (line r : List Char) (h : remove_spaces line = .ok r)
    (hq : r.head? ≠ some '"') :
    remove_spaces r = .ok r ∧ header_tokens r = header_tokens line := by
  have h1 : remove_spaces r = .ok r := by
    rw [remove_spaces_of_normal r (remove_spaces_normal line r h), if_neg hq]
  refine ⟨h1, ?_⟩
  unfold header_tokens
  rw [h1, h]

/-- Witness of C6 (amended): the header `Lattice = " 1 0 "  energy= 2`. -/
theorem remove_spaces_idempotent_witness :
    remove_spaces "Lattice=\"1 0\"  energy=2".toList = .ok "Lattice=\"1 0\"  energy=2".toList ∧
    header_tokens "Lattice=\"1 0\"  energy=2".toList =
      header_tokens "Lattice = \" 1 0 \"  energy= 2".toList :=
  remove_spaces_idempotent "Lattice = \" 1 0 \"  energy= 2".toList
    "Lattice=\"1 0\"  energy=2".toList (by decide!) (by decide)

/-- C8: `remove_spaces` fails (with the "should not begin with a quote" message) exactly on
the header lines whose first character is a double quote, and succeeds on all others. -/
theorem remove_spaces_fails_iff_leading_quote (line : List Char) :
    (remove_spaces line = .error .begins_with_quote ↔ line.head? = some '"') ∧
    ((∃ r, remove_spaces line = .ok r) ↔ line.head? ≠ some '"') := by
  rw [remove_spaces_eq]
  by_cases hq : line.head? = some '"'
  · rw [if_pos ((step1_head_quote line).mpr hq)]
    simp [hq]
  · rw [if_neg (fun h => hq ((step1_head_quote line).mp h))]
    simp [hq]

/-! ## Header normalisation: a quoted value -/

theorem plain_iff (c : Char) :
    plain c = true ↔ is_space c = false ∧ c ≠ '=' ∧ c ≠ '"' := by
  simp only [plain, Bool.and_eq_true, Bool.not_eq_true', beq_eq_false_iff_ne, ne_eq, and_assoc]

theorem is_space_of_blank (c : Char) (h : is_blank c = true) : is_space c = true := by
  simp only [is_blank, Bool.or_eq_true, beq_iff_eq] at h
  rcases h with h | h <;> rw [h] <;> decide

theorem not_blank_of_plain (c : Char) (h : plain c = true) : is_blank c = false := by
  cases hb : is_blank c with
  | false => rfl
  | true =>
    have := is_space_of_blank c hb
    rw [((plain_iff c).mp h).1] at this
    cases this

theorem strip_cons_blank (tF : Char → Char → Bool) (tgt : Char) (left : Bool) (prev c : Char)
    (suf : List Char) (h : is_blank c = true) :
    strip tF tgt left prev (c :: suf) =
      if (left || next_is tgt suf) = true then strip tF tgt left c suf
      else c :: strip tF tgt left c suf := by
  rw [strip, if_pos h]

theorem strip_cons_nonblank (tF : Char → Char → Bool) (tgt : Char) (left : Bool)
    (prev c : Char) (suf : List Char) (h : is_blank c = false) :
    strip tF tgt left prev (c :: suf) = c :: strip tF tgt (tF prev c) c suf := by
  rw [strip, if_neg (by rw [h]; simp)]

theorem get_tokens_loop_cons_space (cur : List Char) (c : Char) (rest : List Char)
    (h : is_space c = true) :
    get_tokens_loop cur (c :: rest) =
      if cur = [] then get_tokens_loop [] rest else cur :: get_tokens_loop [] rest := by
  rw [get_tokens_loop, if_pos h]

theorem get_tokens_loop_cons_nonspace (cur : List Char) (c : Char) (rest : List Char)
    (h : is_space c = false) :
    get_tokens_loop cur (c :: rest) = get_tokens_loop (cur ++ [c]) rest := by
  rw [get_tokens_loop, if_neg (by rw [h]; simp)]

theorem next_is_blank_append (tgt : Char) (b rest : List Char)
    (hb : all_blank b = true) : next_is tgt (b ++ rest) = next_is tgt rest := by
  induction b with
  | nil => rfl
  | cons c b ih =>
    have h : is_blank c = true ∧ all_blank b = true := by
      simpa [all_blank] using hb
    rw [List.cons_append, next_is_cons_blank _ _ _ h.1, ih h.2]

theorem next_is_word_append (tgt : Char) (htgt : plain tgt = false) (w rest : List Char)
    (hw : is_word w = true) : next_is tgt (w ++ rest) = false := by
  cases w with
  | nil => simp [is_word] at hw
  | cons c w =>
    have h : plain c = true := by
      have : plain c = true ∧ w.all plain = true := by simpa [is_word] using hw
      exact this.1
    rw [List.cons_append, next_is_cons_nonblank _ _ _ (not_blank_of_plain c h)]
    simp only [beq_eq_false_iff_ne, ne_eq]
    intro hc
    rw [hc, htgt] at h
    cases h

theorem strip_blank_append (tF : Char → Char → Bool) (tgt : Char) (b rest : List Char)
    (left : Bool) (prev : Char) (hb : all_blank b = true) :
    strip tF tgt left prev (b ++ rest) =
      (if (left || next_is tgt rest) = true then [] else b) ++
        strip tF tgt left (b.getLastD prev) rest := by
  induction b generalizing prev with
  | nil => simp
  | cons c b ih =>
    have h : is_blank c = true ∧ all_blank b = true := by
      simpa [all_blank] using hb
    rw [List.cons_append, strip_cons_blank _ _ _ _ _ _ h.1, next_is_blank_append _ _ _ h.2,
      ih c h.2]
    by_cases hrm : (left || next_is tgt rest) = true
    · simp only [hrm, if_true, List.nil_append, List.getLastD_cons]
    · simp only [hrm, if_false, List.cons_append, List.getLastD_cons, Bool.false_eq_true]

theorem strip_word_append (tF : Char → Char → Bool) (tgt : Char)
    (htF : ∀ p c, plain c = true → tF p c = false) (w rest : List Char)
    (left : Bool) (prev : Char) (hw : is_word w = true) :
    strip tF tgt left prev (w ++ rest) = w ++ strip tF tgt false (w.getLastD prev) rest := by
  induction w generalizing left prev with
  | nil => simp [is_word] at hw
  | cons c w ih =>
    have h : plain c = true ∧ w.all plain = true := by simpa [is_word] using hw
    rw [List.cons_append, strip_cons_nonblank _ _ _ _ _ _ (not_blank_of_plain c h.1),
      htF _ _ h.1]
    cases w with
    | nil => simp
    | cons c2 w =>
      have hw2 : is_word (c2 :: w) = true := by
        simp only [is_word, List.isEmpty_cons, Bool.not_false, Bool.true_and]
        exact h.2
      rw [ih false c hw2]
      simp only [List.cons_append, List.getLastD_cons]

theorem strip_join_words (tF : Char → Char → Bool) (tgt : Char)
    (htF : ∀ p c, plain c = true → tF p c = false) (htgt : plain tgt = false)
    (rest : List (List Char × List Char)) (tail : List Char) (prev : Char)
    (hrest : ∀ p ∈ rest, is_sep p.1 = true ∧ is_word p.2 = true) :
    ∃ prev2, strip tF tgt false prev (join_words rest ++ tail) =
      join_words rest ++ strip tF tgt false prev2 tail := by
  induction rest generalizing prev with
  | nil => exact ⟨prev, rfl⟩
  | cons p rest ih =>
    have hp := hrest p (List.mem_cons_self _ _)
    have hsep : all_blank p.1 = true := by
      have : p.1 ≠ [] ∧ p.1.all is_blank = true := by simpa [is_sep] using hp.1
      exact this.2
    obtain ⟨prev2, h2⟩ := ih ((p.2).getLastD ((p.1).getLastD prev))
      (fun x hx => hrest x (List.mem_cons_of_mem _ hx))
    refine ⟨prev2, ?_⟩
    simp only [join_words, List.append_assoc]
    rw [strip_blank_append _ _ _ _ _ _ hsep, next_is_word_append _ htgt _ _ hp.2,
      strip_word_append _ _ htF _ _ _ _ hp.2, h2]
    simp

theorem get_tokens_loop_word (w rest cur : List Char) (hw : w.all plain = true) :
    get_tokens_loop cur (w ++ rest) = get_tokens_loop (cur ++ w) rest := by
  induction w generalizing cur with
  | nil => simp
  | cons c w ih =>
    have h : plain c = true ∧ w.all plain = true := by simpa using hw
    rw [List.cons_append, get_tokens_loop_cons_nonspace _ _ _ ((plain_iff c).mp h.1).1,
      ih _ h.2]
    simp

theorem get_tokens_loop_blank (b rest : List Char) (hb : all_blank b = true) :
    get_tokens_loop [] (b ++ rest) = get_tokens_loop [] rest := by
  induction b with
  | nil => rfl
  | cons c b ih =>
    have h : is_blank c = true ∧ all_blank b = true := by simpa [all_blank] using hb
    rw [List.cons_append, get_tokens_loop_cons_space _ _ _ (is_space_of_blank c h.1)]
    simp only [if_true]
    exact ih h.2

theorem get_tokens_loop_sep (b rest cur : List Char) (hb : is_sep b = true)
    (hcur : cur ≠ []) :
    get_tokens_loop cur (b ++ rest) = cur :: get_tokens_loop [] rest := by
  cases b with
  | nil => simp [is_sep] at hb
  | cons c b =>
    have h : is_blank c = true ∧ all_blank b = true := by simpa [is_sep, all_blank] using hb
    rw [List.cons_append, get_tokens_loop_cons_space _ _ _ (is_space_of_blank c h.1),
      if_neg hcur, get_tokens_loop_blank _ _ h.2]

theorem get_tokens_loop_join (rest : List (List Char × List Char)) (cur : List Char)
    (hcur : cur ≠ [])
    (hrest : ∀ p ∈ rest, is_sep p.1 = true ∧ is_word p.2 = true) :
    get_tokens_loop cur (join_words rest ++ ['"']) =
      close_last (cur :: rest.map Prod.snd) := by
  induction rest generalizing cur with
  | nil =>
    simp only [join_words, List.nil_append, List.map_nil, close_last]
    rw [get_tokens_loop_cons_nonspace _ _ _ (by decide), get_tokens_loop]
    simp
  | cons p rest ih =>
    have hp := hrest p (List.mem_cons_self _ _)
    have hw : p.2 ≠ [] ∧ p.2.all plain = true := by simpa [is_word] using hp.2
    simp only [join_words, List.append_assoc, List.map_cons, close_last]
    rw [get_tokens_loop_sep _ _ _ hp.1 hcur, get_tokens_loop_word _ _ _ hw.2, List.nil_append,
      ih _ hw.1 (fun x hx => hrest x (List.mem_cons_of_mem _ hx))]

theorem trig1_plain (p c : Char) (h : plain c = true) : trig1 p c = false := by
  simp [trig1, ((plain_iff c).mp h).2.1]

theorem trig2F_plain (p c : Char) (h : plain c = true) : trig2F p c = false := by
  simp [trig2F, ((plain_iff c).mp h).2.2]

theorem strip_quote_end (tF : Char → Char → Bool) (tgt : Char) (left : Bool) (prev : Char) :
    strip tF tgt left prev ['"'] = ['"'] := by
  rw [strip_cons_nonblank _ _ _ _ _ _ (by decide), strip]

theorem step1_quoted_value (key w1 : List Char) (rest : List (List Char × List Char))
    (b1 b2 b3 b4 : List Char) (hkey : is_word key = true) (hw1 : is_word w1 = true)
    (hrest : ∀ p ∈ rest, is_sep p.1 = true ∧ is_word p.2 = true)
    (hb1 : all_blank b1 = true) (hb2 : all_blank b2 = true) (hb3 : all_blank b3 = true)
    (hb4 : all_blank b4 = true) :
    remove_spaces_step1
        (key ++ (b1 ++ ('=' :: (b2 ++ ('"' :: (b3 ++ (w1 ++ (join_words rest ++
          (b4 ++ ['"'])))))))))
      = key ++ ('=' :: '"' :: (b3 ++ (w1 ++ (join_words rest ++ (b4 ++ ['"']))))) := by
  rw [remove_spaces_step1_eq, strip_word_append _ _ trig1_plain _ _ _ _ hkey,
    strip_blank_append _ _ _ _ _ _ hb1, next_is_cons_nonblank _ _ _ (by decide),
    strip_cons_nonblank _ _ _ _ _ _ (by decide), strip_blank_append _ _ _ _ _ _ hb2,
    strip_cons_nonblank _ _ _ _ _ _ (by decide), strip_blank_append _ _ _ _ _ _ hb3,
    next_is_word_append _ (by decide) _ _ hw1, strip_word_append _ _ trig1_plain _ _ _ _ hw1]
  obtain ⟨prev2, h2⟩ := strip_join_words trig1 '=' trig1_plain (by decide) rest (b4 ++ ['"'])
    (w1.getLastD (b3.getLastD '"')) hrest
  have hn : next_is '=' ['"'] = false := by decide
  rw [h2, strip_blank_append _ _ _ _ _ _ hb4, hn, strip_quote_end]
  simp [trig1, next_is, is_blank]

theorem strip2_quoted_value (key w1 : List Char) (rest : List (List Char × List Char))
    (b3 b4 : List Char) (hkey : is_word key = true) (hw1 : is_word w1 = true)
    (hrest : ∀ p ∈ rest, is_sep p.1 = true ∧ is_word p.2 = true)
    (hb3 : all_blank b3 = true) (hb4 : all_blank b4 = true) :
    strip trig2F '"' false 'a'
        (key ++ ('=' :: '"' :: (b3 ++ (w1 ++ (join_words rest ++ (b4 ++ ['"']))))))
      = key ++ ('=' :: '"' :: (w1 ++ (join_words rest ++ ['"']))) := by
  rw [strip_word_append _ _ trig2F_plain _ _ _ _ hkey,
    strip_cons_nonblank _ _ _ _ _ _ (by decide), strip_cons_nonblank _ _ _ _ _ _ (by decide),
    strip_blank_append _ _ _ _ _ _ hb3]
  have ht : trig2F '=' '"' = true := by decide
  rw [ht, Bool.true_or, if_pos rfl, List.nil_append,
    strip_word_append _ _ trig2F_plain _ _ _ _ hw1]
  obtain ⟨prev2, h2⟩ := strip_join_words trig2F '"' trig2F_plain (by decide) rest
    (b4 ++ ['"']) (w1.getLastD (b3.getLastD '"')) hrest
  have hn : next_is '"' ['"'] = true := by decide
  rw [h2, strip_blank_append _ _ _ _ _ _ hb4, hn, strip_quote_end]
  simp

theorem word_head_ne_quote (key rest : List Char) (hkey : is_word key = true) :
    (key ++ rest).head? ≠ some '"' := by
  cases key with
  | nil => simp [is_word] at hkey
  | cons c key =>
    have h : plain c = true ∧ key.all plain = true := by simpa [is_word] using hkey
    simp only [List.cons_append, List.head?_cons, ne_eq, Option.some.injEq]
    exact ((plain_iff c).mp h.1).2.2

/-- C7, counterexample: the header `sid="a b"` is split inside the quotes; its quoted value
comes out as two tokens, not one. -/
theorem quoted_value_split_counterexample :
    header_tokens "sid=\"a b\"".toList = .ok ["sid=\"a".toList, "b\"".toList] := by
  decide!

/-! ## Number conversions: printing and reading back -/

theorem is_digit_iff (c : Char) :
    is_digit c = true ↔ c = '0' ∨ c = '1' ∨ c = '2' ∨ c = '3' ∨ c = '4' ∨ c = '5' ∨
      c = '6' ∨ c = '7' ∨ c = '8' ∨ c = '9' := by
  simp [is_digit]

theorem is_digit_digit_char (d : Nat) (h : d < 10) : is_digit (digit_char d) = true := by
  interval_cases d <;> decide

theorem digit_value_digit_char (d : Nat) (h : d < 10) : digit_value (digit_char d) = d := by
  interval_cases d <;> decide

theorem digits_value_append (ds : List Char) (c : Char) :
    digits_value (ds ++ [c]) = 10 * digits_value ds + digit_value c := by
  simp [digits_value, List.foldl_append]

theorem nat_digits_aux_spec (fuel n : Nat) (acc : List Char) (h : n < fuel) :
    ∃ ds, nat_digits_aux fuel n acc = ds ++ acc ∧ ds ≠ [] ∧
      (∀ c ∈ ds, is_digit c = true) ∧ digits_value ds = n := by
  induction fuel generalizing n acc with
  | zero => omega
  | succ fuel ih =>
    unfold nat_digits_aux
    by_cases h10 : n < 10
    · rw [if_pos h10]
      refine ⟨[digit_char n], rfl, by simp, ?_, ?_⟩
      · intro c hc
        rw [List.mem_singleton.mp hc]
        exact is_digit_digit_char n h10
      · simp [digits_value, digit_value_digit_char n h10]
    · rw [if_neg h10]
      obtain ⟨ds, h1, h2, h3, h4⟩ := ih (n / 10) (digit_char (n % 10) :: acc) (by omega)
      refine ⟨ds ++ [digit_char (n % 10)], by rw [h1]; simp, by simp, ?_, ?_⟩
      · intro c hc
        rcases List.mem_append.mp hc with hc | hc
        · exact h3 c hc
        · rw [List.mem_singleton.mp hc]
          exact is_digit_digit_char _ (Nat.mod_lt _ (by omega))
      · rw [digits_value_append, h4, digit_value_digit_char _ (Nat.mod_lt _ (by omega))]
        omega

theorem nat_digits_spec (n : Nat) :
    nat_digits n ≠ [] ∧ (∀ c ∈ nat_digits n, is_digit c = true) ∧
      digits_value (nat_digits n) = n := by
  obtain ⟨ds, h1, h2, h3, h4⟩ := nat_digits_aux_spec (n + 1) n [] (by omega)
  have : nat_digits n = ds := by simpa [nat_digits] using h1
  rw [this]
  exact ⟨h2, h3, h4⟩

theorem num_char_iff (c : Char) :
    num_char c = true ↔ is_digit c = true ∨ c = '.' ∨ c = '-' ∨ c = '+' ∨ c = 'e' := by
  simp [num_char, or_assoc]

theorem num_char_of_digit (c : Char) (h : is_digit c = true) : num_char c = true :=
  (num_char_iff c).mpr (Or.inl h)

theorem num_char_cases (P : Char → Prop) (c : Char) (h : num_char c = true)
    (h0 : P '0') (h1 : P '1') (h2 : P '2') (h3 : P '3') (h4 : P '4') (h5 : P '5')
    (h6 : P '6') (h7 : P '7') (h8 : P '8') (h9 : P '9') (hp : P '.') (hm : P '-')
    (hq : P '+') (he : P 'e') : P c := by
  rcases (num_char_iff c).mp h with hd | rfl | rfl | rfl | rfl
  · rcases (is_digit_iff c).mp hd with rfl | rfl | rfl | rfl | rfl | rfl | rfl | rfl | rfl | rfl
    all_goals assumption
  all_goals assumption

theorem plain_of_num_char (c : Char) (h : num_char c = true) : plain c = true := by
  apply num_char_cases (fun c => plain c = true) c h <;> decide

theorem to_lower_of_num_char (c : Char) (h : num_char c = true) : c.toLower = c := by
  apply num_char_cases (fun c => c.toLower = c) c h <;> decide

theorem not_space_of_digit (c : Char) (h : is_digit c = true) : is_space c = false :=
  ((plain_iff c).mp (plain_of_num_char c (num_char_of_digit c h))).1

theorem nat_digits_num_char (n : Nat) : ∀ c ∈ nat_digits n, num_char c = true :=
  fun c hc => num_char_of_digit c ((nat_digits_spec n).2.1 c hc)

theorem strip_trailing_zeros_subset (ds : List Char) :
    ∀ c ∈ strip_trailing_zeros ds, c ∈ ds := by
  intro c hc
  unfold strip_trailing_zeros at hc
  have h1 := List.mem_reverse.mp hc
  have h2 := (List.dropWhile_sublist _).subset h1
  exact List.mem_reverse.mp h2

theorem point_fraction_num_char (frac : List Char) (h : ∀ c ∈ frac, num_char c = true) :
    ∀ c ∈ point_fraction frac, num_char c = true := by
  intro c hc
  unfold point_fraction at hc
  split at hc
  · cases hc
  · rcases List.mem_cons.mp hc with rfl | hc
    · decide
    · exact h c hc

theorem fmt_scientific_num_char (ds : List Char) (X : Int)
    (h : ∀ c ∈ ds, num_char c = true) : ∀ c ∈ fmt_scientific ds X, num_char c = true := by
  intro c hc
  simp only [fmt_scientific, List.append_assoc, List.mem_append] at hc
  rcases hc with hc | hc | hc | hc | hc
  · exact h c (List.mem_of_mem_take hc)
  · exact point_fraction_num_char _ (fun d hd =>
      h d (List.mem_of_mem_drop (strip_trailing_zeros_subset _ d hd))) c hc
  · rw [List.mem_singleton.mp hc]; decide
  · split at hc <;> (rw [List.mem_singleton.mp hc]; decide)
  · split at hc
    · rcases List.mem_cons.mp hc with rfl | hc
      · decide
      · exact nat_digits_num_char _ c hc
    · exact nat_digits_num_char _ c hc

theorem fmt_fixed_num_char (ds : List Char) (X : Int)
    (h : ∀ c ∈ ds, num_char c = true) : ∀ c ∈ fmt_fixed ds X, num_char c = true := by
  intro c hc
  unfold fmt_fixed at hc
  split at hc
  · rcases List.mem_append.mp hc with hc | hc
    · exact h c (List.mem_of_mem_take hc)
    · exact point_fraction_num_char _ (fun d hd =>
        h d (List.mem_of_mem_drop (strip_trailing_zeros_subset _ d hd))) c hc
  · rcases List.mem_cons.mp hc with rfl | hc
    · decide
    · rcases List.mem_cons.mp hc with rfl | hc
      · decide
      · have := strip_trailing_zeros_subset _ c hc
        rcases List.mem_append.mp this with h1 | h1
        · rw [(List.mem_replicate.mp h1).2]; decide
        · exact h c h1

theorem fmt_positive_num_char (a : ℚ) : ∀ c ∈ fmt_positive a, num_char c = true := by
  intro c hc
  unfold fmt_positive at hc
  split at hc
  · exact fmt_scientific_num_char _ _ (nat_digits_num_char _) c hc
  · exact fmt_fixed_num_char _ _ (nat_digits_num_char _) c hc

theorem fmt_double_num_char (v : ℚ) : ∀ c ∈ fmt_double v, num_char c = true := by
  intro c hc
  unfold fmt_double at hc
  split at hc
  · rw [List.mem_singleton.mp hc]; decide
  · split at hc
    · rcases List.mem_cons.mp hc with rfl | hc
      · decide
      · exact fmt_positive_num_char _ c hc
    · exact fmt_positive_num_char _ c hc

theorem take_succ_ne_nil (ds : List Char) (k : Nat) (h : ds ≠ []) : ds.take (k + 1) ≠ [] := by
  cases ds with
  | nil => exact absurd rfl h
  | cons c ds => simp

theorem fmt_positive_ne_nil (a : ℚ) : fmt_positive a ≠ [] := by
  unfold fmt_positive
  split
  · simp [fmt_scientific]
  · unfold fmt_fixed
    split
    · intro h
      exact take_succ_ne_nil _ _ (nat_digits_spec _).1 (List.append_eq_nil.mp h).1
    · simp

theorem fmt_double_ne_nil (v : ℚ) : fmt_double v ≠ [] := by
  unfold fmt_double
  split
  · simp
  · split
    · simp
    · exact fmt_positive_ne_nil v

/-- A printed number is a word of plain characters that lower-casing leaves alone. -/
theorem fmt_double_word (v : ℚ) :
    is_word (fmt_double v) = true ∧ to_lower (fmt_double v) = fmt_double v := by
  constructor
  · simp only [is_word, Bool.and_eq_true, Bool.not_eq_true', List.isEmpty_eq_false,
      List.all_eq_true]
    exact ⟨fmt_double_ne_nil v, fun c hc => plain_of_num_char c (fmt_double_num_char v c hc)⟩
  · unfold to_lower
    conv_rhs => rw [← List.map_id (fmt_double v)]
    apply List.map_congr_left
    intro c hc
    exact to_lower_of_num_char c (fmt_double_num_char v c hc)

theorem dropWhile_eq_self_of_head (p : Char → Bool) (l : List Char)
    (h : ∀ c, l.head? = some c → p c = false) : l.dropWhile p = l := by
  cases l with
  | nil => rfl
  | cons c l => rw [List.dropWhile_cons_of_neg (by rw [h c rfl]; simp)]

theorem takeWhile_eq_self (p : Char → Bool) (l : List Char) (h : ∀ c ∈ l, p c = true) :
    l.takeWhile p = l := by
  induction l with
  | nil => rfl
  | cons c l ih =>
    rw [List.takeWhile_cons_of_pos (h c (List.mem_cons_self _ _)),
      ih (fun d hd => h d (List.mem_cons_of_mem _ hd))]

/-- A printed atom count in the range of `int` is read back by `get_int_from_token`. -/
theorem get_int_fmt_int (n : Int) (h0 : 0 ≤ n) (h1 : n ≤ 2147483647) :
    get_int_from_token (fmt_int n) = .ok n := by
  obtain ⟨hne, hdig, hval⟩ := nat_digits_spec n.natAbs
  have hfmt : fmt_int n = nat_digits n.natAbs := by
    unfold fmt_int
    rw [if_neg (by omega)]
  obtain ⟨c, ds, hcons⟩ : ∃ c ds, nat_digits n.natAbs = c :: ds := by
    cases hl : nat_digits n.natAbs with
    | nil => exact absurd hl hne
    | cons c ds => exact ⟨c, ds, rfl⟩
  have hc : is_digit c = true := hdig c (by rw [hcons]; exact List.mem_cons_self _ _)
  have hcm : c ≠ '-' := by intro h; rw [h] at hc; revert hc; decide
  have hcp : c ≠ '+' := by intro h; rw [h] at hc; revert hc; decide
  have hdrop : (nat_digits n.natAbs).dropWhile is_space = nat_digits n.natAbs := by
    apply dropWhile_eq_self_of_head
    intro d hd
    rw [hcons] at hd
    have : c = d := by simpa using hd
    rw [← this]
    exact not_space_of_digit c hc
  unfold get_int_from_token
  simp only [hfmt, hdrop]
  have hhead : (nat_digits n.natAbs).head? = some c := by rw [hcons]; rfl
  have hneg : ((nat_digits n.natAbs).head? == some '-') = false := by
    rw [hhead]; simpa using hcm
  have hpos : ((nat_digits n.natAbs).head? == some '+') = false := by
    rw [hhead]; simpa using hcp
  simp only [hneg, hpos, Bool.or_self, Bool.false_eq_true, if_false,
    takeWhile_eq_self _ _ hdig, hval, hne]
  have : ((n.natAbs : Nat) : Int) = n := Int.natAbs_of_nonneg h0
  rw [this, if_neg (by omega)]

/-! ## Text spelled by a token list -/

theorem not_blank_of_not_space (c : Char) (h : is_space c = false) : is_blank c = false := by
  cases hb : is_blank c with
  | false => rfl
  | true => rw [is_space_of_blank c hb] at h; cases h

theorem no_space_cons (c : Char) (t : List Char) :
    no_space (c :: t) = true ↔ is_space c = false ∧ no_space t = true := by
  simp [no_space]

theorem no_space_append (a b : List Char) :
    no_space (a ++ b) = true ↔ no_space a = true ∧ no_space b = true := by
  simp [no_space, List.all_append]

theorem no_space_of_word (w : List Char) (h : is_word w = true) : no_space w = true := by
  have hw : w ≠ [] ∧ w.all plain = true := by simpa [is_word] using h
  simp only [no_space, List.all_eq_true, Bool.not_eq_true']
  intro c hc
  exact ((plain_iff c).mp (List.all_eq_true.mp hw.2 c hc)).1

theorem scan_state_app (tF : Char → Char → Bool) (st : Bool × Char) (a b : List Char) :
    scan_state tF st (a ++ b) = scan_state tF (scan_state tF st a) b := by
  induction a generalizing st with
  | nil => rfl
  | cons c a ih =>
    show scan_state tF _ (a ++ b) = scan_state tF (scan_state tF _ a) b
    exact ih _

theorem strip_no_space_append (tF : Char → Char → Bool) (tgt : Char) (t rest : List Char)
    (left : Bool) (prev : Char) (ht : no_space t = true) :
    strip tF tgt left prev (t ++ rest) =
      t ++ strip tF tgt (scan_state tF (left, prev) t).1 (scan_state tF (left, prev) t).2
        rest := by
  induction t generalizing left prev with
  | nil => rfl
  | cons c t ih =>
    have h := (no_space_cons c t).mp ht
    have hb := not_blank_of_not_space c h.1
    rw [List.cons_append, strip_cons_nonblank _ _ _ _ _ _ hb, ih _ _ h.2]
    simp [scan_state, hb]

theorem scan_state_word (tF : Char → Char → Bool)
    (htF : ∀ p c, plain c = true → tF p c = false) (w : List Char) (st : Bool × Char)
    (hw : is_word w = true) :
    (scan_state tF st w).1 = false ∧ plain (scan_state tF st w).2 = true := by
  induction w generalizing st with
  | nil => simp [is_word] at hw
  | cons c w ih =>
    have h : plain c = true ∧ w.all plain = true := by simpa [is_word] using hw
    have hb := not_blank_of_plain c h.1
    cases w with
    | nil => simp [scan_state, hb, htF _ _ h.1, h.1]
    | cons c2 w =>
      have hw2 : is_word (c2 :: w) = true := by
        simp only [is_word, List.isEmpty_cons, Bool.not_false, Bool.true_and]
        exact h.2
      show (scan_state tF _ (c2 :: w)).1 = false ∧ plain (scan_state tF _ (c2 :: w)).2 = true
      exact ih _ hw2

theorem scan_state_good (tF : Char → Char → Bool)
    (htF : ∀ p c, plain c = true → tF p c = false)
    (hq : ∀ p, plain p = true → tF p '"' = false) (t : List Char) (st : Bool × Char)
    (ht : good_token t) : (scan_state tF st t).1 = false := by
  obtain ⟨pre, w, _, _, hw, h | h⟩ := ht
  · rw [h, scan_state_app]
    exact (scan_state_word tF htF w _ hw).1
  · rw [h, scan_state_app, scan_state_app]
    have := scan_state_word tF htF w (scan_state tF st pre) hw
    simp only [scan_state]
    rw [if_neg (by decide)]
    exact hq _ this.2

theorem good_token_no_space (t : List Char) (ht : good_token t) : no_space t = true := by
  obtain ⟨pre, w, h1, _, hw, h | h⟩ := ht
  · rw [h, no_space_append]
    exact ⟨h1, no_space_of_word w hw⟩
  · rw [h, no_space_append, no_space_append]
    exact ⟨⟨h1, no_space_of_word w hw⟩, by decide⟩

theorem good_token_head (t : List Char) (ht : good_token t) :
    ∃ c r, t = c :: r ∧ plain c = true := by
  obtain ⟨pre, w, _, h2, hw, h⟩ := ht
  have hw2 : w ≠ [] ∧ w.all plain = true := by simpa [is_word] using hw
  cases pre with
  | nil =>
    cases w with
    | nil => exact absurd rfl hw2.1
    | cons c w =>
      have hc : plain c = true := by
        have : plain c = true ∧ w.all plain = true := by simpa using hw2.2
        exact this.1
      rcases h with h | h
      · exact ⟨c, w, by simpa using h, hc⟩
      · exact ⟨c, w ++ ['"'], by simpa using h, hc⟩
  | cons c pre =>
    rcases h with h | h
    · exact ⟨c, pre ++ w, by simpa using h, h2 c rfl⟩
    · exact ⟨c, pre ++ w ++ ['"'], by simpa using h, h2 c rfl⟩

theorem strip_sep_words (tF : Char → Char → Bool) (tgt : Char)
    (htF : ∀ p c, plain c = true → tF p c = false)
    (hq : ∀ p, plain p = true → tF p '"' = false) (htgt : plain tgt = false)
    (ts : List (List Char)) (hts : ∀ t ∈ ts, good_token t) (prev : Char) :
    strip tF tgt false prev (sep_words ts) = sep_words ts := by
  induction ts generalizing prev with
  | nil => rfl
  | cons t ts ih =>
    have ht := hts t (List.mem_cons_self _ _)
    obtain ⟨c, r, hcr, hc⟩ := good_token_head t ht
    have hnext : next_is tgt (t ++ sep_words ts) = false := by
      rw [hcr, List.cons_append, next_is_cons_nonblank _ _ _ (not_blank_of_plain c hc)]
      simp only [beq_eq_false_iff_ne, ne_eq]
      intro h
      rw [h, htgt] at hc
      cases hc
    simp only [sep_words]
    rw [strip_cons_blank _ _ _ _ _ _ (by decide), hnext, Bool.or_self, if_neg (by simp),
      strip_no_space_append _ _ _ _ _ _ (good_token_no_space t ht),
      scan_state_good tF htF hq t _ ht, ih (fun x hx => hts x (List.mem_cons_of_mem _ hx))]

theorem strip_unwords (tF : Char → Char → Bool) (tgt : Char)
    (htF : ∀ p c, plain c = true → tF p c = false)
    (hq : ∀ p, plain p = true → tF p '"' = false) (htgt : plain tgt = false)
    (ts : List (List Char)) (hts : ∀ t ∈ ts, good_token t) (prev : Char) :
    strip tF tgt false prev (unwords ts) = unwords ts := by
  cases ts with
  | nil => rfl
  | cons t ts =>
    have ht := hts t (List.mem_cons_self _ _)
    simp only [unwords]
    rw [strip_no_space_append _ _ _ _ _ _ (good_token_no_space t ht),
      scan_state_good tF htF hq t _ ht,
      strip_sep_words tF tgt htF hq htgt ts (fun x hx => hts x (List.mem_cons_of_mem _ hx))]

/-- A line made of well-shaped tokens separated by single spaces is left as it is by
`remove_spaces`. -/
theorem remove_spaces_unwords (ts : List (List Char)) (hts : ∀ t ∈ ts, good_token t) :
    remove_spaces (unwords ts) = .ok (unwords ts) := by
  have h1 : remove_spaces_step1 (unwords ts) = unwords ts := by
    rw [remove_spaces_step1_eq]
    exact strip_unwords trig1 '=' trig1_plain (fun p _ => by simp [trig1]) (by decide) ts hts _
  have hq : (unwords ts).head? ≠ some '"' := by
    cases ts with
    | nil => simp [unwords]
    | cons t ts =>
      obtain ⟨c, r, hcr, hc⟩ := good_token_head t (hts t (List.mem_cons_self _ _))
      simp only [unwords, hcr, List.cons_append, List.head?_cons, ne_eq, Option.some.injEq]
      exact ((plain_iff c).mp hc).2.2
  rw [remove_spaces_eq, h1, if_neg hq]
  rw [strip_unwords trig2F '"' trig2F_plain (fun p hp => by
    simp [trig2F, ((plain_iff p).mp hp).2.1]) (by decide) ts hts _]

theorem get_tokens_loop_no_space (t rest cur : List Char) (ht : no_space t = true) :
    get_tokens_loop cur (t ++ rest) = get_tokens_loop (cur ++ t) rest := by
  induction t generalizing cur with
  | nil => simp
  | cons c t ih =>
    have h := (no_space_cons c t).mp ht
    rw [List.cons_append, get_tokens_loop_cons_nonspace _ _ _ h.1, ih _ h.2]
    simp

theorem get_tokens_loop_sep_words (ts : List (List Char))
    (hts : ∀ t ∈ ts, t ≠ [] ∧ no_space t = true) (cur : List Char) (hcur : cur ≠ []) :
    get_tokens_loop cur (sep_words ts) = cur :: ts := by
  induction ts generalizing cur with
  | nil => simp [sep_words, get_tokens_loop, hcur]
  | cons t ts ih =>
    have ht := hts t (List.mem_cons_self _ _)
    simp only [sep_words]
    rw [get_tokens_loop_cons_space _ _ _ (by decide), if_neg hcur,
      get_tokens_loop_no_space _ _ _ ht.2, List.nil_append,
      ih (fun x hx => hts x (List.mem_cons_of_mem _ hx)) t ht.1]

/-- Whitespace splitting of tokens joined by single spaces gives the tokens back. -/
theorem get_tokens_unwords (ts : List (List Char))
    (hts : ∀ t ∈ ts, t ≠ [] ∧ no_space t = true) : get_tokens (unwords ts) = ts := by
  cases ts with
  | nil => rfl
  | cons t ts =>
    have ht := hts t (List.mem_cons_self _ _)
    simp only [unwords, get_tokens]
    rw [get_tokens_loop_no_space _ _ _ ht.2, List.nil_append,
      get_tokens_loop_sep_words ts (fun x hx => hts x (List.mem_cons_of_mem _ hx)) t ht.1]

theorem getline_no_newline (t rest : List Char) (ht : no_space t = true) :
    getline (t ++ '\n' :: rest) = (t, rest) := by
  induction t with
  | nil => simp [getline]
  | cons c t ih =>
    have h := (no_space_cons c t).mp ht
    have hc : c ≠ '\n' := by
      intro hc
      rw [hc] at h
      exact absurd h.1 (by decide)
    rw [List.cons_append, getline, if_neg hc, ih h.2]

/-! ## Keys and tokens -/

theorem starts_with_iff (t key : List Char) :
    starts_with t key = true ↔ t.take key.length = key := by
  simp [starts_with]

theorem starts_with_false_iff (t key : List Char) :
    starts_with t key = false ↔ t.take key.length ≠ key := by
  rw [← Bool.not_eq_true, starts_with_iff]

theorem starts_with_self_append (key v : List Char) : starts_with (key ++ v) key = true := by
  rw [starts_with_iff, List.take_left]

theorem starts_with_key (K K2 : List Char) (hK : K ∈ header_keys) (hK2 : K2 ∈ header_keys)
    (hne : K2 ≠ K) (v : List Char) : starts_with (K2 ++ v) K = false := by
  rw [starts_with_false_iff]
  simp only [header_keys, List.mem_cons, List.mem_singleton, List.not_mem_nil, or_false] at hK hK2
  rcases hK with rfl | rfl | rfl | rfl | rfl | rfl | rfl | rfl <;>
    rcases hK2 with rfl | rfl | rfl | rfl | rfl | rfl | rfl | rfl <;>
    first
    | exact absurd rfl hne
    | simp [sid_string, energy_weight_string, energy_string, weight_string, lattice_string,
        virial_string, stress_string, properties_string]

theorem starts_with_bare (t K : List Char) (ht : '=' ∉ t) (hK : '=' ∈ K) :
    starts_with t K = false := by
  rw [starts_with_false_iff]
  intro h
  rw [← h] at hK
  exact ht (List.mem_of_mem_take hK)

theorem eq_mem_header_key (K : List Char) (hK : K ∈ header_keys) : '=' ∈ K := by
  simp only [header_keys, List.mem_cons, List.mem_singleton, List.not_mem_nil, or_false] at hK
  rcases hK with rfl | rfl | rfl | rfl | rfl | rfl | rfl | rfl <;> decide

theorem eq_not_mem_fmt_double (v : ℚ) : '=' ∉ fmt_double v := by
  intro h
  have := fmt_double_num_char v _ h
  revert this
  decide

theorem starts_with_number (v : ℚ) (K : List Char) (hK : K ∈ header_keys) :
    starts_with (fmt_double v) K = false :=
  starts_with_bare _ _ (eq_not_mem_fmt_double v) (eq_mem_header_key K hK)

theorem starts_with_number_quote (v : ℚ) (K : List Char) (hK : K ∈ header_keys) :
    starts_with (fmt_double v ++ ['"']) K = false := by
  apply starts_with_bare _ _ _ (eq_mem_header_key K hK)
  intro h
  rcases List.mem_append.mp h with h | h
  · exact eq_not_mem_fmt_double v h
  · simp at h

theorem skips_nil (K : List Char) : skips K [] := by
  intro t ht
  cases ht

theorem skips_append (K : List Char) (a b : List (List Char)) (ha : skips K a)
    (hb : skips K b) : skips K (a ++ b) := by
  intro t ht
  rcases List.mem_append.mp ht with h | h
  · exact ha t h
  · exact hb t h

theorem skips_cons (K t : List Char) (b : List (List Char)) (ht : starts_with t K = false)
    (hb : skips K b) : skips K (t :: b) := by
  intro x hx
  rcases List.mem_cons.mp hx with h | h
  · rw [h]; exact ht
  · exact hb x h

theorem skips_ite (K : List Char) (c : Prop) [Decidable c] (a : List (List Char))
    (ha : skips K a) : skips K (if c then a else []) := by
  split
  · exact ha
  · exact skips_nil K

theorem skips_matrix_tail (K : List Char) (hK : K ∈ header_keys) (K2 : List Char)
    (a : List ℚ) : skips K (matrix_tokens K2 a).tail := by
  intro t ht
  simp only [matrix_tokens, List.tail_cons, List.mem_cons, List.mem_singleton,
    List.not_mem_nil, or_false] at ht
  rcases ht with rfl | rfl | rfl | rfl | rfl | rfl | rfl | rfl
  all_goals first
    | exact starts_with_number _ K hK
    | exact starts_with_number_quote _ K hK

theorem skips_matrix (K : List Char) (hK : K ∈ header_keys) (K2 : List Char)
    (hK2 : K2 ∈ header_keys) (hne : K2 ≠ K) (a : List ℚ) : skips K (matrix_tokens K2 a) := by
  have h := skips_matrix_tail K hK K2 a
  intro t ht
  have hm : matrix_tokens K2 a =
      (K2 ++ '"' :: fmt_double (a.getD 0 0)) :: (matrix_tokens K2 a).tail := rfl
  rw [hm] at ht
  rcases List.mem_cons.mp ht with h1 | h1
  · rw [h1]; exact starts_with_key K K2 hK hK2 hne _
  · exact h t h1

/-! ## The header loops on skipped and matching tokens -/

theorem read_sid_skip (l rest : List (List Char)) (s : Structure) (h : skips sid_string l) :
    read_sid (l ++ rest) s = read_sid rest s := by
  induction l with
  | nil => rfl
  | cons t l ih =>
    rw [List.cons_append, read_sid, h t (List.mem_cons_self _ _)]
    exact ih (fun x hx => h x (List.mem_cons_of_mem _ hx))

theorem read_sid_hit (v : List Char) (rest : List (List Char)) (s : Structure) :
    read_sid ((sid_string ++ v) :: rest) s =
      read_sid rest { s with has_sid := true, sid := v } := by
  rw [read_sid, starts_with_self_append, if_pos rfl, List.drop_left]

theorem read_energy_weight_skip (l rest : List (List Char)) (s : Structure)
    (h : skips energy_weight_string l) :
    read_energy_weight (l ++ rest) s = read_energy_weight rest s := by
  induction l with
  | nil => rfl
  | cons t l ih =>
    rw [List.cons_append, read_energy_weight, h t (List.mem_cons_self _ _)]
    exact ih (fun x hx => h x (List.mem_cons_of_mem _ hx))

theorem get_rational_of_double (t : List Char) (v : ℚ)
    (h : get_double_from_token t = .ok (.finite v)) : get_rational_from_token t = .ok v := by
  unfold get_rational_from_token
  rw [h]

theorem printable_rational (v : ℚ) (hv : printable v) :
    get_rational_from_token (fmt_double v) = .ok v :=
  get_rational_of_double _ v hv

theorem read_energy_weight_hit (v : ℚ) (hv : printable v) (rest : List (List Char))
    (s : Structure) :
    read_energy_weight ((energy_weight_string ++ fmt_double v) :: rest) s =
      read_energy_weight rest { s with energy_weight := v } := by
  rw [read_energy_weight, starts_with_self_append, if_pos rfl, List.drop_left,
    printable_rational v hv]

theorem read_energy_skip (l rest : List (List Char)) (s : Structure) (has : Bool)
    (h : skips energy_string l) :
    read_energy (l ++ rest) s has = read_energy rest s has := by
  induction l with
  | nil => rfl
  | cons t l ih =>
    rw [List.cons_append, read_energy, h t (List.mem_cons_self _ _)]
    exact ih (fun x hx => h x (List.mem_cons_of_mem _ hx))

theorem read_energy_hit (v : ℚ) (hv : printable v) (rest : List (List Char))
    (s : Structure) (has : Bool) :
    read_energy ((energy_string ++ fmt_double v) :: rest) s has =
      read_energy rest { s with energy := v } true := by
  rw [read_energy, starts_with_self_append, if_pos rfl, List.drop_left,
    printable_rational v hv]

theorem read_weight_skip (l rest : List (List Char)) (s : Structure)
    (h : skips weight_string l) :
    read_weight (l ++ rest) s = read_weight rest s := by
  induction l with
  | nil => rfl
  | cons t l ih =>
    rw [List.cons_append, read_weight, h t (List.mem_cons_self _ _)]
    exact ih (fun x hx => h x (List.mem_cons_of_mem _ hx))

theorem read_lattice_skip (l rest : List (List Char)) (s : Structure) (has : Bool)
    (h : skips lattice_string l) :
    read_lattice (l ++ rest) s has = read_lattice rest s has := by
  induction l with
  | nil => rfl
  | cons t l ih =>
    rw [List.cons_append, read_lattice, h t (List.mem_cons_self _ _)]
    exact ih (fun x hx => h x (List.mem_cons_of_mem _ hx))

theorem read_virial_skip (l rest : List (List Char)) (s : Structure)
    (h : skips virial_string l) :
    read_virial (l ++ rest) s = read_virial rest s := by
  induction l with
  | nil => rfl
  | cons t l ih =>
    rw [List.cons_append, read_virial, h t (List.mem_cons_self _ _)]
    exact ih (fun x hx => h x (List.mem_cons_of_mem _ hx))

theorem read_stress_skip (l rest : List (List Char)) (s : Structure)
    (h : skips stress_string l) :
    read_stress (l ++ rest) s = read_stress rest s := by
  induction l with
  | nil => rfl
  | cons t l ih =>
    rw [List.cons_append, read_stress, h t (List.mem_cons_self _ _)]
    exact ih (fun x hx => h x (List.mem_cons_of_mem _ hx))

theorem read_properties_skip (l rest : List (List Char)) (c : Columns)
    (h : skips properties_string l) :
    read_properties (l ++ rest) c = read_properties rest c := by
  induction l with
  | nil => rfl
  | cons t l ih =>
    rw [List.cons_append, read_properties, h t (List.mem_cons_self _ _)]
    exact ih (fun x hx => h x (List.mem_cons_of_mem _ hx))

theorem substr_after_key (K : List Char) (c : Char) (n : List Char) :
    substr (K ++ c :: n) (K.length + 1) (K ++ c :: n).length = .ok n := by
  have hd : (K ++ c :: n).drop (K.length + 1) = n := by
    rw [show K ++ c :: n = (K ++ [c]) ++ n by simp]
    exact List.drop_left' (by simp)
  rw [substr, if_neg (by simp), hd, List.take_of_length_le (by simp; omega)]

theorem substr_whole (n : List Char) : substr n 0 n.length = .ok n := by
  simp [substr]

theorem substr_drop_last (n : List Char) (c : Char) :
    substr (n ++ [c]) 0 ((n ++ [c]).length - 1) = .ok n := by
  simp [substr]

theorem range_nine : List.range 9 = [0, 1, 2, 3, 4, 5, 6, 7, 8] := by decide

theorem read_components_matrix (K : List Char) (a : List ℚ) (rest : List (List Char))
    (hp : ∀ i, i < 9 → printable (a.getD i 0)) :
    read_components K.length (matrix_tokens K a ++ rest) (List.range 9) =
      .ok [a.getD 0 0, a.getD 1 0, a.getD 2 0, a.getD 3 0, a.getD 4 0, a.getD 5 0,
        a.getD 6 0, a.getD 7 0, a.getD 8 0] := by
  have h0 := printable_rational _ (hp 0 (by omega))
  have h1 := printable_rational _ (hp 1 (by omega))
  have h2 := printable_rational _ (hp 2 (by omega))
  have h3 := printable_rational _ (hp 3 (by omega))
  have h4 := printable_rational _ (hp 4 (by omega))
  have h5 := printable_rational _ (hp 5 (by omega))
  have h6 := printable_rational _ (hp 6 (by omega))
  have h7 := printable_rational _ (hp 7 (by omega))
  have h8 := printable_rational _ (hp 8 (by omega))
  rw [range_nine]
  simp only [matrix_tokens, List.cons_append, List.nil_append, read_components,
    List.getElem?_cons_zero, List.getElem?_cons_succ, if_true, if_false,
    OfNat.ofNat_ne_zero, OfNat.zero_ne_ofNat, Nat.reduceEqDiff, one_ne_zero,
    substr_after_key, substr_whole, substr_drop_last, h0, h1, h2, h3, h4, h5, h6, h7, h8]

theorem nine_eq_self (a : List ℚ) (h : a.length = 9) : nine a = a := by
  match a, h with
  | [_, _, _, _, _, _, _, _, _], _ => rfl

theorem matrix_tokens_eq (K : List Char) (a : List ℚ) :
    matrix_tokens K a = (K ++ '"' :: fmt_double (a.getD 0 0)) :: (matrix_tokens K a).tail :=
  rfl

theorem read_lattice_hit (a : List ℚ) (rest : List (List Char)) (s : Structure) (has : Bool)
    (hp : ∀ i, i < 9 → printable (a.getD i 0)) :
    read_lattice (matrix_tokens lattice_string a ++ rest) s has =
      read_lattice rest { s with box := nine a } true := by
  have hc := read_components_matrix lattice_string a rest hp
  rw [matrix_tokens_eq, List.cons_append, read_lattice, starts_with_self_append, if_pos rfl,
    ← List.cons_append, ← matrix_tokens_eq, hc]
  exact read_lattice_skip _ _ _ _ (skips_matrix_tail _ (by decide) _ _)

theorem read_virial_hit (a : List ℚ) (rest : List (List Char)) (s : Structure)
    (hp : ∀ i, i < 9 → printable (a.getD i 0)) :
    read_virial (matrix_tokens virial_string a ++ rest) s =
      read_virial rest { s with has_virial := true, virial := nine a } := by
  have hc := read_components_matrix virial_string a rest hp
  rw [matrix_tokens_eq, List.cons_append, read_virial, starts_with_self_append, if_pos rfl,
    ← List.cons_append, ← matrix_tokens_eq, hc]
  exact read_virial_skip _ _ _ (skips_matrix_tail _ (by decide) _ _)

theorem read_stress_hit (a : List ℚ) (rest : List (List Char)) (s : Structure)
    (hp : ∀ i, i < 9 → printable (a.getD i 0)) :
    read_stress (matrix_tokens stress_string a ++ rest) s =
      read_stress rest { s with has_stress := true, stress := nine a } := by
  have hc := read_components_matrix stress_string a rest hp
  rw [matrix_tokens_eq, List.cons_append, read_stress, starts_with_self_append, if_pos rfl,
    ← List.cons_append, ← matrix_tokens_eq, hc]
  exact read_stress_skip _ _ _ (skips_matrix_tail _ (by decide) _ _)

theorem properties_lower_eq :
    properties_lower = properties_string ++ "species:s:1:pos:r:3:force:r:3".toList := by
  decide

theorem read_properties_hit :
    read_properties [properties_lower] {} =
      .ok { species_offset := 0, pos_offset := 1, force_offset := 4, num_columns := 7 } := by
  decide!

/-! ### The segments of the lower-cased header that a loop skips -/

theorem skips_energy_weight_seg (K : List Char) (hK : K ∈ header_keys)
    (hne : energy_weight_string ≠ K) (s : Structure) :
    skips K
      (if s.energy_weight ≠ 1 then [energy_weight_string ++ fmt_double s.energy_weight]
        else []) :=
  skips_ite K _ _ (skips_cons K _ _ (starts_with_key K _ hK (by decide) hne _) (skips_nil K))

theorem skips_virial_seg (K : List Char) (hK : K ∈ header_keys) (hne : virial_string ≠ K)
    (s : Structure) :
    skips K (if s.has_virial then matrix_tokens virial_string s.virial else []) := by
  split
  · exact skips_matrix K hK _ (by decide) hne _
  · exact skips_nil K

theorem skips_stress_seg (K : List Char) (hK : K ∈ header_keys) (hne : stress_string ≠ K)
    (s : Structure) :
    skips K (if s.has_stress then matrix_tokens stress_string s.stress else []) := by
  split
  · exact skips_matrix K hK _ (by decide) hne _
  · exact skips_nil K

theorem skips_sid_seg (K : List Char) (hK : K ∈ header_keys) (hne : sid_string ≠ K)
    (s : Structure) : skips K (if s.has_sid then [sid_string ++ s.sid] else []) := by
  split
  · exact skips_cons K _ _ (starts_with_key K _ hK (by decide) hne _) (skips_nil K)
  · exact skips_nil K

theorem skips_properties_seg (K : List Char) (hK : K ∈ header_keys)
    (hne : properties_string ≠ K) : skips K [properties_lower] := by
  rw [properties_lower_eq]
  exact skips_cons K _ _ (starts_with_key K _ hK (by decide) hne _) (skips_nil K)

theorem skips_energy_tok (K : List Char) (hK : K ∈ header_keys) (hne : energy_string ≠ K)
    (s : Structure) : skips K [energy_string ++ fmt_double s.energy] :=
  skips_cons K _ _ (starts_with_key K _ hK (by decide) hne _) (skips_nil K)

/-! ### The header loops on the lower-cased header of a written frame -/

theorem header_words_eq (kL kP : List Char) (s : Structure) :
    header_words kL kP s =
      (if s.energy_weight ≠ 1 then [energy_weight_string ++ fmt_double s.energy_weight]
        else []) ++
      (matrix_tokens kL s.box ++
        ([energy_string ++ fmt_double s.energy] ++
          ((if s.has_virial then matrix_tokens virial_string s.virial else []) ++
            ((if s.has_stress then matrix_tokens stress_string s.stress else []) ++
              ((if s.has_sid then [sid_string ++ s.sid] else []) ++ ([kP] ++ [])))))) := by
  simp [header_words]

theorem read_sid_header (s s0 : Structure) :
    read_sid (header_words lattice_string properties_lower s) s0 =
      if s.has_sid then { s0 with has_sid := true, sid := s.sid } else s0 := by
  rw [header_words_eq,
    read_sid_skip _ _ _ (skips_energy_weight_seg _ (by decide) (by decide) s),
    read_sid_skip _ _ _ (skips_matrix _ (by decide) _ (by decide) (by decide) _),
    read_sid_skip _ _ _ (skips_energy_tok _ (by decide) (by decide) s),
    read_sid_skip _ _ _ (skips_virial_seg _ (by decide) (by decide) s),
    read_sid_skip _ _ _ (skips_stress_seg _ (by decide) (by decide) s)]
  by_cases h : s.has_sid = true
  · rw [if_pos h, if_pos h, List.singleton_append, read_sid_hit,
      read_sid_skip _ _ _ (skips_properties_seg _ (by decide) (by decide))]
    rfl
  · rw [if_neg h, if_neg h, List.nil_append,
      read_sid_skip _ _ _ (skips_properties_seg _ (by decide) (by decide))]
    rfl

theorem read_energy_weight_header (s s0 : Structure) (hp : printable s.energy_weight) :
    read_energy_weight (header_words lattice_string properties_lower s) s0 =
      .ok (if s.energy_weight ≠ 1 then { s0 with energy_weight := s.energy_weight }
        else s0) := by
  have htail : ∀ s1 : Structure, read_energy_weight
      (matrix_tokens lattice_string s.box ++
        ([energy_string ++ fmt_double s.energy] ++
          ((if s.has_virial then matrix_tokens virial_string s.virial else []) ++
            ((if s.has_stress then matrix_tokens stress_string s.stress else []) ++
              ((if s.has_sid then [sid_string ++ s.sid] else []) ++
                ([properties_lower] ++ [])))))) s1 = .ok s1 := by
    intro s1
    rw [read_energy_weight_skip _ _ _ (skips_matrix _ (by decide) _ (by decide) (by decide) _),
      read_energy_weight_skip _ _ _ (skips_energy_tok _ (by decide) (by decide) s),
      read_energy_weight_skip _ _ _ (skips_virial_seg _ (by decide) (by decide) s),
      read_energy_weight_skip _ _ _ (skips_stress_seg _ (by decide) (by decide) s),
      read_energy_weight_skip _ _ _ (skips_sid_seg _ (by decide) (by decide) s),
      read_energy_weight_skip _ _ _ (skips_properties_seg _ (by decide) (by decide))]
    rfl
  rw [header_words_eq]
  by_cases h : s.energy_weight ≠ 1
  · rw [if_pos h, if_pos h, List.singleton_append, read_energy_weight_hit _ hp, htail]
  · rw [if_neg h, if_neg h, List.nil_append, htail]

theorem read_energy_header (s s0 : Structure) (hp : printable s.energy) :
    read_energy (header_words lattice_string properties_lower s) s0 false =
      .ok ({ s0 with energy := s.energy }, true) := by
  rw [header_words_eq,
    read_energy_skip _ _ _ _ (skips_energy_weight_seg _ (by decide) (by decide) s),
    read_energy_skip _ _ _ _ (skips_matrix _ (by decide) _ (by decide) (by decide) _),
    List.singleton_append, read_energy_hit _ hp,
    read_energy_skip _ _ _ _ (skips_virial_seg _ (by decide) (by decide) s),
    read_energy_skip _ _ _ _ (skips_stress_seg _ (by decide) (by decide) s),
    read_energy_skip _ _ _ _ (skips_sid_seg _ (by decide) (by decide) s),
    read_energy_skip _ _ _ _ (skips_properties_seg _ (by decide) (by decide))]
  rfl

theorem read_weight_header (s s0 : Structure) :
    read_weight (header_words lattice_string properties_lower s) s0 = .ok s0 := by
  rw [header_words_eq,
    read_weight_skip _ _ _ (skips_energy_weight_seg _ (by decide) (by decide) s),
    read_weight_skip _ _ _ (skips_matrix _ (by decide) _ (by decide) (by decide) _),
    read_weight_skip _ _ _ (skips_energy_tok _ (by decide) (by decide) s),
    read_weight_skip _ _ _ (skips_virial_seg _ (by decide) (by decide) s),
    read_weight_skip _ _ _ (skips_stress_seg _ (by decide) (by decide) s),
    read_weight_skip _ _ _ (skips_sid_seg _ (by decide) (by decide) s),
    read_weight_skip _ _ _ (skips_properties_seg _ (by decide) (by decide))]
  rfl

theorem read_lattice_header (s s0 : Structure)
    (hp : ∀ i, i < 9 → printable (s.box.getD i 0)) :
    read_lattice (header_words lattice_string properties_lower s) s0 false =
      .ok ({ s0 with box := nine s.box }, true) := by
  rw [header_words_eq,
    read_lattice_skip _ _ _ _ (skips_energy_weight_seg _ (by decide) (by decide) s),
    read_lattice_hit _ _ _ _ hp,
    read_lattice_skip _ _ _ _ (skips_energy_tok _ (by decide) (by decide) s),
    read_lattice_skip _ _ _ _ (skips_virial_seg _ (by decide) (by decide) s),
    read_lattice_skip _ _ _ _ (skips_stress_seg _ (by decide) (by decide) s),
    read_lattice_skip _ _ _ _ (skips_sid_seg _ (by decide) (by decide) s),
    read_lattice_skip _ _ _ _ (skips_properties_seg _ (by decide) (by decide))]
  rfl

theorem read_virial_header (s s0 : Structure)
    (hp : s.has_virial = true → ∀ i, i < 9 → printable (s.virial.getD i 0)) :
    read_virial (header_words lattice_string properties_lower s) s0 =
      .ok (if s.has_virial then { s0 with has_virial := true, virial := nine s.virial }
        else s0) := by
  have htail : ∀ s1 : Structure, read_virial
      ((if s.has_stress then matrix_tokens stress_string s.stress else []) ++
        ((if s.has_sid then [sid_string ++ s.sid] else []) ++ ([properties_lower] ++ [])))
      s1 = .ok s1 := by
    intro s1
    rw [read_virial_skip _ _ _ (skips_stress_seg _ (by decide) (by decide) s),
      read_virial_skip _ _ _ (skips_sid_seg _ (by decide) (by decide) s),
      read_virial_skip _ _ _ (skips_properties_seg _ (by decide) (by decide))]
    rfl
  rw [header_words_eq,
    read_virial_skip _ _ _ (skips_energy_weight_seg _ (by decide) (by decide) s),
    read_virial_skip _ _ _ (skips_matrix _ (by decide) _ (by decide) (by decide) _),
    read_virial_skip _ _ _ (skips_energy_tok _ (by decide) (by decide) s)]
  by_cases h : s.has_virial = true
  · rw [if_pos h, if_pos h, read_virial_hit _ _ _ (hp h), htail]
  · rw [if_neg h, if_neg h, List.nil_append, htail]

theorem read_stress_header (s s0 : Structure)
    (hp : s.has_stress = true → ∀ i, i < 9 → printable (s.stress.getD i 0)) :
    read_stress (header_words lattice_string properties_lower s) s0 =
      .ok (if s.has_stress then { s0 with has_stress := true, stress := nine s.stress }
        else s0) := by
  have htail : ∀ s1 : Structure, read_stress
      ((if s.has_sid then [sid_string ++ s.sid] else []) ++ ([properties_lower] ++ []))
      s1 = .ok s1 := by
    intro s1
    rw [read_stress_skip _ _ _ (skips_sid_seg _ (by decide) (by decide) s),
      read_stress_skip _ _ _ (skips_properties_seg _ (by decide) (by decide))]
    rfl
  rw [header_words_eq,
    read_stress_skip _ _ _ (skips_energy_weight_seg _ (by decide) (by decide) s),
    read_stress_skip _ _ _ (skips_matrix _ (by decide) _ (by decide) (by decide) _),
    read_stress_skip _ _ _ (skips_energy_tok _ (by decide) (by decide) s),
    read_stress_skip _ _ _ (skips_virial_seg _ (by decide) (by decide) s)]
  by_cases h : s.has_stress = true
  · rw [if_pos h, if_pos h, read_stress_hit _ _ _ (hp h), htail]
  · rw [if_neg h, if_neg h, List.nil_append, htail]

theorem read_properties_header (s : Structure) :
    read_properties (header_words lattice_string properties_lower s) {} =
      .ok { species_offset := 0, pos_offset := 1, force_offset := 4, num_columns := 7 } := by
  rw [header_words_eq,
    read_properties_skip _ _ _ (skips_energy_weight_seg _ (by decide) (by decide) s),
    read_properties_skip _ _ _ (skips_matrix _ (by decide) _ (by decide) (by decide) _),
    read_properties_skip _ _ _ (skips_energy_tok _ (by decide) (by decide) s),
    read_properties_skip _ _ _ (skips_virial_seg _ (by decide) (by decide) s),
    read_properties_skip _ _ _ (skips_stress_seg _ (by decide) (by decide) s),
    read_properties_skip _ _ _ (skips_sid_seg _ (by decide) (by decide) s),
    List.append_nil, read_properties_hit]

theorem header_words_length_ne_zero (kL kP : List Char) (s : Structure) :
    (header_words kL kP s).length ≠ 0 := by
  simp [header_words, matrix_tokens]

/-- The header part of `read_one_structure` on the lower-cased header of a written frame. -/
theorem read_header_written (s : Structure)
    (hew : printable s.energy_weight) (he : printable s.energy)
    (hbox : ∀ i, i < 9 → printable (s.box.getD i 0))
    (hvir : s.has_virial = true → ∀ i, i < 9 → printable (s.virial.getD i 0))
    (hstr : s.has_stress = true → ∀ i, i < 9 → printable (s.stress.getD i 0)) :
    read_header (header_words lattice_string properties_lower s) { num_atom := s.num_atom } =
      .ok (header_part s, written_columns) := by
  unfold read_header
  rw [if_neg (header_words_length_ne_zero _ _ s)]
  simp only [read_sid_header, read_energy_weight_header _ _ hew, read_energy_header _ _ he,
    read_weight_header, read_lattice_header _ _ hbox, read_virial_header _ _ hvir,
    read_stress_header _ _ hstr, read_properties_header, Bool.not_true, Bool.false_eq_true,
    if_false]
  by_cases h1 : s.has_sid = true <;> by_cases h2 : s.energy_weight = 1 <;>
    by_cases h3 : s.has_virial = true <;> by_cases h4 : s.has_stress = true <;>
    simp [h1, h2, h3, h4, header_part, written_columns]

/-! ## The written header is its token list spelled with single spaces -/

theorem fmt_matrix_eq (a : List ℚ) :
    fmt_matrix a =
      fmt_double (a.getD 0 0) ++ ' ' :: (fmt_double (a.getD 1 0) ++ ' ' ::
        (fmt_double (a.getD 2 0) ++ ' ' :: (fmt_double (a.getD 3 0) ++ ' ' ::
          (fmt_double (a.getD 4 0) ++ ' ' :: (fmt_double (a.getD 5 0) ++ ' ' ::
            (fmt_double (a.getD 6 0) ++ ' ' :: (fmt_double (a.getD 7 0) ++ ' ' ::
              fmt_double (a.getD 8 0)))))))) := by
  simp [fmt_matrix, range_nine, List.intersperse, List.flatten]

theorem words_sp_append (a b : List (List Char)) :
    words_sp (a ++ b) = words_sp a ++ words_sp b := by
  induction a with
  | nil => rfl
  | cons t a ih => simp [words_sp, ih]

theorem unwords_snoc (ts : List (List Char)) (t : List Char) :
    unwords (ts ++ [t]) = words_sp ts ++ t := by
  cases ts with
  | nil => simp [unwords, sep_words, words_sp]
  | cons t0 ts =>
    simp only [List.cons_append, unwords, words_sp, List.append_assoc]
    congr 1
    induction ts with
    | nil => simp [sep_words, words_sp]
    | cons t1 ts ih => simp [sep_words, words_sp, ih]

theorem words_sp_matrix (K : List Char) (a : List ℚ) :
    words_sp (matrix_tokens K a) = K ++ '"' :: (fmt_matrix a ++ ['"', ' ']) := by
  simp [matrix_tokens, words_sp, fmt_matrix_eq]

theorem words_sp_singleton (t : List Char) : words_sp [t] = t ++ [' '] := rfl

theorem words_sp_nil : words_sp [] = [] := rfl

theorem words_sp_cons (t : List Char) (ts : List (List Char)) :
    words_sp (t :: ts) = t ++ ' ' :: words_sp ts := rfl

theorem words_sp_ite (c : Prop) [Decidable c] (l : List (List Char)) :
    words_sp (if c then l else []) = if c then words_sp l else [] := by
  split <;> rfl

theorem write_header_eq (s : Structure) :
    write_header s = unwords (header_words lattice_written properties_written s) := by
  have e1 : "energy_weight=".toList = energy_weight_string := by decide
  have e2 : "Lattice=\"".toList = lattice_written ++ ['"'] := by decide
  have e3 : "\" ".toList = ['"', ' '] := by decide
  have e4 : "energy=".toList = energy_string := by decide
  have e5 : "virial=\"".toList = virial_string ++ ['"'] := by decide
  have e6 : "stress=\"".toList = stress_string ++ ['"'] := by decide
  have e7 : "sid=".toList = sid_string := by decide
  have e8 : "Properties=species:S:1:pos:R:3:force:R:3".toList = properties_written := rfl
  have hw : header_words lattice_written properties_written s =
      ((if s.energy_weight ≠ 1 then [energy_weight_string ++ fmt_double s.energy_weight]
          else []) ++
        (matrix_tokens lattice_written s.box ++
          ([energy_string ++ fmt_double s.energy] ++
            ((if s.has_virial then matrix_tokens virial_string s.virial else []) ++
              ((if s.has_stress then matrix_tokens stress_string s.stress else []) ++
                (if s.has_sid then [sid_string ++ s.sid] else [])))))) ++
        [properties_written] := by
    simp [header_words]
  rw [hw, unwords_snoc]
  simp only [words_sp_append, words_sp_ite, words_sp_matrix, words_sp_singleton, write_header,
    e1, e2,
    e3, e4, e5, e6, e7, e8, List.append_assoc, List.cons_append, List.nil_append,
    List.singleton_append]
  by_cases h1 : s.has_sid = true <;> by_cases h2 : s.energy_weight = 1 <;>
    by_cases h3 : s.has_virial = true <;> by_cases h4 : s.has_stress = true <;>
    simp [h1, h2, h3, h4, words_sp_append, words_sp_matrix, words_sp_singleton, words_sp_cons,
      words_sp_nil]

theorem good_token_keyed (K w : List Char) (hK : no_space K = true)
    (hh : ∀ c, K.head? = some c → plain c = true) (hw : is_word w = true) :
    good_token (K ++ w) :=
  ⟨K, w, hK, hh, hw, Or.inl rfl⟩

theorem good_token_number (v : ℚ) : good_token (fmt_double v) :=
  ⟨[], fmt_double v, rfl, (fun _ h => by cases h), (fmt_double_word v).1, Or.inl rfl⟩

theorem good_token_number_quote (v : ℚ) : good_token (fmt_double v ++ ['"']) :=
  ⟨[], fmt_double v, rfl, (fun _ h => by cases h), (fmt_double_word v).1, Or.inr rfl⟩

theorem good_matrix_tokens (K : List Char) (hK : no_space (K ++ ['"']) = true)
    (hh : ∀ c, (K ++ ['"']).head? = some c → plain c = true) (a : List ℚ) :
    ∀ t ∈ matrix_tokens K a, good_token t := by
  intro t ht
  simp only [matrix_tokens, List.mem_cons, List.mem_singleton, List.not_mem_nil,
    or_false] at ht
  rcases ht with rfl | rfl | rfl | rfl | rfl | rfl | rfl | rfl | rfl
  · have : K ++ '"' :: fmt_double (a.getD 0 0) = (K ++ ['"']) ++ fmt_double (a.getD 0 0) := by
      simp
    rw [this]
    exact good_token_keyed _ _ hK hh (fmt_double_word _).1
  all_goals first
    | exact good_token_number _
    | exact good_token_number_quote _

theorem good_header_words (s : Structure) (hsid : s.has_sid = true → is_word s.sid = true) :
    ∀ t ∈ header_words lattice_written properties_written s, good_token t := by
  intro t ht
  rw [header_words_eq] at ht
  simp only [List.mem_append, List.mem_singleton, List.not_mem_nil, or_false] at ht
  rcases ht with h | h | h | h | h | h | h
  · split at h
    · rw [List.mem_singleton.mp h]
      exact good_token_keyed _ _ (by decide) (fun c hc => by
        have : c = 'e' := by simpa [energy_weight_string] using hc.symm
        rw [this]; decide) (fmt_double_word _).1
    · cases h
  · exact good_matrix_tokens _ (by decide) (fun c hc => by
      have : c = 'L' := by simpa [lattice_written] using hc.symm
      rw [this]; decide) _ t h
  · rw [h]
    exact good_token_keyed _ _ (by decide) (fun c hc => by
      have : c = 'e' := by simpa [energy_string] using hc.symm
      rw [this]; decide) (fmt_double_word _).1
  · split at h
    · exact good_matrix_tokens _ (by decide) (fun c hc => by
        have : c = 'v' := by simpa [virial_string] using hc.symm
        rw [this]; decide) _ t h
    · cases h
  · split at h
    · exact good_matrix_tokens _ (by decide) (fun c hc => by
        have : c = 's' := by simpa [stress_string] using hc.symm
        rw [this]; decide) _ t h
    · cases h
  · split at h
    · rename_i hs
      rw [List.mem_singleton.mp h]
      exact good_token_keyed _ _ (by decide) (fun c hc => by
        have : c = 's' := by simpa [sid_string] using hc.symm
        rw [this]; decide) (hsid hs)
    · cases h
  · rw [h]
    have hP : ∀ c, ("Properties=species:S:1:pos:R:3:force:R:".toList).head? = some c →
        plain c = true := by
      intro c hc
      have h2 : some 'P' = some c := hc
      rw [← Option.some.inj h2]
      decide
    exact ⟨"Properties=species:S:1:pos:R:3:force:R:".toList, ['3'], (by decide), hP,
      (by decide), Or.inl (by decide)⟩

theorem to_lower_append (a b : List Char) : to_lower (a ++ b) = to_lower a ++ to_lower b := by
  simp [to_lower]

theorem to_lower_cons (c : Char) (a : List Char) :
    to_lower (c :: a) = c.toLower :: to_lower a := rfl

theorem map_to_lower_matrix (K : List Char) (a : List ℚ) :
    (matrix_tokens K a).map to_lower = matrix_tokens (to_lower K) a := by
  simp only [matrix_tokens, List.map_cons, List.map_nil, to_lower_append, to_lower_cons,
    (fmt_double_word _).2]
  rfl

theorem map_to_lower_header (s : Structure) (hsid : s.has_sid = true → to_lower s.sid = s.sid) :
    (header_words lattice_written properties_written s).map to_lower =
      header_words lattice_string properties_lower s := by
  have e1 : to_lower energy_weight_string = energy_weight_string := by decide
  have e2 : to_lower lattice_written = lattice_string := by decide
  have e3 : to_lower energy_string = energy_string := by decide
  have e4 : to_lower virial_string = virial_string := by decide
  have e5 : to_lower stress_string = stress_string := by decide
  have e6 : to_lower sid_string = sid_string := by decide
  have e7 : to_lower properties_written = properties_lower := by decide
  by_cases h1 : s.has_sid = true <;> by_cases h2 : s.energy_weight = 1 <;>
    by_cases h3 : s.has_virial = true <;> by_cases h4 : s.has_stress = true <;>
    simp [header_words, h1, h2, h3, h4, map_to_lower_matrix, to_lower_append, e1, e2, e3, e4,
      e5, e6, e7, (fmt_double_word _).2, hsid]

/-! ## Atom lines -/

theorem getline_line (t rest : List Char) (ht : '\n' ∉ t) :
    getline (t ++ '\n' :: rest) = (t, rest) := by
  induction t with
  | nil => simp [getline]
  | cons c t ih =>
    have hc : c ≠ '\n' := fun h => ht (by rw [h]; exact List.mem_cons_self _ _)
    rw [List.cons_append, getline, if_neg hc, ih (fun h => ht (List.mem_cons_of_mem _ h))]

theorem getline_nil : getline [] = ([], []) := rfl

theorem newline_not_mem_of_no_space (t : List Char) (h : no_space t = true) : '\n' ∉ t := by
  intro hm
  have := List.all_eq_true.mp h _ hm
  revert this
  decide

theorem newline_not_mem_sep_words (ts : List (List Char))
    (hts : ∀ t ∈ ts, no_space t = true) : '\n' ∉ sep_words ts := by
  induction ts with
  | nil => simp [sep_words]
  | cons t ts ih =>
    simp only [sep_words, List.mem_cons, List.mem_append, not_or]
    exact ⟨by decide, newline_not_mem_of_no_space t (hts t (List.mem_cons_self _ _)),
      ih (fun x hx => hts x (List.mem_cons_of_mem _ hx))⟩

theorem newline_not_mem_unwords (ts : List (List Char))
    (hts : ∀ t ∈ ts, no_space t = true) : '\n' ∉ unwords ts := by
  cases ts with
  | nil => simp [unwords]
  | cons t ts =>
    simp only [unwords, List.mem_append, not_or]
    exact ⟨newline_not_mem_of_no_space t (hts t (List.mem_cons_self _ _)),
      newline_not_mem_sep_words ts (fun x hx => hts x (List.mem_cons_of_mem _ hx))⟩

theorem getD_mem (l : List ℚ) (n : Nat) (h : n < l.length) : l.getD n 0 ∈ l := by
  rw [List.getD_eq_getElem _ _ h]
  exact List.getElem_mem _

theorem getD_mem_symbol (l : List (List Char)) (n : Nat) (h : n < l.length) :
    l.getD n [] ∈ l := by
  rw [List.getD_eq_getElem _ _ h]
  exact List.getElem_mem _

theorem atom_tokens_ok (s : Structure) (n : Nat) (hn : n < s.atom_symbol.length)
    (hs : ∀ a ∈ s.atom_symbol, a ≠ [] ∧ no_space a = true) :
    ∀ t ∈ atom_tokens s n, t ≠ [] ∧ no_space t = true := by
  intro t ht
  simp only [atom_tokens, List.mem_cons, List.mem_singleton, List.not_mem_nil, or_false] at ht
  have hnum : ∀ v : ℚ, fmt_double v ≠ [] ∧ no_space (fmt_double v) = true :=
    fun v => ⟨fmt_double_ne_nil v, no_space_of_word _ (fmt_double_word v).1⟩
  rcases ht with rfl | rfl | rfl | rfl | rfl | rfl | rfl
  · exact hs _ (getD_mem_symbol _ _ hn)
  all_goals exact hnum _

theorem write_atom_eq (s : Structure) (n : Nat) (h1 : n < s.atom_symbol.length)
    (h2 : n < s.x.length) (h3 : n < s.y.length) (h4 : n < s.z.length) (h5 : n < s.fx.length)
    (h6 : n < s.fy.length) (h7 : n < s.fz.length) :
    write_atom s n = .ok (unwords (atom_tokens s n) ++ ['\n']) := by
  unfold write_atom
  rw [List.getElem?_eq_getElem h1, List.getElem?_eq_getElem h2, List.getElem?_eq_getElem h3,
    List.getElem?_eq_getElem h4, List.getElem?_eq_getElem h5, List.getElem?_eq_getElem h6,
    List.getElem?_eq_getElem h7]
  simp only [atom_tokens, unwords, sep_words, List.getD_eq_getElem _ _ h1,
    List.getD_eq_getElem _ _ h2, List.getD_eq_getElem _ _ h3, List.getD_eq_getElem _ _ h4,
    List.getD_eq_getElem _ _ h5, List.getD_eq_getElem _ _ h6, List.getD_eq_getElem _ _ h7,
    List.append_assoc, List.cons_append, List.nil_append, List.append_nil]

theorem write_atoms_eq (s : Structure) (ns : List Nat)
    (h : ∀ n ∈ ns, n < s.atom_symbol.length ∧ n < s.x.length ∧ n < s.y.length ∧
      n < s.z.length ∧ n < s.fx.length ∧ n < s.fy.length ∧ n < s.fz.length) :
    write_atoms s ns = .ok (atoms_text s ns) := by
  induction ns with
  | nil => rfl
  | cons n ns ih =>
    obtain ⟨h1, h2, h3, h4, h5, h6, h7⟩ := h n (List.mem_cons_self _ _)
    rw [write_atoms, write_atom_eq s n h1 h2 h3 h4 h5 h6 h7,
      ih (fun x hx => h x (List.mem_cons_of_mem _ hx))]
    simp [atoms_text]

theorem read_force_loop_written (s : Structure) (rest : List Char) (count k : Nat)
    (acc : Structure)
    (hlen : k + count ≤ s.atom_symbol.length ∧ k + count ≤ s.x.length ∧
      k + count ≤ s.y.length ∧ k + count ≤ s.z.length ∧ k + count ≤ s.fx.length ∧
      k + count ≤ s.fy.length ∧ k + count ≤ s.fz.length)
    (hs : ∀ a ∈ s.atom_symbol, a ≠ [] ∧ no_space a = true)
    (hx : ∀ v ∈ s.x, printable v) (hy : ∀ v ∈ s.y, printable v)
    (hz : ∀ v ∈ s.z, printable v) (hfx : ∀ v ∈ s.fx, printable v)
    (hfy : ∀ v ∈ s.fy, printable v) (hfz : ∀ v ∈ s.fz, printable v) :
    read_force_loop written_columns count (atoms_text s (List.range' k count) ++ rest) acc =
      .ok ({ acc with
        atom_symbol := acc.atom_symbol ++
          (List.range' k count).map (fun n => s.atom_symbol.getD n [])
        x := acc.x ++ (List.range' k count).map (fun n => s.x.getD n 0)
        y := acc.y ++ (List.range' k count).map (fun n => s.y.getD n 0)
        z := acc.z ++ (List.range' k count).map (fun n => s.z.getD n 0)
        fx := acc.fx ++ (List.range' k count).map (fun n => s.fx.getD n 0)
        fy := acc.fy ++ (List.range' k count).map (fun n => s.fy.getD n 0)
        fz := acc.fz ++ (List.range' k count).map (fun n => s.fz.getD n 0) }, rest) := by
  induction count generalizing k acc with
  | zero => simp [read_force_loop, atoms_text]
  | succ count ih =>
    obtain ⟨h1, h2, h3, h4, h5, h6, h7⟩ := hlen
    have htok := atom_tokens_ok s k (by omega) hs
    have hstream : get_tokens_stream
        (atoms_text s (List.range' k (count + 1)) ++ rest) =
        (atom_tokens s k, atoms_text s (List.range' (k + 1) count) ++ rest) := by
      simp only [get_tokens_stream, List.range'_succ, atoms_text, List.append_assoc,
        List.cons_append]
      rw [getline_line _ _ (newline_not_mem_unwords _ (fun t ht => (htok t ht).2)),
        get_tokens_unwords _ htok]
    have px := printable_rational _ (hx _ (getD_mem s.x k (by omega)))
    have py := printable_rational _ (hy _ (getD_mem s.y k (by omega)))
    have pz := printable_rational _ (hz _ (getD_mem s.z k (by omega)))
    have pfx := printable_rational _ (hfx _ (getD_mem s.fx k (by omega)))
    have pfy := printable_rational _ (hfy _ (getD_mem s.fy k (by omega)))
    have pfz := printable_rational _ (hfz _ (getD_mem s.fz k (by omega)))
    simp only [List.getD_eq_getElem?_getD] at px py pz pfx pfy pfz
    have hsym : token_at (atom_tokens s k) 0 = .ok (s.atom_symbol.getD k []) := by
      simp [token_at, atom_tokens]
    have hpos : triple_at (atom_tokens s k) 1 =
        .ok (s.x.getD k 0, s.y.getD k 0, s.z.getD k 0) := by
      simp [triple_at, double_at, token_at, atom_tokens, px, py, pz]
    have hfor : triple_at (atom_tokens s k) 4 =
        .ok (s.fx.getD k 0, s.fy.getD k 0, s.fz.getD k 0) := by
      simp [triple_at, double_at, token_at, atom_tokens, pfx, pfy, pfz]
    rw [read_force_loop, hstream]
    simp only [written_columns] at hsym hpos hfor ⊢
    rw [if_neg (by simp [atom_tokens]), hsym, hpos, if_pos (by decide), hfor]
    simp only []
    rw [show ({ species_offset := 0, pos_offset := 1, force_offset := 4, num_columns := 7 } :
      Columns) = written_columns from rfl,
      ih (k + 1) _ ⟨by omega, by omega, by omega, by omega, by omega, by omega, by omega⟩]
    simp [List.range'_succ]

/-! ## Store followed by load -/

theorem map_getD_range' (l : List ℚ) (n : Nat) (h : l.length = n) :
    (List.range' 0 n).map (fun i => l.getD i 0) = l := by
  apply List.ext_getElem
  · simp [h]
  · intro i h1 h2
    simp only [List.getElem_map, List.getElem_range', Nat.zero_add, Nat.one_mul]
    exact List.getD_eq_getElem _ _ h2

theorem map_getD_range'_symbol (l : List (List Char)) (n : Nat) (h : l.length = n) :
    (List.range' 0 n).map (fun i => l.getD i []) = l := by
  apply List.ext_getElem
  · simp [h]
  · intro i h1 h2
    simp only [List.getElem_map, List.getElem_range', Nat.zero_add, Nat.one_mul]
    exact List.getD_eq_getElem _ _ h2

theorem good_token_ne_nil (t : List Char) (ht : good_token t) : t ≠ [] := by
  obtain ⟨c, r, h, _⟩ := good_token_head t ht
  rw [h]
  simp

theorem header_tokens_unwords (ts : List (List Char)) (hts : ∀ t ∈ ts, good_token t) :
    header_tokens (unwords ts) = .ok ts := by
  simp only [header_tokens, remove_spaces_unwords ts hts,
    get_tokens_unwords ts (fun t ht => ⟨good_token_ne_nil t (hts t ht),
      good_token_no_space t (hts t ht)⟩)]

theorem printable_getD (a : List ℚ) (h : ∀ v ∈ a, printable v) (hlen : a.length = 9) :
    ∀ i, i < 9 → printable (a.getD i 0) :=
  fun i hi => h _ (getD_mem a i (by omega))

theorem write_one_structure_eq (s : Structure) (h : RoundTrips s) :
    write_one_structure s =
      .ok (fmt_int s.num_atom ++ '\n' ::
        (unwords (header_words lattice_written properties_written s) ++ '\n' ::
          (atoms_text s (List.range' 0 s.num_atom.toNat) ++ []))) := by
  unfold write_one_structure
  rw [write_atoms_eq s _ (fun n hn => by
    have := List.mem_range.mp hn
    exact ⟨by rw [h.len_symbol]; exact this, by rw [h.len_x]; exact this,
      by rw [h.len_y]; exact this, by rw [h.len_z]; exact this,
      by rw [h.len_fx]; exact this, by rw [h.len_fy]; exact this,
      by rw [h.len_fz]; exact this⟩)]
  simp [write_header_eq, List.range_eq_range']

theorem read_one_structure_written (s : Structure) (h : RoundTrips s) :
    read_one_structure
        (unwords (header_words lattice_written properties_written s) ++ '\n' ::
          (atoms_text s (List.range' 0 s.num_atom.toNat) ++ []))
        { num_atom := s.num_atom } = .ok (restore s, []) := by
  have hgood := good_header_words s (fun hs => (h.sid_word hs).1)
  have hstream : get_tokens_without_unwanted_spaces
      (unwords (header_words lattice_written properties_written s) ++ '\n' ::
        (atoms_text s (List.range' 0 s.num_atom.toNat) ++ [])) =
      .ok (header_words lattice_written properties_written s,
        atoms_text s (List.range' 0 s.num_atom.toNat) ++ []) := by
    unfold get_tokens_without_unwanted_spaces
    rw [getline_line _ _ (newline_not_mem_unwords _
      (fun t ht => good_token_no_space t (hgood t ht)))]
    simp only [header_tokens_unwords _ hgood]
  have hheader := read_header_written s h.print_energy_weight h.print_energy
    (printable_getD _ h.print_box h.len_box)
    (fun hv => printable_getD _ (h.print_virial hv) (h.len_virial hv))
    (fun hs => printable_getD _ (h.print_stress hs) (h.len_stress hs))
  have hforce := read_force_loop_written s [] s.num_atom.toNat 0
    { header_part s with
      atom_symbol := [], x := [], y := [], z := [], fx := [], fy := [], fz := [] }
    ⟨by rw [h.len_symbol]; omega, by rw [h.len_x]; omega, by rw [h.len_y]; omega,
      by rw [h.len_z]; omega, by rw [h.len_fx]; omega, by rw [h.len_fy]; omega,
      by rw [h.len_fz]; omega⟩
    h.symbols h.print_x h.print_y h.print_z h.print_fx h.print_fy h.print_fz
  have hrf : read_force written_columns (atoms_text s (List.range' 0 s.num_atom.toNat) ++ [])
      (header_part s) = .ok (restore s, []) := by
    refine hforce.trans ?_
    simp only [List.nil_append, map_getD_range' _ _ h.len_x, map_getD_range' _ _ h.len_y,
      map_getD_range' _ _ h.len_z, map_getD_range' _ _ h.len_fx, map_getD_range' _ _ h.len_fy,
      map_getD_range' _ _ h.len_fz, map_getD_range'_symbol _ _ h.len_symbol]
    rfl
  unfold read_one_structure
  rw [hstream]
  simp only [map_to_lower_header s (fun hs => (h.sid_word hs).2), hheader, hrf]

/-- Store followed by load of one frame: for the frames that satisfy `RoundTrips`, reading the
text that `write_one_structure` produces gives exactly one frame, `restore s`. -/
theorem write_then_read_eq (s : Structure) (h : RoundTrips s) :
    write_then_read s = .ok [restore s] := by
  have hN0 : 0 ≤ s.num_atom := le_trans (by decide) h.num_atom_pos
  have hdig := nat_digits_spec s.num_atom.natAbs
  have hfmt : fmt_int s.num_atom = nat_digits s.num_atom.natAbs := by
    unfold fmt_int
    rw [if_neg (by omega)]
  have hns : no_space (fmt_int s.num_atom) = true := by
    rw [hfmt]
    simp only [no_space, List.all_eq_true, Bool.not_eq_true']
    exact fun c hc => not_space_of_digit c (hdig.2.1 c hc)
  have hne : fmt_int s.num_atom ≠ [] := by rw [hfmt]; exact hdig.1
  have hfirst : ∀ rest, get_tokens_stream (fmt_int s.num_atom ++ '\n' :: rest) =
      ([fmt_int s.num_atom], rest) := by
    intro rest
    unfold get_tokens_stream
    rw [getline_line _ _ (newline_not_mem_of_no_space _ hns)]
    have := get_tokens_unwords [fmt_int s.num_atom] (fun t ht => by
      rw [List.mem_singleton.mp ht]; exact ⟨hne, hns⟩)
    simp only [unwords, sep_words, List.append_nil] at this
    rw [this]
  unfold write_then_read
  rw [write_one_structure_eq s h]
  simp only [read]
  rw [read_loop, hfirst]
  simp only [List.length_singleton, one_ne_zero, if_false, lt_irrefl, List.getD_cons_zero,
    get_int_fmt_int s.num_atom hN0 h.num_atom_int, read_one_structure_written s h]
  rw [if_neg (by have := h.num_atom_pos; omega)]
  simp only [List.nil_append]
  have hlen : ∀ a b : List Char, ∃ k, (a ++ '\n' :: b).length = k + 1 :=
    fun a b => ⟨a.length + b.length, by simp; omega⟩
  obtain ⟨k, hk⟩ := hlen (fmt_int s.num_atom)
    (unwords (header_words lattice_written properties_written s) ++ '\n' ::
      (atoms_text s (List.range' 0 s.num_atom.toNat) ++ []))
  rw [hk, read_loop]
  simp [get_tokens_stream, getline, get_tokens, get_tokens_loop]

/-! ## The frame loop of `read` never runs out of fuel -/

theorem getline_length_le (input : List Char) : (getline input).2.length ≤ input.length := by
  induction input with
  | nil => simp [getline]
  | cons c rest ih =>
    unfold getline
    split
    · simp
    · simp only [List.length_cons]
      omega

theorem getline_length_lt (input : List Char) (h : input ≠ []) :
    (getline input).2.length < input.length := by
  cases input with
  | nil => exact absurd rfl h
  | cons c rest =>
    unfold getline
    split
    · simp
    · have := getline_length_le rest
      simp only [List.length_cons]
      omega

theorem read_force_loop_length (c : Columns) (count : Nat) (input : List Char)
    (s s1 : Structure) (rest : List Char)
    (h : read_force_loop c count input s = .ok (s1, rest)) : rest.length ≤ input.length := by
  induction count generalizing input s with
  | zero =>
    simp only [read_force_loop, Except.ok.injEq, Prod.mk.injEq] at h
    rw [← h.2]
  | succ count ih =>
    unfold read_force_loop at h
    split at h
    · cases h
    · split at h
      · cases h
      · split at h
        · cases h
        · split at h
          · cases h
          · have := ih _ _ h
            have h2 := getline_length_le input
            simp only [get_tokens_stream] at this
            omega

theorem read_one_structure_length (input : List Char) (s s1 : Structure) (rest : List Char)
    (h : read_one_structure input s = .ok (s1, rest)) : rest.length ≤ input.length := by
  unfold read_one_structure at h
  split at h
  · cases h
  · rename_i tokens input1 hg
    split at h
    · cases h
    · have h1 := read_force_loop_length _ _ _ _ _ _ h
      have h2 : input1 = (getline input).2 := by
        unfold get_tokens_without_unwanted_spaces at hg
        split at hg
        · cases hg
        · simp only [Except.ok.injEq, Prod.mk.injEq] at hg
          exact hg.2.symm
      have h3 := getline_length_le input
      rw [h2] at h1
      omega

/-- The result of the frame loop does not depend on the fuel once it exceeds the length of
the stream: the loop of `read` always ends at the end of the stream or at a fatal error. -/
theorem read_loop_fuel (f1 f2 : Nat) (input : List Char) (acc : List Structure)
    (h1 : input.length < f1) (h2 : input.length < f2) :
    read_loop f1 input acc = read_loop f2 input acc := by
  induction f1 generalizing f2 input acc with
  | zero => omega
  | succ f1 ih =>
    cases f2 with
    | zero => omega
    | succ f2 =>
      unfold read_loop
      split
      · rfl
      · rename_i hlen
        split
        · rfl
        · split
          · rfl
          · split
            · rfl
            · split
              · rfl
              · rename_i s input1 hr
                have hne : input ≠ [] := by
                  intro he
                  apply hlen
                  rw [he]
                  rfl
                have h3 := getline_length_lt input hne
                have h4 := read_one_structure_length _ _ _ _ hr
                simp only [get_tokens_stream] at h4
                exact ih f2 input1 _ (by omega) (by omega)

/-! ## Store followed by load: the claims -/

theorem skips_energy_weight_written (s : Structure) (h : s.energy_weight = 1) :
    skips energy_weight_string (header_words lattice_written properties_written s) := by
  rw [header_words_eq, if_neg (by simp [h])]
  refine skips_append _ _ _ (skips_nil _) (skips_append _ _ _ ?_ (skips_append _ _ _
    (skips_energy_tok _ (by decide) (by decide) s) (skips_append _ _ _
      (skips_virial_seg _ (by decide) (by decide) s) (skips_append _ _ _
        (skips_stress_seg _ (by decide) (by decide) s) (skips_append _ _ _
          (skips_sid_seg _ (by decide) (by decide) s) ?_)))))
  · rw [matrix_tokens_eq]
    refine skips_cons _ _ _ ?_ (skips_matrix_tail _ (by decide) _ _)
    rw [starts_with_false_iff]
    simp [lattice_written, energy_weight_string]
  · exact skips_cons _ _ _ (by decide) (skips_nil _)

/-- C9, counterexample: a frame whose structure id is `A` is read back with the structure id
`a` (the reader lower-cases every header token), and a frame whose energy is `1234567` is
read back with the energy `1234570` (the writer prints six significant digits). -/
theorem round_trip_counterexample :
    write_then_read { example_frame with has_sid := true, sid := ['A'] } =
      .ok [{ example_frame with has_sid := true, sid := ['a'] }] ∧
    write_then_read { example_frame with energy := 1234567 } =
      .ok [{ example_frame with energy := 1234570 }] := by
  decide!

/-- C9, amended: for every frame that satisfies `RoundTrips` (a positive atom count, vectors
of that length, species symbols without whitespace, a structure id that is a lower-case word
free of whitespace, `=` and quotes, numbers that six significant digits reproduce) and that
does not carry both virial and stress, `write_one_structure` followed by `read` yields exactly
one frame, equal in atom count, species, positions, forces, energy, lattice, virial or stress
with their presence flags, structure id and energy weight; and when the energy weight is `1`
no token of the written header begins with `energy_weight=`. -/
theorem round_trip (s : Structure) (h : RoundTrips s)
    (hnb : ¬ (s.has_virial = true ∧ s.has_stress = true)) :
    ∃ r, write_then_read s = .ok [r] ∧ r.num_atom = s.num_atom ∧
      r.atom_symbol = s.atom_symbol ∧ r.x = s.x ∧ r.y = s.y ∧ r.z = s.z ∧
      r.fx = s.fx ∧ r.fy = s.fy ∧ r.fz = s.fz ∧ r.energy = s.energy ∧ r.box = s.box ∧
      r.has_virial = s.has_virial ∧ r.has_stress = s.has_stress ∧
      (s.has_virial = true → r.virial = s.virial) ∧
      (s.has_stress = true → r.stress = s.stress) ∧
      r.has_sid = s.has_sid ∧ (s.has_sid = true → r.sid = s.sid) ∧
      r.energy_weight = s.energy_weight ∧
      (s.energy_weight = 1 →
        header_tokens (write_header s) =
          .ok (header_words lattice_written properties_written s) ∧
        skips energy_weight_string (header_words lattice_written properties_written s)) := by
  refine ⟨restore s, write_then_read_eq s h, rfl, rfl, rfl, rfl, rfl, rfl, rfl, rfl, rfl,
    nine_eq_self _ h.len_box, rfl, ?_, ?_, ?_, rfl, ?_, rfl, ?_⟩
  · show (!s.has_virial && s.has_stress) = s.has_stress
    cases hv : s.has_virial <;> cases hs : s.has_stress <;> simp
    exact hnb ⟨hv, hs⟩
  · intro hv
    show (if s.has_virial = true then nine s.virial else List.replicate 9 0) = s.virial
    rw [if_pos hv, nine_eq_self _ (h.len_virial hv)]
  · intro hs
    have hv : s.has_virial = false := by
      cases hv : s.has_virial with
      | false => rfl
      | true => exact absurd ⟨hv, hs⟩ hnb
    show (if (!s.has_virial && s.has_stress) = true then nine s.stress
      else List.replicate 9 0) = s.stress
    rw [hv, hs, if_pos (by decide), nine_eq_self _ (h.len_stress hs)]
  · intro hs
    show (if s.has_sid = true then s.sid else []) = s.sid
    rw [if_pos hs]
  · intro hew
    rw [write_header_eq]
    exact ⟨header_tokens_unwords _ (good_header_words s (fun hs => (h.sid_word hs).1)),
      skips_energy_weight_written s hew⟩

theorem example_frame_full_round_trips : RoundTrips example_frame_full where
  num_atom_pos := by decide
  num_atom_int := by decide
  len_symbol := by decide
  len_x := by decide
  len_y := by decide
  len_z := by decide
  len_fx := by decide
  len_fy := by decide
  len_fz := by decide
  symbols := by decide
  len_box := by decide
  len_virial := by decide
  len_stress := by decide
  sid_word := by decide
  print_energy_weight := by decide!
  print_energy := by decide!
  print_box := by decide!
  print_virial := by decide!
  print_stress := by decide
  print_x := by decide!
  print_y := by decide!
  print_z := by decide!
  print_fx := by decide!
  print_fy := by decide!
  print_fz := by decide!

/-- Witness of C9 (amended): the frame `example_frame_full`. -/
theorem round_trip_witness :
    ∃ r, write_then_read example_frame_full = .ok [r] ∧
      r.num_atom = example_frame_full.num_atom ∧
      r.atom_symbol = example_frame_full.atom_symbol ∧ r.x = example_frame_full.x ∧
      r.y = example_frame_full.y ∧ r.z = example_frame_full.z ∧
      r.fx = example_frame_full.fx ∧ r.fy = example_frame_full.fy ∧
      r.fz = example_frame_full.fz ∧ r.energy = example_frame_full.energy ∧
      r.box = example_frame_full.box ∧
      r.has_virial = example_frame_full.has_virial ∧
      r.has_stress = example_frame_full.has_stress ∧
      (example_frame_full.has_virial = true → r.virial = example_frame_full.virial) ∧
      (example_frame_full.has_stress = true → r.stress = example_frame_full.stress) ∧
      r.has_sid = example_frame_full.has_sid ∧
      (example_frame_full.has_sid = true → r.sid = example_frame_full.sid) ∧
      r.energy_weight = example_frame_full.energy_weight ∧
      (example_frame_full.energy_weight = 1 →
        header_tokens (write_header example_frame_full) =
          .ok (header_words lattice_written properties_written example_frame_full) ∧
        skips energy_weight_string
          (header_words lattice_written properties_written example_frame_full)) :=
  round_trip example_frame_full example_frame_full_round_trips (by decide)

/-- C10, counterexample: the example frame with configuration weight `2` is read back with
weight `1`. -/
theorem weight_round_trip_counterexample :
    write_then_read { example_frame with weight := 2 } =
      .ok [{ example_frame with weight := 1 }] := by
  decide!

/-- C10, amended: for every frame that satisfies `RoundTrips`, whatever its configuration
weight, reading back the text that `write_one_structure` produces yields one frame whose
weight is `1`, the default of the reader: no `weight=` token is written. -/
theorem weight_read_back_default (s : Structure) (h : RoundTrips s) :
    ∃ r, write_then_read s = .ok [r] ∧ r.weight = 1 :=
  ⟨restore s, write_then_read_eq s h, rfl⟩

/-- Witness of C10 (amended): the frame `example_frame_full`, of weight `5`, is read back
with weight `1`. -/
theorem weight_read_back_default_witness :
    ∃ r, write_then_read example_frame_full = .ok [r] ∧ r.weight = 1 :=
  weight_read_back_default example_frame_full example_frame_full_round_trips

/-! ## Subsampling: the greedy admission rule -/

/-- C19: frame `i` is selected by `fps` if and only if its squared descriptor distance to
every frame selected among the indices below `i` is at least the threshold, and it is rejected
if and only if some selected frame of smaller index is at squared distance below the
threshold. -/
theorem fps_greedy_rule (structures : List Structure) (input : List ℚ) (tau : ℚ)
    (dim i : Nat) (hi : i < structures.length) :
    (i ∈ (fps structures input tau dim).indices_selected ↔
      ∀ j ∈ (fps structures input tau dim).indices_selected, j < i →
        tau ≤ distance_square dim ((fps structures input tau dim).descriptor i)
          ((fps structures input tau dim).descriptor j)) ∧
    (i ∈ (fps structures input tau dim).indices_not_selected ↔
      ∃ j ∈ (fps structures input tau dim).indices_selected, j < i ∧
        distance_square dim ((fps structures input tau dim).descriptor i)
          ((fps structures input tau dim).descriptor j) < tau) := by
  have h := fpsInv_fps structures input tau dim
  have hmem : i ∈ (fps structures input tau dim).indices_selected ∨
      i ∈ (fps structures input tau dim).indices_not_selected :=
    List.mem_append.mp (h.perm.symm.subset (List.mem_range.mpr hi))
  have hexcl : i ∈ (fps structures input tau dim).indices_selected →
      i ∈ (fps structures input tau dim).indices_not_selected → False := by
    intro h1 h2
    obtain ⟨j, hj, hlt, hd⟩ := h.near i h2
    exact absurd hd (not_lt.mpr (h.far i h1 j hj (by omega)))
  constructor
  · constructor
    · intro h1 j hj hlt
      exact h.far i h1 j hj (by omega)
    · intro hall
      rcases hmem with h1 | h2
      · exact h1
      · obtain ⟨j, hj, hlt, hd⟩ := h.near i h2
        exact absurd hd (not_lt.mpr (hall j hj hlt))
  · constructor
    · intro h2
      exact h.near i h2
    · rintro ⟨j, hj, hlt, hd⟩
      rcases hmem with h1 | h2
      · exact absurd hd (not_lt.mpr (h.far i h1 j hj (by omega)))
      · exact h2

/-- Witness of C19: descriptors `0, 1, 2` with threshold `4`, frame `1`. -/
theorem fps_greedy_rule_witness :
    (1 ∈ (fps [{}, {}, {}] [0, 1, 2] 4 1).indices_selected ↔
      ∀ j ∈ (fps [{}, {}, {}] [0, 1, 2] 4 1).indices_selected, j < 1 →
        (4 : ℚ) ≤ distance_square 1 ((fps [{}, {}, {}] [0, 1, 2] 4 1).descriptor 1)
          ((fps [{}, {}, {}] [0, 1, 2] 4 1).descriptor j)) ∧
    (1 ∈ (fps [{}, {}, {}] [0, 1, 2] 4 1).indices_not_selected ↔
      ∃ j ∈ (fps [{}, {}, {}] [0, 1, 2] 4 1).indices_selected, j < 1 ∧
        distance_square 1 ((fps [{}, {}, {}] [0, 1, 2] 4 1).descriptor 1)
          ((fps [{}, {}, {}] [0, 1, 2] 4 1).descriptor j) < 4) :=
  fps_greedy_rule [{}, {}, {}] [0, 1, 2] 4 1 1 (by decide)

/-! ## Header normalisation: no blank is left next to `=` or to a quote -/

theorem normal_ctx_suffix (pre : List Char) (a : Char) (rest : List Char) (pp p : Char)
    (h : normal_ctx pp p (pre ++ a :: rest) = true) : ∃ q, normal_ctx q a rest = true := by
  induction pre generalizing pp p with
  | nil =>
    have h1 : ok3 pp p a = true ∧ normal_ctx p a rest = true := by
      simpa [normal_ctx] using h
    exact ⟨p, h1.2⟩
  | cons c pre ih =>
    have h1 : ok3 pp p c = true ∧ normal_ctx p c (pre ++ a :: rest) = true := by
      simpa [normal_ctx] using h
    exact ih _ _ h1.2

/-- C20: in the result of a successful `remove_spaces` no space or tab is next to an `=`,
none directly follows a double quote that directly follows `=`, and none directly precedes a
double quote. -/
theorem remove_spaces_no_adjacent_blank (line r : List Char)
    (h : remove_spaces line = .ok r) :
    (∀ pre a b post, r = pre ++ a :: b :: post →
      ¬ (is_blank a = true ∧ b = '=') ∧ ¬ (a = '=' ∧ is_blank b = true) ∧
        ¬ (is_blank a = true ∧ b = '"')) ∧
    (∀ pre c post, r = pre ++ '=' :: '"' :: c :: post → is_blank c = false) := by
  have hn : normal_ctx 'a' 'a' r = true := remove_spaces_normal line r h
  constructor
  · intro pre a b post hr
    rw [hr] at hn
    obtain ⟨q, hq⟩ := normal_ctx_suffix pre a (b :: post) _ _ hn
    have h1 : ok3 q a b = true ∧ normal_ctx a b post = true := by
      simpa [normal_ctx] using hq
    have h3 := (ok3_iff _ _ _).mp h1.1
    refine ⟨fun hc => (h3.1 hc.1).1 hc.2, fun hc => ?_, fun hc => (h3.1 hc.1).2 hc.2⟩
    have := h3.2.1 hc.1
    rw [hc.2] at this
    cases this
  · intro pre c post hr
    rw [hr] at hn
    obtain ⟨q, hq⟩ := normal_ctx_suffix pre '=' ('"' :: c :: post) _ _ hn
    have h1 : ok3 q '=' '"' = true ∧ normal_ctx '=' '"' (c :: post) = true := by
      simpa [normal_ctx] using hq
    have h2 : ok3 '=' '"' c = true ∧ normal_ctx '"' c post = true := by
      simpa [normal_ctx] using h1.2
    exact ((ok3_iff _ _ _).mp h2.1).2.2 rfl rfl

/-- Witness of C20: the header `Lattice = " 1 0 "  energy= 2`. -/
theorem remove_spaces_no_adjacent_blank_witness :
    (∀ pre a b post, "Lattice=\"1 0\"  energy=2".toList = pre ++ a :: b :: post →
      ¬ (is_blank a = true ∧ b = '=') ∧ ¬ (a = '=' ∧ is_blank b = true) ∧
        ¬ (is_blank a = true ∧ b = '"')) ∧
    (∀ pre c post, "Lattice=\"1 0\"  energy=2".toList = pre ++ '=' :: '"' :: c :: post →
      is_blank c = false) :=
  remove_spaces_no_adjacent_blank "Lattice = \" 1 0 \"  energy= 2".toList
    "Lattice=\"1 0\"  energy=2".toList (by decide!)

/-! ## Reading a header: which fields each loop touches -/

theorem read_header_eq (tokens : List (List Char)) (s : Structure) :
    read_header tokens s =
      match read_header_fields tokens s with
      | .error e => .error e
      | .ok s6 =>
        match read_properties tokens {} with
        | .error e => .error e
        | .ok c => .ok (s6, c) := by
  unfold read_header read_header_fields
  repeat' split
  all_goals first | rfl | simp_all

theorem read_header_ok (tokens : List (List Char)) (s s6 : Structure) (c : Columns)
    (h : read_header tokens s = .ok (s6, c)) :
    read_header_fields tokens s = .ok s6 ∧ read_properties tokens {} = .ok c := by
  rw [read_header_eq] at h
  split at h
  · cases h
  · split at h
    · cases h
    · simp only [Except.ok.injEq, Prod.mk.injEq] at h
      obtain ⟨h1, h2⟩ := h
      subst h1 h2
      exact ⟨by assumption, by assumption⟩

theorem read_header_fields_ok (tokens : List (List Char)) (s s6 : Structure)
    (h : read_header_fields tokens s = .ok s6) :
    ∃ s1 s2 s3 s4 s5, tokens ≠ [] ∧
      read_energy_weight tokens (read_sid tokens s) = .ok s1 ∧
      read_energy tokens s1 false = .ok (s2, true) ∧
      read_weight tokens { s2 with weight := 1 } = .ok s3 ∧
      read_lattice tokens s3 false = .ok (s4, true) ∧
      read_virial tokens { s4 with has_virial := false } = .ok s5 ∧
      (if !s5.has_virial then read_stress tokens s5 else .ok s5) = .ok s6 := by
  unfold read_header_fields at h
  split at h
  · cases h
  · rename_i hlen
    split at h
    · cases h
    · rename_i s1 h1
      split at h
      · cases h
      · rename_i s2 has2 h2
        split at h
        · cases h
        · rename_i hhas2
          split at h
          · cases h
          · rename_i s3 h3
            split at h
            · cases h
            · rename_i s4 has4 h4
              split at h
              · cases h
              · rename_i hhas4
                split at h
                · cases h
                · rename_i s5 h5
                  simp only [Bool.not_eq_true, Bool.not_eq_eq_eq_not, Bool.not_true,
                    Bool.not_eq_false] at hhas2 hhas4
                  subst hhas2 hhas4
                  refine ⟨s1, s2, s3, s4, s5, ?_, h1, h2, h3, h4, h5, h⟩
                  intro hnil
                  exact hlen (by simp [hnil])

theorem read_sid_shape (tokens : List (List Char)) (s : Structure) :
    ∃ b v, read_sid tokens s = { s with has_sid := b, sid := v } := by
  induction tokens generalizing s with
  | nil => exact ⟨s.has_sid, s.sid, rfl⟩
  | cons t ts ih =>
    unfold read_sid
    split
    · obtain ⟨b, v, h⟩ := ih { s with has_sid := true, sid := t.drop sid_string.length }
      exact ⟨b, v, h⟩
    · exact ih s

theorem read_energy_weight_shape (tokens : List (List Char)) (s s1 : Structure)
    (h : read_energy_weight tokens s = .ok s1) : ∃ v, s1 = { s with energy_weight := v } := by
  induction tokens generalizing s with
  | nil =>
    simp only [read_energy_weight, Except.ok.injEq] at h
    exact ⟨s.energy_weight, h.symm⟩
  | cons t ts ih =>
    unfold read_energy_weight at h
    split at h
    · split at h
      · cases h
      · obtain ⟨v, hv⟩ := ih _ h
        exact ⟨v, hv⟩
    · exact ih s h

theorem read_energy_shape (tokens : List (List Char)) (s s1 : Structure) (has has1 : Bool)
    (h : read_energy tokens s has = .ok (s1, has1)) : ∃ v, s1 = { s with energy := v } := by
  induction tokens generalizing s has with
  | nil =>
    simp only [read_energy, Except.ok.injEq, Prod.mk.injEq] at h
    exact ⟨s.energy, h.1.symm⟩
  | cons t ts ih =>
    unfold read_energy at h
    split at h
    · split at h
      · cases h
      · obtain ⟨v, hv⟩ := ih _ _ h
        exact ⟨v, hv⟩
    · exact ih s has h

theorem read_weight_shape (tokens : List (List Char)) (s s1 : Structure)
    (h : read_weight tokens s = .ok s1) :
    ∃ v, s1 = { s with weight := v } ∧ (v = s.weight ∨ weight_rejected v = false) := by
  induction tokens generalizing s with
  | nil =>
    simp only [read_weight, Except.ok.injEq] at h
    exact ⟨s.weight, h.symm, Or.inl rfl⟩
  | cons t ts ih =>
    unfold read_weight at h
    split at h
    · split at h
      · cases h
      · rename_i w hw
        split at h
        · cases h
        · rename_i hrange
          obtain ⟨v, hv, hor⟩ := ih _ h
          refine ⟨v, hv, ?_⟩
          rcases hor with h1 | h2
          · right
            simp only at h1
            rw [h1]
            simpa using hrange
          · exact Or.inr h2
    · exact ih s h

theorem read_lattice_shape (tokens : List (List Char)) (s s1 : Structure) (has has1 : Bool)
    (h : read_lattice tokens s has = .ok (s1, has1)) : ∃ v, s1 = { s with box := v } := by
  induction tokens generalizing s has with
  | nil =>
    simp only [read_lattice, Except.ok.injEq, Prod.mk.injEq] at h
    exact ⟨s.box, h.1.symm⟩
  | cons t ts ih =>
    unfold read_lattice at h
    split at h
    · split at h
      · cases h
      · obtain ⟨v, hv⟩ := ih _ _ h
        exact ⟨v, hv⟩
    · exact ih s has h

theorem read_virial_shape (tokens : List (List Char)) (s s1 : Structure)
    (h : read_virial tokens s = .ok s1) :
    ∃ b v, s1 = { s with has_virial := b, virial := v } := by
  induction tokens generalizing s with
  | nil =>
    simp only [read_virial, Except.ok.injEq] at h
    exact ⟨s.has_virial, s.virial, h.symm⟩
  | cons t ts ih =>
    unfold read_virial at h
    split at h
    · split at h
      · cases h
      · obtain ⟨b, v, hv⟩ := ih _ h
        exact ⟨b, v, hv⟩
    · exact ih s h

theorem read_stress_shape (tokens : List (List Char)) (s s1 : Structure)
    (h : read_stress tokens s = .ok s1) :
    ∃ b v, s1 = { s with has_stress := b, stress := v } := by
  induction tokens generalizing s with
  | nil =>
    simp only [read_stress, Except.ok.injEq] at h
    exact ⟨s.has_stress, s.stress, h.symm⟩
  | cons t ts ih =>
    unfold read_stress at h
    split at h
    · split at h
      · cases h
      · obtain ⟨b, v, hv⟩ := ih _ h
        exact ⟨b, v, hv⟩
    · exact ih s h

/-- A successful header decode changes only the header fields, the weight passes the range
test and the two flags `has_virial` and `has_stress` are not both set unless `has_stress` was set
before. -/
theorem read_header_fields_shape (tokens : List (List Char)) (s s6 : Structure)
    (h : read_header_fields tokens s = .ok s6) :
    s6.num_atom = s.num_atom ∧ s6.atom_symbol = s.atom_symbol ∧ s6.x = s.x ∧ s6.y = s.y ∧
      s6.z = s.z ∧ s6.fx = s.fx ∧ s6.fy = s.fy ∧ s6.fz = s.fz ∧ s6.q = s.q ∧
      weight_rejected s6.weight = false ∧
      (s6.has_virial = true → s6.has_stress = s.has_stress) := by
  obtain ⟨s1, s2, s3, s4, s5, _, h1, h2, h3, h4, h5, h6⟩ := read_header_fields_ok tokens s s6 h
  obtain ⟨b0, v0, e0⟩ := read_sid_shape tokens s
  obtain ⟨v1, e1⟩ := read_energy_weight_shape _ _ _ h1
  obtain ⟨v2, e2⟩ := read_energy_shape _ _ _ _ _ h2
  obtain ⟨v3, e3, hw⟩ := read_weight_shape _ _ _ h3
  obtain ⟨v4, e4⟩ := read_lattice_shape _ _ _ _ _ h4
  obtain ⟨b5, v5, e5⟩ := read_virial_shape _ _ _ h5
  have hw3 : weight_rejected v3 = false := by
    rcases hw with hw | hw
    · simp only at hw
      rw [hw]
      decide!
    · exact hw
  rw [e0] at e1
  subst e1 e2 e3 e4 e5
  by_cases hb : b5 = true
  · subst hb
    simp only [Bool.not_true, Bool.false_eq_true, ↓reduceIte, Except.ok.injEq] at h6
    subst h6
    exact ⟨rfl, rfl, rfl, rfl, rfl, rfl, rfl, rfl, rfl, hw3, fun _ => rfl⟩
  · have hb' : b5 = false := by simpa using hb
    subst hb'
    simp only [Bool.not_false, ↓reduceIte] at h6
    obtain ⟨b6, v6, e6⟩ := read_stress_shape _ _ _ h6
    subst e6
    exact ⟨rfl, rfl, rfl, rfl, rfl, rfl, rfl, rfl, rfl, hw3,
      fun hc => absurd hc (by simp)⟩

theorem read_force_loop_shape (c : Columns) (count : Nat) (input : List Char)
    (s s1 : Structure) (rest : List Char)
    (h : read_force_loop c count input s = .ok (s1, rest)) :
    ∃ sym x y z fx fy fz, s1 =
      { s with atom_symbol := sym, x := x, y := y, z := z, fx := fx, fy := fy, fz := fz } := by
  induction count generalizing input s with
  | zero =>
    simp only [read_force_loop, Except.ok.injEq, Prod.mk.injEq] at h
    exact ⟨_, _, _, _, _, _, _, h.1.symm⟩
  | succ n ih =>
    unfold read_force_loop at h
    split at h
    · cases h
    · split at h
      · cases h
      · split at h
        · cases h
        · split at h
          · cases h
          · obtain ⟨sym, x, y, z, fx, fy, fz, hs⟩ := ih _ _ h
            exact ⟨sym, x, y, z, fx, fy, fz, hs⟩

/-- A successful `read_one_structure` keeps `num_atom`, gives a weight that passes the range
test and leaves `has_stress` as it was when `has_virial` is set. -/
theorem read_one_structure_shape (input : List Char) (s s1 : Structure) (rest : List Char)
    (h : read_one_structure input s = .ok (s1, rest)) :
    s1.num_atom = s.num_atom ∧ weight_rejected s1.weight = false ∧
      (s1.has_virial = true → s1.has_stress = s.has_stress) := by
  unfold read_one_structure at h
  split at h
  · cases h
  · split at h
    · cases h
    · rename_i s6 c hh
      obtain ⟨hf, _⟩ := read_header_ok _ _ _ _ hh
      obtain ⟨hn, _, _, _, _, _, _, _, _, hw1, hvs⟩ := read_header_fields_shape _ _ _ hf
      obtain ⟨sym, x, y, z, fx, fy, fz, hs⟩ := read_force_loop_shape _ _ _ _ _ _ h
      subst hs
      exact ⟨hn, hw1, hvs⟩

/-- A property that every frame decoded by `read_one_structure` from a fresh frame with a
positive atom count has, is a property of every frame returned by `read`. -/
theorem read_loop_forall (P : Structure → Prop)
    (hP : ∀ (n : Int) input s rest, 1 ≤ n →
      read_one_structure input { num_atom := n } = .ok (s, rest) → P s)
    (fuel : Nat) (input : List Char) (acc frames : List Structure)
    (hacc : ∀ f ∈ acc, P f) (h : read_loop fuel input acc = .ok frames) :
    ∀ f ∈ frames, P f := by
  induction fuel generalizing input acc with
  | zero =>
    simp only [read_loop, Except.ok.injEq] at h
    subst h
    exact hacc
  | succ n ih =>
    unfold read_loop at h
    split at h
    · simp only [Except.ok.injEq] at h
      subst h
      exact hacc
    · split at h
      · cases h
      · split at h
        · cases h
        · rename_i num_atom hnum
          split at h
          · cases h
          · rename_i hge
            split at h
            · cases h
            · rename_i s1 input1 hone
              refine ih _ _ ?_ h
              intro f hf
              rcases List.mem_append.mp hf with h1 | h1
              · exact hacc f h1
              · simp only [List.mem_singleton] at h1
                subst h1
                exact hP num_atom _ _ _ (by omega) hone

theorem read_forall (P : Structure → Prop)
    (hP : ∀ (n : Int) input s rest, 1 ≤ n →
      read_one_structure input { num_atom := n } = .ok (s, rest) → P s)
    (input : List Char) (frames : List Structure) (h : read input = .ok frames) :
    ∀ f ∈ frames, P f :=
  read_loop_forall P hP _ input [] frames (fun _ hf => by cases hf) h

/-! ## Reading a header: missing keys, virial and stress, weight, properties without `pos` -/

theorem exists_error_of_not_ok {ε α : Type} (x : Except ε α)
    (hno : ∀ r, x ≠ Except.ok r) : ∃ err, x = Except.error err := by
  match x, hno with
  | .ok r, hno => exact (hno r rfl).elim
  | .error err, _ => exact ⟨err, rfl⟩

/-- The last token of a list that begins with the key. -/
theorem exists_last_key (K : List Char) (tokens : List (List Char))
    (h : ∃ t ∈ tokens, starts_with t K = true) :
    ∃ pre tok post, tokens = pre ++ tok :: post ∧ starts_with tok K = true ∧ skips K post := by
  induction tokens with
  | nil =>
    obtain ⟨t, ht, _⟩ := h
    cases ht
  | cons a l ih =>
    by_cases hl : ∃ t ∈ l, starts_with t K = true
    · obtain ⟨pre, tok, post, e, h1, h2⟩ := ih hl
      exact ⟨a :: pre, tok, post, by rw [e]; rfl, h1, h2⟩
    · refine ⟨[], a, l, rfl, ?_, ?_⟩
      · obtain ⟨t, ht, hk⟩ := h
        rcases List.mem_cons.mp ht with h1 | h1
        · rw [← h1]; exact hk
        · exact absurd ⟨t, h1, hk⟩ hl
      · intro t ht
        by_contra hc
        exact hl ⟨t, ht, by simpa using hc⟩

/-- The first token of a list that begins with the key. -/
theorem exists_first_key (K : List Char) (tokens : List (List Char))
    (h : ∃ t ∈ tokens, starts_with t K = true) :
    ∃ pre tok post, tokens = pre ++ tok :: post ∧ starts_with tok K = true ∧ skips K pre := by
  induction tokens with
  | nil =>
    obtain ⟨t, ht, _⟩ := h
    cases ht
  | cons a l ih =>
    by_cases ha : starts_with a K = true
    · exact ⟨[], a, l, rfl, ha, skips_nil K⟩
    · have hl : ∃ t ∈ l, starts_with t K = true := by
        obtain ⟨t, ht, hk⟩ := h
        rcases List.mem_cons.mp ht with h1 | h1
        · rw [h1] at hk; exact absurd hk ha
        · exact ⟨t, h1, hk⟩
      obtain ⟨pre, tok, post, e, h1, h2⟩ := ih hl
      exact ⟨a :: pre, tok, post, by rw [e]; rfl, h1,
        skips_cons K a pre (by simpa using ha) h2⟩

theorem read_energy_none (tokens : List (List Char)) (s : Structure) (has : Bool)
    (h : skips energy_string tokens) : read_energy tokens s has = .ok (s, has) := by
  have := read_energy_skip tokens [] s has h
  rwa [List.append_nil] at this

theorem read_lattice_none (tokens : List (List Char)) (s : Structure) (has : Bool)
    (h : skips lattice_string tokens) : read_lattice tokens s has = .ok (s, has) := by
  have := read_lattice_skip tokens [] s has h
  rwa [List.append_nil] at this

theorem read_weight_none (tokens : List (List Char)) (s : Structure)
    (h : skips weight_string tokens) : read_weight tokens s = .ok s := by
  have := read_weight_skip tokens [] s h
  rwa [List.append_nil] at this

theorem read_virial_none (tokens : List (List Char)) (s : Structure)
    (h : skips virial_string tokens) : read_virial tokens s = .ok s := by
  have := read_virial_skip tokens [] s h
  rwa [List.append_nil] at this

theorem read_stress_none (tokens : List (List Char)) (s : Structure)
    (h : skips stress_string tokens) : read_stress tokens s = .ok s := by
  have := read_stress_skip tokens [] s h
  rwa [List.append_nil] at this

theorem read_header_fields_energy (tokens : List (List Char)) (s : Structure)
    (h : skips energy_string tokens) : ∃ e, read_header_fields tokens s = .error e := by
  apply exists_error_of_not_ok
  intro s6 h6
  obtain ⟨s1, s2, s3, s4, s5, _, _, h2, _⟩ := read_header_fields_ok tokens s s6 h6
  rw [read_energy_none tokens s1 false h] at h2
  simp at h2

theorem read_header_fields_lattice (tokens : List (List Char)) (s : Structure)
    (h : skips lattice_string tokens) : ∃ e, read_header_fields tokens s = .error e := by
  apply exists_error_of_not_ok
  intro s6 h6
  obtain ⟨s1, s2, s3, s4, s5, _, _, _, _, h4, _⟩ := read_header_fields_ok tokens s s6 h6
  rw [read_lattice_none tokens s3 false h] at h4
  simp at h4

/-- A failure of the header fields is a failure of `read_one_structure`. -/
theorem read_one_structure_fields_error (input : List Char) (tokens : List (List Char))
    (input1 : List Char) (s : Structure) (e : Fatal)
    (h : get_tokens_without_unwanted_spaces input = .ok (tokens, input1))
    (he : read_header_fields (tokens.map to_lower) s = .error e) :
    read_one_structure input s = .error e := by
  unfold read_one_structure
  rw [h]
  simp only
  rw [read_header_eq, he]

/-- A success of `read_one_structure` is a success of the header fields, and the atom lines
leave the header fields alone. -/
theorem read_one_structure_ok (input : List Char) (tokens : List (List Char))
    (input1 : List Char) (s s1 : Structure) (rest : List Char)
    (h : get_tokens_without_unwanted_spaces input = .ok (tokens, input1))
    (hone : read_one_structure input s = .ok (s1, rest)) :
    ∃ s6 c, read_header_fields (tokens.map to_lower) s = .ok s6 ∧
      read_properties (tokens.map to_lower) {} = .ok c ∧
      read_force c input1 s6 = .ok (s1, rest) ∧
      s1.has_virial = s6.has_virial ∧ s1.has_stress = s6.has_stress ∧
      s1.virial = s6.virial ∧ s1.stress = s6.stress ∧ s1.weight = s6.weight ∧
      s1.box = s6.box ∧ s1.energy = s6.energy ∧ s1.energy_weight = s6.energy_weight ∧
      s1.has_sid = s6.has_sid ∧ s1.sid = s6.sid ∧ s1.num_atom = s6.num_atom := by
  unfold read_one_structure at hone
  rw [h] at hone
  simp only at hone
  split at hone
  · cases hone
  · rename_i s6 c hh
    obtain ⟨hf, hp⟩ := read_header_ok _ _ _ _ hh
    obtain ⟨sym, x, y, z, fx, fy, fz, hs⟩ := read_force_loop_shape _ _ _ _ _ _ hone
    refine ⟨s6, c, hf, hp, hone, ?_⟩
    subst hs
    exact ⟨rfl, rfl, rfl, rfl, rfl, rfl, rfl, rfl, rfl, rfl, rfl⟩

/-- C12: decoding a frame fails whenever no token of the normalised lower-cased header
begins with `energy=`, and whenever no token begins with `lattice=`: the header part and
`read_one_structure` as a whole end in a fatal error, no frame is produced. -/
theorem header_without_energy_or_lattice (input : List Char) (tokens : List (List Char))
    (input1 : List Char) (s : Structure)
    (h : get_tokens_without_unwanted_spaces input = .ok (tokens, input1))
    (hk : skips energy_string (tokens.map to_lower) ∨
      skips lattice_string (tokens.map to_lower)) :
    (∃ e, read_header (tokens.map to_lower) s = .error e) ∧
      ∃ e, read_one_structure input s = .error e := by
  have hf : ∃ e, read_header_fields (tokens.map to_lower) s = .error e := by
    rcases hk with hk | hk
    · exact read_header_fields_energy _ s hk
    · exact read_header_fields_lattice _ s hk
  obtain ⟨e, he⟩ := hf
  exact ⟨⟨e, by rw [read_header_eq, he]⟩, e, read_one_structure_fields_error _ _ _ _ _ h he⟩

theorem read_virial_last (pre : List (List Char)) (tok : List Char) (post : List (List Char))
    (s s5 : Structure) (htok : starts_with tok virial_string = true)
    (hpost : skips virial_string post)
    (h : read_virial (pre ++ tok :: post) s = .ok s5) :
    s5.has_virial = true ∧
      read_components virial_string.length (tok :: post) (List.range 9) = .ok s5.virial := by
  induction pre generalizing s with
  | nil =>
    rw [List.nil_append, read_virial, if_pos htok] at h
    split at h
    · cases h
    · rename_i virial hv
      rw [read_virial_none post _ hpost] at h
      simp only [Except.ok.injEq] at h
      subst h
      exact ⟨rfl, hv⟩
  | cons t pre ih =>
    rw [List.cons_append, read_virial] at h
    split at h
    · split at h
      · cases h
      · exact ih _ h
    · exact ih _ h

/-- C11: no frame returned by `read` has both `has_virial` and `has_stress` set; and a frame
decoded from a header with a `virial=` key (with or without a `stress=` key) has
`has_virial = true`, `has_stress = false` and as virial the nine numbers read from the
tokens at the last `virial=` token. -/
theorem virial_excludes_stress :
    (∀ input frames, read input = .ok frames →
      ∀ f ∈ frames, ¬ (f.has_virial = true ∧ f.has_stress = true)) ∧
    (∀ input tokens input1 (n : Int) s rest,
      get_tokens_without_unwanted_spaces input = .ok (tokens, input1) →
      (∃ t ∈ tokens.map to_lower, starts_with t virial_string = true) →
      read_one_structure input { num_atom := n } = .ok (s, rest) →
      s.has_virial = true ∧ s.has_stress = false ∧
        ∃ pre tok post, tokens.map to_lower = pre ++ tok :: post ∧
          starts_with tok virial_string = true ∧ skips virial_string post ∧
          read_components virial_string.length (tok :: post) (List.range 9) =
            .ok s.virial) := by
  constructor
  · intro input frames h
    refine read_forall (fun f => ¬ (f.has_virial = true ∧ f.has_stress = true)) ?_ input
      frames h
    intro n input s rest _ hone hboth
    have hs := (read_one_structure_shape _ _ _ _ hone).2.2 hboth.1
    rw [hboth.2] at hs
    cases hs
  · intro input tokens input1 n s rest hget hvir hone
    obtain ⟨s6, c, hf, _, _, e1, e2, e3, _⟩ := read_one_structure_ok _ _ _ _ _ _ hget hone
    obtain ⟨_, _, _, _, _, _, _, _, _, _, hvs⟩ := read_header_fields_shape _ _ _ hf
    obtain ⟨s1, s2, s3, s4, s5, _, _, _, _, _, h5, h6⟩ := read_header_fields_ok _ _ _ hf
    obtain ⟨pre, tok, post, e, htok, hpost⟩ := exists_last_key virial_string _ hvir
    rw [e] at h5
    obtain ⟨hv, hc⟩ := read_virial_last pre tok post _ _ htok hpost h5
    rw [hv] at h6
    simp only [Bool.not_true, Bool.false_eq_true, ↓reduceIte, Except.ok.injEq] at h6
    subst h6
    refine ⟨by rw [e1]; exact hv, by rw [e2, hvs hv], pre, tok, post, e, htok, hpost, ?_⟩
    rw [e3]
    exact hc

/-- Witness of C11: the file made of the count line `1`, `example_header_both` and one atom
line. -/
theorem virial_excludes_stress_witness :
    (∀ f ∈ [example_decoded], ¬ (f.has_virial = true ∧ f.has_stress = true)) ∧
    (example_decoded.has_virial = true ∧ example_decoded.has_stress = false ∧
      ∃ pre tok post, (get_tokens example_header_both).map to_lower = pre ++ tok :: post ∧
        starts_with tok virial_string = true ∧ skips virial_string post ∧
        read_components virial_string.length (tok :: post) (List.range 9) =
          .ok example_decoded.virial) :=
  ⟨virial_excludes_stress.1 ("1\n".toList ++ example_header_both ++ '\n' :: example_atom_line)
      [example_decoded] (by decide!),
    virial_excludes_stress.2 (example_header_both ++ '\n' :: example_atom_line)
      (get_tokens example_header_both) example_atom_line 1 example_decoded [] (by decide!)
      ⟨"virial=\"1".toList, by decide!, by decide!⟩ (by decide!)⟩

/-- Witness of C12: a header without `energy=` and a header without `lattice=`. -/
theorem header_without_energy_or_lattice_witness :
    ((∃ e, read_header ((get_tokens example_header_no_energy).map to_lower) {} = .error e) ∧
      ∃ e, read_one_structure (example_header_no_energy ++ '\n' :: example_atom_line) {} =
        .error e) ∧
    ((∃ e, read_header ((get_tokens example_header_no_lattice).map to_lower) {} = .error e) ∧
      ∃ e, read_one_structure (example_header_no_lattice ++ '\n' :: example_atom_line) {} =
        .error e) :=
  ⟨header_without_energy_or_lattice (example_header_no_energy ++ '\n' :: example_atom_line)
      (get_tokens example_header_no_energy) example_atom_line {} (by decide!)
      (Or.inl (by unfold skips; decide!)),
    header_without_energy_or_lattice (example_header_no_lattice ++ '\n' :: example_atom_line)
      (get_tokens example_header_no_lattice) example_atom_line {} (by decide!)
      (Or.inr (by unfold skips; decide!))⟩

theorem read_weight_out_of_range (tokens : List (List Char)) (s : Structure) (t : List Char)
    (w : Double) (ht : t ∈ tokens) (hk : starts_with t weight_string = true)
    (hv : get_double_from_token (t.drop weight_string.length) = .ok w)
    (hr : weight_rejected w = true) : ∃ e, read_weight tokens s = .error e := by
  induction tokens generalizing s with
  | nil => cases ht
  | cons a l ih =>
    unfold read_weight
    rcases List.mem_cons.mp ht with h1 | h1
    · subst h1
      rw [if_pos hk, hv]
      simp only
      rw [if_pos hr]
      exact ⟨_, rfl⟩
    · split
      · split
        · exact ⟨_, rfl⟩
        · split
          · exact ⟨_, rfl⟩
          · exact ih _ h1
      · exact ih _ h1

/-- The weights that pass the range test: the numbers in `(0, 100]` and the NaNs. -/
theorem weight_rejected_eq_false (w : Double) :
    weight_rejected w = false ↔
      (∃ v, w = .finite v ∧ 0 < v ∧ v ≤ 100) ∨ ∃ negative, w = .nan negative := by
  cases w with
  | finite v =>
    simp only [weight_rejected, Bool.or_eq_false_iff, decide_eq_false_iff_not, not_le, not_lt,
      Double.finite.injEq, exists_eq_left', reduceCtorEq, exists_false, or_false]
  | infinite b => simp [weight_rejected]
  | nan b => simp [weight_rejected]

/-- What holds of the atom count and the configuration weight: every frame returned by a
successful `read` has `num_atom ≥ 1` and a weight that is a number in `(0, 100]` or a NaN; a
count line whose value is below `1` is fatal; a `weight=` token whose value is a number
outside `(0, 100]` or an infinity is fatal; a header without `weight=` token gives the
weight `1`. -/
theorem read_num_atom_and_weight :
    (∀ input frames, read input = .ok frames →
      ∀ f ∈ frames, 1 ≤ f.num_atom ∧
        ((∃ v, f.weight = .finite v ∧ 0 < v ∧ v ≤ 100) ∨ ∃ negative, f.weight = .nan negative)) ∧
    (∀ input (num_atom : Int), (get_tokens_stream input).1.length = 1 →
      get_int_from_token ((get_tokens_stream input).1.getD 0 []) = .ok num_atom →
      num_atom < 1 → read input = .error .num_atom_below_one) ∧
    (∀ input tokens input1 s t (w : Double),
      get_tokens_without_unwanted_spaces input = .ok (tokens, input1) →
      t ∈ tokens.map to_lower → starts_with t weight_string = true →
      get_double_from_token (t.drop weight_string.length) = .ok w →
      ((∃ v, w = .finite v ∧ (v ≤ 0 ∨ 100 < v)) ∨ ∃ negative, w = .infinite negative) →
      ∃ e, read_one_structure input s = .error e) ∧
    (∀ input tokens input1 s s1 rest,
      get_tokens_without_unwanted_spaces input = .ok (tokens, input1) →
      skips weight_string (tokens.map to_lower) →
      read_one_structure input s = .ok (s1, rest) → s1.weight = 1) := by
  refine ⟨?_, ?_, ?_, ?_⟩
  · intro input frames h
    refine read_forall (fun f => 1 ≤ f.num_atom ∧
      ((∃ v, f.weight = .finite v ∧ 0 < v ∧ v ≤ 100) ∨ ∃ negative, f.weight = .nan negative))
      ?_ input frames h
    intro n input s rest hn hone
    obtain ⟨h1, h2, _⟩ := read_one_structure_shape _ _ _ _ hone
    exact ⟨by rw [h1]; exact hn, (weight_rejected_eq_false _).mp h2⟩
  · intro input num_atom hlen hint hlt
    unfold read read_loop
    rw [if_neg (by omega), if_neg (by omega), hint]
    simp only
    rw [if_pos hlt]
  · intro input tokens input1 s t w hget ht hk hv hr
    have hrej : weight_rejected w = true := by
      rcases hr with ⟨v, rfl, hr2⟩ | ⟨b, rfl⟩
      · simpa [weight_rejected] using hr2
      · rfl
    have hf : ∃ e, read_header_fields (tokens.map to_lower) s = .error e := by
      apply exists_error_of_not_ok
      intro s6 h6
      obtain ⟨s1, s2, s3, s4, s5, _, _, _, h3, _⟩ := read_header_fields_ok _ _ _ h6
      obtain ⟨e, he⟩ := read_weight_out_of_range _ { s2 with weight := 1 } t w ht hk hv hrej
      rw [he] at h3
      cases h3
    obtain ⟨e, he⟩ := hf
    exact ⟨e, read_one_structure_fields_error _ _ _ _ _ hget he⟩
  · intro input tokens input1 s s1 rest hget hk hone
    obtain ⟨s6, c, hf, _, _, _, _, _, _, e4, _⟩ := read_one_structure_ok _ _ _ _ _ _ hget hone
    obtain ⟨t1, t2, t3, t4, t5, _, _, _, h3, h4, h5, h6⟩ := read_header_fields_ok _ _ _ hf
    rw [read_weight_none _ _ hk] at h3
    simp only [Except.ok.injEq] at h3
    obtain ⟨v4, e4'⟩ := read_lattice_shape _ _ _ _ _ h4
    obtain ⟨b5, v5, e5⟩ := read_virial_shape _ _ _ h5
    rw [e4]
    subst h3 e4' e5
    by_cases hb : b5 = true
    · subst hb
      simp only [Bool.not_true, Bool.false_eq_true, ↓reduceIte, Except.ok.injEq] at h6
      subst h6
      rfl
    · have hb' : b5 = false := by simpa using hb
      subst hb'
      simp only [Bool.not_false, ↓reduceIte] at h6
      obtain ⟨b6, v6, e6⟩ := read_stress_shape _ _ _ h6
      subst e6
      rfl

/-- C13, the code at the failing input: the frame whose header holds `weight=nan` is
decoded and returned by `read` with a NaN as its configuration weight, because `std::stod`
converts `nan` and both comparisons of the range test are false for a NaN; so a frame of a
successful `read` need not have a weight in `(0, 100]`, although `weight=0`, `weight=101`
and `weight=inf` end in the exit "Configuration weight should > 0 and <= 100." -/
theorem nan_weight_is_read :
    read example_nan_weight_input = .ok [example_nan_weight_frame] ∧
    example_nan_weight_frame.weight = Double.nan false ∧
    get_double_from_token "nan".toList = .ok (Double.nan false) ∧
    weight_rejected (Double.nan false) = false ∧
    read_header (to_lower "weight=0".toList :: (get_tokens example_header_plain).map to_lower)
      {} = .error .weight_out_of_range ∧
    read_one_structure (example_header_weight ++ '\n' :: example_atom_line) {} =
      .error .weight_out_of_range ∧
    read_header (to_lower "weight=inf".toList :: (get_tokens example_header_plain).map to_lower)
      {} = .error .weight_out_of_range := by
  decide!

/-! ## Reading a header: a `properties=` value without `pos` -/

theorem find_positions_species (sub_tokens : List (List Char)) (ks : List Nat)
    (p : Int × Int × Int) :
    (find_positions sub_tokens ks p).1 < 0 ↔
      p.1 < 0 ∧ ∀ k ∈ ks, sub_tokens.getD (k * 3) [] ≠ ['s', 'p', 'e', 'c', 'i', 'e', 's'] := by
  induction ks generalizing p with
  | nil => simp [find_positions]
  | cons k ks ih =>
    obtain ⟨a, b, c⟩ := p
    rw [find_positions, ih]
    by_cases h : sub_tokens.getD (k * 3) [] = ['s', 'p', 'e', 'c', 'i', 'e', 's']
    · simp only [if_pos h, List.mem_cons, forall_eq_or_imp]
      constructor
      · intro hc
        have := hc.1
        omega
      · intro hc
        exact absurd h hc.2.1
    · simp only [if_neg h, List.mem_cons, forall_eq_or_imp]
      constructor
      · intro hc
        exact ⟨hc.1, h, hc.2⟩
      · intro hc
        exact ⟨hc.1, hc.2.2⟩

theorem find_positions_pos (sub_tokens : List (List Char)) (ks : List Nat)
    (p : Int × Int × Int) :
    (find_positions sub_tokens ks p).2.1 < 0 ↔
      p.2.1 < 0 ∧ ∀ k ∈ ks, sub_tokens.getD (k * 3) [] ≠ ['p', 'o', 's'] := by
  induction ks generalizing p with
  | nil => simp [find_positions]
  | cons k ks ih =>
    obtain ⟨a, b, c⟩ := p
    rw [find_positions, ih]
    by_cases h : sub_tokens.getD (k * 3) [] = ['p', 'o', 's']
    · simp only [if_pos h, List.mem_cons, forall_eq_or_imp]
      constructor
      · intro hc
        have := hc.1
        omega
      · intro hc
        exact absurd h hc.2.1
    · simp only [if_neg h, List.mem_cons, forall_eq_or_imp]
      constructor
      · intro hc
        exact ⟨hc.1, h, hc.2⟩
      · intro hc
        exact ⟨hc.1, hc.2.2⟩

theorem names_field_false_iff (name token : List Char) :
    names_field name token = false ↔
      ∀ k ∈ List.range ((sub_tokens_of token).length / 3),
        (sub_tokens_of token).getD (k * 3) [] ≠ name := by
  simp [names_field]

/-- The loop over `properties=` on a header whose first `properties=` token names no `pos`
field. -/
theorem read_properties_no_pos (pre : List (List Char)) (tok : List Char)
    (post : List (List Char)) (c : Columns) (hpre : skips properties_string pre)
    (htok : starts_with tok properties_string = true)
    (hpos : names_field ['p', 'o', 's'] tok = false) :
    read_properties (pre ++ tok :: post) c =
      .error (if names_field ['s', 'p', 'e', 'c', 'i', 'e', 's'] tok = true then .pos_missing
        else .species_missing) := by
  rw [read_properties_skip pre _ c hpre, read_properties, if_pos htok]
  have hp := (find_positions_pos (sub_tokens_of tok)
    (List.range ((sub_tokens_of tok).length / 3)) (-1, -1, -1)).mpr
      ⟨by decide, (names_field_false_iff _ _).mp hpos⟩
  have hs := find_positions_species (sub_tokens_of tok)
    (List.range ((sub_tokens_of tok).length / 3)) (-1, -1, -1)
  show (if (find_positions (sub_tokens_of tok)
      (List.range ((sub_tokens_of tok).length / 3)) (-1, -1, -1)).1 < 0 then _ else _) = _
  by_cases hn : names_field ['s', 'p', 'e', 'c', 'i', 'e', 's'] tok = true
  · rw [if_pos hn]
    have h1 : ¬ (find_positions (sub_tokens_of tok)
        (List.range ((sub_tokens_of tok).length / 3)) (-1, -1, -1)).1 < 0 := by
      intro hc
      have := (names_field_false_iff _ _).mpr (hs.mp hc).2
      rw [this] at hn
      cases hn
    rw [if_neg h1]
    exact if_pos hp
  · rw [if_neg hn]
    have hn' : names_field ['s', 'p', 'e', 'c', 'i', 'e', 's'] tok = false := by
      simpa using hn
    rw [if_pos (hs.mpr ⟨by decide, (names_field_false_iff _ _).mp hn'⟩)]

/-- C14, counterexample: the header `example_header_no_species`, whose `Properties=` value
`force:R:3` has no `pos` field, does not abort with `'pos' is missing` but with
`'species' is missing`. -/
theorem properties_without_pos_counterexample :
    names_field ['p', 'o', 's']
      ("properties=force:r:3".toList) = false ∧
    "properties=force:r:3".toList ∈ (get_tokens example_header_no_species).map to_lower ∧
    read ("1\n".toList ++ example_header_no_species ++ '\n' :: example_atom_line) =
      .error .species_missing := by
  decide!

/-- C14, amended: for every header whose first `properties=` token names no `pos` field,
decoding aborts and no frame is produced; when the fields before it decode, the fatal error
is `'pos' is missing` if the value names `species` and `'species' is missing` if it does
not. -/
theorem properties_without_pos (input : List Char) (tokens : List (List Char))
    (input1 : List Char) (s : Structure) (pre : List (List Char)) (tok : List Char)
    (post : List (List Char))
    (h : get_tokens_without_unwanted_spaces input = .ok (tokens, input1))
    (ht : tokens.map to_lower = pre ++ tok :: post) (hpre : skips properties_string pre)
    (htok : starts_with tok properties_string = true)
    (hpos : names_field ['p', 'o', 's'] tok = false) :
    (∃ e, read_one_structure input s = .error e) ∧
    (∀ s6, read_header_fields (tokens.map to_lower) s = .ok s6 →
      read_one_structure input s =
        .error (if names_field ['s', 'p', 'e', 'c', 'i', 'e', 's'] tok = true
          then .pos_missing else .species_missing)) := by
  have hp := read_properties_no_pos pre tok post {} hpre htok hpos
  rw [← ht] at hp
  have hone : read_one_structure input s =
      match read_header_fields (tokens.map to_lower) s with
      | .error e => .error e
      | .ok _ => .error (if names_field ['s', 'p', 'e', 'c', 'i', 'e', 's'] tok = true
          then .pos_missing else .species_missing) := by
    unfold read_one_structure
    rw [h]
    simp only
    rw [read_header_eq, hp]
    cases read_header_fields (tokens.map to_lower) s <;> rfl
  constructor
  · rw [hone]
    cases read_header_fields (tokens.map to_lower) s
    · exact ⟨_, rfl⟩
    · exact ⟨_, rfl⟩
  · intro s6 h6
    rw [hone, h6]

/-- Witness of C14 (amended): the header `example_header_no_pos`, whose `Properties=` value
is `species:S:1:force:R:3`, aborts with `'pos' is missing`. -/
theorem properties_without_pos_witness :
    (∃ e, read_one_structure (example_header_no_pos ++ '\n' :: example_atom_line) {} =
      .error e) ∧
    read_one_structure (example_header_no_pos ++ '\n' :: example_atom_line) {} =
      .error .pos_missing :=
  ⟨(properties_without_pos (example_header_no_pos ++ '\n' :: example_atom_line)
      (get_tokens example_header_no_pos) example_atom_line {}
      ((get_tokens example_header_no_pos).map to_lower).dropLast
      "properties=species:s:1:force:r:3".toList [] (by decide!) (by decide!)
      (by unfold skips; decide!) (by decide!) (by decide!)).1,
    (properties_without_pos (example_header_no_pos ++ '\n' :: example_atom_line)
      (get_tokens example_header_no_pos) example_atom_line {}
      ((get_tokens example_header_no_pos).map to_lower).dropLast
      "properties=species:s:1:force:r:3".toList [] (by decide!) (by decide!)
      (by unfold skips; decide!) (by decide!) (by decide!)).2
      { energy := 1, weight := 1, box := [1, 0, 0, 0, 1, 0, 0, 0, 1] } (by decide!)⟩

/-! ## Splitting: which frames are written -/

theorem force_is_small_iff (s : Structure) (ns : List Nat) :
    force_is_small s ns = true ↔
      ∀ n ∈ ns, s.fx.getD n 0 * s.fx.getD n 0 + s.fy.getD n 0 * s.fy.getD n 0 +
        s.fz.getD n 0 * s.fz.getD n 0 ≤ 400 := by
  induction ns with
  | nil => simp [force_is_small]
  | cons n ns ih =>
    unfold force_is_small
    split
    · rename_i h
      simp only [Bool.false_eq_true, List.mem_cons, forall_eq_or_imp, false_iff, not_and]
      intro hc
      exact absurd hc (not_le.mpr h)
    · rename_i h
      rw [ih]
      simp only [List.mem_cons, forall_eq_or_imp]
      exact ⟨fun hc => ⟨not_lt.mp h, hc⟩, fun hc => hc.2⟩

theorem is_considered_iff (s : Structure) :
    is_considered s = true ↔
      (∀ n < s.num_atom.toNat, s.fx.getD n 0 * s.fx.getD n 0 + s.fy.getD n 0 * s.fy.getD n 0 +
        s.fz.getD n 0 * s.fz.getD n 0 ≤ 400) ∧ (s.energy < 0 ∨ s.energy_weight < 1 / 2) := by
  unfold is_considered
  rw [Bool.and_eq_true, force_is_small_iff, Bool.or_eq_true, decide_eq_true_iff,
    decide_eq_true_iff]
  simp only [List.mem_range]
  exact and_comm

/-- One iteration of the loop in closed form. -/
theorem split_step_eq (et ft vt : ℚ) (st : SplitState) (s : Structure) :
    split_step et ft vt st s =
      { input_energy := (classify et ft vt s st.input_energy st.input_force st.input_virial).2.1
        input_force := (classify et ft vt s st.input_energy st.input_force st.input_virial).2.2.1
        input_virial :=
          (classify et ft vt s st.input_energy st.input_force st.input_virial).2.2.2
        accurate_xyz := st.accurate_xyz ++
          (if (is_considered s &&
              (classify et ft vt s st.input_energy st.input_force st.input_virial).1) = true
            then [s] else [])
        inaccurate_xyz := st.inaccurate_xyz ++
          (if (is_considered s &&
              !(classify et ft vt s st.input_energy st.input_force st.input_virial).1) = true
            then [s] else [])
        num1 := st.num1 +
          (if (is_considered s &&
              (classify et ft vt s st.input_energy st.input_force st.input_virial).1) = true
            then 1 else 0)
        num2 := st.num2 +
          (if (is_considered s &&
              !(classify et ft vt s st.input_energy st.input_force st.input_virial).1) = true
            then 1 else 0) } := by
  unfold split_step
  cases hc : is_considered s <;>
    cases ha : (classify et ft vt s st.input_energy st.input_force st.input_virial).1 <;>
    simp [ha]

theorem split_loop_flags (et ft vt : ℚ) (structures : List Structure) (st : SplitState) :
    ∃ flags : List Bool, flags.length = structures.length ∧
      (split_loop et ft vt structures st).accurate_xyz = st.accurate_xyz ++
        ((structures.zip flags).filter (fun p => is_considered p.1 && p.2)).map Prod.fst ∧
      (split_loop et ft vt structures st).inaccurate_xyz = st.inaccurate_xyz ++
        ((structures.zip flags).filter (fun p => is_considered p.1 && !p.2)).map Prod.fst ∧
      (split_loop et ft vt structures st).num1 = st.num1 +
        ((structures.zip flags).filter (fun p => is_considered p.1 && p.2)).length ∧
      (split_loop et ft vt structures st).num2 = st.num2 +
        ((structures.zip flags).filter (fun p => is_considered p.1 && !p.2)).length := by
  induction structures generalizing st with
  | nil => exact ⟨[], rfl, by simp [split_loop], by simp [split_loop], rfl, rfl⟩
  | cons s rest ih =>
    obtain ⟨flags, hlen, h1, h2, h3, h4⟩ := ih (split_step et ft vt st s)
    refine ⟨(classify et ft vt s st.input_energy st.input_force st.input_virial).1 :: flags,
      by simp [hlen], ?_, ?_, ?_, ?_⟩
    · rw [split_loop, h1, split_step_eq]
      simp only [List.zip_cons_cons, List.filter_cons]
      split <;> simp
    · rw [split_loop, h2, split_step_eq]
      simp only [List.zip_cons_cons, List.filter_cons]
      split <;> simp
    · rw [split_loop, h3, split_step_eq]
      simp only [List.zip_cons_cons, List.filter_cons]
      split <;> simp +arith
    · rw [split_loop, h4, split_step_eq]
      simp only [List.zip_cons_cons, List.filter_cons]
      split <;> simp +arith

theorem split_flags_count (structures : List Structure) (flags : List Bool)
    (h : flags.length = structures.length) :
    ((structures.zip flags).filter (fun p => is_considered p.1 && p.2)).length +
      ((structures.zip flags).filter (fun p => is_considered p.1 && !p.2)).length =
      (structures.filter is_considered).length := by
  induction structures generalizing flags with
  | nil => simp
  | cons s rest ih =>
    cases flags with
    | nil => simp at h
    | cons b flags =>
      have := ih flags (by simpa using h)
      simp only [List.zip_cons_cons, List.filter_cons]
      cases hc : is_considered s <;> cases b <;> simp <;> omega

/-- C16, counterexample: a frame with negative energy whose only atom has the squared force
magnitude `400`, which is not below `400`, is written to `accurate.xyz`. -/
theorem split_boundary_counterexample :
    (split_into_accurate_and_inaccurate [example_frame_400] 1 1 1 [0, 0]
      [0, 0, 0, 0, 0, 0] (List.replicate 12 0)).accurate_xyz = [example_frame_400] ∧
    ¬ (example_frame_400.fx.getD 0 0 * example_frame_400.fx.getD 0 0 +
      example_frame_400.fy.getD 0 0 * example_frame_400.fy.getD 0 0 +
      example_frame_400.fz.getD 0 0 * example_frame_400.fz.getD 0 0 < 400) := by
  decide!

/-- C16, amended: `split_into_accurate_and_inaccurate` writes a frame to exactly one of
`accurate.xyz` / `inaccurate.xyz` if and only if the frame is eligible, where a frame is
eligible when every per-atom squared force magnitude is at most `400` (not above it) and
(`energy < 0` or `energy_weight < 0.5`): with the flag `is_accurate` of every frame, the
accurate file holds the eligible frames whose flag is set, the inaccurate file the eligible
frames whose flag is not set, in the order of the dataset; an ineligible frame is in
neither; and `num1 + num2` is the number of eligible frames. -/
theorem split_writes_eligible_once (structures : List Structure) (et ft vt : ℚ)
    (e f v : List ℚ) :
    (∃ flags : List Bool, flags.length = structures.length ∧
      (split_into_accurate_and_inaccurate structures et ft vt e f v).accurate_xyz =
        ((structures.zip flags).filter (fun p => is_considered p.1 && p.2)).map Prod.fst ∧
      (split_into_accurate_and_inaccurate structures et ft vt e f v).inaccurate_xyz =
        ((structures.zip flags).filter (fun p => is_considered p.1 && !p.2)).map Prod.fst) ∧
    (split_into_accurate_and_inaccurate structures et ft vt e f v).num1 =
      (split_into_accurate_and_inaccurate structures et ft vt e f v).accurate_xyz.length ∧
    (split_into_accurate_and_inaccurate structures et ft vt e f v).num2 =
      (split_into_accurate_and_inaccurate structures et ft vt e f v).inaccurate_xyz.length ∧
    (split_into_accurate_and_inaccurate structures et ft vt e f v).num1 +
      (split_into_accurate_and_inaccurate structures et ft vt e f v).num2 =
      (structures.filter is_considered).length ∧
    (∀ s, is_considered s = true ↔
      (∀ n < s.num_atom.toNat, s.fx.getD n 0 * s.fx.getD n 0 + s.fy.getD n 0 * s.fy.getD n 0 +
        s.fz.getD n 0 * s.fz.getD n 0 ≤ 400) ∧ (s.energy < 0 ∨ s.energy_weight < 1 / 2)) := by
  obtain ⟨flags, hlen, h1, h2, h3, h4⟩ := split_loop_flags et ft vt structures
    { input_energy := e, input_force := f, input_virial := v }
  simp only [List.nil_append, Nat.zero_add] at h1 h2 h3 h4
  have hc := split_flags_count structures flags hlen
  unfold split_into_accurate_and_inaccurate
  refine ⟨⟨flags, hlen, h1, h2⟩, ?_, ?_, ?_, is_considered_iff⟩
  · rw [h3, h1, List.length_map]
  · rw [h4, h2, List.length_map]
  · rw [h3, h4, hc]

/-! ## Splitting: the accuracy test reads the entries of the frame itself -/

theorem extract_values_full (a input : List ℚ) (h : a.length ≤ input.length) :
    extract_values a input = (input.take a.length, input.drop a.length) := by
  induction a generalizing input with
  | nil => simp [extract_values]
  | cons a0 a ih =>
    cases input with
    | nil => simp at h
    | cons v rest =>
      have hl : a.length ≤ rest.length := by simpa using h
      simp [extract_values, extract, ih rest hl]

theorem getD_take_of_lt (l : List ℚ) (i t : Nat) (h : t < i) :
    (l.take i).getD t 0 = l.getD t 0 := by
  simp only [List.getD_eq_getElem?_getD, List.getElem?_take, h, if_true]

theorem getD_drop_rat (l : List ℚ) (i t : Nat) :
    (l.drop i).getD t 0 = l.getD (i + t) 0 := by
  simp only [List.getD_eq_getElem?_getD, List.getElem?_drop]

/-- The force loop on a stream that holds the rows of all its atoms. -/
theorem force_loop_spec (ft : ℚ) (count : Nat) (force input : List ℚ) (acc : Bool)
    (hforce : force.length = 6) (h : 6 * count ≤ input.length) :
    ((force_loop ft count force input acc).1 = true ↔
      acc = true ∧ ∀ n < count,
        (input.getD (6 * n) 0 - input.getD (6 * n + 3) 0) *
            (input.getD (6 * n) 0 - input.getD (6 * n + 3) 0) +
          (input.getD (6 * n + 1) 0 - input.getD (6 * n + 4) 0) *
            (input.getD (6 * n + 1) 0 - input.getD (6 * n + 4) 0) +
          (input.getD (6 * n + 2) 0 - input.getD (6 * n + 5) 0) *
            (input.getD (6 * n + 2) 0 - input.getD (6 * n + 5) 0) ≤ ft * ft) ∧
    (force_loop ft count force input acc).2 = input.drop (6 * count) := by
  induction count generalizing force input acc with
  | zero => simp [force_loop]
  | succ k ih =>
    have hx : extract_values force input = (input.take 6, input.drop 6) := by
      rw [extract_values_full force input (by omega), hforce]
    have hlen : (input.take 6).length = 6 := by
      rw [List.length_take]; omega
    have hrest : 6 * k ≤ (input.drop 6).length := by
      rw [List.length_drop]; omega
    rw [force_loop, hx]
    simp only
    obtain ⟨h1, h2⟩ := ih (input.take 6) (input.drop 6)
      (if (((input.take 6).getD 0 0 - (input.take 6).getD 3 0) *
            ((input.take 6).getD 0 0 - (input.take 6).getD 3 0) +
          ((input.take 6).getD 1 0 - (input.take 6).getD 4 0) *
            ((input.take 6).getD 1 0 - (input.take 6).getD 4 0) +
          ((input.take 6).getD 2 0 - (input.take 6).getD 5 0) *
            ((input.take 6).getD 2 0 - (input.take 6).getD 5 0) > ft * ft) then false
        else acc) hlen hrest
    constructor
    · rw [h1]
      rw [getD_take_of_lt _ 6 0 (by omega), getD_take_of_lt _ 6 1 (by omega),
        getD_take_of_lt _ 6 2 (by omega), getD_take_of_lt _ 6 3 (by omega),
        getD_take_of_lt _ 6 4 (by omega), getD_take_of_lt _ 6 5 (by omega)]
      simp only [getD_drop_rat]
      constructor
      · rintro ⟨ha, hall⟩
        split at ha
        · cases ha
        · rename_i hrow
          refine ⟨ha, ?_⟩
          intro n hn
          cases n with
          | zero => exact not_lt.mp hrow
          | succ m =>
            have := hall m (by omega)
            have e0 : 6 * (m + 1) = 6 + 6 * m := by ring
            have e1 : 6 * (m + 1) + 1 = 6 + (6 * m + 1) := by ring
            have e2 : 6 * (m + 1) + 2 = 6 + (6 * m + 2) := by ring
            have e3 : 6 * (m + 1) + 3 = 6 + (6 * m + 3) := by ring
            have e4 : 6 * (m + 1) + 4 = 6 + (6 * m + 4) := by ring
            have e5 : 6 * (m + 1) + 5 = 6 + (6 * m + 5) := by ring
            rw [e1, e2, e3, e4, e5, e0]
            exact this
      · rintro ⟨ha, hall⟩
        have hrow := hall 0 (by omega)
        constructor
        · rw [if_neg (not_lt.mpr hrow)]
          exact ha
        · intro n hn
          have := hall (n + 1) (by omega)
          have e0 : 6 * (n + 1) = 6 + 6 * n := by ring
          have e1 : 6 * (n + 1) + 1 = 6 + (6 * n + 1) := by ring
          have e2 : 6 * (n + 1) + 2 = 6 + (6 * n + 2) := by ring
          have e3 : 6 * (n + 1) + 3 = 6 + (6 * n + 3) := by ring
          have e4 : 6 * (n + 1) + 4 = 6 + (6 * n + 4) := by ring
          have e5 : 6 * (n + 1) + 5 = 6 + (6 * n + 5) := by ring
          rw [e1, e2, e3, e4, e5, e0] at this
          exact this
    · rw [h2, List.drop_drop]
      congr 1
      ring

theorem virial_loop_spec (vt : ℚ) (virial : List ℚ) (ns : List Nat) (acc : Bool) :
    virial_loop vt virial ns acc = true ↔
      acc = true ∧ ∀ n ∈ ns, |virial.getD n 0 - virial.getD (n + 6) 0| ≤ vt := by
  induction ns generalizing acc with
  | nil => simp [virial_loop]
  | cons n ns ih =>
    rw [virial_loop, ih]
    simp only [List.mem_cons, forall_eq_or_imp]
    constructor
    · rintro ⟨ha, hall⟩
      split at ha
      · cases ha
      · rename_i hrow
        exact ⟨ha, not_lt.mp hrow, hall⟩
    · rintro ⟨ha, hrow, hall⟩
      exact ⟨by rw [if_neg (not_lt.mpr hrow)]; exact ha, hall⟩

theorem accurate_on_iff (et ft vt : ℚ) (s : Structure) (pair rows block : List ℚ) :
    accurate_on et ft vt s pair rows block = true ↔
      ((s.energy_weight > 1 / 2 ∧ et > 0) → |pair.getD 0 0 - pair.getD 1 0| ≤ et) ∧
      (∀ n < s.num_atom.toNat,
        (rows.getD (6 * n) 0 - rows.getD (6 * n + 3) 0) *
            (rows.getD (6 * n) 0 - rows.getD (6 * n + 3) 0) +
          (rows.getD (6 * n + 1) 0 - rows.getD (6 * n + 4) 0) *
            (rows.getD (6 * n + 1) 0 - rows.getD (6 * n + 4) 0) +
          (rows.getD (6 * n + 2) 0 - rows.getD (6 * n + 5) 0) *
            (rows.getD (6 * n + 2) 0 - rows.getD (6 * n + 5) 0) ≤ ft * ft) ∧
      (∀ n ∈ List.range 6, |block.getD n 0 - block.getD (n + 6) 0| ≤ vt) := by
  unfold accurate_on
  simp only [Bool.and_eq_true, Bool.or_eq_true, Bool.not_eq_true', Bool.and_eq_false_imp,
    decide_eq_true_eq, decide_eq_false_iff_not, List.all_eq_true, List.mem_range]
  constructor
  · rintro ⟨⟨h1, h2⟩, h3⟩
    refine ⟨?_, h2, h3⟩
    intro hc
    rcases h1 with h1 | h1
    · exact absurd hc.2 (h1 hc.1)
    · exact h1
  · rintro ⟨h1, h2, h3⟩
    refine ⟨⟨?_, h2⟩, h3⟩
    by_cases hc : s.energy_weight > 1 / 2 ∧ et > 0
    · exact Or.inr (h1 hc)
    · exact Or.inl (fun hw ht => hc ⟨hw, ht⟩)

/-- The flag `is_accurate` and the streams after one frame, when the streams hold the
entries of the frame. -/
theorem classify_spec (et ft vt : ℚ) (s : Structure) (e f v : List ℚ)
    (hE : 2 ≤ e.length) (hF : 6 * s.num_atom.toNat ≤ f.length) (hV : 12 ≤ v.length) :
    classify et ft vt s e f v =
      (accurate_on et ft vt s (e.take 2) (f.take (6 * s.num_atom.toNat)) (v.take 12),
        e.drop 2, f.drop (6 * s.num_atom.toNat), v.drop 12) := by
  obtain ⟨a, b, e1, rfl⟩ : ∃ a b e1, e = a :: b :: e1 := by
    match e, hE with
    | a :: b :: e1, _ => exact ⟨a, b, e1, rfl⟩
  have hv : extract_values (List.replicate 12 0) v = (v.take 12, v.drop 12) := by
    have := extract_values_full (List.replicate 12 0) v (by simpa using hV)
    simpa using this
  have hfl := force_loop_spec ft s.num_atom.toNat (List.replicate 6 0) f
    (if s.energy_weight > 1 / 2 ∧ et > 0 then (if |a - b| > et then false else true)
      else true) (by simp) hF
  unfold classify
  simp only [extract]
  rw [hv]
  refine Prod.ext ?_ (Prod.ext rfl (Prod.ext hfl.2 rfl))
  rw [Bool.eq_iff_iff]
  show virial_loop vt (v.take 12) (List.range 6) _ = true ↔ _
  rw [virial_loop_spec, hfl.1, accurate_on_iff]
  have hrows : (∀ n < s.num_atom.toNat,
      (f.getD (6 * n) 0 - f.getD (6 * n + 3) 0) * (f.getD (6 * n) 0 - f.getD (6 * n + 3) 0) +
        (f.getD (6 * n + 1) 0 - f.getD (6 * n + 4) 0) *
          (f.getD (6 * n + 1) 0 - f.getD (6 * n + 4) 0) +
        (f.getD (6 * n + 2) 0 - f.getD (6 * n + 5) 0) *
          (f.getD (6 * n + 2) 0 - f.getD (6 * n + 5) 0) ≤ ft * ft) ↔
      (∀ n < s.num_atom.toNat,
        ((f.take (6 * s.num_atom.toNat)).getD (6 * n) 0 -
            (f.take (6 * s.num_atom.toNat)).getD (6 * n + 3) 0) *
          ((f.take (6 * s.num_atom.toNat)).getD (6 * n) 0 -
            (f.take (6 * s.num_atom.toNat)).getD (6 * n + 3) 0) +
        ((f.take (6 * s.num_atom.toNat)).getD (6 * n + 1) 0 -
            (f.take (6 * s.num_atom.toNat)).getD (6 * n + 4) 0) *
          ((f.take (6 * s.num_atom.toNat)).getD (6 * n + 1) 0 -
            (f.take (6 * s.num_atom.toNat)).getD (6 * n + 4) 0) +
        ((f.take (6 * s.num_atom.toNat)).getD (6 * n + 2) 0 -
            (f.take (6 * s.num_atom.toNat)).getD (6 * n + 5) 0) *
          ((f.take (6 * s.num_atom.toNat)).getD (6 * n + 2) 0 -
            (f.take (6 * s.num_atom.toNat)).getD (6 * n + 5) 0) ≤ ft * ft) := by
    apply forall_congr'
    intro n
    apply imp_congr_right
    intro hn
    rw [getD_take_of_lt f _ (6 * n) (by omega), getD_take_of_lt f _ (6 * n + 1) (by omega),
      getD_take_of_lt f _ (6 * n + 2) (by omega), getD_take_of_lt f _ (6 * n + 3) (by omega),
      getD_take_of_lt f _ (6 * n + 4) (by omega), getD_take_of_lt f _ (6 * n + 5) (by omega)]
  rw [← hrows]
  have hpair : (List.take 2 (a :: b :: e1)).getD 0 0 = a ∧
      (List.take 2 (a :: b :: e1)).getD 1 0 = b := by
    constructor <;> rfl
  rw [hpair.1, hpair.2]
  constructor
  · rintro ⟨⟨h1, h2⟩, h3⟩
    refine ⟨?_, h2, h3⟩
    intro hc
    rw [if_pos hc] at h1
    split at h1
    · cases h1
    · rename_i hle
      exact not_lt.mp hle
  · rintro ⟨h1, h2, h3⟩
    refine ⟨⟨?_, h2⟩, h3⟩
    split
    · rename_i hc
      rw [if_neg (not_lt.mpr (h1 hc))]
    · rfl

theorem filter_range_succ {α : Type} (p : Nat → Bool) (g : Nat → α) (n : Nat) :
    ((List.range (n + 1)).filter p).map g =
      (if p 0 = true then [g 0] else []) ++
        ((List.range n).filter (fun i => p (i + 1))).map (fun i => g (i + 1)) := by
  rw [List.range_succ_eq_map, List.filter_cons]
  split
  · simp [List.filter_map, List.map_map, Function.comp_def]
  · simp [List.filter_map, List.map_map, Function.comp_def]

theorem atoms_before_succ (s : Structure) (rest : List Structure) (i : Nat) :
    atoms_before (s :: rest) (i + 1) = s.num_atom.toNat + atoms_before rest i := by
  simp [atoms_before]

theorem accurate_at_zero (et ft vt : ℚ) (s : Structure) (rest : List Structure)
    (e f v : List ℚ) :
    accurate_at et ft vt (s :: rest) e f v 0 =
      accurate_on et ft vt s (e.take 2) (f.take (6 * s.num_atom.toNat)) (v.take 12) := by
  simp [accurate_at, atoms_before]

theorem accurate_at_succ (et ft vt : ℚ) (s : Structure) (rest : List Structure)
    (e f v : List ℚ) (i : Nat) :
    accurate_at et ft vt (s :: rest) e f v (i + 1) =
      accurate_at et ft vt rest (e.drop 2) (f.drop (6 * s.num_atom.toNat)) (v.drop 12) i := by
  unfold accurate_at
  rw [atoms_before_succ, List.drop_drop, List.drop_drop, List.drop_drop]
  have e1 : 2 * (i + 1) = 2 + 2 * i := by ring
  have e2 : 6 * (s.num_atom.toNat + atoms_before rest i) =
      6 * s.num_atom.toNat + 6 * atoms_before rest i := by ring
  have e3 : 12 * (i + 1) = 12 + 12 * i := by ring
  simp [e1, e2, e3]

/-- The two output files in terms of the entries of each frame, for streams that hold the
entries of all frames. -/
theorem split_loop_spec (et ft vt : ℚ) (structures : List Structure) (st : SplitState)
    (hE : 2 * structures.length ≤ st.input_energy.length)
    (hF : 6 * atoms_before structures structures.length ≤ st.input_force.length)
    (hV : 12 * structures.length ≤ st.input_virial.length) :
    (split_loop et ft vt structures st).accurate_xyz = st.accurate_xyz ++
      ((List.range structures.length).filter (fun i =>
        is_considered (structures.getD i default) &&
          accurate_at et ft vt structures st.input_energy st.input_force st.input_virial
            i)).map (fun i => structures.getD i default) ∧
    (split_loop et ft vt structures st).inaccurate_xyz = st.inaccurate_xyz ++
      ((List.range structures.length).filter (fun i =>
        is_considered (structures.getD i default) &&
          !accurate_at et ft vt structures st.input_energy st.input_force st.input_virial
            i)).map (fun i => structures.getD i default) := by
  induction structures generalizing st with
  | nil => simp [split_loop]
  | cons s rest ih =>
    have hF1 : 6 * s.num_atom.toNat + 6 * atoms_before rest rest.length ≤
        st.input_force.length := by
      have := atoms_before_succ s rest rest.length
      simp only [List.length_cons] at hF
      rw [this] at hF
      omega
    simp only [List.length_cons] at hE hV
    have hc := classify_spec et ft vt s st.input_energy st.input_force st.input_virial
      (by omega) (by omega) (by omega)
    have hstep := split_step_eq et ft vt st s
    rw [hc] at hstep
    simp only at hstep
    obtain ⟨h1, h2⟩ := ih (split_step et ft vt st s)
      (by rw [hstep]; simp only [List.length_drop]; omega)
      (by rw [hstep]; simp only [List.length_drop]; omega)
      (by rw [hstep]; simp only [List.length_drop]; omega)
    rw [split_loop, h1, h2, hstep]
    simp only [List.length_cons]
    rw [filter_range_succ, filter_range_succ]
    simp only [accurate_at_zero, accurate_at_succ, List.getD_cons_zero, List.getD_cons_succ,
      List.append_assoc, and_self]

theorem classify_energy_free (et ft vt : ℚ) (s : Structure) (e1 e2 f v : List ℚ)
    (het : et ≤ 0) :
    (classify et ft vt s e1 f v).1 = (classify et ft vt s e2 f v).1 ∧
    (classify et ft vt s e1 f v).2.2 = (classify et ft vt s e2 f v).2.2 := by
  have hn : ¬ (s.energy_weight > 1 / 2 ∧ et > 0) := fun hc => absurd hc.2 (not_lt.mpr het)
  unfold classify
  simp only [if_neg hn, and_self]

theorem split_loop_energy_free (et ft vt : ℚ) (het : et ≤ 0) (structures : List Structure)
    (st1 st2 : SplitState)
    (h : { st1 with input_energy := [] } = { st2 with input_energy := [] }) :
    { split_loop et ft vt structures st1 with input_energy := [] } =
      { split_loop et ft vt structures st2 with input_energy := [] } := by
  induction structures generalizing st1 st2 with
  | nil => exact h
  | cons s rest ih =>
    rw [split_loop, split_loop]
    apply ih
    simp only [SplitState.mk.injEq, true_and] at h
    obtain ⟨hf, hv, ha, hi, h1, h2⟩ := h
    obtain ⟨hc1, hc2⟩ := classify_energy_free et ft vt s st1.input_energy st2.input_energy
      st2.input_force st2.input_virial het
    rw [split_step_eq, split_step_eq, hf, hv, ha, hi, h1, h2, hc1, hc2]

/-- C17: on streams that hold the entries of all frames, `split_into_accurate_and_inaccurate`
writes to `accurate.xyz` exactly the eligible frames `i` that pass the accuracy test on their
own entries, and to `inaccurate.xyz` the eligible frames that do not pass it.  The test
(definition `accurate_on`) asks (a) `|E_pred - E_ref| ≤ energy_threshold`, only when
`energy_weight > 0.5` and `energy_threshold > 0`, (b) every per-atom force difference to
have squared magnitude `≤ force_threshold²`, (c) each of the six virial differences to have
magnitude `≤ virial_threshold`.  The entries of frame `i` (definition `accurate_at`) are the
`i`-th energy pair, the `i`-th block of twelve virial values and the force rows after those
of frames `0..i-1`, whether or not earlier frames were eligible.  With
`energy_threshold ≤ 0` the two files do not depend on the energy stream. -/
theorem split_classifies_on_own_entries (structures : List Structure) (et ft vt : ℚ)
    (e f v : List ℚ) (hE : 2 * structures.length ≤ e.length)
    (hF : 6 * atoms_before structures structures.length ≤ f.length)
    (hV : 12 * structures.length ≤ v.length) :
    (split_into_accurate_and_inaccurate structures et ft vt e f v).accurate_xyz =
      ((List.range structures.length).filter (fun i =>
        is_considered (structures.getD i default) &&
          accurate_at et ft vt structures e f v i)).map (fun i => structures.getD i default) ∧
    (split_into_accurate_and_inaccurate structures et ft vt e f v).inaccurate_xyz =
      ((List.range structures.length).filter (fun i =>
        is_considered (structures.getD i default) &&
          !accurate_at et ft vt structures e f v i)).map
        (fun i => structures.getD i default) ∧
    (et ≤ 0 → ∀ e2,
      (split_into_accurate_and_inaccurate structures et ft vt e2 f v).accurate_xyz =
        (split_into_accurate_and_inaccurate structures et ft vt e f v).accurate_xyz ∧
      (split_into_accurate_and_inaccurate structures et ft vt e2 f v).inaccurate_xyz =
        (split_into_accurate_and_inaccurate structures et ft vt e f v).inaccurate_xyz) := by
  obtain ⟨h1, h2⟩ := split_loop_spec et ft vt structures
    { input_energy := e, input_force := f, input_virial := v } hE hF hV
  simp only [List.nil_append] at h1 h2
  refine ⟨h1, h2, ?_⟩
  intro het e2
  have := split_loop_energy_free et ft vt het structures
    { input_energy := e2, input_force := f, input_virial := v }
    { input_energy := e, input_force := f, input_virial := v } rfl
  have ha := congrArg SplitState.accurate_xyz this
  have hi := congrArg SplitState.inaccurate_xyz this
  exact ⟨ha, hi⟩

/-- Witness of C17: two eligible frames, of one and two atoms, with the energy threshold `-1`;
the energy pair `0, 2` of the first frame is not tested, the second frame fails the force
test on its second row. -/
theorem split_classifies_on_own_entries_witness :
    (split_into_accurate_and_inaccurate [example_frame_400, example_frame] (-1) 1 1
      [0, 2, 1, 1] [0, 0, 0, 0, 0, 0, 1, 1, 1, 1, 1, 1, 2, 2, 2, 2, 2, 7 / 2]
      (List.replicate 24 0)).accurate_xyz =
      ((List.range [example_frame_400, example_frame].length).filter (fun i =>
        is_considered ([example_frame_400, example_frame].getD i default) &&
          accurate_at (-1) 1 1 [example_frame_400, example_frame] [0, 2, 1, 1]
            [0, 0, 0, 0, 0, 0, 1, 1, 1, 1, 1, 1, 2, 2, 2, 2, 2, 7 / 2]
            (List.replicate 24 0) i)).map
        (fun i => [example_frame_400, example_frame].getD i default) ∧
    (split_into_accurate_and_inaccurate [example_frame_400, example_frame] (-1) 1 1
      [0, 2, 1, 1] [0, 0, 0, 0, 0, 0, 1, 1, 1, 1, 1, 1, 2, 2, 2, 2, 2, 7 / 2]
      (List.replicate 24 0)).inaccurate_xyz =
      ((List.range [example_frame_400, example_frame].length).filter (fun i =>
        is_considered ([example_frame_400, example_frame].getD i default) &&
          !accurate_at (-1) 1 1 [example_frame_400, example_frame] [0, 2, 1, 1]
            [0, 0, 0, 0, 0, 0, 1, 1, 1, 1, 1, 1, 2, 2, 2, 2, 2, 7 / 2]
            (List.replicate 24 0) i)).map
        (fun i => [example_frame_400, example_frame].getD i default) ∧
    ((-1 : ℚ) ≤ 0 → ∀ e2,
      (split_into_accurate_and_inaccurate [example_frame_400, example_frame] (-1) 1 1 e2
        [0, 0, 0, 0, 0, 0, 1, 1, 1, 1, 1, 1, 2, 2, 2, 2, 2, 7 / 2]
        (List.replicate 24 0)).accurate_xyz =
        (split_into_accurate_and_inaccurate [example_frame_400, example_frame] (-1) 1 1
          [0, 2, 1, 1] [0, 0, 0, 0, 0, 0, 1, 1, 1, 1, 1, 1, 2, 2, 2, 2, 2, 7 / 2]
          (List.replicate 24 0)).accurate_xyz ∧
      (split_into_accurate_and_inaccurate [example_frame_400, example_frame] (-1) 1 1 e2
        [0, 0, 0, 0, 0, 0, 1, 1, 1, 1, 1, 1, 2, 2, 2, 2, 2, 7 / 2]
        (List.replicate 24 0)).inaccurate_xyz =
        (split_into_accurate_and_inaccurate [example_frame_400, example_frame] (-1) 1 1
          [0, 2, 1, 1] [0, 0, 0, 0, 0, 0, 1, 1, 1, 1, 1, 1, 2, 2, 2, 2, 2, 7 / 2]
          (List.replicate 24 0)).inaccurate_xyz) :=
  split_classifies_on_own_entries [example_frame_400, example_frame] (-1) 1 1 [0, 2, 1, 1]
    [0, 0, 0, 0, 0, 0, 1, 1, 1, 1, 1, 1, 2, 2, 2, 2, 2, 7 / 2] (List.replicate 24 0)
    (by decide) (by decide!) (by decide)

/-! ## Frames returned by `read` -/

theorem get_tokens_loop_mem (line cur : List Char) (hcur : no_space cur = true) :
    ∀ t ∈ get_tokens_loop cur line, t ≠ [] ∧ no_space t = true := by
  induction line generalizing cur with
  | nil =>
    intro t ht
    unfold get_tokens_loop at ht
    split at ht
    · cases ht
    · rename_i hne
      simp only [List.mem_singleton] at ht
      subst ht
      exact ⟨hne, hcur⟩
  | cons c rest ih =>
    intro t ht
    unfold get_tokens_loop at ht
    split at ht
    · split at ht
      · exact ih [] rfl t ht
      · rename_i hne
        rcases List.mem_cons.mp ht with h1 | h1
        · subst h1
          exact ⟨hne, hcur⟩
        · exact ih [] rfl t h1
    · rename_i hc
      refine ih (cur ++ [c]) ?_ t ht
      rw [no_space_append]
      refine ⟨hcur, ?_⟩
      simpa [no_space] using hc

theorem get_tokens_mem (line : List Char) :
    ∀ t ∈ get_tokens line, t ≠ [] ∧ no_space t = true :=
  get_tokens_loop_mem line [] rfl

theorem is_space_toLower (c : Char) (h : is_space c = false) : is_space c.toLower = false := by
  unfold Char.toLower
  simp only
  split
  · rename_i hr
    obtain ⟨h1, h2⟩ := hr
    have hv : ∀ n : Nat, 65 ≤ n → n ≤ 90 → is_space (Char.ofNat (n + 32)) = false := by
      intro n hn1 hn2
      interval_cases n <;> decide
    exact hv c.toNat h1 h2
  · exact h

theorem no_space_to_lower (t : List Char) (h : no_space t = true) :
    no_space (to_lower t) = true := by
  simp only [no_space, to_lower, List.all_map, List.all_eq_true, Function.comp_apply,
    Bool.not_eq_true'] at h ⊢
  intro c hc
  exact is_space_toLower c (h c hc)

theorem no_space_drop (t : List Char) (n : Nat) (h : no_space t = true) :
    no_space (t.drop n) = true := by
  simp only [no_space, List.all_eq_true] at h ⊢
  intro c hc
  exact h c (List.mem_of_mem_drop hc)

theorem read_sid_no_space (tokens : List (List Char)) (s : Structure)
    (ht : ∀ t ∈ tokens, no_space t = true)
    (hs : s.has_sid = true → no_space s.sid = true) :
    (read_sid tokens s).has_sid = true → no_space (read_sid tokens s).sid = true := by
  induction tokens generalizing s with
  | nil => exact hs
  | cons t l ih =>
    unfold read_sid
    split
    · exact ih _ (fun x hx => ht x (List.mem_cons_of_mem _ hx))
        (fun _ => no_space_drop t _ (ht t (List.mem_cons_self _ _)))
    · exact ih _ (fun x hx => ht x (List.mem_cons_of_mem _ hx)) hs

theorem read_header_fields_sid (tokens : List (List Char)) (s s6 : Structure)
    (h : read_header_fields tokens s = .ok s6) :
    s6.has_sid = (read_sid tokens s).has_sid ∧ s6.sid = (read_sid tokens s).sid := by
  obtain ⟨s1, s2, s3, s4, s5, _, h1, h2, h3, h4, h5, h6⟩ := read_header_fields_ok tokens s s6 h
  obtain ⟨v1, e1⟩ := read_energy_weight_shape _ _ _ h1
  obtain ⟨v2, e2⟩ := read_energy_shape _ _ _ _ _ h2
  obtain ⟨v3, e3, _⟩ := read_weight_shape _ _ _ h3
  obtain ⟨v4, e4⟩ := read_lattice_shape _ _ _ _ _ h4
  obtain ⟨b5, v5, e5⟩ := read_virial_shape _ _ _ h5
  subst e1 e2 e3 e4 e5
  by_cases hb : b5 = true
  · subst hb
    simp only [Bool.not_true, Bool.false_eq_true, ↓reduceIte, Except.ok.injEq] at h6
    subst h6
    exact ⟨rfl, rfl⟩
  · have hb' : b5 = false := by simpa using hb
    subst hb'
    simp only [Bool.not_false, ↓reduceIte] at h6
    obtain ⟨b6, v6, e6⟩ := read_stress_shape _ _ _ h6
    subst e6
    exact ⟨rfl, rfl⟩

theorem token_at_mem (tokens : List (List Char)) (offset : Int) (t : List Char)
    (h : token_at tokens offset = .ok t) : t ∈ tokens := by
  unfold token_at at h
  split at h
  · cases h
  · split at h
    · cases h
    · rename_i t1 ht1
      simp only [Except.ok.injEq] at h
      subst h
      obtain ⟨hlt, rfl⟩ := List.getElem?_eq_some.mp ht1
      exact List.getElem_mem _

/-- The vectors that the loop of `read_force` builds. -/
theorem read_force_loop_vectors (c : Columns) (count : Nat) (input : List Char)
    (s s1 : Structure) (rest : List Char)
    (h : read_force_loop c count input s = .ok (s1, rest)) :
    s1.atom_symbol.length = s.atom_symbol.length + count ∧
      s1.x.length = s.x.length + count ∧ s1.y.length = s.y.length + count ∧
      s1.z.length = s.z.length + count ∧ s1.fx.length = s.fx.length + count ∧
      s1.fy.length = s.fy.length + count ∧ s1.fz.length = s.fz.length + count ∧
      ((∀ a ∈ s.atom_symbol, a ≠ [] ∧ no_space a = true) →
        ∀ a ∈ s1.atom_symbol, a ≠ [] ∧ no_space a = true) := by
  induction count generalizing input s with
  | zero =>
    simp only [read_force_loop, Except.ok.injEq, Prod.mk.injEq] at h
    obtain ⟨h1, _⟩ := h
    subst h1
    exact ⟨rfl, rfl, rfl, rfl, rfl, rfl, rfl, fun hs => hs⟩
  | succ n ih =>
    unfold read_force_loop at h
    split at h
    · cases h
    · split at h
      · cases h
      · rename_i symbol hsym
        split at h
        · cases h
        · split at h
          · cases h
          · obtain ⟨h1, h2, h3, h4, h5, h6, h7, h8⟩ := ih _ _ h
            simp only [List.length_append, List.length_singleton] at h1 h2 h3 h4 h5 h6 h7
            refine ⟨by omega, by omega, by omega, by omega, by omega, by omega, by omega, ?_⟩
            intro hs
            apply h8
            intro a ha
            rcases List.mem_append.mp ha with ha | ha
            · exact hs a ha
            · simp only [List.mem_singleton] at ha
              subst ha
              exact get_tokens_mem _ _ (token_at_mem _ _ _ hsym)

/-- Every frame decoded from a fresh frame with a positive atom count is `Decoded`. -/
theorem read_one_structure_decoded (n : Int) (input : List Char) (s : Structure)
    (rest : List Char) (hn : 1 ≤ n)
    (h : read_one_structure input { num_atom := n } = .ok (s, rest)) : Decoded s := by
  have h0 := h
  unfold read_one_structure at h0
  split at h0
  · cases h0
  · rename_i tokens input1 hget
    obtain ⟨s6, c, hf, hp, hforce, _, _, _, _, _, _, _, _, e8, e9, e10⟩ :=
      read_one_structure_ok _ _ _ _ _ _ hget h
    obtain ⟨hn6, _⟩ := read_header_fields_shape _ _ _ hf
    obtain ⟨hs1, hs2⟩ := read_header_fields_sid _ _ _ hf
    have hnum : s.num_atom = n := by rw [e10, hn6]
    unfold read_force at hforce
    obtain ⟨l1, l2, l3, l4, l5, l6, l7, l8⟩ := read_force_loop_vectors _ _ _ _ _ _ hforce
    simp only [List.length_nil, Nat.zero_add] at l1 l2 l3 l4 l5 l6 l7
    have htok : ∀ t ∈ tokens.map to_lower, no_space t = true := by
      intro t ht
      obtain ⟨t0, ht0, rfl⟩ := List.mem_map.mp ht
      apply no_space_to_lower
      unfold get_tokens_without_unwanted_spaces header_tokens at hget
      split at hget
      · cases hget
      · rename_i tk htk
        split at htk
        · cases htk
        · simp only [Except.ok.injEq] at htk
          simp only [Except.ok.injEq, Prod.mk.injEq] at hget
          rw [← hget.1, ← htk] at ht0
          exact (get_tokens_mem _ _ ht0).2
    refine ⟨by rw [hnum]; exact hn, ?_, ?_, ?_, ?_, ?_, ?_, ?_, ?_, ?_⟩
    · rw [l1, e10]
    · rw [l2, e10]
    · rw [l3, e10]
    · rw [l4, e10]
    · rw [l5, e10]
    · rw [l6, e10]
    · rw [l7, e10]
    · exact l8 (fun a ha => by cases ha)
    · rw [e8, e9, hs1, hs2]
      exact read_sid_no_space _ _ htok (fun hc => by cases hc)

theorem read_decoded (input : List Char) (frames : List Structure)
    (h : read input = .ok frames) : ∀ f ∈ frames, Decoded f :=
  read_forall Decoded (fun n input s rest hn hone =>
    read_one_structure_decoded n input s rest hn hone) input frames h

/-! ## The text written for a frame -/

theorem keyed_token_ok (K v : List Char) (hK : K ≠ []) (hKs : no_space K = true)
    (hv : no_space v = true) : K ++ v ≠ [] ∧ no_space (K ++ v) = true :=
  ⟨by simp [hK], (no_space_append K v).mpr ⟨hKs, hv⟩⟩

theorem number_token_ok (v : ℚ) : fmt_double v ≠ [] ∧ no_space (fmt_double v) = true :=
  ⟨fmt_double_ne_nil v, no_space_of_word _ (fmt_double_word v).1⟩

theorem matrix_tokens_ok (K : List Char) (hK : K ≠ []) (hKs : no_space K = true)
    (a : List ℚ) : ∀ t ∈ matrix_tokens K a, t ≠ [] ∧ no_space t = true := by
  intro t ht
  simp only [matrix_tokens, List.mem_cons, List.mem_singleton, List.not_mem_nil,
    or_false] at ht
  rcases ht with rfl | rfl | rfl | rfl | rfl | rfl | rfl | rfl | rfl
  · exact keyed_token_ok K _ hK hKs
      ((no_space_cons _ _).mpr ⟨by decide, (number_token_ok _).2⟩)
  · exact number_token_ok _
  · exact number_token_ok _
  · exact number_token_ok _
  · exact number_token_ok _
  · exact number_token_ok _
  · exact number_token_ok _
  · exact number_token_ok _
  · exact ⟨by simp, (no_space_append _ _).mpr ⟨(number_token_ok _).2, by decide⟩⟩

/-- The tokens of a written header are non-empty and free of whitespace when the structure
id is free of whitespace. -/
theorem header_words_ok (s : Structure) (hsid : s.has_sid = true → no_space s.sid = true) :
    ∀ t ∈ header_words lattice_written properties_written s, t ≠ [] ∧ no_space t = true := by
  intro t ht
  rw [header_words_eq] at ht
  simp only [List.mem_append, List.mem_singleton, List.not_mem_nil, or_false] at ht
  rcases ht with h | h | h | h | h | h | h
  · split at h
    · rw [List.mem_singleton.mp h]
      exact keyed_token_ok _ _ (by decide) (by decide) (number_token_ok _).2
    · cases h
  · exact matrix_tokens_ok _ (by decide) (by decide) _ t h
  · rw [h]
    exact keyed_token_ok _ _ (by decide) (by decide) (number_token_ok _).2
  · split at h
    · exact matrix_tokens_ok _ (by decide) (by decide) _ t h
    · cases h
  · split at h
    · exact matrix_tokens_ok _ (by decide) (by decide) _ t h
    · cases h
  · split at h
    · rename_i hs
      rw [List.mem_singleton.mp h]
      exact keyed_token_ok _ _ (by decide) (by decide) (hsid hs)
    · cases h
  · rw [h]
    exact ⟨by decide, by decide⟩

theorem get_tokens_write_header (s : Structure)
    (hsid : s.has_sid = true → no_space s.sid = true) :
    get_tokens (write_header s) = header_words lattice_written properties_written s := by
  rw [write_header_eq]
  exact get_tokens_unwords _ (header_words_ok s hsid)

theorem skips_lattice_written (K : List Char) (hK : K ∈ header_keys) (a : List ℚ) :
    skips K (matrix_tokens lattice_written a) := by
  rw [matrix_tokens_eq]
  refine skips_cons _ _ _ ?_ (skips_matrix_tail _ hK _ _)
  rw [starts_with_false_iff]
  simp only [header_keys, List.mem_cons, List.mem_singleton, List.not_mem_nil, or_false] at hK
  rcases hK with rfl | rfl | rfl | rfl | rfl | rfl | rfl | rfl <;>
    simp [lattice_written, sid_string, energy_weight_string, energy_string, weight_string,
      lattice_string, virial_string, stress_string, properties_string]

theorem skips_properties_written (K : List Char) (hK : K ∈ header_keys) :
    skips K [properties_written] := by
  refine skips_cons _ _ _ ?_ (skips_nil _)
  simp only [header_keys, List.mem_cons, List.mem_singleton, List.not_mem_nil, or_false] at hK
  rcases hK with rfl | rfl | rfl | rfl | rfl | rfl | rfl | rfl <;> decide

/-- Which keys of the reader begin a token of a written header. -/
theorem header_words_key (K : List Char) (hK : K ∈ header_keys) (s : Structure) :
    (∃ t ∈ header_words lattice_written properties_written s, starts_with t K = true) ↔
      (K = energy_weight_string ∧ s.energy_weight ≠ 1) ∨ K = energy_string ∨
        (K = virial_string ∧ s.has_virial = true) ∨ (K = stress_string ∧ s.has_stress = true) ∨
        (K = sid_string ∧ s.has_sid = true) := by
  constructor
  · rintro ⟨t, ht, hk⟩
    rw [header_words_eq] at ht
    simp only [List.mem_append, List.mem_singleton, List.not_mem_nil, or_false] at ht
    rcases ht with h | h | h | h | h | h | h
    · by_cases hne : energy_weight_string = K
      · split at h
        · rename_i hc
          exact Or.inl ⟨hne.symm, hc⟩
        · cases h
      · have := skips_energy_weight_seg K hK hne s t h
        rw [this] at hk
        cases hk
    · have := skips_lattice_written K hK s.box t h
      rw [this] at hk
      cases hk
    · by_cases hne : energy_string = K
      · exact Or.inr (Or.inl hne.symm)
      · have := skips_energy_tok K hK hne s t (List.mem_singleton.mpr h)
        rw [this] at hk
        cases hk
    · by_cases hne : virial_string = K
      · split at h
        · rename_i hc
          exact Or.inr (Or.inr (Or.inl ⟨hne.symm, hc⟩))
        · cases h
      · have := skips_virial_seg K hK hne s t h
        rw [this] at hk
        cases hk
    · by_cases hne : stress_string = K
      · split at h
        · rename_i hc
          exact Or.inr (Or.inr (Or.inr (Or.inl ⟨hne.symm, hc⟩)))
        · cases h
      · have := skips_stress_seg K hK hne s t h
        rw [this] at hk
        cases hk
    · by_cases hne : sid_string = K
      · split at h
        · rename_i hc
          exact Or.inr (Or.inr (Or.inr (Or.inr ⟨hne.symm, hc⟩)))
        · cases h
      · have := skips_sid_seg K hK hne s t h
        rw [this] at hk
        cases hk
    · have := skips_properties_written K hK t (List.mem_singleton.mpr h)
      rw [this] at hk
      cases hk
  · intro h
    rw [header_words_eq]
    rcases h with ⟨rfl, hc⟩ | rfl | ⟨rfl, hc⟩ | ⟨rfl, hc⟩ | ⟨rfl, hc⟩
    · exact ⟨energy_weight_string ++ fmt_double s.energy_weight, by simp [hc],
        starts_with_self_append _ _⟩
    · exact ⟨energy_string ++ fmt_double s.energy, by simp, starts_with_self_append _ _⟩
    · refine ⟨virial_string ++ '"' :: fmt_double (s.virial.getD 0 0), ?_,
        starts_with_self_append _ _⟩
      rw [if_pos hc, matrix_tokens_eq virial_string]
      simp
    · refine ⟨stress_string ++ '"' :: fmt_double (s.stress.getD 0 0), ?_,
        starts_with_self_append _ _⟩
      rw [if_pos hc, matrix_tokens_eq stress_string]
      simp
    · exact ⟨sid_string ++ s.sid, by simp [hc], starts_with_self_append _ _⟩

theorem header_words_lattice (s : Structure) :
    ∃ t ∈ header_words lattice_written properties_written s,
      starts_with t lattice_written = true := by
  refine ⟨lattice_written ++ '"' :: fmt_double (s.box.getD 0 0), ?_,
    starts_with_self_append _ _⟩
  rw [header_words_eq, matrix_tokens_eq lattice_written]
  simp

theorem header_words_last (s : Structure) :
    (header_words lattice_written properties_written s).getLast? =
      some properties_written := by
  have h : header_words lattice_written properties_written s =
      ((if s.energy_weight ≠ 1 then [energy_weight_string ++ fmt_double s.energy_weight]
          else []) ++
        (matrix_tokens lattice_written s.box ++
          ((energy_string ++ fmt_double s.energy) ::
            ((if s.has_virial then matrix_tokens virial_string s.virial else []) ++
              ((if s.has_stress then matrix_tokens stress_string s.stress else []) ++
                (if s.has_sid then [sid_string ++ s.sid] else [])))))) ++
        [properties_written] := by
    simp [header_words]
  rw [h, List.getLast?_append]
  rfl

theorem write_header_suffix (s : Structure) : properties_written <:+ write_header s := by
  unfold write_header
  exact List.suffix_append _ _

theorem newline_not_mem_fmt_int (n : Int) : '\n' ∉ fmt_int n := by
  have hd : ∀ m : Nat, '\n' ∉ nat_digits m := by
    intro m hm
    have := nat_digits_num_char m _ hm
    revert this
    decide
  unfold fmt_int
  split
  · simp only [List.mem_cons, not_or]
    exact ⟨by decide, hd _⟩
  · exact hd _

theorem atoms_text_lines (s : Structure) (ns : List Nat) :
    atoms_text s ns =
      ((ns.map (fun n => unwords (atom_tokens s n))).map (fun l => l ++ ['\n'])).flatten := by
  induction ns with
  | nil => rfl
  | cons n ns ih => simp [atoms_text, ih]

/-- The layout of the text that `write_one_structure` writes for a `Decoded` frame. -/
theorem write_one_structure_layout (g : Structure) (hd : Decoded g) :
    ∃ lines : List (List Char),
      write_one_structure g =
        .ok (fmt_int g.num_atom ++ ['\n'] ++ write_header g ++ ['\n'] ++
          (lines.map (fun l => l ++ ['\n'])).flatten) ∧
      '\n' ∉ fmt_int g.num_atom ∧ '\n' ∉ write_header g ∧
      (lines.length : Int) = g.num_atom ∧
      (∀ l ∈ lines, '\n' ∉ l ∧ (get_tokens l).length = 7) ∧
      ((∃ t ∈ get_tokens (write_header g), starts_with t energy_weight_string = true) ↔
        g.energy_weight ≠ 1) ∧
      ((∃ t ∈ get_tokens (write_header g), starts_with t virial_string = true) ↔
        g.has_virial = true) ∧
      ((∃ t ∈ get_tokens (write_header g), starts_with t stress_string = true) ↔
        g.has_stress = true) ∧
      ((∃ t ∈ get_tokens (write_header g), starts_with t sid_string = true) ↔
        g.has_sid = true) ∧
      (∃ t ∈ get_tokens (write_header g), starts_with t lattice_written = true) ∧
      (∃ t ∈ get_tokens (write_header g), starts_with t energy_string = true) ∧
      (get_tokens (write_header g)).getLast? = some properties_written ∧
      properties_written <:+ write_header g := by
  have htok := get_tokens_write_header g hd.sid_no_space
  have hatoms : write_atoms g (List.range g.num_atom.toNat) =
      .ok (atoms_text g (List.range g.num_atom.toNat)) := by
    apply write_atoms_eq
    intro n hn
    have hlt := List.mem_range.mp hn
    rw [hd.len_symbol, hd.len_x, hd.len_y, hd.len_z, hd.len_fx, hd.len_fy, hd.len_fz]
    exact ⟨hlt, hlt, hlt, hlt, hlt, hlt, hlt⟩
  refine ⟨(List.range g.num_atom.toNat).map (fun n => unwords (atom_tokens g n)),
    ?_, newline_not_mem_fmt_int _, ?_, ?_, ?_, ?_, ?_, ?_, ?_, ?_, ?_, ?_,
    write_header_suffix g⟩
  · unfold write_one_structure
    rw [hatoms, atoms_text_lines]
  · rw [write_header_eq]
    exact newline_not_mem_unwords _ (fun t ht => (header_words_ok g hd.sid_no_space t ht).2)
  · rw [List.length_map, List.length_range]
    have := hd.num_atom_pos
    omega
  · intro l hl
    obtain ⟨n, hn, rfl⟩ := List.mem_map.mp hl
    have hlt : n < g.atom_symbol.length := by
      rw [hd.len_symbol]
      exact List.mem_range.mp hn
    have hok := atom_tokens_ok g n hlt hd.symbols
    refine ⟨newline_not_mem_unwords _ (fun t ht => (hok t ht).2), ?_⟩
    rw [get_tokens_unwords _ hok]
    rfl
  · rw [htok, header_words_key _ (by decide)]
    constructor
    · rintro (⟨_, hc⟩ | hc | ⟨hc, _⟩ | ⟨hc, _⟩ | ⟨hc, _⟩)
      · exact hc
      all_goals exact absurd hc (by decide)
    · intro hc
      exact Or.inl ⟨rfl, hc⟩
  · rw [htok, header_words_key _ (by decide)]
    constructor
    · rintro (⟨hc, _⟩ | hc | ⟨_, hc⟩ | ⟨hc, _⟩ | ⟨hc, _⟩)
      · exact absurd hc (by decide)
      · exact absurd hc (by decide)
      · exact hc
      all_goals exact absurd hc (by decide)
    · intro hc
      exact Or.inr (Or.inr (Or.inl ⟨rfl, hc⟩))
  · rw [htok, header_words_key _ (by decide)]
    constructor
    · rintro (⟨hc, _⟩ | hc | ⟨hc, _⟩ | ⟨_, hc⟩ | ⟨hc, _⟩)
      · exact absurd hc (by decide)
      · exact absurd hc (by decide)
      · exact absurd hc (by decide)
      · exact hc
      · exact absurd hc (by decide)
    · intro hc
      exact Or.inr (Or.inr (Or.inr (Or.inl ⟨rfl, hc⟩)))
  · rw [htok, header_words_key _ (by decide)]
    constructor
    · rintro (⟨hc, _⟩ | hc | ⟨hc, _⟩ | ⟨hc, _⟩ | ⟨_, hc⟩)
      · exact absurd hc (by decide)
      · exact absurd hc (by decide)
      · exact absurd hc (by decide)
      · exact absurd hc (by decide)
      · exact hc
    · intro hc
      exact Or.inr (Or.inr (Or.inr (Or.inr ⟨rfl, hc⟩)))
  · rw [htok]
    exact header_words_lattice g
  · rw [htok]
    exact (header_words_key _ (by decide) g).mpr (Or.inr (Or.inl rfl))
  · rw [htok]
    exact header_words_last g

/-- C15: for every frame returned by `read` (with any descriptor filled in afterwards), the
text of `write_one_structure` is a line holding `num_atom`, the header line, and exactly
`num_atom` atom lines of seven fields; a token of the header line begins with
`energy_weight=` exactly when `energy_weight ≠ 1`, with `virial=` exactly when `has_virial`,
with `stress=` exactly when `has_stress`, with `sid=` exactly when `has_sid`; a token always
begins with `Lattice=` and one with `energy=`; and the header line ends with the token
`Properties=species:S:1:pos:R:3:force:R:3`. -/
theorem written_frame_layout (input : List Char) (frames : List Structure) (f : Structure)
    (q : List ℚ) (h : read input = .ok frames) (hf : f ∈ frames) :
    ∃ lines : List (List Char),
      write_one_structure { f with q := q } =
        .ok (fmt_int f.num_atom ++ ['\n'] ++ write_header f ++ ['\n'] ++
          (lines.map (fun l => l ++ ['\n'])).flatten) ∧
      '\n' ∉ fmt_int f.num_atom ∧ '\n' ∉ write_header f ∧
      (lines.length : Int) = f.num_atom ∧
      (∀ l ∈ lines, '\n' ∉ l ∧ (get_tokens l).length = 7) ∧
      ((∃ t ∈ get_tokens (write_header f), starts_with t energy_weight_string = true) ↔
        f.energy_weight ≠ 1) ∧
      ((∃ t ∈ get_tokens (write_header f), starts_with t virial_string = true) ↔
        f.has_virial = true) ∧
      ((∃ t ∈ get_tokens (write_header f), starts_with t stress_string = true) ↔
        f.has_stress = true) ∧
      ((∃ t ∈ get_tokens (write_header f), starts_with t sid_string = true) ↔
        f.has_sid = true) ∧
      (∃ t ∈ get_tokens (write_header f), starts_with t lattice_written = true) ∧
      (∃ t ∈ get_tokens (write_header f), starts_with t energy_string = true) ∧
      (get_tokens (write_header f)).getLast? = some properties_written ∧
      properties_written <:+ write_header f := by
  have hd := read_decoded input frames h f hf
  have hg : Decoded { f with q := q } :=
    ⟨hd.num_atom_pos, hd.len_symbol, hd.len_x, hd.len_y, hd.len_z, hd.len_fx, hd.len_fy,
      hd.len_fz, hd.symbols, hd.sid_no_space⟩
  exact write_one_structure_layout { f with q := q } hg

/-- Witness of C15: the frame `example_decoded`, returned by `read` on a file of one frame,
with the descriptor `[1, 2]`. -/
theorem written_frame_layout_witness :
    ∃ lines : List (List Char),
      write_one_structure { example_decoded with q := [1, 2] } =
        .ok (fmt_int example_decoded.num_atom ++ ['\n'] ++ write_header example_decoded ++
          ['\n'] ++ (lines.map (fun l => l ++ ['\n'])).flatten) ∧
      '\n' ∉ fmt_int example_decoded.num_atom ∧ '\n' ∉ write_header example_decoded ∧
      (lines.length : Int) = example_decoded.num_atom ∧
      (∀ l ∈ lines, '\n' ∉ l ∧ (get_tokens l).length = 7) ∧
      ((∃ t ∈ get_tokens (write_header example_decoded),
          starts_with t energy_weight_string = true) ↔ example_decoded.energy_weight ≠ 1) ∧
      ((∃ t ∈ get_tokens (write_header example_decoded),
          starts_with t virial_string = true) ↔ example_decoded.has_virial = true) ∧
      ((∃ t ∈ get_tokens (write_header example_decoded),
          starts_with t stress_string = true) ↔ example_decoded.has_stress = true) ∧
      ((∃ t ∈ get_tokens (write_header example_decoded),
          starts_with t sid_string = true) ↔ example_decoded.has_sid = true) ∧
      (∃ t ∈ get_tokens (write_header example_decoded),
        starts_with t lattice_written = true) ∧
      (∃ t ∈ get_tokens (write_header example_decoded),
        starts_with t energy_string = true) ∧
      (get_tokens (write_header example_decoded)).getLast? = some properties_written ∧
      properties_written <:+ write_header example_decoded :=
  written_frame_layout
    ("1\n".toList ++ example_header_both ++ '\n' :: example_atom_line) [example_decoded]
    example_decoded [1, 2] (by decide!) (by decide)

/-! ## Reading a header: the column layout -/

theorem find_positions_append (sub_tokens : List (List Char)) (a b : List Nat)
    (p : Int × Int × Int) :
    find_positions sub_tokens (a ++ b) p =
      find_positions sub_tokens b (find_positions sub_tokens a p) := by
  induction a generalizing p with
  | nil => rfl
  | cons k a ih =>
    obtain ⟨p1, p2, p3⟩ := p
    rw [List.cons_append, find_positions, find_positions, ih]

theorem find_positions_range_succ (sub_tokens : List (List Char)) (n : Nat)
    (p : Int × Int × Int) :
    find_positions sub_tokens (List.range (n + 1)) p =
      (if sub_tokens.getD (n * 3) [] = ['s', 'p', 'e', 'c', 'i', 'e', 's'] then (n : Int)
        else (find_positions sub_tokens (List.range n) p).1,
       if sub_tokens.getD (n * 3) [] = ['p', 'o', 's'] then (n : Int)
        else (find_positions sub_tokens (List.range n) p).2.1,
       if sub_tokens.getD (n * 3) [] = ['f', 'o', 'r', 'c', 'e'] ∨
          sub_tokens.getD (n * 3) [] = ['f', 'o', 'r', 'c', 'e', 's'] then (n : Int)
        else (find_positions sub_tokens (List.range n) p).2.2) := by
  rw [List.range_succ, find_positions_append]
  obtain ⟨q1, q2, q3⟩ := find_positions sub_tokens (List.range n) p
  rfl

/-- The position of `species` is the last triple of that name. -/
theorem find_positions_species_last (sub_tokens : List (List Char)) (n ps : Nat)
    (p : Int × Int × Int) (hps : ps < n)
    (hname : sub_tokens.getD (ps * 3) [] = ['s', 'p', 'e', 'c', 'i', 'e', 's'])
    (hlast : ∀ k, ps < k → k < n →
      sub_tokens.getD (k * 3) [] ≠ ['s', 'p', 'e', 'c', 'i', 'e', 's']) :
    (find_positions sub_tokens (List.range n) p).1 = (ps : Int) := by
  induction n with
  | zero => omega
  | succ m ih =>
    rw [find_positions_range_succ]
    simp only
    by_cases hm : ps = m
    · subst hm
      rw [if_pos hname]
    · rw [if_neg (hlast m (by omega) (by omega))]
      exact ih (by omega) (fun k h1 h2 => hlast k h1 (by omega))

/-- The position of `pos` is the last triple of that name. -/
theorem find_positions_pos_last (sub_tokens : List (List Char)) (n pp : Nat)
    (p : Int × Int × Int) (hpp : pp < n)
    (hname : sub_tokens.getD (pp * 3) [] = ['p', 'o', 's'])
    (hlast : ∀ k, pp < k → k < n → sub_tokens.getD (k * 3) [] ≠ ['p', 'o', 's']) :
    (find_positions sub_tokens (List.range n) p).2.1 = (pp : Int) := by
  induction n with
  | zero => omega
  | succ m ih =>
    rw [find_positions_range_succ]
    simp only
    by_cases hm : pp = m
    · subst hm
      rw [if_pos hname]
    · rw [if_neg (hlast m (by omega) (by omega))]
      exact ih (by omega) (fun k h1 h2 => hlast k h1 (by omega))

/-- The position of the force is the last triple named `force` or `forces`. -/
theorem find_positions_force_last (sub_tokens : List (List Char)) (n pf : Nat)
    (p : Int × Int × Int) (hpf : pf < n)
    (hname : sub_tokens.getD (pf * 3) [] = ['f', 'o', 'r', 'c', 'e'] ∨
      sub_tokens.getD (pf * 3) [] = ['f', 'o', 'r', 'c', 'e', 's'])
    (hlast : ∀ k, pf < k → k < n →
      ¬ (sub_tokens.getD (k * 3) [] = ['f', 'o', 'r', 'c', 'e'] ∨
        sub_tokens.getD (k * 3) [] = ['f', 'o', 'r', 'c', 'e', 's'])) :
    (find_positions sub_tokens (List.range n) p).2.2 = (pf : Int) := by
  induction n with
  | zero => omega
  | succ m ih =>
    rw [find_positions_range_succ]
    simp only
    by_cases hm : pf = m
    · subst hm
      rw [if_pos hname]
    · rw [if_neg (hlast m (by omega) (by omega))]
      exact ih (by omega) (fun k h1 h2 => hlast k h1 (by omega))

theorem add_offsets_append (sub_tokens : List (List Char)) (p : Int × Int × Int)
    (a b : List Nat) (c : Columns) :
    add_offsets sub_tokens p (a ++ b) c =
      match add_offsets sub_tokens p a c with
      | .error e => .error e
      | .ok c1 => add_offsets sub_tokens p b c1 := by
  induction a generalizing c with
  | nil => rfl
  | cons k a ih =>
    rw [List.cons_append, add_offsets, add_offsets]
    split
    · rfl
    · exact ih _

theorem widths_before_succ (w : Nat → Int) (n : Nat) :
    widths_before w (n + 1) = widths_before w n + w n := by
  simp [widths_before, List.range_succ]

theorem wrap_int_add (a b : Int) : wrap_int (wrap_int a + b) = wrap_int (a + b) := by
  unfold wrap_int
  omega

theorem wrap_int_of_range (v : Int) (h1 : -2147483648 ≤ v) (h2 : v ≤ 2147483647) :
    wrap_int v = v := by
  unfold wrap_int
  omega

theorem wrap_int_range (v : Int) : -2147483648 ≤ wrap_int v ∧ wrap_int v ≤ 2147483647 := by
  unfold wrap_int
  omega

/-- The second loop over the triples, for positions `ps`, `pp`, `pf`: the offsets after the
first `n` triples. -/
theorem add_offsets_range (sub_tokens : List (List Char)) (ps pp pf : Nat) (w : Nat → Int)
    (n : Nat) (hw : ∀ k < n, get_int_from_token (sub_tokens.getD (k * 3 + 2) []) = .ok (w k)) :
    add_offsets sub_tokens ((ps : Int), (pp : Int), (pf : Int)) (List.range n) {} =
      .ok { species_offset := wrap_int (widths_before w (min n ps))
            pos_offset := wrap_int (widths_before w (min n pp))
            force_offset := wrap_int (widths_before w (min n pf))
            num_columns := wrap_int (widths_before w n) } := by
  induction n with
  | zero => simp [add_offsets, widths_before, wrap_int]
  | succ m ih =>
    rw [List.range_succ, add_offsets_append, ih (fun k hk => hw k (by omega))]
    simp only [add_offsets]
    rw [hw m (by omega)]
    simp only [Except.ok.injEq, Columns.mk.injEq]
    refine ⟨?_, ?_, ?_, ?_⟩
    · by_cases h : m < ps
      · rw [if_pos (by exact_mod_cast h), Nat.min_eq_left (by omega),
          Nat.min_eq_left (by omega), widths_before_succ, wrap_int_add]
      · rw [if_neg (by exact_mod_cast h), Nat.min_eq_right (by omega),
          Nat.min_eq_right (by omega)]
    · by_cases h : m < pp
      · rw [if_pos (by exact_mod_cast h), Nat.min_eq_left (by omega),
          Nat.min_eq_left (by omega), widths_before_succ, wrap_int_add]
      · rw [if_neg (by exact_mod_cast h), Nat.min_eq_right (by omega),
          Nat.min_eq_right (by omega)]
    · by_cases h : m < pf
      · rw [if_pos (by exact_mod_cast h), Nat.min_eq_left (by omega),
          Nat.min_eq_left (by omega), widths_before_succ, wrap_int_add]
      · rw [if_neg (by exact_mod_cast h), Nat.min_eq_right (by omega),
          Nat.min_eq_right (by omega)]
    · rw [widths_before_succ, wrap_int_add]

theorem read_properties_none (tokens : List (List Char)) (c : Columns)
    (h : skips properties_string tokens) : read_properties tokens c = .ok c := by
  have := read_properties_skip tokens [] c h
  rwa [List.append_nil] at this

theorem read_properties_cons_hit (tok : List Char) (post : List (List Char)) (c : Columns)
    (htok : starts_with tok properties_string = true) :
    read_properties (tok :: post) c =
      if (find_positions (sub_tokens_of tok)
          (List.range ((sub_tokens_of tok).length / 3)) (-1, -1, -1)).1 < 0 then
        .error .species_missing
      else if (find_positions (sub_tokens_of tok)
          (List.range ((sub_tokens_of tok).length / 3)) (-1, -1, -1)).2.1 < 0 then
        .error .pos_missing
      else if (find_positions (sub_tokens_of tok)
          (List.range ((sub_tokens_of tok).length / 3)) (-1, -1, -1)).2.2 < 0 then
        .error .force_missing
      else
        match add_offsets (sub_tokens_of tok)
            (find_positions (sub_tokens_of tok)
              (List.range ((sub_tokens_of tok).length / 3)) (-1, -1, -1))
            (List.range ((sub_tokens_of tok).length / 3)) c with
        | .error e => .error e
        | .ok c1 => read_properties post c1 := by
  rw [read_properties, if_pos htok]
  rfl

/-- C22, counterexample: in `example_wide_properties` the widths of the six triples are
`2147483647`, `2147483647`, `2`, `1`, `3`, `3`; the widths before `species`, `pos` and
`force` add up to `4294967296`, `4294967297` and `4294967300` and all widths to `4294967303`,
but the decoder, which adds them up in an `int`, computes the offsets `0`, `1`, `4` and `7`
columns, and `read` returns the frame of `example_wide_input`, whose atom line has seven
items. -/
theorem offsets_wrap_counterexample :
    read_properties [to_lower example_wide_properties] {} =
      .ok { species_offset := 0, pos_offset := 1, force_offset := 4, num_columns := 7 } ∧
    (List.range 6).map
        (fun k => get_int_from_token (field_width (to_lower example_wide_properties) k)) =
      (List.range 6).map (fun k => .ok (example_wide_widths k)) ∧
    field_name (to_lower example_wide_properties) 3 = ['s', 'p', 'e', 'c', 'i', 'e', 's'] ∧
    field_name (to_lower example_wide_properties) 4 = ['p', 'o', 's'] ∧
    field_name (to_lower example_wide_properties) 5 = ['f', 'o', 'r', 'c', 'e'] ∧
    widths_before example_wide_widths 3 = 4294967296 ∧
    widths_before example_wide_widths 4 = 4294967297 ∧
    widths_before example_wide_widths 5 = 4294967300 ∧
    widths_before example_wide_widths 6 = 4294967303 ∧
    read example_wide_input = .ok [example_lattice_frame_unit] := by
  decide!

/-- C22, amended: for a header whose `properties=` token names `species`, `pos` and `force`
(or `forces`) in triples `ps`, `pp`, `pf` (the last triple of each name) and whose widths
are the integers `w k`, the decoder computes `species_offset`, `pos_offset` and
`force_offset` as the sum of the widths of the triples before the respective field and
`num_columns` as the sum of the widths of all triples, each sum held in an `int`, that is
reduced modulo `2 ^ 32` into the range of `int`; when the sums of the widths of the first
`p` triples all lie in the range of `int`, these are the sums themselves; for
`Properties=species:S:1:pos:R:3:force:R:3` they are `0`, `1`, `4` and `7`. -/
theorem properties_offsets (tokens pre : List (List Char)) (tok : List Char)
    (post : List (List Char)) (w : Nat → Int) (ps pp pf : Nat)
    (hsplit : tokens = pre ++ tok :: post) (hpre : skips properties_string pre)
    (hpost : skips properties_string post)
    (htok : starts_with tok properties_string = true)
    (hw : ∀ k < (sub_tokens_of tok).length / 3,
      get_int_from_token (field_width tok k) = .ok (w k))
    (hps : ps < (sub_tokens_of tok).length / 3)
    (hspecies : field_name tok ps = ['s', 'p', 'e', 'c', 'i', 'e', 's'])
    (hspecies_last : ∀ k < (sub_tokens_of tok).length / 3, ps < k →
      field_name tok k ≠ ['s', 'p', 'e', 'c', 'i', 'e', 's'])
    (hpp : pp < (sub_tokens_of tok).length / 3)
    (hpos : field_name tok pp = ['p', 'o', 's'])
    (hpos_last : ∀ k < (sub_tokens_of tok).length / 3, pp < k →
      field_name tok k ≠ ['p', 'o', 's'])
    (hpf : pf < (sub_tokens_of tok).length / 3)
    (hforce : field_name tok pf = ['f', 'o', 'r', 'c', 'e'] ∨
      field_name tok pf = ['f', 'o', 'r', 'c', 'e', 's'])
    (hforce_last : ∀ k < (sub_tokens_of tok).length / 3, pf < k →
      ¬ (field_name tok k = ['f', 'o', 'r', 'c', 'e'] ∨
        field_name tok k = ['f', 'o', 'r', 'c', 'e', 's'])) :
    read_properties tokens {} =
      .ok { species_offset := wrap_int (widths_before w ps)
            pos_offset := wrap_int (widths_before w pp)
            force_offset := wrap_int (widths_before w pf)
            num_columns := wrap_int (widths_before w ((sub_tokens_of tok).length / 3)) } ∧
    (∀ s s1 c, read_header tokens s = .ok (s1, c) →
      c = { species_offset := wrap_int (widths_before w ps)
            pos_offset := wrap_int (widths_before w pp)
            force_offset := wrap_int (widths_before w pf)
            num_columns := wrap_int (widths_before w ((sub_tokens_of tok).length / 3)) }) ∧
    ((∀ p ≤ (sub_tokens_of tok).length / 3,
        -2147483648 ≤ widths_before w p ∧ widths_before w p ≤ 2147483647) →
      read_properties tokens {} =
        .ok { species_offset := widths_before w ps
              pos_offset := widths_before w pp
              force_offset := widths_before w pf
              num_columns := widths_before w ((sub_tokens_of tok).length / 3) }) ∧
    read_properties [to_lower "Properties=species:S:1:pos:R:3:force:R:3".toList] {} =
      .ok { species_offset := 0, pos_offset := 1, force_offset := 4, num_columns := 7 } := by
  have hmain : read_properties tokens {} =
      .ok { species_offset := wrap_int (widths_before w ps)
            pos_offset := wrap_int (widths_before w pp)
            force_offset := wrap_int (widths_before w pf)
            num_columns := wrap_int (widths_before w ((sub_tokens_of tok).length / 3)) } := by
    have h1 := find_positions_species_last (sub_tokens_of tok) _ ps (-1, -1, -1) hps
      hspecies (fun k h1 h2 => hspecies_last k h2 h1)
    have h2 := find_positions_pos_last (sub_tokens_of tok) _ pp (-1, -1, -1) hpp
      hpos (fun k h1 h2 => hpos_last k h2 h1)
    have h3 := find_positions_force_last (sub_tokens_of tok) _ pf (-1, -1, -1) hpf
      hforce (fun k h1 h2 => hforce_last k h2 h1)
    have hp : find_positions (sub_tokens_of tok)
        (List.range ((sub_tokens_of tok).length / 3)) (-1, -1, -1) =
        ((ps : Int), (pp : Int), (pf : Int)) := by
      rw [← h1, ← h2, ← h3]
    have ha := add_offsets_range (sub_tokens_of tok) ps pp pf w
      ((sub_tokens_of tok).length / 3) hw
    rw [Nat.min_eq_right (by omega), Nat.min_eq_right (by omega),
      Nat.min_eq_right (by omega)] at ha
    rw [hsplit, read_properties_skip pre _ _ hpre, read_properties_cons_hit tok post _ htok,
      hp]
    simp only
    rw [if_neg (by omega), if_neg (by omega), if_neg (by omega), ha]
    simp only
    exact read_properties_none post _ hpost
  refine ⟨hmain, ?_, ?_, by decide!⟩
  · intro s s1 c hh
    have hc := (read_header_ok _ _ _ _ hh).2
    rw [hmain] at hc
    simp only [Except.ok.injEq] at hc
    exact hc.symm
  · intro hfit
    rw [hmain, wrap_int_of_range _ (hfit ps (by omega)).1 (hfit ps (by omega)).2,
      wrap_int_of_range _ (hfit pp (by omega)).1 (hfit pp (by omega)).2,
      wrap_int_of_range _ (hfit pf (by omega)).1 (hfit pf (by omega)).2,
      wrap_int_of_range _ (hfit _ (le_refl _)).1 (hfit _ (le_refl _)).2]

/-- Witness of C22 (amended): the lower-cased header of `example_header_both`, whose
`properties=` token is the last token and whose widths `1`, `3`, `3` add up within the range
of `int`. -/
theorem properties_offsets_witness :
    read_properties ((get_tokens example_header_both).map to_lower) {} =
      .ok { species_offset := wrap_int (widths_before (fun k => if k = 0 then 1 else 3) 0)
            pos_offset := wrap_int (widths_before (fun k => if k = 0 then 1 else 3) 1)
            force_offset := wrap_int (widths_before (fun k => if k = 0 then 1 else 3) 2)
            num_columns := wrap_int (widths_before (fun k => if k = 0 then 1 else 3)
              ((sub_tokens_of "properties=species:s:1:pos:r:3:force:r:3".toList).length /
                3)) } ∧
    (∀ s s1 c, read_header ((get_tokens example_header_both).map to_lower) s = .ok (s1, c) →
      c = { species_offset := wrap_int (widths_before (fun k => if k = 0 then 1 else 3) 0)
            pos_offset := wrap_int (widths_before (fun k => if k = 0 then 1 else 3) 1)
            force_offset := wrap_int (widths_before (fun k => if k = 0 then 1 else 3) 2)
            num_columns := wrap_int (widths_before (fun k => if k = 0 then 1 else 3)
              ((sub_tokens_of "properties=species:s:1:pos:r:3:force:r:3".toList).length /
                3)) }) ∧
    read_properties ((get_tokens example_header_both).map to_lower) {} =
      .ok { species_offset := widths_before (fun k => if k = 0 then 1 else 3) 0
            pos_offset := widths_before (fun k => if k = 0 then 1 else 3) 1
            force_offset := widths_before (fun k => if k = 0 then 1 else 3) 2
            num_columns := widths_before (fun k => if k = 0 then 1 else 3)
              ((sub_tokens_of "properties=species:s:1:pos:r:3:force:r:3".toList).length /
                3) } ∧
    read_properties [to_lower "Properties=species:S:1:pos:R:3:force:R:3".toList] {} =
      .ok { species_offset := 0, pos_offset := 1, force_offset := 4, num_columns := 7 } :=
  (fun h => ⟨h.1, h.2.1, h.2.2.1 (by decide!), h.2.2.2⟩)
    (properties_offsets ((get_tokens example_header_both).map to_lower)
      ((get_tokens example_header_both).map to_lower).dropLast
      "properties=species:s:1:pos:r:3:force:r:3".toList [] (fun k => if k = 0 then 1 else 3)
      0 1 2 (by decide!) (by unfold skips; decide!) (skips_nil _) (by decide!)
      (by decide!) (by decide!) (by decide!) (by decide!) (by decide!) (by decide!)
      (by decide!) (by decide!) (by decide!) (by decide!))

/-! ## Reading the atom lines -/

theorem read_force_loop_mismatch (c : Columns) (count : Nat) (input : List Char)
    (s : Structure) (k : Nat) (hk : k < count)
    (hbad : ((get_tokens_stream (skip_lines k input)).1.length : Int) ≠ c.num_columns) :
    ∃ e, read_force_loop c count input s = .error e := by
  induction count generalizing input s k with
  | zero => omega
  | succ n ih =>
    unfold read_force_loop
    split
    · exact ⟨_, rfl⟩
    · rename_i hcol
      split
      · exact ⟨_, rfl⟩
      · split
        · exact ⟨_, rfl⟩
        · split
          · exact ⟨_, rfl⟩
          · cases k with
            | zero => exact absurd hbad hcol
            | succ k1 =>
              apply ih _ _ k1 (by omega)
              simpa [skip_lines, get_tokens_stream] using hbad

/-- A successful run of the loop of `read_force` appends one entry for each atom line to each
vector; the entries of line `k` are the species token, the position and the force that the
line holds at the offsets of the column layout. -/
theorem read_force_loop_decoded (c : Columns) (count : Nat) (input : List Char)
    (s s1 : Structure) (rest : List Char)
    (h : read_force_loop c count input s = .ok (s1, rest)) :
    ∃ syms xs ys zs fxs fys fzs,
      s1 = { s with
        atom_symbol := s.atom_symbol ++ syms
        x := s.x ++ xs, y := s.y ++ ys, z := s.z ++ zs
        fx := s.fx ++ fxs, fy := s.fy ++ fys, fz := s.fz ++ fzs } ∧
      syms.length = count ∧ xs.length = count ∧ ys.length = count ∧ zs.length = count ∧
      fxs.length = count ∧ fys.length = count ∧ fzs.length = count ∧
      rest = skip_lines count input ∧
      ∀ k < count,
        ((get_tokens_stream (skip_lines k input)).1.length : Int) = c.num_columns ∧
        token_at (get_tokens_stream (skip_lines k input)).1 c.species_offset =
          .ok (syms.getD k []) ∧
        triple_at (get_tokens_stream (skip_lines k input)).1 c.pos_offset =
          .ok (xs.getD k 0, ys.getD k 0, zs.getD k 0) ∧
        (4 < c.num_columns →
          triple_at (get_tokens_stream (skip_lines k input)).1 c.force_offset =
            .ok (fxs.getD k 0, fys.getD k 0, fzs.getD k 0)) ∧
        (¬ 4 < c.num_columns → fxs.getD k 0 = 0 ∧ fys.getD k 0 = 0 ∧ fzs.getD k 0 = 0) := by
  induction count generalizing input s with
  | zero =>
    simp only [read_force_loop, Except.ok.injEq, Prod.mk.injEq] at h
    refine ⟨[], [], [], [], [], [], [], ?_, rfl, rfl, rfl, rfl, rfl, rfl, rfl, ?_, ?_⟩
    · simp [← h.1]
    · exact h.2.symm
    · intro k hk
      omega
  | succ n ih =>
    unfold read_force_loop at h
    split at h
    · cases h
    · rename_i hcol
      split at h
      · cases h
      · rename_i symbol hsym
        split at h
        · cases h
        · rename_i x y z hpos
          split at h
          · cases h
          · rename_i fx fy fz hforce
            obtain ⟨syms, xs, ys, zs, fxs, fys, fzs, hs1, l1, l2, l3, l4, l5, l6, l7, hrest,
              hall⟩ := ih _ _ h
            refine ⟨symbol :: syms, x :: xs, y :: ys, z :: zs, fx :: fxs, fy :: fys,
              fz :: fzs, ?_, by simp [l1], by simp [l2], by simp [l3], by simp [l4],
              by simp [l5], by simp [l6], by simp [l7], ?_, ?_⟩
            · rw [hs1]
              simp
            · rw [hrest]
              rfl
            · intro k hk
              cases k with
              | zero =>
                refine ⟨by simpa using hcol, hsym, hpos, ?_, ?_⟩
                · intro h4
                  rw [if_pos h4] at hforce
                  exact hforce
                · intro h4
                  rw [if_neg h4] at hforce
                  simp only [Except.ok.injEq, Prod.mk.injEq] at hforce
                  exact ⟨hforce.1.symm, hforce.2.1.symm, hforce.2.2.symm⟩
              | succ k1 =>
                have := hall k1 (by omega)
                simpa [skip_lines, get_tokens_stream] using this

/-- The loop of `read_force` succeeds when each of its atom lines has the declared number of
tokens, a token at the species offset and numbers at the position offsets (and at the force
offsets when there are more than four columns). -/
theorem read_force_loop_succeeds (c : Columns) (count : Nat) (input : List Char)
    (s : Structure)
    (hall : ∀ k < count,
      ((get_tokens_stream (skip_lines k input)).1.length : Int) = c.num_columns ∧
      (∃ symbol, token_at (get_tokens_stream (skip_lines k input)).1 c.species_offset =
        .ok symbol) ∧
      (∃ p, triple_at (get_tokens_stream (skip_lines k input)).1 c.pos_offset = .ok p) ∧
      (4 < c.num_columns →
        ∃ f, triple_at (get_tokens_stream (skip_lines k input)).1 c.force_offset = .ok f)) :
    ∃ s1 rest, read_force_loop c count input s = .ok (s1, rest) := by
  induction count generalizing input s with
  | zero => exact ⟨s, input, rfl⟩
  | succ n ih =>
    obtain ⟨hcol, ⟨symbol, hsym⟩, ⟨⟨x, y, z⟩, hpos⟩, hforce⟩ := hall 0 (by omega)
    simp only [skip_lines] at hcol hsym hpos hforce
    have hf : ∃ f, (if 4 < c.num_columns then
        triple_at (get_tokens_stream input).1 c.force_offset else .ok (0, 0, 0)) = .ok f := by
      by_cases h4 : 4 < c.num_columns
      · rw [if_pos h4]
        exact hforce h4
      · rw [if_neg h4]
        exact ⟨_, rfl⟩
    obtain ⟨⟨fx, fy, fz⟩, hf⟩ := hf
    unfold read_force_loop
    rw [if_neg (by simpa using hcol), hsym]
    simp only
    rw [hpos]
    simp only
    rw [hf]
    simp only
    apply ih
    intro k hk
    have := hall (k + 1) (by omega)
    simpa [skip_lines, get_tokens_stream] using this

/-- C23: `read_force` on a frame of `N = num_atom` atoms whose vectors are still empty (as
`read` calls it).  Decoding fails if one of the `N` atom lines does not split into exactly
`num_columns` tokens.  On success the species, `x`, `y`, `z`, `fx`, `fy`, `fz` vectors all
have length `N`, the `N` lines have been consumed, and for each atom line the species is the
token at `species_offset`, the position the three numbers at `pos_offset .. pos_offset + 2`,
the force the three numbers at `force_offset .. force_offset + 2` when `num_columns > 4` and
zero otherwise.  And decoding succeeds when every line has these tokens and numbers. -/
theorem read_force_decodes (c : Columns) (input : List Char) (s : Structure) :
    (∀ k < s.num_atom.toNat,
      ((get_tokens_stream (skip_lines k input)).1.length : Int) ≠ c.num_columns →
      ∃ e, read_force c input s = .error e) ∧
    (∀ s1 rest, read_force c input s = .ok (s1, rest) →
      s1.atom_symbol.length = s.num_atom.toNat ∧ s1.x.length = s.num_atom.toNat ∧
      s1.y.length = s.num_atom.toNat ∧ s1.z.length = s.num_atom.toNat ∧
      s1.fx.length = s.num_atom.toNat ∧ s1.fy.length = s.num_atom.toNat ∧
      s1.fz.length = s.num_atom.toNat ∧ rest = skip_lines s.num_atom.toNat input ∧
      ∀ k < s.num_atom.toNat,
        ((get_tokens_stream (skip_lines k input)).1.length : Int) = c.num_columns ∧
        token_at (get_tokens_stream (skip_lines k input)).1 c.species_offset =
          .ok (s1.atom_symbol.getD k []) ∧
        triple_at (get_tokens_stream (skip_lines k input)).1 c.pos_offset =
          .ok (s1.x.getD k 0, s1.y.getD k 0, s1.z.getD k 0) ∧
        (4 < c.num_columns →
          triple_at (get_tokens_stream (skip_lines k input)).1 c.force_offset =
            .ok (s1.fx.getD k 0, s1.fy.getD k 0, s1.fz.getD k 0)) ∧
        (¬ 4 < c.num_columns →
          s1.fx.getD k 0 = 0 ∧ s1.fy.getD k 0 = 0 ∧ s1.fz.getD k 0 = 0)) ∧
    ((∀ k < s.num_atom.toNat,
        ((get_tokens_stream (skip_lines k input)).1.length : Int) = c.num_columns ∧
        (∃ symbol, token_at (get_tokens_stream (skip_lines k input)).1 c.species_offset =
          .ok symbol) ∧
        (∃ p, triple_at (get_tokens_stream (skip_lines k input)).1 c.pos_offset = .ok p) ∧
        (4 < c.num_columns →
          ∃ f, triple_at (get_tokens_stream (skip_lines k input)).1 c.force_offset =
            .ok f)) →
      ∃ s1 rest, read_force c input s = .ok (s1, rest)) := by
  refine ⟨?_, ?_, ?_⟩
  · intro k hk hbad
    exact read_force_loop_mismatch c _ input _ k hk hbad
  · intro s1 rest h
    unfold read_force at h
    obtain ⟨syms, xs, ys, zs, fxs, fys, fzs, hs1, l1, l2, l3, l4, l5, l6, l7, hrest, hall⟩ :=
      read_force_loop_decoded _ _ _ _ _ _ h
    subst hs1
    simp only [List.nil_append] at hall ⊢
    exact ⟨l1, l2, l3, l4, l5, l6, l7, hrest, hall⟩
  · intro hall
    exact read_force_loop_succeeds c _ input _ hall

/-- Witness of C23: two atom lines of seven columns; a second line of three tokens is fatal,
the two lines of `example_two_atoms` are decoded into `example_two_atoms_frame`. -/
theorem read_force_decodes_witness :
    (∃ e, read_force written_columns "H 0 0 0 1 2 3\nO 1 1\n".toList { num_atom := 2 } =
      .error e) ∧
    (example_two_atoms_frame.atom_symbol.length = ({ num_atom := 2 } : Structure).num_atom.toNat ∧
      example_two_atoms_frame.x.length = ({ num_atom := 2 } : Structure).num_atom.toNat) ∧
    (((get_tokens_stream (skip_lines 1 example_two_atoms)).1.length : Int) =
        written_columns.num_columns ∧
      token_at (get_tokens_stream (skip_lines 1 example_two_atoms)).1
          written_columns.species_offset =
        .ok (example_two_atoms_frame.atom_symbol.getD 1 []) ∧
      triple_at (get_tokens_stream (skip_lines 1 example_two_atoms)).1
          written_columns.pos_offset =
        .ok (example_two_atoms_frame.x.getD 1 0, example_two_atoms_frame.y.getD 1 0,
          example_two_atoms_frame.z.getD 1 0) ∧
      (4 < written_columns.num_columns →
        triple_at (get_tokens_stream (skip_lines 1 example_two_atoms)).1
            written_columns.force_offset =
          .ok (example_two_atoms_frame.fx.getD 1 0, example_two_atoms_frame.fy.getD 1 0,
            example_two_atoms_frame.fz.getD 1 0)) ∧
      (¬ 4 < written_columns.num_columns →
        example_two_atoms_frame.fx.getD 1 0 = 0 ∧ example_two_atoms_frame.fy.getD 1 0 = 0 ∧
          example_two_atoms_frame.fz.getD 1 0 = 0)) ∧
    (∃ s1 rest, read_force written_columns example_two_atoms { num_atom := 2 } =
      .ok (s1, rest)) :=
  ⟨(read_force_decodes written_columns "H 0 0 0 1 2 3\nO 1 1\n".toList { num_atom := 2 }).1 1
      (by decide) (by decide!),
    ⟨((read_force_decodes written_columns example_two_atoms { num_atom := 2 }).2.1
        example_two_atoms_frame [] (by decide!)).1,
      ((read_force_decodes written_columns example_two_atoms { num_atom := 2 }).2.1
        example_two_atoms_frame [] (by decide!)).2.1⟩,
    ((read_force_decodes written_columns example_two_atoms { num_atom := 2 }).2.1
      example_two_atoms_frame [] (by decide!)).2.2.2.2.2.2.2.2 1 (by decide),
    (read_force_decodes written_columns example_two_atoms { num_atom := 2 }).2.2
      (fun k hk => by
        have hk2 : k = 0 ∨ k = 1 := by
          have : k < 2 := hk
          omega
        rcases hk2 with rfl | rfl
        · exact ⟨by decide!, ⟨['H'], by decide!⟩, ⟨(0, 0, 0), by decide!⟩,
            fun _ => ⟨(1, 2, 3), by decide!⟩⟩
        · exact ⟨by decide!, ⟨['O'], by decide!⟩, ⟨(1, 1, 1), by decide!⟩,
            fun _ => ⟨(0, 0, -1), by decide!⟩⟩)⟩

/-! ## Lower-casing and the conversion of numbers -/

theorem toLower_eq_or_upper (c : Char) :
    c.toLower = c ∨
      c ∈ ['A', 'B', 'C', 'D', 'E', 'F', 'G', 'H', 'I', 'J', 'K', 'L', 'M', 'N', 'O', 'P',
        'Q', 'R', 'S', 'T', 'U', 'V', 'W', 'X', 'Y', 'Z'] := by
  by_cases h : 65 ≤ c.toNat ∧ c.toNat ≤ 90
  · right
    have hc : c = Char.ofNat c.toNat := (Char.ofNat_toNat c).symm
    obtain ⟨h1, h2⟩ := h
    generalize c.toNat = n at hc h1 h2
    subst hc
    interval_cases n <;> decide
  · left
    unfold Char.toLower
    simp only
    rw [if_neg h]

/-- What lower-casing leaves alone: whitespace, digits, signs, the point, the exponent
marker up to its case, and whether a character is plain. -/
theorem toLower_facts (c : Char) :
    is_space c.toLower = is_space c ∧ is_digit c.toLower = is_digit c ∧
      (is_digit c = true → c.toLower = c) ∧ (c.toLower == '-') = (c == '-') ∧
      (c.toLower == '+') = (c == '+') ∧ (c.toLower == '.') = (c == '.') ∧
      (c.toLower == 'e' || c.toLower == 'E') = (c == 'e' || c == 'E') ∧
      plain c.toLower = plain c ∧ (c.toLower == '=') = (c == '=') := by
  rcases toLower_eq_or_upper c with h | h
  · rw [h]
    exact ⟨rfl, rfl, fun _ => rfl, rfl, rfl, rfl, rfl, rfl, rfl⟩
  · simp only [List.mem_cons, List.mem_singleton, List.not_mem_nil, or_false] at h
    rcases h with rfl | rfl | rfl | rfl | rfl | rfl | rfl | rfl | rfl | rfl | rfl | rfl | rfl |
      rfl | rfl | rfl | rfl | rfl | rfl | rfl | rfl | rfl | rfl | rfl | rfl | rfl <;> decide

theorem dropWhile_to_lower (p : Char → Bool) (hp : ∀ c, p c.toLower = p c) (l : List Char) :
    (to_lower l).dropWhile p = to_lower (l.dropWhile p) := by
  induction l with
  | nil => rfl
  | cons c l ih =>
    rw [to_lower_cons, List.dropWhile_cons, List.dropWhile_cons, hp c]
    split
    · exact ih
    · rfl

theorem takeWhile_to_lower (p : Char → Bool) (hp : ∀ c, p c.toLower = p c) (l : List Char) :
    (to_lower l).takeWhile p = to_lower (l.takeWhile p) := by
  induction l with
  | nil => rfl
  | cons c l ih =>
    rw [to_lower_cons, List.takeWhile_cons, List.takeWhile_cons, hp c]
    split
    · rw [ih]
      rfl
    · rfl

theorem takeWhile_digit_to_lower (l : List Char) :
    (to_lower l).takeWhile is_digit = l.takeWhile is_digit := by
  rw [takeWhile_to_lower is_digit (fun c => (toLower_facts c).2.1)]
  have h : ∀ c ∈ l.takeWhile is_digit, is_digit c = true := fun c hc =>
    List.mem_takeWhile_imp hc
  generalize l.takeWhile is_digit = d at h
  induction d with
  | nil => rfl
  | cons c d ih =>
    rw [to_lower_cons, (toLower_facts c).2.2.1 (h c (List.mem_cons_self _ _)),
      ih (fun x hx => h x (List.mem_cons_of_mem _ hx))]

theorem head_minus_to_lower (l : List Char) :
    ((to_lower l).head? == some '-') = (l.head? == some '-') := by
  cases l with
  | nil => rfl
  | cons c l =>
    have := (toLower_facts c).2.2.2.1
    simpa [to_lower_cons] using this

theorem head_plus_to_lower (l : List Char) :
    ((to_lower l).head? == some '+') = (l.head? == some '+') := by
  cases l with
  | nil => rfl
  | cons c l =>
    have := (toLower_facts c).2.2.2.2.1
    simpa [to_lower_cons] using this

theorem head_point_to_lower (l : List Char) :
    ((to_lower l).head? == some '.') = (l.head? == some '.') := by
  cases l with
  | nil => rfl
  | cons c l =>
    have := (toLower_facts c).2.2.2.2.2.1
    simpa [to_lower_cons] using this

theorem tail_to_lower (l : List Char) : (to_lower l).tail = to_lower l.tail := by
  cases l <;> rfl

theorem ite_to_lower (c : Prop) [Decidable c] (a b : List Char) :
    (if c then to_lower a else to_lower b) = to_lower (if c then a else b) := by
  split <;> rfl

theorem read_exponent_to_lower (l : List Char) :
    read_exponent (to_lower l) = read_exponent l := by
  cases l with
  | nil => rfl
  | cons c t =>
    rw [to_lower_cons]
    simp only [read_exponent]
    rw [(toLower_facts c).2.2.2.2.2.2.1, head_minus_to_lower, head_plus_to_lower,
      tail_to_lower, ite_to_lower, takeWhile_digit_to_lower]

/-- More of what lower-casing leaves alone: the hexadecimal digits and their values, the
markers `x` and `p` up to their case, and lower-case letters. -/
theorem toLower_hex_facts (c : Char) :
    is_hex_digit c.toLower = is_hex_digit c ∧ hex_digit_value c.toLower = hex_digit_value c ∧
      (c.toLower == 'x' || c.toLower == 'X') = (c == 'x' || c == 'X') ∧
      (c.toLower == 'p' || c.toLower == 'P') = (c == 'p' || c == 'P') ∧
      (c.toLower == '0') = (c == '0') ∧ c.toLower.toLower = c.toLower := by
  rcases toLower_eq_or_upper c with h | h
  · simp only [h, and_self]
  · simp only [List.mem_cons, List.mem_singleton, List.not_mem_nil, or_false] at h
    rcases h with rfl | rfl | rfl | rfl | rfl | rfl | rfl | rfl | rfl | rfl | rfl | rfl | rfl |
      rfl | rfl | rfl | rfl | rfl | rfl | rfl | rfl | rfl | rfl | rfl | rfl | rfl <;> decide

theorem head_char_to_lower (d : Char) (hd : ∀ c : Char, (c.toLower == d) = (c == d))
    (l : List Char) : ((to_lower l).head? == some d) = (l.head? == some d) := by
  cases l with
  | nil => rfl
  | cons c l =>
    have := hd c
    simpa [to_lower_cons] using this

theorem take_to_lower (n : Nat) (l : List Char) : (to_lower l).take n = to_lower (l.take n) := by
  unfold to_lower
  rw [List.map_take]

theorem drop_to_lower (n : Nat) (l : List Char) : (to_lower l).drop n = to_lower (l.drop n) := by
  unfold to_lower
  rw [List.map_drop]

theorem map_toLower_to_lower (l : List Char) :
    (to_lower l).map Char.toLower = l.map Char.toLower := by
  unfold to_lower
  rw [List.map_map]
  apply List.map_congr_left
  intro c _
  exact (toLower_hex_facts c).2.2.2.2.2

theorem hex_digits_value_to_lower (l : List Char) :
    hex_digits_value (to_lower l) = hex_digits_value l := by
  unfold hex_digits_value to_lower
  rw [List.foldl_map]
  congr 1
  funext acc c
  rw [(toLower_hex_facts c).2.1]

theorem length_to_lower (l : List Char) : (to_lower l).length = l.length := by
  unfold to_lower
  rw [List.length_map]

theorem read_binary_exponent_to_lower (l : List Char) :
    read_binary_exponent (to_lower l) = read_binary_exponent l := by
  cases l with
  | nil => rfl
  | cons c t =>
    rw [to_lower_cons]
    simp only [read_binary_exponent]
    rw [(toLower_hex_facts c).2.2.2.1, head_minus_to_lower, head_plus_to_lower,
      tail_to_lower, ite_to_lower, takeWhile_digit_to_lower]

theorem decimal_literal_to_lower (s : List Char) :
    decimal_literal (to_lower s) = decimal_literal s := by
  simp only [decimal_literal]
  simp only [takeWhile_digit_to_lower,
    dropWhile_to_lower is_digit (fun c => (toLower_facts c).2.1), head_point_to_lower,
    tail_to_lower, ite_to_lower, read_exponent_to_lower]

theorem ite_to_lower_nil (c : Prop) [Decidable c] (a : List Char) :
    (if c then to_lower a else []) = to_lower (if c then a else []) := by
  split <;> rfl

theorem to_lower_eq_nil (l : List Char) : to_lower l = [] ↔ l = [] := by
  unfold to_lower
  exact List.map_eq_nil_iff

theorem hex_value_to_lower (ip fp : List Char) (e : Int) :
    (if to_lower ip = [] ∧ to_lower fp = [] then none
      else some (scale2 ((hex_digits_value (to_lower ip ++ to_lower fp) : ℚ) /
        ((16 ^ (to_lower fp).length : Nat) : ℚ)) e)) =
    (if ip = [] ∧ fp = [] then none
      else some (scale2 ((hex_digits_value (ip ++ fp) : ℚ) /
        ((16 ^ fp.length : Nat) : ℚ)) e)) := by
  rw [← to_lower_append, hex_digits_value_to_lower, length_to_lower]
  simp only [to_lower_eq_nil]

theorem hex_literal_to_lower (s : List Char) :
    hex_literal (to_lower s) = hex_literal s := by
  simp only [hex_literal]
  simp only [takeWhile_to_lower is_hex_digit (fun c => (toLower_hex_facts c).1),
    dropWhile_to_lower is_hex_digit (fun c => (toLower_hex_facts c).1), head_point_to_lower,
    tail_to_lower, ite_to_lower, read_binary_exponent_to_lower, ite_to_lower_nil]
  exact hex_value_to_lower _ _ _

theorem has_hex_marker_to_lower (s : List Char) :
    has_hex_marker (to_lower s) = has_hex_marker s := by
  unfold has_hex_marker
  rw [head_char_to_lower '0' (fun c => (toLower_hex_facts c).2.2.2.2.1), tail_to_lower]
  congr 1
  cases s.tail with
  | nil => rfl
  | cons c l =>
    have := (toLower_hex_facts c).2.2.1
    simpa [to_lower_cons] using this

theorem literal_to_lower (s : List Char) : literal (to_lower s) = literal s := by
  unfold literal
  rw [has_hex_marker_to_lower, drop_to_lower, hex_literal_to_lower, decimal_literal_to_lower]

/-- Lower-casing a token does not change what `get_double_from_token` reads from it. -/
theorem get_double_to_lower (t : List Char) :
    get_double_from_token (to_lower t) = get_double_from_token t := by
  simp only [get_double_from_token]
  rw [dropWhile_to_lower is_space (fun c => (toLower_facts c).1)]
  simp only [head_minus_to_lower, head_plus_to_lower, tail_to_lower, ite_to_lower,
    take_to_lower, map_toLower_to_lower, literal_to_lower]

theorem get_rational_to_lower (t : List Char) :
    get_rational_from_token (to_lower t) = get_rational_from_token t := by
  unfold get_rational_from_token
  rw [get_double_to_lower]

/-! ## Normalisation of a header line with a lattice item -/

theorem getLastD_of_all (P : Char → Prop) (l : List Char) (d : Char)
    (hl : ∀ c ∈ l, P c) (hd : P d) : P (l.getLastD d) := by
  induction l generalizing d with
  | nil => exact hd
  | cons c l ih =>
    rw [List.getLastD_cons]
    exact ih c (fun x hx => hl x (List.mem_cons_of_mem _ hx)) (hl c (List.mem_cons_self _ _))

theorem word_getLastD_plain (w : List Char) (d : Char) (hw : is_word w = true) :
    plain (w.getLastD d) = true := by
  have h : w ≠ [] ∧ w.all plain = true := by simpa [is_word] using hw
  cases w with
  | nil => exact absurd rfl h.1
  | cons c w =>
    rw [List.getLastD_cons]
    have hall := List.all_eq_true.mp h.2
    exact getLastD_of_all (fun x => plain x = true) w c
      (fun x hx => hall x (List.mem_cons_of_mem _ hx)) (hall c (List.mem_cons_self _ _))

theorem strip_join_words_plain (tF : Char → Char → Bool) (tgt : Char)
    (htF : ∀ p c, plain c = true → tF p c = false) (htgt : plain tgt = false)
    (rest : List (List Char × List Char)) (tail : List Char) (prev : Char)
    (hprev : plain prev = true)
    (hrest : ∀ p ∈ rest, is_sep p.1 = true ∧ is_word p.2 = true) :
    ∃ prev2, plain prev2 = true ∧
      strip tF tgt false prev (join_words rest ++ tail) =
        join_words rest ++ strip tF tgt false prev2 tail := by
  induction rest generalizing prev with
  | nil => exact ⟨prev, hprev, rfl⟩
  | cons p rest ih =>
    have hp := hrest p (List.mem_cons_self _ _)
    have hsep : all_blank p.1 = true := by
      have : p.1 ≠ [] ∧ p.1.all is_blank = true := by simpa [is_sep] using hp.1
      exact this.2
    obtain ⟨prev2, hplain, h2⟩ := ih ((p.2).getLastD ((p.1).getLastD prev))
      (word_getLastD_plain _ _ hp.2) (fun x hx => hrest x (List.mem_cons_of_mem _ hx))
    refine ⟨prev2, hplain, ?_⟩
    simp only [join_words, List.append_assoc]
    rw [strip_blank_append _ _ _ _ _ _ hsep, next_is_word_append _ htgt _ _ hp.2,
      strip_word_append _ _ htF _ _ _ _ hp.2, h2]
    simp

/-- The first pass on a lattice item followed by `tail`. -/
theorem strip1_item (key n0 : List Char) (ns : List (List Char × List Char))
    (b1 b2 b3 b4 tail : List Char) (left : Bool) (prev : Char)
    (hkey : is_word key = true) (hn0 : is_word n0 = true)
    (hns : ∀ p ∈ ns, is_sep p.1 = true ∧ is_word p.2 = true)
    (hb1 : all_blank b1 = true) (hb2 : all_blank b2 = true) (hb3 : all_blank b3 = true)
    (hb4 : all_blank b4 = true) :
    strip trig1 '=' left prev
        (key ++ (b1 ++ ('=' :: (b2 ++ ('"' :: (b3 ++ (n0 ++ (join_words ns ++
          (b4 ++ ('"' :: tail))))))))))
      = key ++ ('=' :: '"' :: (b3 ++ (n0 ++ (join_words ns ++
          (b4 ++ ('"' :: strip trig1 '=' false '"' tail)))))) := by
  rw [strip_word_append _ _ trig1_plain _ _ _ _ hkey,
    strip_blank_append _ _ _ _ _ _ hb1, next_is_cons_nonblank _ _ _ (by decide),
    strip_cons_nonblank _ _ _ _ _ _ (by decide), strip_blank_append _ _ _ _ _ _ hb2,
    strip_cons_nonblank _ _ _ _ _ _ (by decide), strip_blank_append _ _ _ _ _ _ hb3,
    next_is_word_append _ (by decide) _ _ hn0, strip_word_append _ _ trig1_plain _ _ _ _ hn0]
  obtain ⟨prev2, h2⟩ := strip_join_words trig1 '=' trig1_plain (by decide) ns
    (b4 ++ ('"' :: tail)) (n0.getLastD (b3.getLastD '"')) hns
  have hn : next_is '=' ('"' :: tail) = false := by
    rw [next_is_cons_nonblank _ _ _ (by decide)]
    decide
  rw [h2, strip_blank_append _ _ _ _ _ _ hb4, hn,
    strip_cons_nonblank _ _ _ _ _ _ (by decide)]
  simp [trig1]

/-- The second pass on a lattice item, as the first pass leaves it, followed by `tail`. -/
theorem strip2_item (key n0 : List Char) (ns : List (List Char × List Char))
    (b3 b4 tail : List Char) (left : Bool) (prev : Char)
    (hkey : is_word key = true) (hn0 : is_word n0 = true)
    (hns : ∀ p ∈ ns, is_sep p.1 = true ∧ is_word p.2 = true)
    (hb3 : all_blank b3 = true) (hb4 : all_blank b4 = true) :
    ∃ prev2,
      strip trig2F '"' left prev
          (key ++ ('=' :: '"' :: (b3 ++ (n0 ++ (join_words ns ++ (b4 ++ ('"' :: tail)))))))
        = key ++ ('=' :: '"' :: (n0 ++ (join_words ns ++
            ('"' :: strip trig2F '"' false prev2 tail)))) := by
  rw [strip_word_append _ _ trig2F_plain _ _ _ _ hkey,
    strip_cons_nonblank _ _ _ _ _ _ (by decide), strip_cons_nonblank _ _ _ _ _ _ (by decide),
    strip_blank_append _ _ _ _ _ _ hb3]
  have ht : trig2F '=' '"' = true := by decide
  rw [ht, Bool.true_or, if_pos rfl, List.nil_append,
    strip_word_append _ _ trig2F_plain _ _ _ _ hn0]
  obtain ⟨prev2, hplain, h2⟩ := strip_join_words_plain trig2F '"' trig2F_plain (by decide) ns
    (b4 ++ ('"' :: tail)) (n0.getLastD (b3.getLastD '"')) (word_getLastD_plain _ _ hn0) hns
  have hn : next_is '"' ('"' :: tail) = true := by
    rw [next_is_cons_nonblank _ _ _ (by decide)]
    decide
  have hne : (b4.getLastD prev2 == '=') = false := by
    apply getLastD_of_all (fun x => (x == '=') = false) b4 prev2
    · intro c hc
      have hb : is_blank c = true := List.all_eq_true.mp hb4 c hc
      cases hceq : c == '=' with
      | false => rfl
      | true =>
        rw [beq_iff_eq] at hceq
        rw [hceq] at hb
        exact absurd hb (by decide)
    · simpa using ((plain_iff prev2).mp hplain).2.1
  have ht2 : trig2F (b4.getLastD prev2) '"' = false := by
    show ('"' == '"' && (b4.getLastD prev2 == '=')) = false
    rw [hne]
    rfl
  refine ⟨'"', ?_⟩
  rw [h2, strip_blank_append _ _ _ _ _ _ hb4, hn,
    strip_cons_nonblank _ _ _ _ _ _ (by decide), ht2]
  simp

/-- A pass over tokens that are each followed by one space, before a text that does not
begin with blanks followed by the target of the pass. -/
theorem strip_words_sp (tF : Char → Char → Bool) (tgt : Char)
    (htF : ∀ p c, plain c = true → tF p c = false)
    (hq : ∀ p, plain p = true → tF p '"' = false) (htgt : plain tgt = false)
    (ts : List (List Char)) (hts : ∀ t ∈ ts, good_token t) (rest : List Char)
    (hrest : next_is tgt rest = false) (left : Bool) (prev : Char) :
    ∃ left2 prev2, strip tF tgt left prev (words_sp ts ++ rest) =
      words_sp ts ++ strip tF tgt left2 prev2 rest := by
  induction ts generalizing left prev with
  | nil => exact ⟨left, prev, rfl⟩
  | cons t ts ih =>
    have ht := hts t (List.mem_cons_self _ _)
    have hnext : next_is tgt (words_sp ts ++ rest) = false := by
      cases ts with
      | nil => exact hrest
      | cons t2 ts2 =>
        obtain ⟨c, r, hc, hplain⟩ := good_token_head t2
          (hts t2 (List.mem_cons_of_mem _ (List.mem_cons_self _ _)))
        rw [hc]
        simp only [words_sp, List.cons_append]
        rw [next_is_cons_nonblank _ _ _ (not_blank_of_plain c hplain)]
        cases hceq : c == tgt with
        | false => rfl
        | true =>
          rw [beq_iff_eq] at hceq
          rw [hceq, htgt] at hplain
          cases hplain
    obtain ⟨left2, prev2, h2⟩ := ih (fun x hx => hts x (List.mem_cons_of_mem _ hx)) false ' '
    refine ⟨left2, prev2, ?_⟩
    have hshape : words_sp (t :: ts) ++ rest = t ++ (' ' :: (words_sp ts ++ rest)) := by
      simp [words_sp]
    rw [hshape, strip_no_space_append _ _ _ _ _ _ (good_token_no_space t ht),
      scan_state_good tF htF hq t _ ht, strip_cons_blank _ _ _ _ _ _ (by decide), hnext,
      Bool.false_or, if_neg (by simp), h2]
    simp [words_sp]

/-- `remove_spaces` on a header line with a lattice item. -/
theorem remove_spaces_lattice_header (pre : List (List Char)) (key b1 b2 b3 b4 n0 : List Char)
    (ns : List (List Char × List Char)) (post : List (List Char))
    (hpre : ∀ t ∈ pre, good_token t) (hpost : ∀ t ∈ post, good_token t)
    (hkey : is_word key = true) (hn0 : is_word n0 = true)
    (hns : ∀ p ∈ ns, is_sep p.1 = true ∧ is_word p.2 = true)
    (hb1 : all_blank b1 = true) (hb2 : all_blank b2 = true) (hb3 : all_blank b3 = true)
    (hb4 : all_blank b4 = true) :
    remove_spaces (lattice_header pre key b1 b2 b3 b4 n0 ns post) =
      .ok (lattice_header_normal pre key n0 ns post) := by
  have hq1 : ∀ p, plain p = true → trig1 p '"' = false := by
    intro p _
    simp [trig1]
  have hq2 : ∀ p, plain p = true → trig2F p '"' = false := by
    intro p hp
    have : p ≠ '=' := ((plain_iff p).mp hp).2.1
    simp [trig2F, this]
  have hpass1 : remove_spaces_step1 (lattice_header pre key b1 b2 b3 b4 n0 ns post) =
      words_sp pre ++ (key ++ ('=' :: '"' :: (b3 ++ (n0 ++ (join_words ns ++
        (b4 ++ ('"' :: sep_words post))))))) := by
    rw [remove_spaces_step1_eq, lattice_header]
    obtain ⟨left2, prev2, h2⟩ := strip_words_sp trig1 '=' trig1_plain hq1 (by decide) pre hpre
      (key ++ (b1 ++ ('=' :: (b2 ++ ('"' :: (b3 ++ (n0 ++ (join_words ns ++
        (b4 ++ ('"' :: sep_words post))))))))))
      (next_is_word_append _ (by decide) _ _ hkey) false 'a'
    rw [h2, strip1_item key n0 ns b1 b2 b3 b4 _ _ _ hkey hn0 hns hb1 hb2 hb3 hb4,
      strip_sep_words trig1 '=' trig1_plain hq1 (by decide) post hpost]
  have hhead : (words_sp pre ++ (key ++ ('=' :: '"' :: (b3 ++ (n0 ++ (join_words ns ++
      (b4 ++ ('"' :: sep_words post)))))))).head? ≠ some '"' := by
    cases pre with
    | nil => exact word_head_ne_quote key _ hkey
    | cons t ts =>
      obtain ⟨c, r, hc, hplain⟩ := good_token_head t (hpre t (List.mem_cons_self _ _))
      rw [hc]
      simp only [words_sp, List.cons_append, List.head?_cons, ne_eq, Option.some.injEq]
      intro hcq
      rw [hcq] at hplain
      exact absurd hplain (by decide)
  rw [remove_spaces_eq, hpass1, if_neg hhead]
  obtain ⟨left2, prev2, h2⟩ := strip_words_sp trig2F '"' trig2F_plain hq2 (by decide) pre hpre
    (key ++ ('=' :: '"' :: (b3 ++ (n0 ++ (join_words ns ++
      (b4 ++ ('"' :: sep_words post)))))))
    (next_is_word_append _ (by decide) _ _ hkey) false 'a'
  obtain ⟨prev3, h3⟩ := strip2_item key n0 ns b3 b4 (sep_words post) left2 prev2 hkey hn0 hns
    hb3 hb4
  rw [h2, h3, strip_sep_words trig2F '"' trig2F_plain hq2 (by decide) post hpost,
    lattice_header_normal]

/-! ## The tokens of a header line with a lattice item, and the lattice read from them -/

theorem get_tokens_loop_words_sp (ts : List (List Char))
    (hts : ∀ t ∈ ts, t ≠ [] ∧ no_space t = true) (rest : List Char) :
    get_tokens_loop [] (words_sp ts ++ rest) = ts ++ get_tokens_loop [] rest := by
  induction ts with
  | nil => rfl
  | cons t ts ih =>
    have ht := hts t (List.mem_cons_self _ _)
    have hshape : words_sp (t :: ts) ++ rest = t ++ (' ' :: (words_sp ts ++ rest)) := by
      simp [words_sp]
    rw [hshape, get_tokens_loop_no_space _ _ _ ht.2, List.nil_append,
      get_tokens_loop_cons_space _ _ _ (by decide), if_neg ht.1,
      ih (fun x hx => hts x (List.mem_cons_of_mem _ hx))]
    rfl

theorem get_tokens_loop_join_post (rest : List (List Char × List Char)) (cur : List Char)
    (hcur : cur ≠ []) (hrest : ∀ p ∈ rest, is_sep p.1 = true ∧ is_word p.2 = true)
    (post : List (List Char)) (hpost : ∀ t ∈ post, t ≠ [] ∧ no_space t = true) :
    get_tokens_loop cur (join_words rest ++ ('"' :: sep_words post)) =
      close_last (cur :: rest.map Prod.snd) ++ post := by
  induction rest generalizing cur with
  | nil =>
    simp only [join_words, List.nil_append, List.map_nil, close_last]
    rw [get_tokens_loop_cons_nonspace _ _ _ (by decide),
      get_tokens_loop_sep_words post hpost _ (by simp)]
    rfl
  | cons p rest ih =>
    have hp := hrest p (List.mem_cons_self _ _)
    have hw : p.2 ≠ [] ∧ p.2.all plain = true := by simpa [is_word] using hp.2
    simp only [join_words, List.append_assoc, List.map_cons, close_last]
    rw [get_tokens_loop_sep _ _ _ hp.1 hcur, get_tokens_loop_word _ _ _ hw.2, List.nil_append,
      ih p.2 hw.1 (fun x hx => hrest x (List.mem_cons_of_mem _ hx))]
    rfl

theorem no_space_of_all_plain (w : List Char) (h : w.all plain = true) :
    no_space w = true := by
  simp only [no_space, List.all_eq_true, Bool.not_eq_true'] at h ⊢
  intro c hc
  exact ((plain_iff c).mp (h c hc)).1

/-- The tokens of a header line with a lattice item: the tokens before it, the nine tokens of
the lattice (the first with the key and the opening quote, the last with the closing quote),
the tokens after it. -/
theorem header_tokens_lattice_header (pre : List (List Char))
    (key b1 b2 b3 b4 n0 : List Char) (ns : List (List Char × List Char))
    (post : List (List Char))
    (hpre : ∀ t ∈ pre, good_token t) (hpost : ∀ t ∈ post, good_token t)
    (hkey : is_word key = true) (hn0 : is_word n0 = true)
    (hns : ∀ p ∈ ns, is_sep p.1 = true ∧ is_word p.2 = true)
    (hb1 : all_blank b1 = true) (hb2 : all_blank b2 = true) (hb3 : all_blank b3 = true)
    (hb4 : all_blank b4 = true) :
    header_tokens (lattice_header pre key b1 b2 b3 b4 n0 ns post) =
      .ok (pre ++ (close_last ((key ++ ('=' :: '"' :: n0)) :: ns.map Prod.snd) ++ post)) := by
  have hk : key ≠ [] ∧ key.all plain = true := by simpa [is_word] using hkey
  have hn : n0 ≠ [] ∧ n0.all plain = true := by simpa [is_word] using hn0
  have hfirst : no_space (key ++ ('=' :: '"' :: n0)) = true := by
    rw [no_space_append, no_space_cons, no_space_cons]
    exact ⟨no_space_of_all_plain key hk.2, by decide, by decide,
      no_space_of_all_plain n0 hn.2⟩
  unfold header_tokens
  rw [remove_spaces_lattice_header pre key b1 b2 b3 b4 n0 ns post hpre hpost hkey hn0 hns
    hb1 hb2 hb3 hb4]
  simp only [lattice_header_normal, get_tokens]
  rw [get_tokens_loop_words_sp pre
    (fun t ht => ⟨good_token_ne_nil t (hpre t ht), good_token_no_space t (hpre t ht)⟩)]
  have hshape : key ++ ('=' :: '"' :: (n0 ++ (join_words ns ++ ('"' :: sep_words post)))) =
      (key ++ ('=' :: '"' :: n0)) ++ (join_words ns ++ ('"' :: sep_words post)) := by
    simp
  rw [hshape, get_tokens_loop_no_space _ _ _ hfirst, List.nil_append,
    get_tokens_loop_join_post ns _ (by simp [hk.1]) hns post
      (fun t ht => ⟨good_token_ne_nil t (hpost t ht), good_token_no_space t (hpost t ht)⟩)]

theorem close_last_map_to_lower (t : List Char) (l : List (List Char)) :
    (close_last (t :: l)).map to_lower = close_last (to_lower t :: l.map to_lower) := by
  induction l generalizing t with
  | nil => simp [close_last, to_lower]
  | cons t2 l ih =>
    simp only [close_last, List.map_cons]
    rw [ih t2]

theorem read_lattice_last (pre : List (List Char)) (tok : List Char)
    (post : List (List Char)) (s s4 : Structure) (has has4 : Bool)
    (htok : starts_with tok lattice_string = true) (hpost : skips lattice_string post)
    (h : read_lattice (pre ++ tok :: post) s has = .ok (s4, has4)) :
    read_components lattice_string.length (tok :: post) (List.range 9) = .ok s4.box := by
  induction pre generalizing s has with
  | nil =>
    rw [List.nil_append, read_lattice, if_pos htok] at h
    split at h
    · cases h
    · rename_i box hbox
      rw [read_lattice_none post _ _ hpost] at h
      simp only [Except.ok.injEq, Prod.mk.injEq] at h
      rw [← h.1]
      exact hbox
  | cons t pre ih =>
    rw [List.cons_append, read_lattice] at h
    split at h
    · split at h
      · cases h
      · exact ih _ _ h
    · exact ih _ _ h

theorem read_header_fields_box (tokens : List (List Char)) (s s6 : Structure)
    (h : read_header_fields tokens s = .ok s6) :
    ∃ s3 s4, read_lattice tokens s3 false = .ok (s4, true) ∧ s6.box = s4.box := by
  obtain ⟨s1, s2, s3, s4, s5, _, _, _, _, h4, h5, h6⟩ := read_header_fields_ok tokens s s6 h
  refine ⟨s3, s4, h4, ?_⟩
  obtain ⟨b5, v5, e5⟩ := read_virial_shape _ _ _ h5
  subst e5
  by_cases hb : b5 = true
  · subst hb
    simp only [Bool.not_true, Bool.false_eq_true, ↓reduceIte, Except.ok.injEq] at h6
    subst h6
    rfl
  · have hb' : b5 = false := by simpa using hb
    subst hb'
    simp only [Bool.not_false, ↓reduceIte] at h6
    obtain ⟨b6, v6, e6⟩ := read_stress_shape _ _ _ h6
    subst e6
    rfl

theorem eq_not_mem_to_lower_word (w : List Char) (hw : is_word w = true) :
    '=' ∉ to_lower w ∧ '=' ∉ to_lower w ++ ['"'] := by
  have h : w ≠ [] ∧ w.all plain = true := by simpa [is_word] using hw
  have h1 : '=' ∉ to_lower w := by
    intro hm
    obtain ⟨c, hc, hceq⟩ := List.mem_map.mp hm
    have hp := List.all_eq_true.mp h.2 c hc
    rw [← (toLower_facts c).2.2.2.2.2.2.2.1, hceq] at hp
    exact absurd hp (by decide)
  refine ⟨h1, ?_⟩
  intro hm
  rcases List.mem_append.mp hm with hm | hm
  · exact h1 hm
  · simp at hm

/-- The nine components read from nine lattice tokens. -/
theorem read_components_nine (t0 t1 t2 t3 t4 t5 t6 t7 t8 : List Char)
    (rest : List (List Char)) (v : List ℚ)
    (h0 : get_rational_from_token t0 = .ok (v.getD 0 0))
    (h1 : get_rational_from_token t1 = .ok (v.getD 1 0))
    (h2 : get_rational_from_token t2 = .ok (v.getD 2 0))
    (h3 : get_rational_from_token t3 = .ok (v.getD 3 0))
    (h4 : get_rational_from_token t4 = .ok (v.getD 4 0))
    (h5 : get_rational_from_token t5 = .ok (v.getD 5 0))
    (h6 : get_rational_from_token t6 = .ok (v.getD 6 0))
    (h7 : get_rational_from_token t7 = .ok (v.getD 7 0))
    (h8 : get_rational_from_token t8 = .ok (v.getD 8 0)) :
    read_components lattice_string.length
        ((lattice_string ++ '"' :: t0) :: t1 :: t2 :: t3 :: t4 :: t5 :: t6 :: t7 ::
          (t8 ++ ['"']) :: rest) (List.range 9) = .ok (nine v) := by
  rw [range_nine]
  simp only [nine, read_components, List.getElem?_cons_zero, List.getElem?_cons_succ,
    if_true, if_false, OfNat.ofNat_ne_zero, OfNat.zero_ne_ofNat, Nat.reduceEqDiff,
    one_ne_zero, substr_after_key, substr_whole, substr_drop_last, h0, h1, h2, h3, h4, h5,
    h6, h7, h8]

theorem is_word_of_to_lower_lattice (key : List Char)
    (hkey : to_lower key = ['l', 'a', 't', 't', 'i', 'c', 'e']) : is_word key = true := by
  have hall : (to_lower key).all plain = true := by
    rw [hkey]
    decide
  have hne : key ≠ [] := by
    intro h
    rw [h] at hkey
    cases hkey
  simp only [is_word, Bool.and_eq_true, Bool.not_eq_true', List.isEmpty_eq_false]
  refine ⟨hne, ?_⟩
  simp only [to_lower, List.all_map, List.all_eq_true, Function.comp_apply] at hall
  rw [List.all_eq_true]
  intro c hc
  rw [← (toLower_facts c).2.2.2.2.2.2.2.1]
  exact hall c hc

/-- C21: for a header line that holds, between other normalised tokens, the lattice item
`key = " n0 n1 ... n8 "` (the key `lattice` in any letter case, optional spaces or tabs
around `=` and just inside the quotes, the nine numbers separated by spaces or tabs) and no
later token that begins with `lattice=`, normalisation and splitting give the tokens before
the item, the nine lattice tokens (the first with the key and the opening quote, the last
with the closing quote) and the tokens after it; and a frame decoded from this header has
`box = [v0, ..., v8]`, the values of the nine numbers in their order. -/
theorem lattice_decoded (input input1 : List Char) (pre post : List (List Char))
    (key b1 b2 b3 b4 n0 : List Char) (ns : List (List Char × List Char)) (vs : List ℚ)
    (s s1 : Structure) (rest : List Char)
    (hline : getline input = (lattice_header pre key b1 b2 b3 b4 n0 ns post, input1))
    (hpre : ∀ t ∈ pre, good_token t) (hpost : ∀ t ∈ post, good_token t)
    (hlast : skips lattice_string (post.map to_lower))
    (hkey : to_lower key = ['l', 'a', 't', 't', 'i', 'c', 'e'])
    (hb1 : all_blank b1 = true) (hb2 : all_blank b2 = true) (hb3 : all_blank b3 = true)
    (hb4 : all_blank b4 = true) (hn0 : is_word n0 = true)
    (hns : ∀ p ∈ ns, is_sep p.1 = true ∧ is_word p.2 = true) (hlen : ns.length = 8)
    (hvlen : vs.length = 9)
    (hvs : ∀ i < 9,
      get_double_from_token ((n0 :: ns.map Prod.snd).getD i []) = .ok (.finite (vs.getD i 0)))
    (hone : read_one_structure input s = .ok (s1, rest)) :
    get_tokens_without_unwanted_spaces input =
      .ok (pre ++ (close_last ((key ++ ('=' :: '"' :: n0)) :: ns.map Prod.snd) ++ post),
        input1) ∧
    s1.box = vs := by
  have hkeyw := is_word_of_to_lower_lattice key hkey
  have htok := header_tokens_lattice_header pre key b1 b2 b3 b4 n0 ns post hpre hpost hkeyw
    hn0 hns hb1 hb2 hb3 hb4
  have hget : get_tokens_without_unwanted_spaces input =
      .ok (pre ++ (close_last ((key ++ ('=' :: '"' :: n0)) :: ns.map Prod.snd) ++ post),
        input1) := by
    unfold get_tokens_without_unwanted_spaces
    rw [hline]
    simp only
    rw [htok]
  refine ⟨hget, ?_⟩
  obtain ⟨s6, c, hf, _, _, _, _, _, _, _, ebox, _⟩ :=
    read_one_structure_ok _ _ _ _ _ _ hget hone
  obtain ⟨s3, s4, h4, e64⟩ := read_header_fields_box _ _ _ hf
  have e1 : '='.toLower = '=' := by decide
  have e2 : '"'.toLower = '"' := by decide
  have htok0 : to_lower (key ++ ('=' :: '"' :: n0)) =
      lattice_string ++ '"' :: to_lower n0 := by
    rw [to_lower_append, hkey, to_lower_cons, to_lower_cons, e1, e2]
    rfl
  rcases ns with _ | ⟨p1, _ | ⟨p2, _ | ⟨p3, _ | ⟨p4, _ | ⟨p5, _ | ⟨p6, _ | ⟨p7, _ |
    ⟨p8, _ | ⟨p9, ns⟩⟩⟩⟩⟩⟩⟩⟩⟩
  all_goals try (simp only [List.length_cons, List.length_nil] at hlen; omega)
  have hw : ∀ p ∈ [p1, p2, p3, p4, p5, p6, p7, p8], is_word p.2 = true :=
    fun p hp => (hns p hp).2
  have g0 : get_rational_from_token (to_lower n0) = .ok (vs.getD 0 0) := by
    rw [get_rational_to_lower]
    exact get_rational_of_double _ _ (hvs 0 (by omega))
  have g1 : get_rational_from_token (to_lower p1.2) = .ok (vs.getD 1 0) := by
    rw [get_rational_to_lower]
    exact get_rational_of_double _ _ (hvs 1 (by omega))
  have g2 : get_rational_from_token (to_lower p2.2) = .ok (vs.getD 2 0) := by
    rw [get_rational_to_lower]
    exact get_rational_of_double _ _ (hvs 2 (by omega))
  have g3 : get_rational_from_token (to_lower p3.2) = .ok (vs.getD 3 0) := by
    rw [get_rational_to_lower]
    exact get_rational_of_double _ _ (hvs 3 (by omega))
  have g4 : get_rational_from_token (to_lower p4.2) = .ok (vs.getD 4 0) := by
    rw [get_rational_to_lower]
    exact get_rational_of_double _ _ (hvs 4 (by omega))
  have g5 : get_rational_from_token (to_lower p5.2) = .ok (vs.getD 5 0) := by
    rw [get_rational_to_lower]
    exact get_rational_of_double _ _ (hvs 5 (by omega))
  have g6 : get_rational_from_token (to_lower p6.2) = .ok (vs.getD 6 0) := by
    rw [get_rational_to_lower]
    exact get_rational_of_double _ _ (hvs 6 (by omega))
  have g7 : get_rational_from_token (to_lower p7.2) = .ok (vs.getD 7 0) := by
    rw [get_rational_to_lower]
    exact get_rational_of_double _ _ (hvs 7 (by omega))
  have g8 : get_rational_from_token (to_lower p8.2) = .ok (vs.getD 8 0) := by
    rw [get_rational_to_lower]
    exact get_rational_of_double _ _ (hvs 8 (by omega))
  have hshape : (pre ++ (close_last ((key ++ ('=' :: '"' :: n0)) ::
        [p1, p2, p3, p4, p5, p6, p7, p8].map Prod.snd) ++ post)).map to_lower =
      pre.map to_lower ++ (lattice_string ++ '"' :: to_lower n0) ::
        (to_lower p1.2 :: to_lower p2.2 :: to_lower p3.2 :: to_lower p4.2 :: to_lower p5.2 ::
          to_lower p6.2 :: to_lower p7.2 :: (to_lower p8.2 ++ ['"']) ::
          post.map to_lower) := by
    rw [List.map_append, List.map_append, close_last_map_to_lower, htok0]
    simp [close_last]
  rw [hshape] at h4
  have hskip : skips lattice_string
      (to_lower p1.2 :: to_lower p2.2 :: to_lower p3.2 :: to_lower p4.2 :: to_lower p5.2 ::
        to_lower p6.2 :: to_lower p7.2 :: (to_lower p8.2 ++ ['"']) :: post.map to_lower) := by
    have hK : '=' ∈ lattice_string := by decide
    refine skips_cons _ _ _ (starts_with_bare _ _
        (eq_not_mem_to_lower_word _ (hw p1 (by simp))).1 hK)
      (skips_cons _ _ _ (starts_with_bare _ _
        (eq_not_mem_to_lower_word _ (hw p2 (by simp))).1 hK)
      (skips_cons _ _ _ (starts_with_bare _ _
        (eq_not_mem_to_lower_word _ (hw p3 (by simp))).1 hK)
      (skips_cons _ _ _ (starts_with_bare _ _
        (eq_not_mem_to_lower_word _ (hw p4 (by simp))).1 hK)
      (skips_cons _ _ _ (starts_with_bare _ _
        (eq_not_mem_to_lower_word _ (hw p5 (by simp))).1 hK)
      (skips_cons _ _ _ (starts_with_bare _ _
        (eq_not_mem_to_lower_word _ (hw p6 (by simp))).1 hK)
      (skips_cons _ _ _ (starts_with_bare _ _
        (eq_not_mem_to_lower_word _ (hw p7 (by simp))).1 hK)
      (skips_cons _ _ _ (starts_with_bare _ _
        (eq_not_mem_to_lower_word _ (hw p8 (by simp))).2 hK) hlast)))))))
  have hcomp := read_lattice_last _ _ _ _ _ _ _ (starts_with_self_append _ _) hskip h4
  rw [read_components_nine _ _ _ _ _ _ _ _ _ _ vs g0 g1 g2 g3 g4 g5 g6 g7 g8] at hcomp
  simp only [Except.ok.injEq] at hcomp
  rw [ebox, e64, ← hcomp, nine_eq_self vs hvlen]

/-- Witness of C21: the header `energy=-1 LATTICE = " 10 0 0 0 10 0 0 0 1E1 "
Properties=species:S:1:pos:R:3:force:R:3`, with tabs among the blanks. -/
theorem lattice_decoded_witness :
    get_tokens_without_unwanted_spaces example_lattice_input =
      .ok (["energy=-1".toList] ++
        (close_last (("LATTICE".toList ++ ('=' :: '"' :: ['1', '0'])) ::
          example_lattice_numbers.map Prod.snd) ++
          ["Properties=species:S:1:pos:R:3:force:R:3".toList]), example_atom_line) ∧
    example_lattice_frame.box = [10, 0, 0, 0, 10, 0, 0, 0, 10] :=
  lattice_decoded example_lattice_input example_atom_line ["energy=-1".toList]
    ["Properties=species:S:1:pos:R:3:force:R:3".toList] "LATTICE".toList [' '] [' ', '\t']
    [' '] ['\t'] ['1', '0'] example_lattice_numbers [10, 0, 0, 0, 10, 0, 0, 0, 10]
    { num_atom := 1 } example_lattice_frame [] (by decide!)
    (fun t ht => by
      rw [List.mem_singleton.mp ht]
      exact ⟨"energy=".toList, "-1".toList, by decide,
        fun c hc => by
          have : c = 'e' := by simpa using hc.symm
          rw [this]
          decide,
        by decide, Or.inl (by decide)⟩)
    (fun t ht => by
      rw [List.mem_singleton.mp ht]
      exact ⟨"Properties=species:S:1:pos:R:3:force:R:".toList, "3".toList, by decide,
        fun c hc => by
          have : c = 'P' := by simpa using hc.symm
          rw [this]
          decide,
        by decide, Or.inl (by decide)⟩)
    (by unfold skips; decide!) (by decide) (by decide) (by decide) (by decide) (by decide)
    (by decide) (by decide) (by decide) (by decide) (by decide!) (by decide!)

/-! ## Header normalisation: a quoted value among other items -/

/-- C7, amended: for every header line that holds an item `key = " w1 w2 ... wk "` between
other items (the tokens `pre` before it and `post` after it, normalised and separated by
single spaces; blanks optional around `=` and just inside the quotes; the words free of
whitespace, `=` and double quotes and separated by blanks), `remove_spaces` strips the
blanks next to `=` and next to the quotes and leaves the words between the quotes and the
blanks between them as they are; whitespace splitting then gives the tokens before the item,
the `k` tokens `key="w1`, `w2`, ..., `wk"` of the item (one token only when `k = 1`), and
the tokens after it. -/
theorem quoted_value_tokens (pre post : List (List Char)) (key w1 : List Char)
    (rest : List (List Char × List Char)) (b1 b2 b3 b4 : List Char)
    (hpre : ∀ t ∈ pre, good_token t) (hpost : ∀ t ∈ post, good_token t)
    (hkey : is_word key = true) (hw1 : is_word w1 = true)
    (hrest : ∀ p ∈ rest, is_sep p.1 = true ∧ is_word p.2 = true)
    (hb1 : all_blank b1 = true) (hb2 : all_blank b2 = true) (hb3 : all_blank b3 = true)
    (hb4 : all_blank b4 = true) :
    remove_spaces
        (words_sp pre ++ (key ++ (b1 ++ ('=' :: (b2 ++ ('"' :: (b3 ++ (w1 ++
          (join_words rest ++ (b4 ++ ('"' :: sep_words post))))))))))) =
      .ok (words_sp pre ++ (key ++ ('=' :: '"' :: (w1 ++ (join_words rest ++
        ('"' :: sep_words post)))))) ∧
    header_tokens
        (words_sp pre ++ (key ++ (b1 ++ ('=' :: (b2 ++ ('"' :: (b3 ++ (w1 ++
          (join_words rest ++ (b4 ++ ('"' :: sep_words post))))))))))) =
      .ok (pre ++ (close_last ((key ++ ('=' :: '"' :: w1)) :: rest.map Prod.snd) ++ post)) :=
  ⟨remove_spaces_lattice_header pre key b1 b2 b3 b4 w1 rest post hpre hpost hkey hw1 hrest
      hb1 hb2 hb3 hb4,
    header_tokens_lattice_header pre key b1 b2 b3 b4 w1 rest post hpre hpost hkey hw1 hrest
      hb1 hb2 hb3 hb4⟩

/-- Witness of C7 (amended): the header `energy=-1 pbc = " T T  F " Properties=species:S:1`,
whose quoted value comes out as the three tokens `pbc="T`, `T`, `F"` between the tokens
before and after the item. -/
theorem quoted_value_tokens_witness :
    remove_spaces "energy=-1 pbc = \" T T  F \" Properties=species:S:1".toList =
      .ok "energy=-1 pbc=\"T T  F\" Properties=species:S:1".toList ∧
    header_tokens "energy=-1 pbc = \" T T  F \" Properties=species:S:1".toList =
      .ok ["energy=-1".toList, "pbc=\"T".toList, "T".toList, "F\"".toList,
        "Properties=species:S:1".toList] :=
  quoted_value_tokens ["energy=-1".toList] ["Properties=species:S:1".toList] "pbc".toList
    "T".toList [(" ".toList, "T".toList), ("  ".toList, "F".toList)] " ".toList " ".toList
    " ".toList " ".toList
    (fun t ht => by
      rw [List.mem_singleton.mp ht]
      exact ⟨"energy=".toList, "-1".toList, by decide,
        fun c hc => by
          have : c = 'e' := by simpa using hc.symm
          rw [this]
          decide,
        by decide, Or.inl (by decide)⟩)
    (fun t ht => by
      rw [List.mem_singleton.mp ht]
      exact ⟨"Properties=species:S:".toList, "1".toList, by decide,
        fun c hc => by
          have : c = 'P' := by simpa using hc.symm
          rw [this]
          decide,
        by decide, Or.inl (by decide)⟩)
    (by decide) (by decide) (by decide) (by decide) (by decide) (by decide) (by decide)

/-! ## Reading: which tokens the conversions reject -/

theorem digit_first_eq_false (s : List Char) :
    digit_first s = false ↔ s.takeWhile is_digit = [] := by
  cases s with
  | nil => simp [digit_first]
  | cons c r =>
    cases h : is_digit c <;> simp [digit_first, List.takeWhile, h]

theorem dropWhile_of_not_digit_first (s : List Char) (h : digit_first s = false) :
    s.dropWhile is_digit = s := by
  cases s with
  | nil => rfl
  | cons c r =>
    have hc : is_digit c = false := by simpa [digit_first] using h
    simp [List.dropWhile, hc]

/-- A text begins with a decimal literal exactly when it begins with a digit or with a point
followed by a digit. -/
theorem decimal_literal_eq_none (s : List Char) :
    decimal_literal s = none ↔
      digit_first s = false ∧ ¬ (s.head? = some '.' ∧ digit_first s.tail = true) := by
  cases hd : digit_first s with
  | true =>
    have hne : s.takeWhile is_digit ≠ [] := by
      intro h
      rw [(digit_first_eq_false s).mpr h] at hd
      cases hd
    simp [decimal_literal, hne]
  | false =>
    have h1 := (digit_first_eq_false s).mp hd
    have h2 := dropWhile_of_not_digit_first s hd
    simp only [decimal_literal, h1, h2, true_and, List.nil_append]
    by_cases hp : s.head? = some '.'
    · cases ht : digit_first s.tail with
      | true =>
        have hne : s.tail.takeWhile is_digit ≠ [] := by
          intro h
          rw [(digit_first_eq_false _).mpr h] at ht
          cases ht
        simp [hp, hne]
      | false =>
        simp [hp, (digit_first_eq_false _).mp ht]
    · simp [hp]

theorem digit_first_of_hex_marker (s : List Char) (h : has_hex_marker s = true) :
    digit_first s = true := by
  cases s with
  | nil => simp [has_hex_marker] at h
  | cons c r =>
    have hc : c = '0' := by
      simp only [has_hex_marker, List.head?_cons, Bool.and_eq_true, beq_iff_eq,
        Option.some.injEq] at h
      exact h.1
    subst hc
    rfl

theorem literal_eq_none (s : List Char) : literal s = none ↔ decimal_literal s = none := by
  unfold literal
  split
  · rename_i hx
    have hd := digit_first_of_hex_marker s hx
    have hne : decimal_literal s ≠ none := by
      intro h
      rw [((decimal_literal_eq_none s).mp h).1] at hd
      cases hd
    cases hex_literal (s.drop 2) with
    | none => rfl
    | some v => simp [hne]
  · rfl

/-- The conversion `get_double_from_token` in terms of the text after whitespace and sign. -/
theorem get_double_eq (t : List Char) :
    get_double_from_token t =
      if ((unsigned_part t).take 3).map Char.toLower == ['i', 'n', 'f'] then
        .ok (.infinite ((t.dropWhile is_space).head? == some '-'))
      else if ((unsigned_part t).take 3).map Char.toLower == ['n', 'a', 'n'] then
        .ok (.nan ((t.dropWhile is_space).head? == some '-'))
      else
        match literal (unsigned_part t) with
        | none => .error .bad_number
        | some v =>
          if range_error v then .error .bad_number
          else .ok (.finite (if ((t.dropWhile is_space).head? == some '-') = true then -v
            else v)) := rfl

/-- A text that spells `inf` or `nan` at its start begins with a letter, hence with no
literal. -/
theorem literal_of_letter_first (s : List Char) (x y z : Char)
    (hlow : ∀ c : Char, c.toLower = x → is_digit c = false ∧ c ≠ '.')
    (h : ((s.take 3).map Char.toLower == [x, y, z]) = true) : literal s = none := by
  rw [literal_eq_none, decimal_literal_eq_none]
  cases s with
  | nil => simp at h
  | cons c r =>
    have hc : c.toLower = x := by
      simp only [List.take_succ_cons, List.map_cons, beq_iff_eq, List.cons.injEq] at h
      exact h.1
    obtain ⟨h1, h2⟩ := hlow c hc
    refine ⟨by simpa [digit_first] using h1, ?_⟩
    rintro ⟨h3, _⟩
    simp only [List.head?_cons, Option.some.injEq] at h3
    exact h2 h3

theorem not_digit_of_toLower (c x : Char) (hx : is_digit x = false) (hx2 : x ≠ '.')
    (h : c.toLower = x) : is_digit c = false ∧ c ≠ '.' := by
  constructor
  · cases hd : is_digit c with
    | false => rfl
    | true =>
      rw [(toLower_facts c).2.2.1 hd] at h
      rw [h, hx] at hd
      cases hd
  · rintro rfl
    have : '.'.toLower = '.' := by decide
    rw [this] at h
    exact hx2 h.symm

theorem literal_of_inf (s : List Char)
    (h : ((s.take 3).map Char.toLower == ['i', 'n', 'f']) = true) : literal s = none :=
  literal_of_letter_first s 'i' 'n' 'f'
    (fun c hc => not_digit_of_toLower c 'i' (by decide) (by decide) hc) h

theorem literal_of_nan (s : List Char)
    (h : ((s.take 3).map Char.toLower == ['n', 'a', 'n']) = true) : literal s = none :=
  literal_of_letter_first s 'n' 'a' 'n'
    (fun c hc => not_digit_of_toLower c 'n' (by decide) (by decide) hc) h

/-- A token that `std::stod` rejects ends in the "Standard exception" exit. -/
theorem get_double_of_rejected (t : List Char) (h : rejected_double t) :
    get_double_from_token t = .error .bad_number := by
  rw [get_double_eq]
  rcases h with h | h
  · simp only [no_double, Bool.and_eq_true, Bool.not_eq_true', Bool.and_eq_false_imp,
      beq_iff_eq] at h
    obtain ⟨⟨⟨h1, h2⟩, h3⟩, h4⟩ := h
    have hl : literal (unsigned_part t) = none := by
      rw [literal_eq_none, decimal_literal_eq_none]
      refine ⟨h1, ?_⟩
      rintro ⟨h5, h6⟩
      rw [h2 h5] at h6
      cases h6
    rw [if_neg (by simpa using h3), if_neg (by simpa using h4), hl]
  · unfold double_out_of_range at h
    cases hl : literal (unsigned_part t) with
    | none =>
      rw [hl] at h
      cases h
    | some v =>
      rw [hl] at h
      simp only at h
      have h3 : ¬ (((unsigned_part t).take 3).map Char.toLower == ['i', 'n', 'f']) = true := by
        intro hc
        rw [literal_of_inf _ hc] at hl
        cases hl
      have h4 : ¬ (((unsigned_part t).take 3).map Char.toLower == ['n', 'a', 'n']) = true := by
        intro hc
        rw [literal_of_nan _ hc] at hl
        cases hl
      rw [if_neg h3, if_neg h4]
      simp only
      rw [if_pos h]

/-- A token on which `get_double_from_token` ends in an exit is one that `std::stod`
rejects. -/
theorem rejected_of_get_double_error (t : List Char) (e : Fatal)
    (h : get_double_from_token t = .error e) : rejected_double t := by
  rw [get_double_eq] at h
  split at h
  · cases h
  · rename_i h3
    split at h
    · cases h
    · rename_i h4
      split at h
      · rename_i hl
        left
        rw [literal_eq_none, decimal_literal_eq_none] at hl
        simp only [no_double, Bool.and_eq_true, Bool.not_eq_true', Bool.and_eq_false_imp,
          beq_iff_eq]
        refine ⟨⟨⟨hl.1, ?_⟩, by simpa using h3⟩, by simpa using h4⟩
        intro h5
        cases h6 : digit_first (unsigned_part t).tail with
        | false => rfl
        | true => exact absurd ⟨h5, h6⟩ hl.2
      · rename_i v hl
        split at h
        · rename_i hr
          right
          unfold double_out_of_range
          rw [hl]
          exact hr
        · cases h

theorem get_rational_of_rejected (t : List Char) (h : rejected_double t) :
    get_rational_from_token t = .error .bad_number := by
  unfold get_rational_from_token
  rw [get_double_of_rejected t h]

/-- The model stops with `Fatal.not_finite` at a member kept as a rational exactly when the
token spells `inf` or `nan`, in any letter case, after leading whitespace and an optional
sign: the tokens that `std::stod` converts to an infinity or a NaN. -/
theorem get_rational_not_finite (t : List Char) :
    get_rational_from_token t = .error .not_finite ↔
      ((unsigned_part t).take 3).map Char.toLower = ['i', 'n', 'f'] ∨
        ((unsigned_part t).take 3).map Char.toLower = ['n', 'a', 'n'] := by
  unfold get_rational_from_token
  rw [get_double_eq]
  by_cases h1 : ((unsigned_part t).take 3).map Char.toLower = ['i', 'n', 'f']
  · simp [h1]
  · by_cases h2 : ((unsigned_part t).take 3).map Char.toLower = ['n', 'a', 'n']
    · simp [h1, h2]
    · simp only [beq_iff_eq, h1, h2, if_false, or_self, iff_false]
      cases literal (unsigned_part t) with
      | none => simp
      | some v =>
        simp only
        by_cases hr : range_error v = true
        · simp [hr]
        · simp [hr]

/-- The conversion `get_int_from_token` in terms of the text after whitespace and sign. -/
theorem get_int_eq (t : List Char) :
    get_int_from_token t =
      if (unsigned_part t).takeWhile is_digit = [] then .error .bad_number
      else if (if ((t.dropWhile is_space).head? == some '-') = true
            then -(digits_value ((unsigned_part t).takeWhile is_digit) : Int)
            else (digits_value ((unsigned_part t).takeWhile is_digit) : Int)) < -2147483648 ∨
          2147483647 < (if ((t.dropWhile is_space).head? == some '-') = true
            then -(digits_value ((unsigned_part t).takeWhile is_digit) : Int)
            else (digits_value ((unsigned_part t).takeWhile is_digit) : Int))
        then .error .bad_number
      else .ok (if ((t.dropWhile is_space).head? == some '-') = true
            then -(digits_value ((unsigned_part t).takeWhile is_digit) : Int)
            else (digits_value ((unsigned_part t).takeWhile is_digit) : Int)) := rfl

/-- A token that `std::stoi` rejects ends in the "Standard exception" exit. -/
theorem get_int_of_rejected (t : List Char) (h : rejected_int t) :
    get_int_from_token t = .error .bad_number := by
  rw [get_int_eq]
  rcases h with h | h
  · simp only [no_int, Bool.not_eq_true'] at h
    rw [if_pos ((digit_first_eq_false _).mp h)]
  · simp only [int_out_of_range, Bool.and_eq_true] at h
    obtain ⟨h1, h2⟩ := h
    have hne : (unsigned_part t).takeWhile is_digit ≠ [] := by
      intro hc
      rw [(digit_first_eq_false _).mpr hc] at h1
      cases h1
    rw [if_neg hne]
    split at h2
    · rename_i hneg
      rw [if_pos hneg, if_pos]
      left
      have := of_decide_eq_true h2
      omega
    · rename_i hneg
      rw [if_neg hneg, if_pos]
      right
      have := of_decide_eq_true h2
      omega

/-- A token on which `get_int_from_token` ends in an exit is one that `std::stoi`
rejects. -/
theorem rejected_of_get_int_error (t : List Char) (e : Fatal)
    (h : get_int_from_token t = .error e) : rejected_int t := by
  rw [get_int_eq] at h
  by_cases hnil : (unsigned_part t).takeWhile is_digit = []
  · left
    simp only [no_int, Bool.not_eq_true']
    exact (digit_first_eq_false _).mpr hnil
  · have hd : digit_first (unsigned_part t) = true := by
      cases hd : digit_first (unsigned_part t) with
      | true => rfl
      | false => exact absurd ((digit_first_eq_false _).mp hd) hnil
    rw [if_neg hnil] at h
    right
    simp only [int_out_of_range, Bool.and_eq_true]
    refine ⟨hd, ?_⟩
    by_cases hneg : ((t.dropWhile is_space).head? == some '-') = true
    · rw [if_pos hneg]
      simp only [if_pos hneg] at h
      split at h
      · rename_i hr
        apply decide_eq_true
        omega
      · cases h
    · rw [if_neg hneg]
      simp only [if_neg hneg] at h
      split at h
      · rename_i hr
        apply decide_eq_true
        omega
      · cases h

/-! ## Reading: a number followed by characters that are no part of a number -/

/-- What a character that is no part of any number is not. -/
theorem no_number_char_facts (c : Char) (h : no_number_char c = true) :
    is_space c = false ∧ is_digit c = false ∧ is_hex_digit c = false ∧
      (c == '-') = false ∧ (c == '+') = false ∧ (c == '.') = false ∧
      (c == 'e' || c == 'E') = false ∧ (c == 'p' || c == 'P') = false ∧
      (c == 'x' || c == 'X') = false ∧ (c == '0') = false ∧
      c.toLower ≠ 'i' ∧ c.toLower ≠ 'n' := by
  have hx : ∀ d : Char, no_number_char d = false → c ≠ d := by
    rintro d hd rfl
    rw [h] at hd
    cases hd
  simp only [no_number_char, Bool.and_eq_true, Bool.not_eq_true', beq_eq_false_iff_ne,
    ne_eq] at h
  obtain ⟨⟨⟨⟨⟨h1, h2⟩, h3⟩, h4⟩, h5⟩, h6⟩ := h
  have h7 : c.toLower ≠ 'a' ∧ c.toLower ≠ 'b' ∧ c.toLower ≠ 'c' ∧ c.toLower ≠ 'd' ∧
      c.toLower ≠ 'e' ∧ c.toLower ≠ 'f' ∧ c.toLower ≠ 'i' ∧ c.toLower ≠ 'n' ∧
      c.toLower ≠ 'p' ∧ c.toLower ≠ 't' ∧ c.toLower ≠ 'x' ∧ c.toLower ≠ 'y' := by
    simpa using h6
  refine ⟨h1, h2, ?_, by simpa using h4, by simpa using h3, by simpa using h5, ?_, ?_, ?_, ?_,
    h7.2.2.2.2.2.2.1, h7.2.2.2.2.2.2.2.1⟩
  · simp only [is_hex_digit, h2, Bool.false_or]
    simp [h7.1, h7.2.1, h7.2.2.1, h7.2.2.2.1, h7.2.2.2.2.1, h7.2.2.2.2.2.1]
  · have a1 := hx 'e' (by decide)
    have a2 := hx 'E' (by decide)
    simp [a1, a2]
  · have a1 := hx 'p' (by decide)
    have a2 := hx 'P' (by decide)
    simp [a1, a2]
  · have a1 := hx 'x' (by decide)
    have a2 := hx 'X' (by decide)
    simp [a1, a2]
  · have a1 := hx '0' (by decide)
    simp [a1]

theorem takeWhile_append_stop (p : Char → Bool) (c : Char) (rest : List Char)
    (hp : p c = false) (y : List Char) :
    (y ++ c :: rest).takeWhile p = y.takeWhile p := by
  induction y with
  | nil => simp [List.takeWhile, hp]
  | cons a y ih =>
    rw [List.cons_append, List.takeWhile_cons, List.takeWhile_cons, ih]

theorem dropWhile_append_stop (p : Char → Bool) (c : Char) (rest : List Char)
    (hp : p c = false) (y : List Char) :
    (y ++ c :: rest).dropWhile p = y.dropWhile p ++ c :: rest := by
  induction y with
  | nil => simp [List.dropWhile, hp]
  | cons a y ih =>
    rw [List.cons_append, List.dropWhile_cons, List.dropWhile_cons, ih]
    split <;> rfl

theorem head_append_stop (d c : Char) (rest : List Char) (hd : (c == d) = false)
    (y : List Char) : ((y ++ c :: rest).head? == some d) = (y.head? == some d) := by
  cases y with
  | nil =>
    have : c ≠ d := by simpa using hd
    simp [this]
  | cons a y => rfl

/-- Dropping a sign in front of a text that is followed by a character that is no sign. -/
theorem sign_append_stop (c : Char) (rest : List Char) (hm : (c == '-') = false)
    (hp : (c == '+') = false) (y : List Char) :
    (if ((y ++ c :: rest).head? == some '-' || (y ++ c :: rest).head? == some '+') = true
      then (y ++ c :: rest).tail else y ++ c :: rest) =
    (if (y.head? == some '-' || y.head? == some '+') = true then y.tail else y) ++
      c :: rest := by
  rw [head_append_stop '-' c rest hm, head_append_stop '+' c rest hp]
  cases y with
  | nil => rfl
  | cons a y => split <;> rfl

/-- The part after whitespace and sign, of a token followed by a character that is no part
of a number. -/
theorem unsigned_part_append_stop (c : Char) (rest : List Char) (h : no_number_char c = true)
    (t : List Char) :
    unsigned_part (t ++ c :: rest) = unsigned_part t ++ c :: rest ∧
    ((((t ++ c :: rest).dropWhile is_space).head? == some '-') =
      ((t.dropWhile is_space).head? == some '-')) := by
  obtain ⟨h1, _, _, h4, h5, _⟩ := no_number_char_facts c h
  unfold unsigned_part
  rw [dropWhile_append_stop is_space c rest h1]
  exact ⟨sign_append_stop c rest h4 h5 _, head_append_stop '-' c rest h4 _⟩

/-- The exponent marker is followed by a sign and digits: a following character that is no
part of a number does not change the exponent that is read. -/
theorem exponent_digits_append_stop (c : Char) (rest : List Char)
    (h : no_number_char c = true) (y : List Char) :
    ((if ((y ++ c :: rest).head? == some '-' || (y ++ c :: rest).head? == some '+') = true
        then (y ++ c :: rest).tail else y ++ c :: rest).takeWhile is_digit) =
      (if (y.head? == some '-' || y.head? == some '+') = true then y.tail
        else y).takeWhile is_digit ∧
    (((y ++ c :: rest).head? == some '-') = (y.head? == some '-')) := by
  obtain ⟨_, h2, _, h4, h5, _⟩ := no_number_char_facts c h
  rw [sign_append_stop c rest h4 h5, takeWhile_append_stop is_digit c rest h2]
  exact ⟨rfl, head_append_stop '-' c rest h4 _⟩

theorem read_exponent_append_stop (c : Char) (rest : List Char)
    (h : no_number_char c = true) (y : List Char) :
    read_exponent (y ++ c :: rest) = read_exponent y := by
  cases y with
  | nil =>
    have he := (no_number_char_facts c h).2.2.2.2.2.2.1
    simp only [List.nil_append, read_exponent, he, Bool.false_eq_true, ↓reduceIte]
  | cons a y =>
    obtain ⟨e1, e2⟩ := exponent_digits_append_stop c rest h y
    simp only [List.cons_append, read_exponent]
    rw [e1, e2]

theorem read_binary_exponent_append_stop (c : Char) (rest : List Char)
    (h : no_number_char c = true) (y : List Char) :
    read_binary_exponent (y ++ c :: rest) = read_binary_exponent y := by
  cases y with
  | nil =>
    have he := (no_number_char_facts c h).2.2.2.2.2.2.2.1
    simp only [List.nil_append, read_binary_exponent, he, Bool.false_eq_true, ↓reduceIte]
  | cons a y =>
    obtain ⟨e1, e2⟩ := exponent_digits_append_stop c rest h y
    simp only [List.cons_append, read_binary_exponent]
    rw [e1, e2]

/-- The mantissa of a literal, for the digit test `p`: the digits before the point, the
digits after it, and the text that follows, of a text followed by a character that is no
digit and no point. -/
theorem mantissa_append_stop (p : Char → Bool) (c : Char) (rest : List Char)
    (hp : p c = false) (hpoint : (c == '.') = false) (y : List Char) :
    (y ++ c :: rest).takeWhile p = y.takeWhile p ∧
    (if (((y ++ c :: rest).dropWhile p).head? == some '.') = true
      then ((y ++ c :: rest).dropWhile p).tail.takeWhile p else []) =
      (if ((y.dropWhile p).head? == some '.') = true then (y.dropWhile p).tail.takeWhile p
        else []) ∧
    (if (((y ++ c :: rest).dropWhile p).head? == some '.') = true
      then ((y ++ c :: rest).dropWhile p).tail.dropWhile p else (y ++ c :: rest).dropWhile p) =
      (if ((y.dropWhile p).head? == some '.') = true then (y.dropWhile p).tail.dropWhile p
        else y.dropWhile p) ++ c :: rest := by
  refine ⟨takeWhile_append_stop p c rest hp y, ?_, ?_⟩
  · rw [dropWhile_append_stop p c rest hp, head_append_stop '.' c rest hpoint]
    cases y.dropWhile p with
    | nil => rfl
    | cons a z =>
      simp only [List.cons_append, List.tail_cons]
      rw [takeWhile_append_stop p c rest hp]
  · rw [dropWhile_append_stop p c rest hp, head_append_stop '.' c rest hpoint]
    cases y.dropWhile p with
    | nil => rfl
    | cons a z =>
      simp only [List.cons_append, List.tail_cons]
      rw [dropWhile_append_stop p c rest hp]
      split <;> rfl

theorem decimal_literal_append_stop (c : Char) (rest : List Char)
    (h : no_number_char c = true) (y : List Char) :
    decimal_literal (y ++ c :: rest) = decimal_literal y := by
  obtain ⟨_, h2, _, _, _, h6, _⟩ := no_number_char_facts c h
  obtain ⟨e1, e2, e3⟩ := mantissa_append_stop is_digit c rest h2 h6 y
  simp only [decimal_literal, e1, e2, e3, read_exponent_append_stop c rest h]

theorem hex_literal_append_stop (c : Char) (rest : List Char)
    (h : no_number_char c = true) (y : List Char) :
    hex_literal (y ++ c :: rest) = hex_literal y := by
  obtain ⟨_, _, h3, _, _, h6, _⟩ := no_number_char_facts c h
  obtain ⟨e1, e2, e3⟩ := mantissa_append_stop is_hex_digit c rest h3 h6 y
  simp only [hex_literal, e1, e2, e3, read_binary_exponent_append_stop c rest h]

theorem has_hex_marker_append_stop (c : Char) (rest : List Char)
    (h : no_number_char c = true) (y : List Char) :
    has_hex_marker (y ++ c :: rest) = has_hex_marker y := by
  obtain ⟨_, _, _, _, _, _, _, _, h9, h10, _⟩ := no_number_char_facts c h
  cases y with
  | nil =>
    have : c ≠ '0' := by simpa using h10
    simp [has_hex_marker, this]
  | cons a y =>
    cases y with
    | nil =>
      have h1 : c ≠ 'x' := by
        rintro rfl
        simp at h9
      have h2 : c ≠ 'X' := by
        rintro rfl
        simp at h9
      simp [has_hex_marker, h1, h2]
    | cons b y => rfl

theorem length_of_hex_marker (y : List Char) (h : has_hex_marker y = true) : 2 ≤ y.length := by
  match y, h with
  | [], h => simp [has_hex_marker] at h
  | [a], h => simp [has_hex_marker] at h
  | a :: b :: y, _ => simp

theorem literal_append_stop (c : Char) (rest : List Char) (h : no_number_char c = true)
    (y : List Char) : literal (y ++ c :: rest) = literal y := by
  unfold literal
  rw [has_hex_marker_append_stop c rest h, decimal_literal_append_stop c rest h]
  split
  · rename_i hx
    rw [List.drop_append_of_le_length (length_of_hex_marker y hx),
      hex_literal_append_stop c rest h]
  · rfl

/-- Whether a text spells `word` at its start, when it is followed by a character whose
lower-case form does not occur in `word`. -/
theorem spells_append_stop (c : Char) (rest : List Char) (word : List Char)
    (hw : c.toLower ∉ word) (y : List Char) :
    (((y ++ c :: rest).take word.length).map Char.toLower == word) =
      ((y.take word.length).map Char.toLower == word) := by
  induction y generalizing word with
  | nil =>
    cases word with
    | nil => rfl
    | cons x w =>
      have hx : c.toLower ≠ x := fun e => hw (e ▸ List.mem_cons_self _ _)
      simp [hx]
  | cons a y ih =>
    cases word with
    | nil => rfl
    | cons x w =>
      have := ih w (fun e => hw (List.mem_cons_of_mem _ e))
      simp only [List.cons_append, List.length_cons, List.take_succ_cons, List.map_cons,
        List.cons_beq_cons] at this ⊢
      rw [this]

/-- A token followed by a character that is no part of
any number is converted like the token itself. -/
theorem get_double_append_stop (t : List Char) (c : Char) (rest : List Char)
    (h : no_number_char c = true) :
    get_double_from_token (t ++ c :: rest) = get_double_from_token t := by
  obtain ⟨e1, e2⟩ := unsigned_part_append_stop c rest h t
  have hi := (no_number_char_facts c h).2.2.2.2.2.2.2.2.2.2.1
  have hn := (no_number_char_facts c h).2.2.2.2.2.2.2.2.2.2.2
  have hf : c.toLower ≠ 'f' := by
    have h6 : (List.contains ['a', 'b', 'c', 'd', 'e', 'f', 'i', 'n', 'p', 't', 'x', 'y']
        c.toLower) = false := by
      simp only [no_number_char, Bool.and_eq_true, Bool.not_eq_true'] at h
      exact h.2
    intro e
    rw [e] at h6
    revert h6
    decide
  have ha : c.toLower ≠ 'a' := by
    have h6 : (List.contains ['a', 'b', 'c', 'd', 'e', 'f', 'i', 'n', 'p', 't', 'x', 'y']
        c.toLower) = false := by
      simp only [no_number_char, Bool.and_eq_true, Bool.not_eq_true'] at h
      exact h.2
    intro e
    rw [e] at h6
    revert h6
    decide
  have s1 := spells_append_stop c rest ['i', 'n', 'f'] (by simp [hi, hn, hf]) (unsigned_part t)
  have s2 := spells_append_stop c rest ['n', 'a', 'n'] (by simp [hn, ha]) (unsigned_part t)
  simp only [List.length_cons, List.length_nil, Nat.zero_add, Nat.reduceAdd] at s1 s2
  rw [get_double_eq, get_double_eq, e1, e2, s1, s2, literal_append_stop c rest h]

/-- For integers: a token followed by a character that is no part of any
number is converted like the token itself. -/
theorem get_int_append_stop (t : List Char) (c : Char) (rest : List Char)
    (h : no_number_char c = true) :
    get_int_from_token (t ++ c :: rest) = get_int_from_token t := by
  obtain ⟨e1, e2⟩ := unsigned_part_append_stop c rest h t
  rw [get_int_eq, get_int_eq, e1, e2,
    takeWhile_append_stop is_digit c rest (no_number_char_facts c h).2.1]

/-! ## Reading: numeric tokens that the conversions reject are fatal -/

theorem read_energy_weight_bad (tokens : List (List Char)) (s : Structure) (t : List Char)
    (ht : t ∈ tokens) (hk : starts_with t energy_weight_string = true)
    (hv : rejected_double (t.drop energy_weight_string.length)) :
    ∃ e, read_energy_weight tokens s = .error e := by
  have he0 := get_rational_of_rejected _ hv
  induction tokens generalizing s with
  | nil => cases ht
  | cons a l ih =>
    unfold read_energy_weight
    rcases List.mem_cons.mp ht with h1 | h1
    · subst h1
      rw [if_pos hk, he0]
      exact ⟨_, rfl⟩
    · split
      · split
        · exact ⟨_, rfl⟩
        · exact ih _ h1
      · exact ih _ h1

theorem read_energy_bad (tokens : List (List Char)) (s : Structure) (has : Bool)
    (t : List Char) (ht : t ∈ tokens) (hk : starts_with t energy_string = true)
    (hv : rejected_double (t.drop energy_string.length)) :
    ∃ e, read_energy tokens s has = .error e := by
  have he0 := get_rational_of_rejected _ hv
  induction tokens generalizing s has with
  | nil => cases ht
  | cons a l ih =>
    unfold read_energy
    rcases List.mem_cons.mp ht with h1 | h1
    · subst h1
      rw [if_pos hk, he0]
      exact ⟨_, rfl⟩
    · split
      · split
        · exact ⟨_, rfl⟩
        · exact ih _ _ h1
      · exact ih _ _ h1

theorem read_weight_bad (tokens : List (List Char)) (s : Structure) (t : List Char)
    (ht : t ∈ tokens) (hk : starts_with t weight_string = true)
    (hv : rejected_double (t.drop weight_string.length)) :
    ∃ e, read_weight tokens s = .error e := by
  have he0 := get_double_of_rejected _ hv
  induction tokens generalizing s with
  | nil => cases ht
  | cons a l ih =>
    unfold read_weight
    rcases List.mem_cons.mp ht with h1 | h1
    · subst h1
      rw [if_pos hk, he0]
      exact ⟨_, rfl⟩
    · split
      · split
        · exact ⟨_, rfl⟩
        · split
          · exact ⟨_, rfl⟩
          · exact ih _ h1
      · exact ih _ h1

theorem read_components_bad (key_len : Nat) (tokens : List (List Char)) (ms : List Nat)
    (m : Nat) (hm : m ∈ ms) (hbad : rejected_component key_len tokens m) :
    ∃ e, read_components key_len tokens ms = .error e := by
  obtain ⟨t, u, ht, hu, hrej⟩ := hbad
  have he0 := get_rational_of_rejected _ hrej
  induction ms with
  | nil => cases hm
  | cons a ms ih =>
    unfold read_components
    rcases List.mem_cons.mp hm with h1 | h1
    · subst h1
      rw [ht]
      simp only
      unfold component_text at hu
      rw [hu]
      simp only
      rw [he0]
      exact ⟨_, rfl⟩
    · split
      · exact ⟨_, rfl⟩
      · split
        · exact ⟨_, rfl⟩
        · split
          · exact ⟨_, rfl⟩
          · obtain ⟨e, he⟩ := ih h1
            rw [he]
            exact ⟨_, rfl⟩

theorem read_lattice_bad (pre : List (List Char)) (tok : List Char) (post : List (List Char))
    (s : Structure) (has : Bool) (hk : starts_with tok lattice_string = true)
    (hc : ∃ e, read_components lattice_string.length (tok :: post) (List.range 9) = .error e) :
    ∃ e, read_lattice (pre ++ tok :: post) s has = .error e := by
  obtain ⟨e0, he0⟩ := hc
  induction pre generalizing s has with
  | nil =>
    rw [List.nil_append, read_lattice, if_pos hk, he0]
    exact ⟨_, rfl⟩
  | cons a l ih =>
    rw [List.cons_append, read_lattice]
    split
    · split
      · exact ⟨_, rfl⟩
      · exact ih _ _
    · exact ih _ _

theorem read_virial_bad (pre : List (List Char)) (tok : List Char) (post : List (List Char))
    (s : Structure) (hk : starts_with tok virial_string = true)
    (hc : ∃ e, read_components virial_string.length (tok :: post) (List.range 9) = .error e) :
    ∃ e, read_virial (pre ++ tok :: post) s = .error e := by
  obtain ⟨e0, he0⟩ := hc
  induction pre generalizing s with
  | nil =>
    rw [List.nil_append, read_virial, if_pos hk, he0]
    exact ⟨_, rfl⟩
  | cons a l ih =>
    rw [List.cons_append, read_virial]
    split
    · split
      · exact ⟨_, rfl⟩
      · exact ih _
    · exact ih _

theorem read_stress_bad (pre : List (List Char)) (tok : List Char) (post : List (List Char))
    (s : Structure) (hk : starts_with tok stress_string = true)
    (hc : ∃ e, read_components stress_string.length (tok :: post) (List.range 9) = .error e) :
    ∃ e, read_stress (pre ++ tok :: post) s = .error e := by
  obtain ⟨e0, he0⟩ := hc
  induction pre generalizing s with
  | nil =>
    rw [List.nil_append, read_stress, if_pos hk, he0]
    exact ⟨_, rfl⟩
  | cons a l ih =>
    rw [List.cons_append, read_stress]
    split
    · split
      · exact ⟨_, rfl⟩
      · exact ih _
    · exact ih _

theorem add_offsets_bad (sub_tokens : List (List Char)) (p : Int × Int × Int)
    (ks : List Nat) (c : Columns) (k : Nat) (hk : k ∈ ks)
    (hbad : rejected_int (sub_tokens.getD (k * 3 + 2) [])) :
    ∃ e, add_offsets sub_tokens p ks c = .error e := by
  have he0 := get_int_of_rejected _ hbad
  induction ks generalizing c with
  | nil => cases hk
  | cons a ks ih =>
    unfold add_offsets
    rcases List.mem_cons.mp hk with h1 | h1
    · subst h1
      rw [he0]
      exact ⟨_, rfl⟩
    · split
      · exact ⟨_, rfl⟩
      · exact ih _ h1

theorem read_properties_bad (tokens : List (List Char)) (c : Columns) (tok : List Char)
    (k : Nat) (hmem : tok ∈ tokens) (hkey : starts_with tok properties_string = true)
    (hk : k < (sub_tokens_of tok).length / 3)
    (hbad : rejected_int ((sub_tokens_of tok).getD (k * 3 + 2) [])) :
    ∃ e, read_properties tokens c = .error e := by
  induction tokens generalizing c with
  | nil => cases hmem
  | cons a l ih =>
    unfold read_properties
    rcases List.mem_cons.mp hmem with h1 | h1
    · subst h1
      rw [if_pos hkey]
      simp only
      split
      · exact ⟨_, rfl⟩
      · split
        · exact ⟨_, rfl⟩
        · split
          · exact ⟨_, rfl⟩
          · obtain ⟨e, he⟩ := add_offsets_bad (sub_tokens_of tok)
              (find_positions (sub_tokens_of tok)
                (List.range ((sub_tokens_of tok).length / 3)) (-1, -1, -1))
              (List.range ((sub_tokens_of tok).length / 3)) c k (List.mem_range.mpr hk) hbad
            unfold sub_tokens_of at he
            rw [he]
            exact ⟨_, rfl⟩
    · split
      · simp only
        split
        · exact ⟨_, rfl⟩
        · split
          · exact ⟨_, rfl⟩
          · split
            · exact ⟨_, rfl⟩
            · split
              · exact ⟨_, rfl⟩
              · exact ih _ h1
      · exact ih _ h1

/-- A header with a rejected numeric token is not decoded. -/
theorem read_header_bad (tokens : List (List Char)) (s : Structure)
    (h : BadHeaderNumber tokens) : ∃ e, read_header tokens s = .error e := by
  apply exists_error_of_not_ok
  rintro ⟨s6, c⟩ hok
  obtain ⟨hf, hp⟩ := read_header_ok _ _ _ _ hok
  obtain ⟨s1, s2, s3, s4, s5, _, h1, h2, h3, h4, h5, h6⟩ := read_header_fields_ok _ _ _ hf
  cases h with
  | energy_weight t hmem hkey hbad =>
    obtain ⟨e, he⟩ := read_energy_weight_bad tokens (read_sid tokens s) t hmem hkey hbad
    rw [he] at h1
    cases h1
  | energy t hmem hkey hbad =>
    obtain ⟨e, he⟩ := read_energy_bad tokens s1 false t hmem hkey hbad
    rw [he] at h2
    cases h2
  | weight t hmem hkey hbad =>
    obtain ⟨e, he⟩ := read_weight_bad tokens { s2 with weight := 1 } t hmem hkey hbad
    rw [he] at h3
    cases h3
  | lattice pre tok post m hsplit hkey hm hbad =>
    obtain ⟨e, he⟩ := read_lattice_bad pre tok post s3 false hkey
      (read_components_bad _ _ _ m (List.mem_range.mpr hm) hbad)
    rw [hsplit, he] at h4
    cases h4
  | virial pre tok post m hsplit hkey hm hbad =>
    obtain ⟨e, he⟩ := read_virial_bad pre tok post { s4 with has_virial := false } hkey
      (read_components_bad _ _ _ m (List.mem_range.mpr hm) hbad)
    rw [hsplit, he] at h5
    cases h5
  | stress pre tok post m hsplit hkey hm hbad hno =>
    rw [read_virial_none tokens _ hno] at h5
    simp only [Except.ok.injEq] at h5
    subst h5
    simp only [Bool.not_false, ↓reduceIte] at h6
    obtain ⟨e, he⟩ := read_stress_bad pre tok post { s4 with has_virial := false } hkey
      (read_components_bad _ _ _ m (List.mem_range.mpr hm) hbad)
    rw [hsplit, he] at h6
    cases h6
  | width tok k hmem hkey hk hbad =>
    obtain ⟨e, he⟩ := read_properties_bad tokens {} tok k hmem hkey hk hbad
    rw [he] at hp
    cases hp

theorem double_at_bad (tokens : List (List Char)) (offset : Int) (t : List Char)
    (ht : token_at tokens offset = .ok t) (hbad : rejected_double t) :
    ∃ e, double_at tokens offset = .error e := by
  unfold double_at
  rw [ht]
  exact ⟨_, get_rational_of_rejected _ hbad⟩

theorem triple_at_bad (tokens : List (List Char)) (offset : Int) (j : Nat) (t : List Char)
    (hj : j < 3) (ht : token_at tokens ((j : Int) + offset) = .ok t)
    (hbad : rejected_double t) : ∃ e, triple_at tokens offset = .error e := by
  unfold triple_at
  have hj3 : j = 0 ∨ j = 1 ∨ j = 2 := by omega
  rcases hj3 with rfl | rfl | rfl
  · simp only [Nat.cast_zero, zero_add] at ht
    obtain ⟨e, he⟩ := double_at_bad tokens offset t ht hbad
    rw [he]
    exact ⟨_, rfl⟩
  · simp only [Nat.cast_one] at ht
    obtain ⟨e, he⟩ := double_at_bad tokens (1 + offset) t ht hbad
    rw [he]
    split
    · exact ⟨_, rfl⟩
    · exact ⟨_, rfl⟩
  · simp only [Nat.cast_ofNat] at ht
    obtain ⟨e, he⟩ := double_at_bad tokens (2 + offset) t ht hbad
    rw [he]
    split
    · exact ⟨_, rfl⟩
    · split
      · exact ⟨_, rfl⟩
      · exact ⟨_, rfl⟩

theorem read_force_loop_bad (c : Columns) (count : Nat) (input : List Char) (s : Structure)
    (k : Nat) (hk : k < count)
    (hbad : BadAtomNumber c (get_tokens_stream (skip_lines k input)).1) :
    ∃ e, read_force_loop c count input s = .error e := by
  induction count generalizing input s k with
  | zero => omega
  | succ n ih =>
    unfold read_force_loop
    split
    · exact ⟨_, rfl⟩
    · split
      · exact ⟨_, rfl⟩
      · split
        · exact ⟨_, rfl⟩
        · rename_i x y z hpos
          split
          · exact ⟨_, rfl⟩
          · rename_i fx fy fz hforce
            cases k with
            | zero =>
              exfalso
              simp only [skip_lines] at hbad
              cases hbad with
              | pos j t hj ht hb =>
                obtain ⟨e, he⟩ := triple_at_bad _ _ j t hj ht hb
                rw [he] at hpos
                cases hpos
              | force j t hcol hj ht hb =>
                obtain ⟨e, he⟩ := triple_at_bad _ _ j t hj ht hb
                rw [if_pos hcol, he] at hforce
                cases hforce
            | succ k1 =>
              apply ih _ _ k1 (by omega)
              simpa [skip_lines, get_tokens_stream] using hbad

/-- C18, counterexample: the energy token `energy=1.5abc` and the position token `0.25q` are
not well-formed numbers in their entirety, yet `read` succeeds, with the energy `1.5` and the
coordinate `0.25`: the conversions stop at the first character that cannot continue a number
and ignore the rest. -/
theorem malformed_number_counterexample :
    read ("1\n".toList ++ example_header_trailing ++ '\n' :: "H 0 0 0.25q 0 0 0\n".toList) =
      .ok [{ num_atom := 1
             energy := 3 / 2
             weight := 1
             box := [1, 0, 0, 0, 1, 0, 0, 0, 1]
             atom_symbol := [['H']]
             x := [0], y := [0], z := [1 / 4], fx := [0], fy := [0], fz := [0] }] := by
  decide!

/-- C18, amended: a numeric token on which the library conversion throws is a fatal decode
error, wherever the decoder converts a number.  The conversion of a real number throws
exactly on the tokens that, after leading whitespace and an optional sign, begin neither
with a digit, nor with a point followed by a digit, nor with `inf` or `nan` in any letter
case, and on those that begin with a literal whose value has a range error; the conversion
of an integer throws exactly on the tokens that do not begin with a digit there and on those
whose leading integer is outside the range of `int`.  With such a token as the energy, the
energy weight, the weight, a lattice or virial component, a stress component when there is
no virial, or a width of `Properties=`, or with such a position component, or force
component when there are more than four columns, in an atom line among the atoms of the
frame, `read_one_structure` fails; with such a count line `read` fails where it meets the
line; and a frame on which `read_one_structure` fails makes `read` fail with the same error,
so that no frame list is produced.  A token followed by a character that is no part of any
number is converted exactly like the token without what follows. -/
theorem rejected_number_is_fatal :
    (∀ t, (∃ e, get_double_from_token t = .error e) ↔ rejected_double t) ∧
    (∀ t, (∃ e, get_int_from_token t = .error e) ↔ rejected_int t) ∧
    (∀ input tokens input1 s,
      get_tokens_without_unwanted_spaces input = .ok (tokens, input1) →
      BadHeaderNumber (tokens.map to_lower) → ∃ e, read_one_structure input s = .error e) ∧
    (∀ input tokens input1 s s1 c k,
      get_tokens_without_unwanted_spaces input = .ok (tokens, input1) →
      read_header (tokens.map to_lower) s = .ok (s1, c) → k < s1.num_atom.toNat →
      BadAtomNumber c (get_tokens_stream (skip_lines k input1)).1 →
      ∃ e, read_one_structure input s = .error e) ∧
    (∀ fuel input acc, (get_tokens_stream input).1.length = 1 →
      rejected_int ((get_tokens_stream input).1.getD 0 []) →
      ∃ e, read_loop (fuel + 1) input acc = .error e) ∧
    (∀ fuel input acc (n : Int) e, (get_tokens_stream input).1.length = 1 →
      get_int_from_token ((get_tokens_stream input).1.getD 0 []) = .ok n → 1 ≤ n →
      read_one_structure (get_tokens_stream input).2 { num_atom := n } = .error e →
      read_loop (fuel + 1) input acc = .error e) ∧
    (∀ t c rest, no_number_char c = true →
      get_double_from_token (t ++ c :: rest) = get_double_from_token t) ∧
    (∀ t c rest, no_number_char c = true →
      get_int_from_token (t ++ c :: rest) = get_int_from_token t) := by
  refine ⟨?_, ?_, ?_, ?_, ?_, ?_, ?_, ?_⟩
  · intro t
    exact ⟨fun ⟨e, he⟩ => rejected_of_get_double_error t e he,
      fun h => ⟨_, get_double_of_rejected t h⟩⟩
  · intro t
    exact ⟨fun ⟨e, he⟩ => rejected_of_get_int_error t e he,
      fun h => ⟨_, get_int_of_rejected t h⟩⟩
  · intro input tokens input1 s hget hbad
    obtain ⟨e, he⟩ := read_header_bad _ s hbad
    refine ⟨e, ?_⟩
    unfold read_one_structure
    rw [hget]
    simp only
    rw [he]
  · intro input tokens input1 s s1 c k hget hh hk hbad
    obtain ⟨e, he⟩ := read_force_loop_bad c s1.num_atom.toNat input1
      { s1 with atom_symbol := [], x := [], y := [], z := [], fx := [], fy := [], fz := [] }
      k hk hbad
    refine ⟨e, ?_⟩
    unfold read_one_structure
    rw [hget]
    simp only
    rw [hh]
    exact he
  · intro fuel input acc hlen hbad
    have he := get_int_of_rejected _ hbad
    refine ⟨.bad_number, ?_⟩
    unfold read_loop
    rw [if_neg (by omega), if_neg (by omega), he]
  · intro fuel input acc n e hlen hint hn hone
    unfold read_loop
    rw [if_neg (by omega), if_neg (by omega), hint]
    simp only
    rw [if_neg (by omega), hone]
  · intro t c rest hc
    exact get_double_append_stop t c rest hc
  · intro t c rest hc
    exact get_int_append_stop t c rest hc

/-- Witness of C18 (amended): the tokens `abc` and `1e400` are rejected and `x` is no
integer; the header with `energy=abc`, the atom line `H 0 0 x 0 0 0`, the count line `x`, and
a file whose first frame has the header with `energy=abc`; the tokens `0.25q`, `1e400#` and
`12;` are converted like `0.25`, `1e400` and `12`. -/
theorem rejected_number_is_fatal_witness :
    ((∃ e, get_double_from_token "abc".toList = .error e) ∧
      ∃ e, get_double_from_token "1e400".toList = .error e) ∧
    (∃ e, get_int_from_token "x".toList = .error e) ∧
    (∃ e, read_one_structure (example_header_bad_energy ++ '\n' :: example_atom_line)
      { num_atom := 1 } = .error e) ∧
    (∃ e, read_one_structure (example_header_plain ++ '\n' :: "H 0 0 x 0 0 0\n".toList)
      { num_atom := 1 } = .error e) ∧
    (∃ e, read_loop (0 + 1) "x\n".toList [] = .error e) ∧
    read_loop (0 + 1)
      ("1\n".toList ++ example_header_bad_energy ++ '\n' :: example_atom_line) [] =
        .error .bad_number ∧
    (get_double_from_token ("0.25".toList ++ 'q' :: []) = get_double_from_token "0.25".toList ∧
      get_double_from_token ("1e400".toList ++ '#' :: "1".toList) =
        get_double_from_token "1e400".toList) ∧
    get_int_from_token ("12".toList ++ ';' :: []) = get_int_from_token "12".toList :=
  ⟨⟨(rejected_number_is_fatal.1 "abc".toList).mpr (Or.inl (by decide)),
      (rejected_number_is_fatal.1 "1e400".toList).mpr (Or.inr (by decide!))⟩,
    (rejected_number_is_fatal.2.1 "x".toList).mpr (Or.inl (by decide)),
    rejected_number_is_fatal.2.2.1 (example_header_bad_energy ++ '\n' :: example_atom_line)
      (get_tokens example_header_bad_energy) example_atom_line { num_atom := 1 }
      (by decide!)
      (BadHeaderNumber.energy "energy=abc".toList (by decide!) (by decide!)
        (Or.inl (by decide))),
    rejected_number_is_fatal.2.2.2.1
      (example_header_plain ++ '\n' :: "H 0 0 x 0 0 0\n".toList)
      (get_tokens example_header_plain) "H 0 0 x 0 0 0\n".toList { num_atom := 1 }
      { num_atom := 1, energy := 1, weight := 1, box := [1, 0, 0, 0, 1, 0, 0, 0, 1] }
      written_columns 0 (by decide!) (by decide!) (by decide)
      (BadAtomNumber.pos 2 ['x'] (by decide) (by decide!) (Or.inl (by decide))),
    rejected_number_is_fatal.2.2.2.2.1 0 "x\n".toList [] (by decide!)
      (Or.inl (by decide!)),
    rejected_number_is_fatal.2.2.2.2.2.1 0
      ("1\n".toList ++ example_header_bad_energy ++ '\n' :: example_atom_line) [] 1
      .bad_number (by decide!) (by decide!) (by decide) (by decide!),
    ⟨rejected_number_is_fatal.2.2.2.2.2.2.1 "0.25".toList 'q' [] (by decide),
      rejected_number_is_fatal.2.2.2.2.2.2.1 "1e400".toList '#' "1".toList (by decide)⟩,
    rejected_number_is_fatal.2.2.2.2.2.2.2 "12".toList ';' [] (by decide)⟩

end NepDataToolkit
